import Mathlib

/-!
# Perimeter function of a convex polygon: embedding of `search.hpp` / `search.cpp`

The C++ type `double` is embedded as an arbitrary linearly ordered field `K`
(exact arithmetic, no NaN, no infinities); the three functions the program takes
from the C math library (`sqrt`, `atan2` and the constant `pi`) are the fields of
a record `Libm K`.  All definitions are generic in `K` and in the `Libm K`, hence
executable over `ℚ`; the theorems about concrete polygons instantiate `K` with `ℝ`
and the record with `Real.sqrt`, `Complex.arg` and `Real.pi`.

Unsigned machine integers are natural numbers with explicit reduction modulo `2^32`
where a subtraction can wrap.  Array reads return `Option`.
-/

set_option autoImplicit false

namespace search

/-- The functions of the C math library used by the polygon engine. -/
structure Libm (K : Type) where
  sqrt : K → K
  atan2 : K → K → K
  pi : K

/-- Failure kinds of the public queries: `is_nan` / `out_of_range` report the first two
(an exception in the strict build, the quiet NaN otherwise); `unreachable` is the trailing
`return qnan; // unreachable`; `out_of_bounds` is a read past the end of an array. -/
inductive error where
  | invalid_argument
  | out_of_range
  | unreachable
  | out_of_bounds
  deriving DecidableEq, Repr

/-- Subtraction of `unsigned` values: wraps modulo `2^32`. -/
def usub (a b : Nat) : Nat := (a + 4294967296 - b % 4294967296) % 4294967296

/-- Multiplication of `unsigned` values. -/
def umul (a b : Nat) : Nat := (a * b) % 4294967296

section numeric

variable {K : Type} [LinearOrderedField K]

/-- The constant `working_precision (1.0e-10)` of `equal`. -/
def working_precision : K := 1 / 10000000000

/-- The inline function `equal`: `fabs (x - y) < working_precision`. -/
def equal (x y : K) : Bool := decide (|x - y| < working_precision)

/-- The inline function `trim`: snaps `x` to zero when `equal (x, 0.0)`. -/
def trim (x : K) : K := if equal x 0 = true then 0 else x

end numeric

/-! ## `convex_polygon::point` -/

/-- A 2-dimensional point, `convex_polygon::point`. -/
structure point (K : Type) where
  x : K
  y : K
  deriving DecidableEq, Repr

namespace point

variable {K : Type} [LinearOrderedField K]

/-- The `operator ==`. -/
def eq (s p : point K) : Bool := decide (s.x = p.x) && decide (s.y = p.y)

/-- The `operator !=`, as written in the header: `x != p.x || y == p.y`. -/
def ne (s p : point K) : Bool := decide (s.x ≠ p.x) || decide (s.y = p.y)

/-- Unary minus. -/
def neg (s : point K) : point K := ⟨-s.x, -s.y⟩

/-- The `operator +`. -/
def add (s p : point K) : point K := ⟨s.x + p.x, s.y + p.y⟩

/-- The binary `operator -`. -/
def sub (s p : point K) : point K := ⟨s.x - p.x, s.y - p.y⟩

/-- Scalar product `operator * (const point&)`. -/
def dot (s p : point K) : K := s.x * p.x + s.y * p.y

/-- The `operator * (double)`. -/
def smul (s : point K) (d : K) : point K := ⟨s.x * d, s.y * d⟩

/-- The `operator / (double)`. -/
def sdiv (s : point K) (d : K) : point K := ⟨s.x / d, s.y / d⟩

/-- The `operator ^`: `x*p.y - y*p.x`. -/
def cross (s p : point K) : K := s.x * p.y - s.y * p.x

/-- Distance to the origin, `abs ()`. -/
def abs (m : Libm K) (s : point K) : K := m.sqrt (s.x * s.x + s.y * s.y)

/-- Polar angle, `arg ()`. -/
def arg (m : Libm K) (s : point K) : K := m.atan2 s.y s.x

/-- Rotation by a right angle, `ortho ()`. -/
def ortho (s : point K) : point K := ⟨-s.y, s.x⟩

/-- The angle `(p, *this, q)`, normalised to `[0, 2*pi)` after `trim`. -/
def angle (m : Libm K) (s p q : point K) : K :=
  let v1 := p.sub s
  let v2 := q.sub s
  let ang := trim (m.atan2 (v1.cross v2) (v1.dot v2))
  if ang < 0 then ang + 2 * m.pi else ang

/-- Signed area; the source reads `(p - *this)^(q - *this)/2.0`, in which the division
binds tighter than `^`. -/
def sign_area (s p q : point K) : K := (p.sub s).cross ((q.sub s).sdiv 2)

/-- Area of the triangle `(*this, p, q)`. -/
def area (s p q : point K) : K := |s.sign_area p q|

/-- Distance between `*this` and the line `pq`. -/
def dist (m : Libm K) (s p q : point K) : K :=
  let v := q.sub p
  let vabs := v.abs m
  if vabs = 0 then (s.sub p).abs m
  else |(v.ortho.sdiv vabs).dot (s.sub q)|

/-- Normalised projection of `*this` onto `pq`. -/
def proj (m : Libm K) (s p q : point K) : K :=
  let v := q.sub p
  let vabs := v.abs m
  if vabs = 0 then (s.sub p).abs m
  else (v.sdiv vabs).dot ((s.sub p).sdiv vabs)

end point

/-! ## `convex_polygon` -/

/-- The `vertex::states` enumeration. -/
inductive vstate where
  | unused
  | used
  | first
  deriving DecidableEq, Repr

/-- A list entry of `convex_polygon`: `vertex = point + state`. -/
structure vertex (K : Type) where
  coord : point K
  state : vstate
  deriving DecidableEq, Repr

namespace convex_polygon

variable {K : Type} [LinearOrderedField K]

/-- The accumulation loop of `convex_polygon::area`. -/
def area_loop (origin : point K) : point K → List (point K) → K → K
  | _, [], acc => acc
  | last, v :: rest, acc => area_loop origin v rest (acc + origin.area last v)

/-- The member `convex_polygon::area`. -/
def area (vs : List (point K)) : K :=
  match vs with
  | origin :: last :: rest => if vs.length < 3 then 0 else area_loop origin last rest 0
  | _ => 0

/-- The search for the lower right point: returns its coordinates and its position. -/
def lower_right : List (point K) → Nat → point K → Nat → point K × Nat
  | [], _, lr, sel => (lr, sel)
  | cur :: rest, i, lr, sel =>
    if cur.y < lr.y ∨ (cur.y = lr.y ∧ cur.x > lr.x) then lower_right rest (i + 1) cur i
    else lower_right rest (i + 1) lr sel

/-- The local variables of the main loop of `convex_hull` that live across iterations. -/
structure hull_state (K : Type) where
  vertices : List (vertex K)
  hull : List (point K)
  last_added : point K
  previous : point K
  select : Nat

/-- The inner `for` loop of `convex_hull`: scans the vertices from position `i` on and
updates `min_ang`, `max_dist` and `select`. -/
def scan (m : Libm K) (last_added previous : point K) :
    List (vertex K) → Nat → K → K → Nat → K × K × Nat
  | [], _, min_ang, max_dist, sel => (min_ang, max_dist, sel)
  | v :: rest, i, min_ang, max_dist, sel =>
    if v.state = vstate.used then scan m last_added previous rest (i + 1) min_ang max_dist sel
    else if v.coord.eq last_added = true then
      scan m last_added previous rest (i + 1) min_ang max_dist sel
    else
      let ang := last_added.angle m ((last_added.smul 2).sub previous) v.coord
      let dist := (v.coord.sub last_added).abs m
      if ang < min_ang ∨ (ang = min_ang ∧ dist > max_dist) then
        scan m last_added previous rest (i + 1) ang dist i
      else scan m last_added previous rest (i + 1) min_ang max_dist sel

/-- Writes `st` into the state of the vertex at position `i`. -/
def set_state : List (vertex K) → Nat → vstate → List (vertex K)
  | [], _, _ => []
  | v :: rest, 0, st => { v with state := st } :: rest
  | v :: rest, i + 1, st => v :: set_state rest i st

/-- One pass of the main `for (;;)` loop of `convex_hull`; `none` is the `break`. -/
def hull_step (m : Libm K) (s : hull_state K) : Option (hull_state K) :=
  let r := scan m s.last_added s.previous s.vertices 0 (629 / 100) 0 s.select
  let sel := r.2.2
  match s.vertices.get? sel with
  | Option.none => Option.none
  | some v =>
    if v.state = vstate.first then Option.none
    else some
      { vertices := set_state s.vertices sel vstate.used
        hull := v.coord :: s.hull
        last_added := v.coord
        previous := s.last_added
        select := sel }

/-- The main loop of `convex_hull`, run for at most `fuel` passes; `none` when the loop
has not reached its `break` within `fuel` passes. -/
def hull_loop (m : Libm K) : Nat → hull_state K → Option (List (point K))
  | 0, _ => Option.none
  | fuel + 1, s =>
    match hull_step m s with
    | Option.none => some s.hull
    | some s1 => hull_loop m fuel s1

/-- The state at the entry of the main loop of `convex_hull`. -/
def hull_init (vs : List (point K)) (first : point K) (rest : List (point K)) : hull_state K :=
  let r := lower_right rest 1 first 0
  { vertices := set_state (vs.map fun c => ⟨c, vstate.unused⟩) r.2 vstate.first
    hull := [r.1]
    last_added := r.1
    previous := ⟨r.1.x - 1, r.1.y⟩
    select := r.2 }

/-- The member `convex_hull`, with the main loop bounded by `fuel` passes. -/
def convex_hull_fuel (m : Libm K) (fuel : Nat) (vs : List (point K)) : Option (List (point K)) :=
  if vs.length < 3 then some vs
  else
    match vs with
    | [] => some vs
    | first :: rest => hull_loop m fuel (hull_init vs first rest)

/-- The member `convex_hull`: every pass of the main loop but the last marks one more
vertex as used, so `length + 1` passes are enough whenever the loop stops at all. -/
def convex_hull (m : Libm K) (vs : List (point K)) : Option (List (point K)) :=
  convex_hull_fuel m (vs.length + 1) vs

end convex_polygon

/-! ## `convex_polygon_pf::partial_pf` -/

/-- The enumeration `ppf_form`. -/
inductive ppf_form where
  | constant
  | sqrt
  | none
  deriving DecidableEq, Repr

/-- The class `partial_pf`: the definition domain `[a, b]`, the parameters `theta` and
`zeta`, and the values `pfa`, `pfb` at the ends of the domain. -/
structure partial_pf (K : Type) where
  form : ppf_form
  a : K
  b : K
  theta : K
  zeta : K
  pfa : K
  pfb : K
  deriving DecidableEq, Repr

/-- The result of `partial_pf::end`: `stop right f_left` when it returns true,
`removed right` when it returns false (in which case `f_left` is not written). -/
inductive end_result (K : Type) where
  | stop (right : K) (f_left : Bool)
  | removed (right : K)

namespace partial_pf

variable {K : Type} [LinearOrderedField K]

/-- The default member initialisers `form{}`, `a{}`, ... of the class. -/
def zero : partial_pf K := ⟨ppf_form.constant, 0, 0, 0, 0, 0, 0⟩

/-- The constructor `partial_pf (double a, double b, double pfa)`. -/
def mk_constant (a b pfa : K) : partial_pf K := ⟨ppf_form.constant, a, b, 0, pfa, pfa, pfa⟩

/-- The member `pf`. -/
def pf (m : Libm K) (s : partial_pf K) (z : K) : K :=
  if s.form = ppf_form.constant then s.pfa else m.sqrt (2 * s.theta * (z + s.zeta))

/-- The member `ipf`. -/
def ipf (s : partial_pf K) (p : K) : K :=
  if s.form = ppf_form.constant then s.a else (p / 2) * (p / s.theta) - s.zeta

/-- The member `root`: the solution of `(*this) = ppf`. -/
def root (s ppf : partial_pf K) : K :=
  if s.form = ppf_form.constant then
    if ppf.form = ppf_form.sqrt then (s.pfa / 2) * (s.pfa / ppf.theta) - ppf.zeta
    else max s.a ppf.a
  else
    if ppf.form = ppf_form.sqrt then
      if s.theta = ppf.theta then max s.a ppf.a
      else (ppf.theta * ppf.zeta - s.theta * s.zeta) / (s.theta - ppf.theta)
    else (ppf.pfa / 2) * (ppf.pfa / s.theta) - s.zeta

/-- The member `begin`: `none` when it returns false; `some (left, right, f_left, f_right)`
when it returns true.  (The caller reads the four outbound variables only after a call
that returned true, and every such call writes all four.) -/
def begin (m : Libm K) (s ppf : partial_pf K) : Option (K × K × Bool × Bool) :=
  if s.b ≤ ppf.a ∨ s.a ≥ ppf.b then Option.none
  else
    let delta := s.theta - ppf.theta
    if equal delta 0 = true then Option.none
    else
      let possibly_left := decide (s.a ≥ ppf.a)
      let possibly_right := decide (s.b ≤ ppf.b)
      let com_a := max s.a ppf.a
      let com_b := min s.b ppf.b
      let delta_a := trim (s.pf m com_a - ppf.pf m com_a)
      let delta_b := trim (s.pf m com_b - ppf.pf m com_b)
      if delta_a < 0 then
        if delta_b ≤ 0 then Option.none
        else if s.root ppf = com_b then Option.none
        else some (s.root ppf, com_b, false, possibly_right)
      else if delta_a = 0 then
        if delta_b ≤ 0 then Option.none
        else some (com_a, com_b, possibly_left, possibly_right)
      else
        if delta_b < 0 then
          if com_a = s.root ppf then Option.none
          else some (com_a, s.root ppf, possibly_left, false)
        else some (com_a, com_b, possibly_left, possibly_right)

/-- The member `end`. -/
def end_ (m : Libm K) (s ppf : partial_pf K) : end_result K :=
  if s.a ≥ ppf.b then end_result.stop ppf.b false
  else if s.b > ppf.b ∧ s.pf m ppf.b ≥ ppf.pfb then end_result.stop ppf.b false
  else
    let possibly_left := decide (s.a ≥ ppf.a)
    let com_a := max s.a ppf.a
    let com_b := min s.b ppf.b
    let pf_com_a := s.pf m com_a
    let pf_com_b := s.pf m com_b
    let ppf_com_a := ppf.pf m com_a
    let ppf_com_b := ppf.pf m com_b
    if pf_com_a > ppf_com_a then
      if pf_com_b ≥ ppf_com_b then end_result.removed com_b
      else end_result.stop (s.root ppf) false
    else if pf_com_a = ppf_com_a then
      if pf_com_b ≥ ppf_com_b then end_result.removed com_b
      else end_result.stop com_a possibly_left
    else end_result.stop com_a possibly_left

end partial_pf

/-! ## `convex_polygon_pf` -/

/-- A side of the polygon, `convex_polygon_pf::side`. -/
structure side (K : Type) where
  p : point K
  q : point K
  deriving DecidableEq, Repr

/-- The class `eff_perimeter`. -/
structure eff_perimeter (K : Type) where
  form : ppf_form
  start : point K
  end_ : point K
  center : point K
  deriving DecidableEq, Repr

/-- The data members of `convex_polygon_pf`.  The array `function` is allocated by
`find_pf`; before that it is the empty list. -/
structure convex_polygon_pf (K : Type) where
  num_vertices_v : Nat
  area_v : K
  half_area_v : K
  sides : List (side K)
  function : List (partial_pf K)
  pf_ok : Bool
  pf_max_ok : Bool
  sc_ok : Bool
  maximum_v : K
  num_segments_v : Nat
  shortest_curve : eff_perimeter K
  deriving Repr

namespace convex_polygon_pf

variable {K : Type} [LinearOrderedField K]

/-- A default-constructed `side`: both points have the default members `x{}`, `y{}`. -/
def side_zero : side K := ⟨⟨0, 0⟩, ⟨0, 0⟩⟩

/-- The `while (index != num_vertices () - 1)` loop of the constructor: one pass per pair
of consecutive vertices; a pair at distance zero leaves its slot of `sides` untouched and
counts as skipped. -/
def fill_sides (m : Libm K) : List (point K) → List (side K) × Nat
  | p :: q :: rest =>
    let r := fill_sides m (q :: rest)
    if (p.sub q).abs m = 0 then (side_zero :: r.1, r.2 + 1) else (⟨p, q⟩ :: r.1, r.2)
  | _ => ([], 0)

/-- The constructor `convex_polygon_pf (const convex_polygon& cp)`. -/
def of_polygon (m : Libm K) (cp : List (point K)) : convex_polygon_pf K :=
  let n := cp.length
  let area := convex_polygon.area cp
  let base : convex_polygon_pf K :=
    { num_vertices_v := n
      area_v := area
      half_area_v := area / 2
      sides := List.replicate n side_zero
      function := []
      pf_ok := false
      pf_max_ok := false
      sc_ok := false
      maximum_v := 0
      num_segments_v := 0
      shortest_curve := ⟨ppf_form.none, ⟨0, 0⟩, ⟨0, 0⟩, ⟨0, 0⟩⟩ }
  match cp with
  | [] => base
  | first :: rest =>
    if n > 2 then
      let r := fill_sides m cp
      let last := (first :: rest).getLast (List.cons_ne_nil first rest)
      if (last.sub first).abs m ≠ 0 then
        { base with sides := r.1 ++ [⟨last, first⟩], num_vertices_v := usub n r.2 }
      else
        { base with sides := r.1 ++ [side_zero], num_vertices_v := usub n (r.2 + 1) }
    else base

/-- The `operator []` on the array of sides. -/
def side_at (c : convex_polygon_pf K) (i : Nat) : side K := c.sides.getD i side_zero

/-- The indices visited by `for (index = start; index != stop; ++index)` on a
`cyclic_uint` with modulus `n` (both `start` and `stop` below `n`). -/
def cyc_range (n start stop : Nat) : List Nat :=
  (List.range ((stop + n - start) % n)).map fun j => (start + j) % n

/-- The private member `area (cyclic_uint index_1, cyclic_uint index_2)`. -/
def area_idx (c : convex_polygon_pf K) (index_1 index_2 : Nat) : K :=
  let n := c.num_vertices_v
  let i1 := (index_1 + 1) % n
  if i1 = index_2 then 0
  else
    let pt := (c.side_at i1).p
    (cyc_range n ((i1 + 1) % n) index_2).foldl
      (fun acc i => acc + pt.area (c.side_at i).p (c.side_at i).q) 0

/-- The private member `area (cyclic_uint, cyclic_uint, const point&)`. -/
def area_pt (c : convex_polygon_pf K) (index_1 index_2 : Nat) (pt : point K) : K :=
  let n := c.num_vertices_v
  (cyc_range n ((index_1 + 1) % n) index_2).foldl
    (fun acc i => acc + pt.area (c.side_at i).p (c.side_at i).q) 0

/-- The loop of the side-pair constructor that clips `r_max` by the sides the arc
would cross. -/
def clip_r_max (m : Libm K) (c : convex_polygon_pf K) (r : point K) (idx : List Nat)
    (r_max : K) : K :=
  idx.foldl
    (fun acc i =>
      let pr := r.proj m (c.side_at i).p (c.side_at i).q
      if 0 < pr ∧ pr < 1 then min acc (r.dist m (c.side_at i).p (c.side_at i).q) else acc)
    r_max

end convex_polygon_pf

namespace partial_pf

variable {K : Type} [LinearOrderedField K]

/-- The parallel-sides branch (`theta == 0.0`) of the side-pair constructor. -/
def of_sides_parallel (m : Libm K) (c : convex_polygon_pf K) (index_1 index_2 : Nat)
    (ep : Option (eff_perimeter K)) : partial_pf K × Option (eff_perimeter K) :=
  let side_1 := c.side_at index_1
  let side_2 := c.side_at index_2
  let pq1 := side_1.q.sub side_1.p
  let pq2 := side_2.q.sub side_2.p
  let p2 := side_2.p.proj m side_1.p side_1.q
  let q2 := side_2.q.proj m side_1.p side_1.q
  if p2 ≤ 0 ∨ q2 ≥ 1 then ({ (zero : partial_pf K) with form := ppf_form.none }, ep)
  else
    let r := if p2 < 1 then side_1.p.add (pq1.smul p2) else side_2.p.sub (pq1.smul (p2 - 1))
    let s := if q2 < 0 then side_2.q.sub (pq1.smul q2) else side_1.p.add (pq1.smul q2)
    let area_r := c.area_pt index_1 index_2 r
    let area_s := c.area_pt index_2 index_1 s
    let a := min area_r area_s
    let b := min (c.area_v - a) c.half_area_v
    if a = b then ({ (zero : partial_pf K) with form := ppf_form.none, a := a, b := b }, ep)
    else
      let pfa := side_1.p.dist m side_2.p side_2.q
      let res : partial_pf K := ⟨ppf_form.constant, a, b, 0, pfa, pfa, pfa⟩
      (res, ep.map fun e =>
        if b < c.half_area_v then { e with form := ppf_form.none }
        else
          let r1 := side_1.p.add (pq1.smul (r.proj m side_1.p side_1.q))
          let s1 := side_1.p.add (pq1.smul (s.proj m side_1.p side_1.q))
          let rs := s1.sub r1
          let rsa := rs.abs m
          if pfa * rsa = 0 then { e with form := ppf_form.constant, start := r, end_ := r }
          else
            let t := (((r1.add s1).add ((rs.smul (area_s - area_r)).sdiv (rsa * pfa)))).sdiv 2
            let tp := t.proj m r1 s1
            let start := r1.add (rs.smul tp)
            { e with
              form := ppf_form.constant
              start := start
              end_ := side_2.p.add (pq2.smul (start.proj m side_2.p side_2.q)) })

/-- The common tail of the two arc branches of the side-pair constructor, from the test
`r_min >= r_max` on.  `theta1` is the angle on entry, `theta2` the angle used for the arc
(`theta` itself for `theta < pi`, `2*pi - theta` for `theta > pi`); `tri` is the area of the
triangle at `r`, `sub` the area of the sub-polygon; `u`, `du`, `v`, `dv` are the end points
and distances used for the curve. -/
def of_sides_arc (m : Libm K) (c : convex_polygon_pf K) (theta1 theta2 r_min r_max tri sub : K)
    (r u v : point K) (du dv : K) (ep : Option (eff_perimeter K)) :
    partial_pf K × Option (eff_perimeter K) :=
  if r_min ≥ r_max then
    ({ (zero : partial_pf K) with form := ppf_form.none, theta := theta1 }, ep)
  else
    let zeta := tri - sub
    let a := r_min * r_min * theta2 / 2 - zeta
    let b := r_max * r_max * theta2 / 2 - zeta
    if a > c.half_area_v then (⟨ppf_form.none, a, b, theta2, zeta, 0, 0⟩, ep)
    else
      let s0 : partial_pf K := ⟨ppf_form.sqrt, a, b, theta2, zeta, r_min * theta2, r_max * theta2⟩
      let s1 : partial_pf K :=
        if b > c.half_area_v then
          { s0 with b := c.half_area_v, pfb := s0.pf m c.half_area_v }
        else s0
      if a = s1.b then ({ s1 with form := ppf_form.none }, ep)
      else
        (s1, ep.map fun e =>
          if s1.b < c.half_area_v then { e with form := ppf_form.none }
          else
            let rad := s1.pfb / theta2
            { e with
              form := ppf_form.sqrt
              center := r
              start := r.add (((u.sub r).smul rad).sdiv du)
              end_ := r.add (((v.sub r).smul rad).sdiv dv) })

/-- The point `r` of the side-pair constructor: the intersection of the lines through the
two sides. -/
def center (side_1 side_2 : side K) : point K :=
  let pq1 := side_1.q.sub side_1.p
  let pq2 := side_2.q.sub side_2.p
  let o : point K := ⟨0, 0⟩
  ((pq1.smul (o.sign_area side_2.p side_2.q)).sub
    (pq2.smul (o.sign_area side_1.p side_1.q))).sdiv (o.sign_area pq1 pq2)

/-- The side-pair constructor `partial_pf (const convex_polygon_pf&, cyclic_uint,
cyclic_uint, eff_perimeter*)`; `ep` is the pointee of the last argument (`none` for a
null pointer) and the second component of the result is its value on return. -/
def of_sides (m : Libm K) (c : convex_polygon_pf K) (index_1 index_2 : Nat)
    (ep : Option (eff_perimeter K)) : partial_pf K × Option (eff_perimeter K) :=
  let side_1 := c.side_at index_1
  let side_2 := c.side_at index_2
  let pq1 := side_1.q.sub side_1.p
  let pq2 := side_2.q.sub side_2.p
  let theta := (point.mk 0 0 : point K).angle m pq1 pq2.neg
  if theta = 0 then of_sides_parallel m c index_1 index_2 ep
  else
    let r := center side_1 side_2
    let p1 := (side_1.p.sub r).abs m
    let q1 := (side_1.q.sub r).abs m
    let p2 := (side_2.p.sub r).abs m
    let q2 := (side_2.q.sub r).abs m
    let n := c.num_vertices_v
    if theta < m.pi then
      if p1 ≤ p2 ∨ q1 ≥ q2 then
        ({ (zero : partial_pf K) with form := ppf_form.none, theta := theta }, ep)
      else
        let q1z := if side_1.q.eq side_2.p = true then 0 else q1
        let p2z := if side_1.q.eq side_2.p = true then 0 else p2
        let r_max := convex_polygon_pf.clip_r_max m c r
          (convex_polygon_pf.cyc_range n ((index_2 + 1) % n) index_1) (min p1 q2)
        of_sides_arc m c theta theta (max q1z p2z) r_max (r.area side_1.q side_2.p)
          (c.area_idx index_1 index_2) r side_1.p side_2.q p1 q2 ep
    else if theta > m.pi then
      if p1 ≥ p2 ∨ q1 ≤ q2 then
        ({ (zero : partial_pf K) with form := ppf_form.none, theta := theta }, ep)
      else
        let p1z := if side_1.p.eq side_2.q = true then 0 else p1
        let q2z := if side_1.p.eq side_2.q = true then 0 else q2
        let r_max := convex_polygon_pf.clip_r_max m c r
          (convex_polygon_pf.cyc_range n ((index_1 + 1) % n) index_2) (min q1 p2)
        of_sides_arc m c theta (2 * m.pi - theta) (max p1z q2z) r_max
          (r.area side_1.p side_2.q) (c.area_idx index_2 index_1) r side_2.p side_1.q p2 q1 ep
    else ({ (zero : partial_pf K) with form := ppf_form.none, theta := theta }, ep)

end partial_pf

namespace convex_polygon_pf

variable {K : Type} [LinearOrderedField K]

/-- The pairs `(index_1, index_2)` visited by the two nested loops
`for (index_1 = 1; index_1 != 0; ++index_1) for (index_2 = 0; index_2 != index_1; ++index_2)`
over cyclic indices with modulus `n`. -/
def side_pairs (n : Nat) : List (Nat × Nat) :=
  (cyc_range n (1 % n) 0).flatMap fun i1 => (cyc_range n 0 i1).map fun i2 => (i1, i2)

/-- The `while (iter != 0)` loop of `find_pf` that looks for the right insertion point:
nodes on which `end` returns false are removed.  Returns the final values of `right` and
`f_left` and the list from `iter` on. -/
def find_end (m : Libm K) (ppf : partial_pf K) :
    List (partial_pf K) → K → Bool → K × Bool × List (partial_pf K)
  | [], right, f_left => (right, f_left, [])
  | n :: rest, _, f_left =>
    match n.end_ m ppf with
    | end_result.stop r fl => (r, fl, n :: rest)
    | end_result.removed r => find_end m ppf rest r f_left

theorem find_end_length (m : Libm K) (ppf : partial_pf K) (l : List (partial_pf K))
    (right : K) (f_left : Bool) : (find_end m ppf l right f_left).2.2.length ≤ l.length := by
  induction l generalizing right f_left with
  | nil => simp [find_end]
  | cons n rest ih =>
    unfold find_end
    cases n.end_ m ppf with
    | stop r fl => simp
    | removed r => exact Nat.le_succ_of_le (ih r f_left)

/-- The statement pair `x.a = v; x.pfa = x.pf (v);`. -/
def set_a (m : Libm K) (x : partial_pf K) (v : K) : partial_pf K :=
  let x1 := { x with a := v }
  { x1 with pfa := x1.pf m v }

/-- The statement pair `x.b = v; x.pfb = x.pf (v);`. -/
def set_b (m : Libm K) (x : partial_pf K) (v : K) : partial_pf K :=
  let x1 := { x with b := v }
  { x1 with pfb := x1.pf m v }

/-- The node at `iter` after the right insertion point has been found: when
`iter != 0 && !f_left` its beginning is shifted to `right`. -/
def shift_begin (m : Libm K) (right : K) (f_left : Bool) :
    List (partial_pf K) → List (partial_pf K)
  | [] => []
  | it :: tl => if f_left = false then set_a m it right :: tl else it :: tl

theorem shift_begin_length (m : Libm K) (right : K) (f_left : Bool) (l : List (partial_pf K)) :
    (shift_begin m right f_left l).length = l.length := by
  cases l with
  | nil => rfl
  | cons it tl =>
    simp only [shift_begin]
    split <;> rfl

/-- The block `if (!f_left)` of `find_pf`: the node at `iter` is cut at `left` and
`iter` moves to a copy of it; the result is the part of the list left behind. -/
def split_left (m : Libm K) (n : partial_pf K) (left : K) (f_left : Bool) :
    List (partial_pf K) :=
  if f_left = false then [set_b m n left] else []

/-- The body of the pair loop of `find_pf` from the label `new_loop` on, for the list
that starts at `iter`: the result is that part of the list when the loop is left. -/
def insert_ppf (m : Libm K) (ppf : partial_pf K) : List (partial_pf K) → List (partial_pf K)
  | [] => []
  | n :: rest =>
    match n.begin m ppf with
    | Option.none => n :: insert_ppf m ppf rest
    | some (left, right, f_left, f_right) =>
      if f_right = false then
        -- the right insertion point is already known: `ppf` on `[left, right]`, then a
        -- copy of the old node from `right` on; `iter` moves past it
        split_left m n left f_left ++
          set_b m (set_a m ppf left) right :: set_a m n right :: insert_ppf m ppf rest
      else
        -- `ppf` from `left` on; the right boundary comes from the `end` loop
        split_left m n left f_left ++
          set_b m (set_a m ppf left) (find_end m ppf rest right f_left).1 ::
            insert_ppf m ppf
              (shift_begin m (find_end m ppf rest right f_left).1
                (find_end m ppf rest right f_left).2.1 (find_end m ppf rest right f_left).2.2)
termination_by l => l.length
decreasing_by
  all_goals simp_wf
  · rw [shift_begin_length]
    exact Nat.lt_succ_of_le (find_end_length m ppf _ _ _)

/-- The fictitious node `partial_pf_node (0.0, half_area (), sqrt (10.0*pi*area ()))`. -/
def stub (m : Libm K) (c : convex_polygon_pf K) : partial_pf K :=
  partial_pf.mk_constant 0 c.half_area_v (m.sqrt (10 * m.pi * c.area_v))

/-- The list `tmp_function` at the end of the pair loops of `find_pf`. -/
def assemble (m : Libm K) (c : convex_polygon_pf K) : List (partial_pf K) :=
  if c.num_vertices_v > 2 then
    (side_pairs c.num_vertices_v).foldl
      (fun lst ij =>
        let ppf := (partial_pf.of_sides m c ij.1 ij.2 Option.none).1
        if ppf.form = ppf_form.none then lst else insert_ppf m ppf lst)
      [stub m c]
  else [stub m c]

/-- The member `find_pf`. -/
def find_pf (m : Libm K) (c : convex_polygon_pf K) : convex_polygon_pf K :=
  let lst := assemble m c
  let last := lst.getLastD partial_pf.zero
  { c with
    pf_ok := true
    pf_max_ok := true
    function := lst
    maximum_v := last.pfb
    num_segments_v :=
      if last.form = ppf_form.constant then usub (umul lst.length 2) 1 else umul lst.length 2 }

/-- The accumulator of the pair loops of `find_pf_max`: `max`, `save_index_1`,
`save_index_2`. -/
def max_step (m : Libm K) (c : convex_polygon_pf K) (acc : K × Nat × Nat) (ij : Nat × Nat) :
    K × Nat × Nat :=
  let ppf := (partial_pf.of_sides m c ij.1 ij.2 Option.none).1
  if ppf.form = ppf_form.none then acc
  else if ppf.b < c.half_area_v then acc
  else if ppf.pfb < acc.1 then (ppf.pfb, ij.1, ij.2)
  else acc

/-- The member `find_pf_max`. -/
def find_pf_max (m : Libm K) (c : convex_polygon_pf K) : convex_polygon_pf K :=
  if c.num_vertices_v < 3 then { c with maximum_v := 0, pf_max_ok := true }
  else
    let r := (side_pairs c.num_vertices_v).foldl (max_step m c) (m.sqrt (m.pi * c.area_v), 0, 0)
    let sc := (partial_pf.of_sides m c r.2.1 r.2.2 (some c.shortest_curve)).2
    { c with
      shortest_curve := sc.getD c.shortest_curve
      maximum_v := r.1
      pf_max_ok := true
      sc_ok := true }

/-- The state after `if (!pf_ok) find_pf ();`. -/
def ensure_pf (m : Libm K) (c : convex_polygon_pf K) : convex_polygon_pf K :=
  if c.pf_ok = true then c else find_pf m c

/-- The member `maximum`: the value returned and the state afterwards. -/
def maximum (m : Libm K) (c : convex_polygon_pf K) : K × convex_polygon_pf K :=
  let c1 := if c.pf_max_ok = true then c else find_pf_max m c
  (c1.maximum_v, c1)

/-- The member `num_segments`. -/
def num_segments (m : Libm K) (c : convex_polygon_pf K) : Nat × convex_polygon_pf K :=
  let c1 := ensure_pf m c
  (c1.num_segments_v, c1)

/-- The segment search of `pf`: `n` passes are left, `index` is the loop variable. -/
def pf_loop (m : Libm K) (fn : List (partial_pf K)) (z : K) : Nat → Nat → Except error K
  | 0, _ => Except.error error.unreachable
  | n + 1, index =>
    match fn.get? index with
    | Option.none => Except.error error.out_of_bounds
    | some s => if z ≤ s.b then Except.ok (s.pf m z) else pf_loop m fn z n (index + 1)

/-- The member `pf (double z)`. -/
def pf (m : Libm K) (c : convex_polygon_pf K) (z : K) : Except error K × convex_polygon_pf K :=
  if ¬ (0 ≤ z ∧ z ≤ c.area_v) then (Except.error error.out_of_range, c)
  else
    let c1 := ensure_pf m c
    let z1 := if z > c1.half_area_v then c1.area_v - z else z
    (pf_loop m c1.function z1 c1.num_segments_v 0, c1)

/-- The segment search of `ipf`. -/
def ipf_loop (fn : List (partial_pf K)) (p : K) : Nat → Nat → Except error K
  | 0, _ => Except.error error.unreachable
  | n + 1, index =>
    match fn.get? index with
    | Option.none => Except.error error.out_of_bounds
    | some s => if s.pfb ≥ p then Except.ok (s.ipf p) else ipf_loop fn p n (index + 1)

/-- The member `ipf (double p)`.  The range test `0.0 <= p && p <= maximum () && ...` does
not call `maximum ()` when `0.0 <= p` is false. -/
def ipf (m : Libm K) (c : convex_polygon_pf K) (p : K) : Except error K × convex_polygon_pf K :=
  let c1 := ensure_pf m c
  if ¬ (0 ≤ p) then (Except.error error.out_of_range, c1)
  else
    let mx := maximum m c1
    if ¬ (p ≤ mx.1) then (Except.error error.out_of_range, mx.2)
    else (ipf_loop mx.2.function p mx.2.num_segments_v 0, mx.2)

/-- An array read `function [i]`. -/
def function_at (c : convex_polygon_pf K) (i : Nat) : Except error (partial_pf K) :=
  match c.function.get? i with
  | Option.none => Except.error error.out_of_bounds
  | some s => Except.ok s

/-- The member `a (unsigned index)`. -/
def a (m : Libm K) (c : convex_polygon_pf K) (index : Nat) :
    Except error K × convex_polygon_pf K :=
  let c1 := ensure_pf m c
  let n := c1.num_segments_v
  if ¬ (index ≤ n) then (Except.error error.out_of_range, c1)
  else
    let max_index := usub n 1 / 2
    if index ≤ max_index then ((c1.function_at index).map fun s => s.a, c1)
    else if index = (max_index + 1) % 4294967296 then
      if n % 2 = 0 then (Except.ok c1.half_area_v, c1)
      else ((c1.function_at (usub n index)).map fun s => c1.area_v - s.a, c1)
    else ((c1.function_at (usub n index)).map fun s => c1.area_v - s.a, c1)

/-- The member `theta (unsigned index)`. -/
def theta (m : Libm K) (c : convex_polygon_pf K) (index : Nat) :
    Except error K × convex_polygon_pf K :=
  let c1 := ensure_pf m c
  let n := c1.num_segments_v
  if ¬ (1 ≤ index ∧ index ≤ n) then (Except.error error.out_of_range, c1)
  else
    let i := usub index 1
    let max_index := usub n 1 / 2
    if i ≤ max_index then ((c1.function_at i).map fun s => s.theta, c1)
    else ((c1.function_at (usub (usub n i) 1)).map fun s => -s.theta, c1)

/-- The member `zeta (unsigned index)`. -/
def zeta (m : Libm K) (c : convex_polygon_pf K) (index : Nat) :
    Except error K × convex_polygon_pf K :=
  let c1 := ensure_pf m c
  let n := c1.num_segments_v
  if ¬ (1 ≤ index ∧ index ≤ n) then (Except.error error.out_of_range, c1)
  else
    let i := usub index 1
    let max_index := usub n 1 / 2
    if i ≤ max_index then ((c1.function_at i).map fun s => s.zeta, c1)
    else ((c1.function_at (usub (usub n i) 1)).map fun s => -c1.area_v - s.zeta, c1)

/-- The member `shortest (bool& is_arc, point& start, point& end, point& center)`: the value
returned, the four outbound arguments after the call, and the state afterwards. -/
def shortest (m : Libm K) (c : convex_polygon_pf K) (is_arc : Bool)
    (start end_ center : point K) :
    K × (Bool × point K × point K × point K) × convex_polygon_pf K :=
  let c1 := if c.sc_ok = true then c else find_pf_max m c
  let mx := maximum m c1
  if mx.1 = 0 then (0, (is_arc, start, end_, center), mx.2)
  else
    let arc := decide (mx.2.shortest_curve.form = ppf_form.sqrt)
    let mx2 := maximum m mx.2
    (mx2.1,
      (arc, mx.2.shortest_curve.start, mx.2.shortest_curve.end_,
        if arc = true then mx.2.shortest_curve.center else center),
      mx2.2)

end convex_polygon_pf

/-- A `double` argument as the range checks see it: not-a-number, the two infinities, or a
finite value. -/
inductive xdouble (K : Type) where
  | nan
  | neg_inf
  | fin (x : K)
  | pos_inf

namespace convex_polygon_pf

variable {K : Type} [LinearOrderedField K]

/-- The member `pf (double z)` on an argument that may be NaN or infinite: `is_nan` comes
first, then the range test `0.0 <= z && z <= area () && z < pos_infinity`. -/
def pf_double (m : Libm K) (c : convex_polygon_pf K) :
    xdouble K → Except error K × convex_polygon_pf K
  | xdouble.nan => (Except.error error.invalid_argument, c)
  | xdouble.neg_inf => (Except.error error.out_of_range, c)
  | xdouble.pos_inf => (Except.error error.out_of_range, c)
  | xdouble.fin z => pf m c z

/-- The member `ipf (double p)` on an argument that may be NaN or infinite: `is_nan` comes
first, then `find_pf`, then the range test `0.0 <= p && p <= maximum () && p < pos_infinity`,
which stops at its first false operand. -/
def ipf_double (m : Libm K) (c : convex_polygon_pf K) :
    xdouble K → Except error K × convex_polygon_pf K
  | xdouble.nan => (Except.error error.invalid_argument, c)
  | xdouble.neg_inf => (Except.error error.out_of_range, ensure_pf m c)
  | xdouble.pos_inf => (Except.error error.out_of_range, (maximum m (ensure_pf m c)).2)
  | xdouble.fin p => ipf m c p

end convex_polygon_pf

/-! ## The canonical-domain functions

The arguments are finite values: on them `is_nan` is false and `x < pos_infinity` is true,
so these two tests do not show in the definitions below. -/

/-- The trigonometric functions of the C library that the canonical-domain functions
call. -/
structure Trig (K : Type) where
  sin : K → K
  cos : K → K
  acos : K → K

/-- The C library function `pow` that `pf_3d` calls. -/
structure Pow (K : Type) where
  pow : K → K → K

section canonical

variable {K : Type} [LinearOrderedField K]

/-- The function `f (double w, double r)`. -/
def f (m : Libm K) (t : Trig K) (w r : K) : Except error K :=
  if ¬ (0 ≤ w ∧ w ≤ 1) then Except.error error.out_of_range
  else if ¬ (0 ≤ r) then Except.error error.out_of_range
  else Except.ok (2 * r * (w * (m.pi - t.acos w) + m.sqrt (1 - w * w)))

/-- The auxiliary function `aux_1 (double beta)`; `b[ind]` is `beta^ind`. -/
def aux_1 (m : Libm K) (t : Trig K) (beta : K) : K :=
  let num :=
    beta ^ 2 * m.pi / 2
    - beta ^ 3 * 4 / 3
    - beta ^ 4 * m.pi / 6
    + beta ^ 5 * 8 / 15
    + beta ^ 6 * m.pi / 45
    - beta ^ 7 * 8 / 105
    - beta ^ 8 * m.pi / 630
    + beta ^ 9 * 16 / 2835
    + beta ^ 10 * m.pi / 14175
    - beta ^ 11 * 8 / 31185
    - beta ^ 12 * m.pi / 467775
    + beta ^ 13 * 16 / 2027025
    + beta ^ 14 * m.pi * 2 / 42567525
    - beta ^ 15 * 16 / 91216125
    - beta ^ 16 * m.pi / 1277025750
    + beta ^ 17 * 32 / 10854718875
    + beta ^ 18 * m.pi / 97692469875
    - beta ^ 19 * 8 / 206239658625
    - beta ^ 20 * m.pi / 9280784638125
    + beta ^ 21 * 16 / 38979295480125
  num / (t.cos beta * t.cos beta)

/-- The bisection loops `for (;;)` of `pf_circle`, run for at most `fuel` passes: `stop` is
the test that leaves the loop before the comparison (`beta == pi/2.0` in the second loop,
absent in the first), `above` is the comparison that moves `beta_right`.  The result is
`beta` when the loop is left, `none` when it has not been left within `fuel` passes. -/
def circle_bisect (stop above : K → Bool) : Nat → K → K → Option K
  | 0, _, _ => Option.none
  | fuel + 1, beta_left, beta_right =>
    let beta := (beta_left + beta_right) / 2
    if stop beta = true then some beta
    else if above beta = true then
      if beta ≥ beta_right then some beta else circle_bisect stop above fuel beta_left beta
    else
      if beta ≤ beta_left then some beta else circle_bisect stop above fuel beta beta_right

/-- The function `pf_circle (double z, double a)`, its two bisection loops bounded by
`fuel` passes; `none` inside `ok` is a loop that has not stopped within `fuel` passes. -/
def pf_circle (m : Libm K) (t : Trig K) (fuel : Nat) (z a : K) : Except error (Option K) :=
  if ¬ (0 ≤ z ∧ z ≤ m.pi * a * a) then Except.error error.out_of_range
  else if ¬ (0 ≤ a) then Except.error error.out_of_range
  else if a = 0 then Except.ok (some 0)
  else
    let z_norm := z / a / a
    if z_norm = 0 then Except.ok (some (m.sqrt (2 * m.pi) * m.sqrt z))
    else
      let z1 := if z_norm > m.pi / 2 then m.pi - z_norm else z_norm
      if z1 = 0 then Except.ok (some 0)
      else if z1 < m.pi / 2 - 1 then
        Except.ok
          ((circle_bisect (fun _ => false) (fun beta => decide (aux_1 m t beta > z1)) fuel 0
              (m.pi / 2)).map
            fun beta => a * ((m.pi - 2 * beta) * t.sin beta / t.cos beta))
      else
        Except.ok
          ((circle_bisect (fun beta => decide (beta = m.pi / 2))
              (fun beta =>
                let tn := t.sin beta / t.cos beta
                decide (beta - tn + tn * (m.pi / 2 - beta) * tn > z1))
              fuel 0 (m.pi / 2)).map
            fun beta =>
              let c := t.sin (m.pi / 2 - beta)
              a * (if c = 0 then 2 else (m.pi - 2 * beta) * t.sin beta / c))

/-- The function `pf_rectangle (double z, double a, double b)`. -/
def pf_rectangle (m : Libm K) (z a b : K) : Except error K :=
  if ¬ (0 ≤ a) then Except.error error.out_of_range
  else if ¬ (0 ≤ b) then Except.error error.out_of_range
  else if ¬ (0 ≤ z ∧ z ≤ a * b) then Except.error error.out_of_range
  else
    let a1 := if a > b then b else a
    let b1 := if a > b then a else b
    let a_2 := a1 / 2
    let ab_2 := a_2 * b1
    let z1 := if z > ab_2 then ab_2 - (z - ab_2) else z
    if z1 < (a1 / m.pi) * a1 then Except.ok (m.sqrt m.pi * m.sqrt z1) else Except.ok a1

/-- The library function `std::min (a, b)`: `b` when `b < a`, else `a`. -/
def std_min (a b : K) : K := if b < a then b else a

/-- The library function `std::max (a, b)`: `b` when `a < b`, else `a`. -/
def std_max (a b : K) : K := if a < b then b else a

/-- The function `pf_plane (double z)`. -/
def pf_plane (m : Libm K) (z : K) : Except error K :=
  if ¬ (0 ≤ z) then Except.error error.out_of_range
  else Except.ok (2 * m.sqrt m.pi * m.sqrt z)

/-- The function `ipf_plane (double p)`. -/
def ipf_plane (m : Libm K) (p : K) : Except error K :=
  if ¬ (0 ≤ p) then Except.error error.out_of_range
  else Except.ok ((p / (4 * m.pi)) * p)

/-- The function `pf_angle (double z, double theta)`. -/
def pf_angle (m : Libm K) (z theta : K) : Except error K :=
  if ¬ (0 ≤ z) then Except.error error.out_of_range
  else if ¬ (0 < theta ∧ theta < 2 * m.pi) then Except.error error.out_of_range
  else Except.ok (m.sqrt (2 * std_min theta m.pi) * m.sqrt z)

/-- The function `ipf_angle (double p, double theta)`. -/
def ipf_angle (m : Libm K) (p theta : K) : Except error K :=
  if ¬ (0 ≤ p) then Except.error error.out_of_range
  else if ¬ (0 < theta ∧ theta < 2 * m.pi) then Except.error error.out_of_range
  else Except.ok (p / (2 * std_min theta m.pi) * p)

/-- The function `pf_sphere (double z, double a)`. -/
def pf_sphere (m : Libm K) (z a : K) : Except error K :=
  if ¬ (0 ≤ z ∧ z ≤ 4 * m.pi * a * a) then Except.error error.out_of_range
  else if ¬ (0 < a) then Except.error error.out_of_range
  else Except.ok (2 * m.sqrt z * m.sqrt (m.pi - z / (4 * a * a)))

/-- The function `ipf_sphere (double p, double a)`. -/
def ipf_sphere (m : Libm K) (p a : K) : Except error K :=
  if ¬ (0 ≤ p ∧ p ≤ 2 * m.pi * a) then Except.error error.out_of_range
  else if ¬ (0 < a) then Except.error error.out_of_range
  else
    let tmp := p / (2 * m.pi * a)
    Except.ok ((2 * m.pi) * (a * (1 - m.sqrt (1 - tmp * tmp)) * a))

/-- The function `pf_3d (double z)`. -/
def pf_3d (m : Libm K) (w : Pow K) (z : K) : Except error K :=
  if ¬ (0 ≤ z) then Except.error error.out_of_range
  else Except.ok (w.pow (6 * m.sqrt m.pi * z) (2 / 3))

/-- The function `ipf_3d (double p)`. -/
def ipf_3d (m : Libm K) (p : K) : Except error K :=
  if ¬ (0 ≤ p) then Except.error error.out_of_range
  else Except.ok (m.sqrt ((p / (36 * m.pi)) * p * p))

/-- The function `ipf_rectangle (double p, double a, double b)`. -/
def ipf_rectangle (m : Libm K) (p a b : K) : Except error K :=
  if ¬ (0 ≤ a) then Except.error error.out_of_range
  else if ¬ (0 ≤ b) then Except.error error.out_of_range
  else
    let a1 := if a > b then b else a
    if ¬ (0 ≤ p ∧ p ≤ a1) then Except.error error.out_of_range
    else Except.ok ((p / m.pi) * p)

/-- The value `diag` of `opf_rectangle` and `iopf_rectangle`: the diagonal of the
rectangle, with the two rescaled forms the code takes when `(1.0/b)*(1.0/b)` or `b*b`
is zero. -/
def diag (m : Libm K) (a b : K) : K :=
  if (1 / b) * (1 / b) = 0 then
    let k : K := 1 / 10 ^ 170
    let ak := a * k
    let bk := b * k
    m.sqrt (ak * ak + bk * bk) / k
  else if b * b = 0 then
    let k : K := 10 ^ 170
    let ak := a * k
    let bk := b * k
    m.sqrt (ak * ak + bk * bk) / k
  else m.sqrt (a * a + b * b)

/-- The function `opf_rectangle (double z, double a, double b)`, its two bisection loops
bounded by `fuel` passes; `none` inside `ok` is a loop that has not stopped within `fuel`
passes. -/
def opf_rectangle (m : Libm K) (t : Trig K) (fuel : Nat) (z a b : K) :
    Except error (Option K) :=
  if ¬ (0 ≤ a) then Except.error error.out_of_range
  else if ¬ (0 ≤ b) then Except.error error.out_of_range
  else if ¬ (0 ≤ z) then Except.error error.out_of_range
  else
    let a1 := if a > b then b else a
    let b1 := if a > b then a else b
    if b1 = 0 then Except.ok (some (2 * m.sqrt m.pi * m.sqrt z))
    else if z ≤ m.pi * (b1 / 8) * b1 then Except.ok (some (m.sqrt (2 * m.pi) * m.sqrt z))
    else
      let r1 := fun beta => b1 / (2 * t.sin (beta / 2))
      match circle_bisect (fun _ => false)
          (fun beta => decide (r1 beta * (2 * m.pi - beta + t.sin beta) * (r1 beta / 2) < z))
          fuel 0 m.pi with
      | Option.none => Except.ok Option.none
      | some beta1 =>
        let result1 := (2 * m.pi - beta1) * r1 beta1
        let d := diag m a1 b1
        let r2 := fun beta => d / (2 * t.sin (beta / 2))
        match circle_bisect (fun _ => false)
            (fun beta =>
              decide (r2 beta * (2 * m.pi - beta + t.sin beta) * (r2 beta / 2)
                - (a1 / 2) * b1 < z))
            fuel 0 m.pi with
        | Option.none => Except.ok Option.none
        | some beta2 => Except.ok (some (std_min result1 ((2 * m.pi - beta2) * r2 beta2)))

/-- The function `iopf_rectangle (double p, double a, double b)`, its two bisection loops
bounded by `fuel` passes; `none` inside `ok` is a loop that has not stopped within `fuel`
passes. -/
def iopf_rectangle (m : Libm K) (t : Trig K) (fuel : Nat) (p a b : K) :
    Except error (Option K) :=
  if ¬ (0 ≤ a) then Except.error error.out_of_range
  else if ¬ (0 ≤ b) then Except.error error.out_of_range
  else if ¬ (0 ≤ p) then Except.error error.out_of_range
  else
    let a1 := if a > b then b else a
    let b1 := if a > b then a else b
    if b1 = 0 then Except.ok (some ((p / (4 * m.pi)) * p))
    else if p ≤ m.pi * b1 / 2 then Except.ok (some ((p / (2 * m.pi)) * p))
    else
      let r1 := fun beta => b1 / (2 * t.sin (beta / 2))
      match circle_bisect (fun _ => false)
          (fun beta => decide ((2 * m.pi - beta) * r1 beta < p)) fuel 0 m.pi with
      | Option.none => Except.ok Option.none
      | some beta1 =>
        let result1 := r1 beta1 * (2 * m.pi - beta1 + t.sin beta1) * (r1 beta1 / 2)
        let d := diag m a1 b1
        if p ≤ m.pi * (d / 2) then Except.ok (some result1)
        else
          let r2 := fun beta => d / (2 * t.sin (beta / 2))
          match circle_bisect (fun _ => false)
              (fun beta => decide ((2 * m.pi - beta) * r2 beta < p)) fuel 0 m.pi with
          | Option.none => Except.ok Option.none
          | some beta2 =>
            Except.ok
              (some
                (std_max result1
                  (r2 beta2 * (2 * m.pi - beta2 + t.sin beta2) * (r2 beta2 / 2)
                    - (a1 / 2) * b1)))

end canonical

/-! ## Structural facts about the assembly -/

namespace convex_polygon_pf

variable {K : Type} [LinearOrderedField K]

/-- A property of nodes that only depends on `form`, `theta` and `zeta`. -/
def shape_closed (P : partial_pf K → Prop) : Prop :=
  ∀ (x : partial_pf K) (a b pfa pfb : K), P x → P ⟨x.form, a, b, x.theta, x.zeta, pfa, pfb⟩

theorem find_end_mem (m : Libm K) (ppf : partial_pf K) (l : List (partial_pf K))
    (right : K) (f_left : Bool) :
    ∀ x ∈ (find_end m ppf l right f_left).2.2, x ∈ l := by
  induction l generalizing right f_left with
  | nil => simp [find_end]
  | cons n rest ih =>
    unfold find_end
    cases n.end_ m ppf with
    | stop r fl => simp
    | removed r =>
      intro x hx
      exact List.mem_cons_of_mem _ (ih r f_left x hx)

theorem set_a_shape (m : Libm K) (P : partial_pf K → Prop) (hP : shape_closed P)
    (x : partial_pf K) (v : K) (h : P x) : P (set_a m x v) :=
  hP x _ _ _ _ h

theorem set_b_shape (m : Libm K) (P : partial_pf K → Prop) (hP : shape_closed P)
    (x : partial_pf K) (v : K) (h : P x) : P (set_b m x v) :=
  hP x _ _ _ _ h

theorem shift_begin_forall (m : Libm K) (P : partial_pf K → Prop) (hP : shape_closed P)
    (right : K) (f_left : Bool) (l : List (partial_pf K)) (h : ∀ x ∈ l, P x) :
    ∀ x ∈ shift_begin m right f_left l, P x := by
  cases l with
  | nil => simp [shift_begin]
  | cons it tl =>
    simp only [shift_begin]
    split
    · intro x hx
      rcases List.mem_cons.mp hx with hx | hx
      · subst hx
        exact set_a_shape m P hP it _ (h it (List.mem_cons_self _ _))
      · exact h x (List.mem_cons_of_mem _ hx)
    · exact h

theorem split_left_forall (m : Libm K) (P : partial_pf K → Prop) (hP : shape_closed P)
    (n : partial_pf K) (left : K) (f_left : Bool) (hn : P n) :
    ∀ x ∈ split_left m n left f_left, P x := by
  intro x hx
  unfold split_left at hx
  split at hx
  · rw [List.mem_singleton] at hx
    subst hx
    exact set_b_shape m P hP n _ hn
  · simp at hx

theorem insert_ppf_forall (m : Libm K) (P : partial_pf K → Prop) (hP : shape_closed P)
    (ppf : partial_pf K) (hppf : P ppf) :
    ∀ (k : Nat) (l : List (partial_pf K)), l.length ≤ k → (∀ x ∈ l, P x) →
      ∀ x ∈ insert_ppf m ppf l, P x := by
  intro k
  induction k with
  | zero =>
    intro l hl _
    have : l = [] := List.length_eq_zero.mp (Nat.le_zero.mp hl)
    subst this
    simp [insert_ppf]
  | succ k ih =>
    intro l hl h
    cases l with
    | nil => simp [insert_ppf]
    | cons n rest =>
      have hn : P n := h n (List.mem_cons_self _ _)
      have hrest : ∀ x ∈ rest, P x := fun x hx => h x (List.mem_cons_of_mem _ hx)
      have hlen : rest.length ≤ k := Nat.le_of_succ_le_succ hl
      rw [insert_ppf]
      split
      · intro x hx
        rcases List.mem_cons.mp hx with hx | hx
        · subst hx; exact hn
        · exact ih rest hlen hrest x hx
      · rename_i left right f_left f_right _
        split
        · intro x hx
          rcases List.mem_append.mp hx with hx | hx
          · exact split_left_forall m P hP n left f_left hn x hx
          · rcases List.mem_cons.mp hx with hx | hx
            · subst hx
              exact set_b_shape m P hP _ _ (set_a_shape m P hP ppf _ hppf)
            · rcases List.mem_cons.mp hx with hx | hx
              · subst hx; exact set_a_shape m P hP n _ hn
              · exact ih rest hlen hrest x hx
        · intro x hx
          rcases List.mem_append.mp hx with hx | hx
          · exact split_left_forall m P hP n left f_left hn x hx
          · rcases List.mem_cons.mp hx with hx | hx
            · subst hx
              exact set_b_shape m P hP _ _ (set_a_shape m P hP ppf _ hppf)
            · refine ih _ ?_ ?_ x hx
              · rw [shift_begin_length]
                exact le_trans (find_end_length m ppf _ _ _) hlen
              · exact shift_begin_forall m P hP _ _ _
                  (fun y hy => hrest y (find_end_mem m ppf _ _ _ y hy))

theorem insert_ppf_ne_nil (m : Libm K) (ppf : partial_pf K) (l : List (partial_pf K))
    (h : l ≠ []) : insert_ppf m ppf l ≠ [] := by
  cases l with
  | nil => exact absurd rfl h
  | cons n rest =>
    rw [insert_ppf]
    split
    · simp
    · split <;> simp

/-- The value `find_pf` leaves in `num_segments_v` for the assembled list `l`. -/
def seg_count (l : List (partial_pf K)) : Nat :=
  if (l.getLastD partial_pf.zero).form = ppf_form.constant then usub (umul l.length 2) 1
  else umul l.length 2

/-- The states a `convex_polygon_pf` object can be in: the constructor builds it, and the
public queries change it only through `find_pf` (run when `pf_ok` is false) and
`find_pf_max` (run by `maximum` when `pf_max_ok` is false and by `shortest` when `sc_ok`
is false). -/
inductive reachable (m : Libm K) : convex_polygon_pf K → Prop where
  | ctor (cp : List (point K)) : reachable m (of_polygon m cp)
  | pf (c : convex_polygon_pf K) : reachable m c → c.pf_ok = false → reachable m (find_pf m c)
  | pf_max (c : convex_polygon_pf K) : reachable m c → c.pf_max_ok = false →
      reachable m (find_pf_max m c)
  | sc (c : convex_polygon_pf K) : reachable m c → c.sc_ok = false →
      reachable m (find_pf_max m c)

/-- What every reachable state satisfies. -/
def wf (m : Libm K) (c : convex_polygon_pf K) : Prop :=
  c.half_area_v = c.area_v / 2 ∧
  (c.pf_ok = true → ∃ c0 : convex_polygon_pf K,
    c.function = assemble m c0 ∧ c.num_segments_v = seg_count (assemble m c0))

theorem of_polygon_pf_ok (m : Libm K) (cp : List (point K)) : (of_polygon m cp).pf_ok = false := by
  unfold of_polygon
  cases cp with
  | nil => rfl
  | cons first rest =>
    simp only
    split
    · split <;> rfl
    · rfl

theorem of_polygon_half (m : Libm K) (cp : List (point K)) :
    (of_polygon m cp).half_area_v = (of_polygon m cp).area_v / 2 := by
  unfold of_polygon
  cases cp with
  | nil => rfl
  | cons first rest =>
    simp only
    split
    · split <;> rfl
    · rfl

theorem find_pf_max_fields (m : Libm K) (c : convex_polygon_pf K) :
    (find_pf_max m c).half_area_v = c.half_area_v ∧ (find_pf_max m c).area_v = c.area_v ∧
    (find_pf_max m c).pf_ok = c.pf_ok ∧ (find_pf_max m c).function = c.function ∧
    (find_pf_max m c).num_segments_v = c.num_segments_v := by
  unfold find_pf_max
  split <;> simp

theorem reachable_wf (m : Libm K) (c : convex_polygon_pf K) (h : reachable m c) : wf m c := by
  induction h with
  | ctor cp =>
    refine ⟨of_polygon_half m cp, ?_⟩
    intro h
    rw [of_polygon_pf_ok] at h
    exact absurd h (by decide)
  | pf c _ _ ih =>
    refine ⟨ih.1, ?_⟩
    intro _
    exact ⟨c, rfl, rfl⟩
  | pf_max c _ _ ih =>
    obtain ⟨h1, h2, h3, h4, h5⟩ := find_pf_max_fields m c
    refine ⟨by rw [h1, h2]; exact ih.1, ?_⟩
    intro h
    rw [h3] at h
    rw [h4, h5]
    exact ih.2 h
  | sc c _ _ ih =>
    obtain ⟨h1, h2, h3, h4, h5⟩ := find_pf_max_fields m c
    refine ⟨by rw [h1, h2]; exact ih.1, ?_⟩
    intro h
    rw [h3] at h
    rw [h4, h5]
    exact ih.2 h

theorem ensure_pf_wf (m : Libm K) (c : convex_polygon_pf K) (h : wf m c) :
    (ensure_pf m c).half_area_v = (ensure_pf m c).area_v / 2 ∧
    ∃ c0 : convex_polygon_pf K, (ensure_pf m c).function = assemble m c0 ∧
      (ensure_pf m c).num_segments_v = seg_count (assemble m c0) := by
  unfold ensure_pf
  split
  · rename_i hok
    exact ⟨h.1, h.2 hok⟩
  · exact ⟨h.1, c, rfl, rfl⟩

theorem ensure_pf_area (m : Libm K) (c : convex_polygon_pf K) :
    (ensure_pf m c).area_v = c.area_v ∧ (ensure_pf m c).half_area_v = c.half_area_v := by
  unfold ensure_pf
  split
  · exact ⟨rfl, rfl⟩
  · exact ⟨rfl, rfl⟩

theorem ensure_pf_idem (m : Libm K) (c : convex_polygon_pf K) :
    ensure_pf m (ensure_pf m c) = ensure_pf m c := by
  unfold ensure_pf
  split
  · rename_i h
    simp [h]
  · simp [find_pf]

theorem assemble_ne_nil (m : Libm K) (c : convex_polygon_pf K) : assemble m c ≠ [] := by
  unfold assemble
  split
  · generalize side_pairs c.num_vertices_v = ps
    have : ∀ (l : List (partial_pf K)), l ≠ [] →
        ps.foldl (fun lst ij =>
          if (partial_pf.of_sides m c ij.1 ij.2 Option.none).1.form = ppf_form.none then lst
          else insert_ppf m (partial_pf.of_sides m c ij.1 ij.2 Option.none).1 lst) l ≠ [] := by
      induction ps with
      | nil => intro l hl; simpa using hl
      | cons ij ps ih =>
        intro l hl
        rw [List.foldl_cons]
        apply ih
        split
        · exact hl
        · exact insert_ppf_ne_nil m _ l hl
    exact this _ (by simp)
  · simp

end convex_polygon_pf

end search

namespace search
namespace convex_polygon_pf

variable {K : Type} [LinearOrderedField K]

theorem function_at_lt (c : convex_polygon_pf K) (j : Nat) (h : j < c.function.length) :
    c.function_at j = Except.ok (c.function.getD j partial_pf.zero) := by
  unfold function_at
  rw [List.getD_eq_getElem?_getD, List.get?_eq_getElem?, List.getElem?_eq_getElem h]
  rfl

theorem seg_count_cases (l : List (partial_pf K)) (h1 : 1 ≤ l.length)
    (h2 : l.length < 2147483648) :
    (seg_count l = 2 * l.length - 1 ∧ (l.getLastD partial_pf.zero).form = ppf_form.constant) ∨
    (seg_count l = 2 * l.length ∧ (l.getLastD partial_pf.zero).form ≠ ppf_form.constant) := by
  unfold seg_count usub umul
  split
  · left
    refine ⟨?_, by assumption⟩
    omega
  · right
    refine ⟨?_, by assumption⟩
    omega

/-- Closed form of the value `a (i)` returns on a state whose function has been built. -/
theorem a_closed (m : Libm K) (c : convex_polygon_pf K) (hok : c.pf_ok = true)
    (h1 : 1 ≤ c.function.length) (h2 : c.function.length < 2147483648)
    (hn : c.num_segments_v = 2 * c.function.length - 1 ∨
      c.num_segments_v = 2 * c.function.length)
    (i : Nat) (hi : i ≤ c.num_segments_v) :
    (a m c i).1 = Except.ok
      (if i < c.function.length then (c.function.getD i partial_pf.zero).a
       else if i = c.function.length ∧ c.num_segments_v % 2 = 0 then c.half_area_v
       else c.area_v - (c.function.getD (c.num_segments_v - i) partial_pf.zero).a) := by
  have he : ensure_pf m c = c := by simp [ensure_pf, hok]
  unfold a
  simp only [he]
  rw [if_neg (by simpa using hi)]
  have hmax : usub c.num_segments_v 1 / 2 = c.function.length - 1 := by
    unfold usub; omega
  rw [hmax]
  by_cases hlt : i < c.function.length
  · rw [if_pos (by omega), if_pos hlt, function_at_lt c i hlt]
    rfl
  · rw [if_neg (by omega), if_neg hlt]
    have hsub : usub c.num_segments_v i = c.num_segments_v - i := by
      unfold usub; omega
    by_cases hk : i = c.function.length
    · rw [if_pos (by omega)]
      by_cases hev : c.num_segments_v % 2 = 0
      · rw [if_pos hev, if_pos ⟨hk, hev⟩]
      · rw [if_neg hev, if_neg (by tauto), hsub, function_at_lt c _ (by omega)]
        rfl
    · rw [if_neg (by omega), if_neg (by tauto), hsub, function_at_lt c _ (by omega)]
      rfl

end convex_polygon_pf
end search

namespace search

/-- The C math library over the real numbers: `atan2 (y, x)` is the argument of `x + y i`. -/
noncomputable def rm : Libm ℝ :=
  ⟨Real.sqrt, fun y x => Complex.arg ⟨x, y⟩, Real.pi⟩

namespace convex_polygon_pf

variable {K : Type} [LinearOrderedField K]

theorem ensure_pf_ok (m : Libm K) (c : convex_polygon_pf K) : (ensure_pf m c).pf_ok = true := by
  unfold ensure_pf
  split
  · assumption
  · rfl

theorem a_ensure (m : Libm K) (c : convex_polygon_pf K) (i : Nat) :
    a m c i = a m (ensure_pf m c) i ∧ (a m c i).2 = ensure_pf m c := by
  constructor
  · unfold a
    rw [ensure_pf_idem]
  · unfold a
    simp only
    split
    · rfl
    · split
      · rfl
      · split
        · split <;> rfl
        · rfl

theorem theta_ensure (m : Libm K) (c : convex_polygon_pf K) (i : Nat) :
    theta m c i = theta m (ensure_pf m c) i ∧ (theta m c i).2 = ensure_pf m c := by
  constructor
  · unfold theta
    rw [ensure_pf_idem]
  · unfold theta
    simp only
    split
    · rfl
    · split <;> rfl

/-- Closed form of the value `theta (i)` returns on a state whose function has been built. -/
theorem theta_closed (m : Libm K) (c : convex_polygon_pf K) (hok : c.pf_ok = true)
    (h1 : 1 ≤ c.function.length) (h2 : c.function.length < 2147483648)
    (hn : c.num_segments_v = 2 * c.function.length - 1 ∨
      c.num_segments_v = 2 * c.function.length)
    (i : Nat) (hi1 : 1 ≤ i) (hi : i ≤ c.num_segments_v) :
    (theta m c i).1 = Except.ok
      (if i ≤ c.function.length then (c.function.getD (i - 1) partial_pf.zero).theta
       else -(c.function.getD (c.num_segments_v - i) partial_pf.zero).theta) := by
  have he : ensure_pf m c = c := by simp [ensure_pf, hok]
  unfold theta
  simp only [he]
  rw [if_neg (by simp; omega)]
  have hmax : usub c.num_segments_v 1 / 2 = c.function.length - 1 := by
    unfold usub; omega
  have hidx : usub i 1 = i - 1 := by unfold usub; omega
  rw [hmax, hidx]
  by_cases hle : i ≤ c.function.length
  · rw [if_pos (by omega), if_pos hle, function_at_lt c _ (by omega)]
    rfl
  · have hsub : usub (usub c.num_segments_v (i - 1)) 1 = c.num_segments_v - i := by
      unfold usub; omega
    rw [if_neg (by omega), if_neg hle, hsub, function_at_lt c _ (by omega)]
    rfl

theorem of_sides_parallel_theta (m : Libm K) (c : convex_polygon_pf K) (i1 i2 : Nat)
    (ep : Option (eff_perimeter K)) :
    (partial_pf.of_sides_parallel m c i1 i2 ep).1.form = ppf_form.constant →
    (partial_pf.of_sides_parallel m c i1 i2 ep).1.theta = 0 := by
  unfold partial_pf.of_sides_parallel
  simp only
  split_ifs <;> simp [partial_pf.zero]

theorem of_sides_arc_form (m : Libm K) (c : convex_polygon_pf K)
    (theta1 theta2 r_min r_max tri sub : K) (r u v : point K) (du dv : K)
    (ep : Option (eff_perimeter K)) :
    (partial_pf.of_sides_arc m c theta1 theta2 r_min r_max tri sub r u v du dv ep).1.form ≠
      ppf_form.constant := by
  unfold partial_pf.of_sides_arc
  simp only
  split_ifs <;> simp

theorem of_sides_const_theta (m : Libm K) (c : convex_polygon_pf K) (i1 i2 : Nat) :
    (partial_pf.of_sides m c i1 i2 Option.none).1.form = ppf_form.constant →
    (partial_pf.of_sides m c i1 i2 Option.none).1.theta = 0 := by
  unfold partial_pf.of_sides
  simp only
  split_ifs
  all_goals first
    | exact of_sides_parallel_theta m c i1 i2 Option.none
    | (intro h; exact absurd h (of_sides_arc_form m c _ _ _ _ _ _ _ _ _ _ _ _))
    | (intro h; exact absurd h (by simp))

theorem assemble_const_theta (m : Libm K) (c : convex_polygon_pf K) :
    ∀ x ∈ assemble m c, x.form = ppf_form.constant → x.theta = 0 := by
  have hP : shape_closed (fun x : partial_pf K => x.form = ppf_form.constant → x.theta = 0) := by
    intro x _ _ _ _ h
    exact h
  unfold assemble
  split
  · generalize side_pairs c.num_vertices_v = ps
    have : ∀ (l : List (partial_pf K)),
        (∀ x ∈ l, x.form = ppf_form.constant → x.theta = 0) →
        ∀ x ∈ ps.foldl (fun lst ij =>
          if (partial_pf.of_sides m c ij.1 ij.2 Option.none).1.form = ppf_form.none then lst
          else insert_ppf m (partial_pf.of_sides m c ij.1 ij.2 Option.none).1 lst) l,
          x.form = ppf_form.constant → x.theta = 0 := by
      induction ps with
      | nil => intro l hl; simpa using hl
      | cons ij ps ih =>
        intro l hl
        rw [List.foldl_cons]
        apply ih
        split
        · exact hl
        · exact insert_ppf_forall m _ hP _ (of_sides_const_theta m c ij.1 ij.2) l.length l
            (le_refl _) hl
    exact this _ (by simp [stub, partial_pf.mk_constant])
  · simp [stub, partial_pf.mk_constant]

end convex_polygon_pf
end search

namespace search
namespace convex_polygon_pf

variable {K : Type} [LinearOrderedField K]

/-- The facts about a built state that the index arithmetic of `a`, `theta` and `zeta`
relies on. -/
theorem built_shape (m : Libm K) (c : convex_polygon_pf K) (hr : reachable m c)
    (hlen : (ensure_pf m c).function.length < 2147483648) :
    1 ≤ (ensure_pf m c).function.length ∧
    ((ensure_pf m c).num_segments_v = 2 * (ensure_pf m c).function.length - 1 ∧
      (((ensure_pf m c).function).getLastD partial_pf.zero).form = ppf_form.constant ∨
     (ensure_pf m c).num_segments_v = 2 * (ensure_pf m c).function.length ∧
      (((ensure_pf m c).function).getLastD partial_pf.zero).form ≠ ppf_form.constant) ∧
    (∀ x ∈ (ensure_pf m c).function, x.form = ppf_form.constant → x.theta = 0) ∧
    (ensure_pf m c).half_area_v = (ensure_pf m c).area_v / 2 := by
  obtain ⟨hhalf, c0, hf, hn⟩ := ensure_pf_wf m c (reachable_wf m c hr)
  have hne : assemble m c0 ≠ [] := assemble_ne_nil m c0
  have h1 : 1 ≤ (ensure_pf m c).function.length := by
    rw [hf]
    exact Nat.succ_le_of_lt (List.length_pos.mpr hne)
  refine ⟨h1, ?_, ?_, hhalf⟩
  · rw [hn, hf]
    rw [hf] at h1 hlen
    exact seg_count_cases _ h1 hlen
  · rw [hf]
    exact assemble_const_theta m c0

theorem getLastD_eq_getD (l : List (partial_pf K)) (h : 1 ≤ l.length) :
    l.getLastD partial_pf.zero = l.getD (l.length - 1) partial_pf.zero := by
  have hne : l ≠ [] := List.length_pos.mp h
  rw [List.getLastD_eq_getLast?, List.getLast?_eq_getLast _ hne, List.getLast_eq_getElem,
    List.getD_eq_getElem?_getD, List.getElem?_eq_getElem (by omega)]

/-- C8: for every built object and every index `0 <= i <= num_segments ()`, the two calls
`a (i)` and `a (num_segments () - i)` both return a value and the values add up to
`area ()` (for an assembled list of fewer than `2^31` segments, the range in which
`num_segments_v*2` does not wrap). -/
theorem a_mirror_sum (m : Libm K) (c : convex_polygon_pf K) (hr : reachable m c)
    (hlen : (ensure_pf m c).function.length < 2147483648) (i : Nat)
    (hi : i ≤ (num_segments m c).1) :
    ∃ x y : K, (a m c i).1 = Except.ok x ∧
      (a m (a m c i).2 ((num_segments m c).1 - i)).1 = Except.ok y ∧ x + y = c.area_v := by
  obtain ⟨h1, hn, _, hhalf⟩ := built_shape m c hr hlen
  have hok := ensure_pf_ok m c
  have hn2 : (ensure_pf m c).num_segments_v = 2 * (ensure_pf m c).function.length - 1 ∨
      (ensure_pf m c).num_segments_v = 2 * (ensure_pf m c).function.length := by
    rcases hn with h | h
    · exact Or.inl h.1
    · exact Or.inr h.1
  have hi2 : i ≤ (ensure_pf m c).num_segments_v := hi
  have hns : (num_segments m c).1 = (ensure_pf m c).num_segments_v := rfl
  rw [(a_ensure m c i).2, (a_ensure m c i).1, hns,
    a_closed m _ hok h1 hlen hn2 i hi2,
    a_closed m _ hok h1 hlen hn2 _ (Nat.sub_le _ _)]
  refine ⟨_, _, rfl, rfl, ?_⟩
  have harea := (ensure_pf_area m c).1
  rw [← harea]
  generalize (ensure_pf m c).function = L at *
  generalize (ensure_pf m c).num_segments_v = n at *
  generalize (ensure_pf m c).area_v = ar at *
  generalize (ensure_pf m c).half_area_v = hf at *
  by_cases hlt : i < L.length
  · rw [if_pos hlt, if_neg (by omega), if_neg (by omega)]
    have : n - (n - i) = i := by omega
    rw [this]
    ring
  · rw [if_neg hlt]
    by_cases hk : i = L.length ∧ n % 2 = 0
    · rw [if_pos hk, if_neg (by omega), if_pos (by omega), hhalf]
      ring
    · rw [if_neg hk, if_pos (by omega)]
      ring

/-- C7 (amended): for every built object and every index `1 <= i <= num_segments ()`, the
segment that mirrors segment `i` is segment `num_segments () + 1 - i`, and
`theta (i) == -theta (num_segments () + 1 - i)`. -/
theorem theta_mirror (m : Libm K) (c : convex_polygon_pf K) (hr : reachable m c)
    (hlen : (ensure_pf m c).function.length < 2147483648) (i : Nat)
    (hi1 : 1 ≤ i) (hi : i ≤ (num_segments m c).1) :
    ∃ x y : K, (theta m c i).1 = Except.ok x ∧
      (theta m (theta m c i).2 ((num_segments m c).1 + 1 - i)).1 = Except.ok y ∧ x = -y := by
  obtain ⟨h1, hn, hth, _⟩ := built_shape m c hr hlen
  have hok := ensure_pf_ok m c
  have hn2 : (ensure_pf m c).num_segments_v = 2 * (ensure_pf m c).function.length - 1 ∨
      (ensure_pf m c).num_segments_v = 2 * (ensure_pf m c).function.length := by
    rcases hn with h | h
    · exact Or.inl h.1
    · exact Or.inr h.1
  have hi2 : i ≤ (ensure_pf m c).num_segments_v := hi
  have hns : (num_segments m c).1 = (ensure_pf m c).num_segments_v := rfl
  rw [(theta_ensure m c i).2, (theta_ensure m c i).1, hns,
    theta_closed m _ hok h1 hlen hn2 i hi1 hi2,
    theta_closed m _ hok h1 hlen hn2 _ (by omega) (by omega)]
  refine ⟨_, _, rfl, rfl, ?_⟩
  have hlast := getLastD_eq_getD (ensure_pf m c).function h1
  generalize (ensure_pf m c).function = L at *
  generalize (ensure_pf m c).num_segments_v = n at *
  by_cases hle : i ≤ L.length
  · rw [if_pos hle]
    by_cases hmid : n + 1 - i ≤ L.length
    · -- the middle segment of an odd count: it is constant, so its theta is zero
      have hodd : n = 2 * L.length - 1 ∧
          (L.getLastD partial_pf.zero).form = ppf_form.constant := by
        rcases hn with h | h
        · exact h
        · omega
      have hik : i = L.length := by omega
      have hmem : L.getD (L.length - 1) partial_pf.zero ∈ L := by
        rw [List.getD_eq_getElem?_getD, List.getElem?_eq_getElem (by omega)]
        exact List.getElem_mem _
      have hz : (L.getD (L.length - 1) partial_pf.zero).theta = 0 :=
        hth _ hmem (by rw [← hlast]; exact hodd.2)
      rw [if_pos hmid]
      have e1 : i - 1 = L.length - 1 := by omega
      have e2 : n + 1 - i - 1 = L.length - 1 := by omega
      rw [e1, e2, hz]
      simp
    · rw [if_neg hmid]
      have e : n - (n + 1 - i) = i - 1 := by omega
      rw [e]
      simp
  · rw [if_neg hle, if_pos (by omega)]
    have e : n + 1 - i - 1 = n - i := by omega
    rw [e]

end convex_polygon_pf
end search

namespace search
namespace convex_polygon_pf

variable {K : Type} [LinearOrderedField K]

theorem pf_state (m : Libm K) (c : convex_polygon_pf K) (z : K) (h0 : 0 ≤ z)
    (h1 : z ≤ c.area_v) : (pf m c z).2 = ensure_pf m c := by
  unfold pf
  rw [if_neg (by simp [h0, h1])]

theorem pf_val (m : Libm K) (c : convex_polygon_pf K) (z : K) (h0 : 0 ≤ z)
    (h1 : z ≤ c.area_v) :
    (pf m c z).1 = pf_loop m (ensure_pf m c).function
      (if z > c.half_area_v then c.area_v - z else z) (ensure_pf m c).num_segments_v 0 := by
  obtain ⟨ha, hh⟩ := ensure_pf_area m c
  unfold pf
  rw [if_neg (by simp [h0, h1])]
  simp only [ha, hh]

/-- C2: for every built object and every `z` in `[0, area ()]`, the calls `pf (z)` and
`pf (area () - z)` return the same result. -/
theorem pf_symmetric (m : Libm K) (c : convex_polygon_pf K) (hr : reachable m c) (z : K)
    (h0 : 0 ≤ z) (h1 : z ≤ c.area_v) :
    (pf m (pf m c z).2 (c.area_v - z)).1 = (pf m c z).1 := by
  have hhalf : c.half_area_v = c.area_v / 2 := (reachable_wf m c hr).1
  obtain ⟨ha, hh⟩ := ensure_pf_area m c
  rw [pf_state m c z h0 h1, pf_val m c z h0 h1,
    pf_val m (ensure_pf m c) (c.area_v - z) (by linarith) (by rw [ha]; linarith),
    ensure_pf_idem, ha, hh, hhalf]
  congr 1
  by_cases hz : z > c.area_v / 2
  · rw [if_pos hz, if_neg (by linarith)]
  · rw [if_neg hz]
    by_cases hz2 : c.area_v - z > c.area_v / 2
    · rw [if_pos hz2]; ring
    · rw [if_neg hz2]; linarith

end convex_polygon_pf
end search

namespace search

/-! ## The real instance: evaluation lemmas -/

theorem rm_sqrt (x : ℝ) : rm.sqrt x = Real.sqrt x := rfl

theorem rm_pi : rm.pi = Real.pi := rfl

theorem rm_atan2 (y x : ℝ) : rm.atan2 y x = Complex.arg ⟨x, y⟩ := rfl

theorem trim_of_le (x : ℝ) (h : (1 : ℝ) / 10000000000 ≤ |x|) : trim x = x := by
  unfold trim equal working_precision
  rw [if_neg]
  simp only [sub_zero, decide_eq_true_eq, not_lt]
  exact h

theorem trim_of_lt (x : ℝ) (h : |x| < (1 : ℝ) / 10000000000) : trim x = 0 := by
  unfold trim equal working_precision
  rw [if_pos]
  simp only [sub_zero, decide_eq_true_eq]
  exact h

namespace point

/-- The angle when the two directions are perpendicular and turn left. -/
theorem angle_left (s p q : point ℝ) (hd : (p.sub s).dot (q.sub s) = 0)
    (hc : 0 < (p.sub s).cross (q.sub s)) : angle rm s p q = Real.pi / 2 := by
  have harg : Complex.arg ⟨(p.sub s).dot (q.sub s), (p.sub s).cross (q.sub s)⟩ = Real.pi / 2 :=
    Complex.arg_eq_pi_div_two_iff.mpr ⟨hd, hc⟩
  unfold angle
  simp only [rm_atan2, harg, rm_pi]
  rw [trim_of_le _ (by rw [abs_of_pos (by positivity)]; linarith [Real.pi_gt_three])]
  rw [if_neg (by linarith [Real.pi_gt_three])]

/-- The angle when the two directions are perpendicular and turn right. -/
theorem angle_right (s p q : point ℝ) (hd : (p.sub s).dot (q.sub s) = 0)
    (hc : (p.sub s).cross (q.sub s) < 0) : angle rm s p q = 3 * Real.pi / 2 := by
  have harg : Complex.arg ⟨(p.sub s).dot (q.sub s), (p.sub s).cross (q.sub s)⟩
      = -(Real.pi / 2) :=
    Complex.arg_eq_neg_pi_div_two_iff.mpr ⟨hd, hc⟩
  unfold angle
  simp only [rm_atan2, harg, rm_pi]
  rw [trim_of_le _ (by rw [abs_neg, abs_of_pos (by positivity)]; linarith [Real.pi_gt_three])]
  rw [if_pos (by linarith [Real.pi_gt_three])]
  ring

/-- The angle when the two directions are opposite. -/
theorem angle_back (s p q : point ℝ) (hd : (p.sub s).dot (q.sub s) < 0)
    (hc : (p.sub s).cross (q.sub s) = 0) : angle rm s p q = Real.pi := by
  have harg : Complex.arg ⟨(p.sub s).dot (q.sub s), (p.sub s).cross (q.sub s)⟩ = Real.pi :=
    Complex.arg_eq_pi_iff.mpr ⟨hd, hc⟩
  unfold angle
  simp only [rm_atan2, harg, rm_pi]
  rw [trim_of_le _ (by rw [abs_of_pos (by positivity)]; linarith [Real.pi_gt_three])]
  rw [if_neg (by linarith [Real.pi_gt_three])]

/-- The angle of a left turn by more than a right angle lies strictly between
`pi/2` and `pi`. -/
theorem angle_obtuse (s p q : point ℝ) (hd : (p.sub s).dot (q.sub s) < 0)
    (hc : 0 < (p.sub s).cross (q.sub s)) :
    Real.pi / 2 < angle rm s p q ∧ angle rm s p q < Real.pi := by
  have h1 : Real.pi / 2 <
      Complex.arg ⟨(p.sub s).dot (q.sub s), (p.sub s).cross (q.sub s)⟩ := by
    rw [← not_le, Complex.arg_le_pi_div_two_iff]
    simp only [not_or, not_le, not_lt]
    exact ⟨hd, le_of_lt hc⟩
  have h2 : Complex.arg ⟨(p.sub s).dot (q.sub s), (p.sub s).cross (q.sub s)⟩ < Real.pi := by
    rw [Complex.arg_lt_pi_iff]
    right
    exact ne_of_gt hc
  unfold angle
  simp only [rm_atan2, rm_pi]
  rw [trim_of_le _ (by rw [abs_of_pos (by linarith [Real.pi_gt_three])]; linarith [Real.pi_gt_three])]
  rw [if_neg (by linarith [Real.pi_gt_three])]
  exact ⟨h1, h2⟩

theorem abs_x (t : ℝ) : abs rm ⟨t, 0⟩ = |t| := by
  unfold abs
  rw [rm_sqrt, mul_zero, add_zero]
  exact Real.sqrt_mul_self_eq_abs t

theorem abs_y (t : ℝ) : abs rm ⟨0, t⟩ = |t| := by
  unfold abs
  rw [rm_sqrt, mul_zero, zero_add]
  exact Real.sqrt_mul_self_eq_abs t

end point

end search

namespace search

namespace convex_polygon

variable {K : Type} [LinearOrderedField K]

theorem scan_used (m : Libm K) (la pr : point K) (v : vertex K) (rest : List (vertex K))
    (i : Nat) (ma md : K) (sel : Nat) (h : v.state = vstate.used) :
    scan m la pr (v :: rest) i ma md sel = scan m la pr rest (i + 1) ma md sel := by
  rw [scan, if_pos h]

theorem scan_same (m : Libm K) (la pr : point K) (v : vertex K) (rest : List (vertex K))
    (i : Nat) (ma md : K) (sel : Nat) (h : v.state ≠ vstate.used)
    (he : v.coord.eq la = true) :
    scan m la pr (v :: rest) i ma md sel = scan m la pr rest (i + 1) ma md sel := by
  rw [scan, if_neg h, if_pos he]

theorem scan_take (m : Libm K) (la pr : point K) (v : vertex K) (rest : List (vertex K))
    (i : Nat) (ma md : K) (sel : Nat) (h : v.state ≠ vstate.used)
    (he : v.coord.eq la = false)
    (hb : la.angle m ((la.smul 2).sub pr) v.coord < ma ∨
      (la.angle m ((la.smul 2).sub pr) v.coord = ma ∧ (v.coord.sub la).abs m > md)) :
    scan m la pr (v :: rest) i ma md sel =
      scan m la pr rest (i + 1) (la.angle m ((la.smul 2).sub pr) v.coord)
        ((v.coord.sub la).abs m) i := by
  rw [scan, if_neg h, if_neg (by simp [he])]
  simp only
  rw [if_pos hb]

theorem scan_keep (m : Libm K) (la pr : point K) (v : vertex K) (rest : List (vertex K))
    (i : Nat) (ma md : K) (sel : Nat) (h : v.state ≠ vstate.used)
    (he : v.coord.eq la = false)
    (hb : ¬ (la.angle m ((la.smul 2).sub pr) v.coord < ma ∨
      (la.angle m ((la.smul 2).sub pr) v.coord = ma ∧ (v.coord.sub la).abs m > md))) :
    scan m la pr (v :: rest) i ma md sel = scan m la pr rest (i + 1) ma md sel := by
  rw [scan, if_neg h, if_neg (by simp [he])]
  simp only
  rw [if_neg hb]

theorem scan_nil (m : Libm K) (la pr : point K) (i : Nat) (ma md : K) (sel : Nat) :
    scan m la pr [] i ma md sel = (ma, md, sel) := by
  rw [scan]

end convex_polygon

/-- The rectangle with sides `w` and `h`, listed clockwise from the origin. -/
def rect (w h : ℝ) : List (point ℝ) := [⟨0, 0⟩, ⟨0, h⟩, ⟨w, h⟩, ⟨w, 0⟩]

namespace convex_polygon

set_option maxHeartbeats 4000000 in
/-- A rectangle listed clockwise from the origin is its own convex hull. -/
theorem rect_hull (w h : ℝ) (hw : 0 < w) (hh : 0 < h) :
    convex_hull rm (rect w h) = some (rect w h) := by
  have rect_step1 (w h : ℝ) (hw : 0 < w) (hh : 0 < h) :
      hull_step rm
        { vertices := [⟨⟨0, 0⟩, vstate.unused⟩, ⟨⟨0, h⟩, vstate.unused⟩,
            ⟨⟨w, h⟩, vstate.unused⟩, ⟨⟨w, 0⟩, vstate.first⟩]
          hull := [⟨w, 0⟩]
          last_added := ⟨w, 0⟩
          previous := ⟨w - 1, 0⟩
          select := 3 } =
      some
        { vertices := [⟨⟨0, 0⟩, vstate.unused⟩, ⟨⟨0, h⟩, vstate.unused⟩,
            ⟨⟨w, h⟩, vstate.used⟩, ⟨⟨w, 0⟩, vstate.first⟩]
          hull := [⟨w, h⟩, ⟨w, 0⟩]
          last_added := ⟨w, h⟩
          previous := ⟨w, 0⟩
          select := 2 } := by
    have a0 : point.angle rm ⟨w, 0⟩ ((point.smul ⟨w, 0⟩ 2).sub ⟨w - 1, 0⟩) ⟨0, 0⟩ = Real.pi :=
      point.angle_back _ _ _ (by simp only [point.sub, point.dot, point.smul]; nlinarith [mul_pos hw hh, mul_pos hw hw, mul_pos hh hh])
        (by simp only [point.sub, point.cross, point.smul]; ring)
    have a1 := point.angle_obtuse ⟨w, 0⟩ ((point.smul ⟨w, 0⟩ 2).sub ⟨w - 1, 0⟩) ⟨0, h⟩
        (by simp only [point.sub, point.dot, point.smul]; nlinarith [mul_pos hw hh, mul_pos hw hw, mul_pos hh hh])
        (by simp only [point.sub, point.cross, point.smul]; nlinarith [mul_pos hw hh, mul_pos hw hw, mul_pos hh hh])
    have a2 : point.angle rm ⟨w, 0⟩ ((point.smul ⟨w, 0⟩ 2).sub ⟨w - 1, 0⟩) ⟨w, h⟩
        = Real.pi / 2 :=
      point.angle_left _ _ _ (by simp only [point.sub, point.dot, point.smul]; ring)
        (by simp only [point.sub, point.cross, point.smul]; nlinarith [mul_pos hw hh, mul_pos hw hw, mul_pos hh hh])
    have hscan : (scan rm ⟨w, 0⟩ ⟨w - 1, 0⟩ [⟨⟨0, 0⟩, vstate.unused⟩, ⟨⟨0, h⟩, vstate.unused⟩,
        ⟨⟨w, h⟩, vstate.unused⟩, ⟨⟨w, 0⟩, vstate.first⟩] 0 (629 / 100) 0 3).2.2 = 2 := by
      rw [scan_take _ _ _ _ _ _ _ _ _ (by simp) (by simp [point.eq]; intro h0; linarith)
          (Or.inl (by rw [a0]; linarith [Real.pi_lt_four])),
        scan_take _ _ _ _ _ _ _ _ _ (by simp) (by simp [point.eq]; intro h0; linarith)
          (Or.inl (by rw [a0]; exact a1.2)),
        scan_take _ _ _ _ _ _ _ _ _ (by simp) (by simp [point.eq]; linarith)
          (Or.inl (by rw [a2]; exact a1.1)),
        scan_same _ _ _ _ _ _ _ _ _ (by simp) (by simp [point.eq]),
        scan_nil]
    unfold hull_step
    simp only [hscan]
    simp [set_state]
  have rect_step2 (w h : ℝ) (hw : 0 < w) (hh : 0 < h) :
      hull_step rm
        { vertices := [⟨⟨0, 0⟩, vstate.unused⟩, ⟨⟨0, h⟩, vstate.unused⟩,
            ⟨⟨w, h⟩, vstate.used⟩, ⟨⟨w, 0⟩, vstate.first⟩]
          hull := [⟨w, h⟩, ⟨w, 0⟩]
          last_added := ⟨w, h⟩
          previous := ⟨w, 0⟩
          select := 2 } =
      some
        { vertices := [⟨⟨0, 0⟩, vstate.unused⟩, ⟨⟨0, h⟩, vstate.used⟩,
            ⟨⟨w, h⟩, vstate.used⟩, ⟨⟨w, 0⟩, vstate.first⟩]
          hull := [⟨0, h⟩, ⟨w, h⟩, ⟨w, 0⟩]
          last_added := ⟨0, h⟩
          previous := ⟨w, h⟩
          select := 1 } := by
    have a0 := point.angle_obtuse ⟨w, h⟩ ((point.smul ⟨w, h⟩ 2).sub ⟨w, 0⟩) ⟨0, 0⟩
        (by simp only [point.sub, point.dot, point.smul]; nlinarith [mul_pos hw hh, mul_pos hw hw, mul_pos hh hh])
        (by simp only [point.sub, point.cross, point.smul]; nlinarith [mul_pos hw hh, mul_pos hw hw, mul_pos hh hh])
    have a1 : point.angle rm ⟨w, h⟩ ((point.smul ⟨w, h⟩ 2).sub ⟨w, 0⟩) ⟨0, h⟩ = Real.pi / 2 :=
      point.angle_left _ _ _ (by simp only [point.sub, point.dot, point.smul]; ring)
        (by simp only [point.sub, point.cross, point.smul]; nlinarith [mul_pos hw hh, mul_pos hw hw, mul_pos hh hh])
    have a3 : point.angle rm ⟨w, h⟩ ((point.smul ⟨w, h⟩ 2).sub ⟨w, 0⟩) ⟨w, 0⟩ = Real.pi :=
      point.angle_back _ _ _ (by simp only [point.sub, point.dot, point.smul]; nlinarith [mul_pos hw hh, mul_pos hw hw, mul_pos hh hh])
        (by simp only [point.sub, point.cross, point.smul]; ring)
    have hscan : (scan rm ⟨w, h⟩ ⟨w, 0⟩ [⟨⟨0, 0⟩, vstate.unused⟩, ⟨⟨0, h⟩, vstate.unused⟩,
        ⟨⟨w, h⟩, vstate.used⟩, ⟨⟨w, 0⟩, vstate.first⟩] 0 (629 / 100) 0 2).2.2 = 1 := by
      rw [scan_take _ _ _ _ _ _ _ _ _ (by simp) (by simp [point.eq]; intro h0; linarith)
          (Or.inl (by linarith [a0.2, Real.pi_lt_four])),
        scan_take _ _ _ _ _ _ _ _ _ (by simp) (by simp [point.eq]; linarith)
          (Or.inl (by rw [a1]; exact a0.1)),
        scan_used _ _ _ _ _ _ _ _ _ (by simp),
        scan_keep _ _ _ _ _ _ _ _ _ (by simp) (by simp [point.eq]; linarith)
          (by
            rw [a1, a3]; intro hc
            rcases hc with hc | hc
            · linarith [Real.pi_gt_three]
            · linarith [Real.pi_gt_three, hc.1]),
        scan_nil]
    unfold hull_step
    simp only [hscan]
    simp [set_state]
  have rect_step3 (w h : ℝ) (hw : 0 < w) (hh : 0 < h) :
      hull_step rm
        { vertices := [⟨⟨0, 0⟩, vstate.unused⟩, ⟨⟨0, h⟩, vstate.used⟩,
            ⟨⟨w, h⟩, vstate.used⟩, ⟨⟨w, 0⟩, vstate.first⟩]
          hull := [⟨0, h⟩, ⟨w, h⟩, ⟨w, 0⟩]
          last_added := ⟨0, h⟩
          previous := ⟨w, h⟩
          select := 1 } =
      some
        { vertices := [⟨⟨0, 0⟩, vstate.used⟩, ⟨⟨0, h⟩, vstate.used⟩,
            ⟨⟨w, h⟩, vstate.used⟩, ⟨⟨w, 0⟩, vstate.first⟩]
          hull := [⟨0, 0⟩, ⟨0, h⟩, ⟨w, h⟩, ⟨w, 0⟩]
          last_added := ⟨0, 0⟩
          previous := ⟨0, h⟩
          select := 0 } := by
    have a0 : point.angle rm ⟨0, h⟩ ((point.smul ⟨0, h⟩ 2).sub ⟨w, h⟩) ⟨0, 0⟩ = Real.pi / 2 :=
      point.angle_left _ _ _ (by simp only [point.sub, point.dot, point.smul]; ring)
        (by simp only [point.sub, point.cross, point.smul]; nlinarith [mul_pos hw hh, mul_pos hw hw, mul_pos hh hh])
    have a3 := point.angle_obtuse ⟨0, h⟩ ((point.smul ⟨0, h⟩ 2).sub ⟨w, h⟩) ⟨w, 0⟩
        (by simp only [point.sub, point.dot, point.smul]; nlinarith [mul_pos hw hh, mul_pos hw hw, mul_pos hh hh])
        (by simp only [point.sub, point.cross, point.smul]; nlinarith [mul_pos hw hh, mul_pos hw hw, mul_pos hh hh])
    have hscan : (scan rm ⟨0, h⟩ ⟨w, h⟩ [⟨⟨0, 0⟩, vstate.unused⟩, ⟨⟨0, h⟩, vstate.used⟩,
        ⟨⟨w, h⟩, vstate.used⟩, ⟨⟨w, 0⟩, vstate.first⟩] 0 (629 / 100) 0 1).2.2 = 0 := by
      rw [scan_take _ _ _ _ _ _ _ _ _ (by simp) (by simp [point.eq]; linarith)
          (Or.inl (by rw [a0]; linarith [Real.pi_lt_four])),
        scan_used _ _ _ _ _ _ _ _ _ (by simp),
        scan_used _ _ _ _ _ _ _ _ _ (by simp),
        scan_keep _ _ _ _ _ _ _ _ _ (by simp) (by simp [point.eq]; intro h0; linarith)
          (by
            rw [a0]; intro hc
            rcases hc with hc | hc
            · exact absurd hc (not_lt.mpr (le_of_lt a3.1))
            · exact absurd hc.1 (ne_of_gt a3.1)),
        scan_nil]
    unfold hull_step
    simp only [hscan]
    simp [set_state]
  have rect_step4 (w h : ℝ) (hw : 0 < w) (hh : 0 < h) :
      hull_step rm
        { vertices := [⟨⟨0, 0⟩, vstate.used⟩, ⟨⟨0, h⟩, vstate.used⟩,
            ⟨⟨w, h⟩, vstate.used⟩, ⟨⟨w, 0⟩, vstate.first⟩]
          hull := [⟨0, 0⟩, ⟨0, h⟩, ⟨w, h⟩, ⟨w, 0⟩]
          last_added := ⟨0, 0⟩
          previous := ⟨0, h⟩
          select := 0 } = Option.none := by
    have a3 : point.angle rm ⟨0, 0⟩ ((point.smul ⟨0, 0⟩ 2).sub ⟨0, h⟩) ⟨w, 0⟩ = Real.pi / 2 :=
      point.angle_left _ _ _ (by simp only [point.sub, point.dot, point.smul]; ring)
        (by simp only [point.sub, point.cross, point.smul]; nlinarith [mul_pos hw hh, mul_pos hw hw, mul_pos hh hh])
    have hscan : (scan rm ⟨0, 0⟩ ⟨0, h⟩ [⟨⟨0, 0⟩, vstate.used⟩, ⟨⟨0, h⟩, vstate.used⟩,
        ⟨⟨w, h⟩, vstate.used⟩, ⟨⟨w, 0⟩, vstate.first⟩] 0 (629 / 100) 0 0).2.2 = 3 := by
      rw [scan_used _ _ _ _ _ _ _ _ _ (by simp),
        scan_used _ _ _ _ _ _ _ _ _ (by simp),
        scan_used _ _ _ _ _ _ _ _ _ (by simp),
        scan_take _ _ _ _ _ _ _ _ _ (by simp) (by simp [point.eq]; intro h0; linarith)
          (Or.inl (by rw [a3]; linarith [Real.pi_lt_four])),
        scan_nil]
    unfold hull_step
    simp only [hscan]
    simp
  have hlr : lower_right [(⟨0, h⟩ : point ℝ), ⟨w, h⟩, ⟨w, 0⟩] 1 ⟨0, 0⟩ 0 = (⟨w, 0⟩, 3) := by
    simp [lower_right, hw, not_lt.mpr (le_of_lt hh), ne_of_gt hh]
  unfold convex_hull convex_hull_fuel rect
  simp only [List.length_cons, List.length_nil, Nat.reduceAdd, Nat.reduceLT, if_false]
  simp only [hull_init, hlr, List.map, set_state]
  rw [hull_loop, rect_step1 w h hw hh]
  simp only
  rw [hull_loop, rect_step2 w h hw hh]
  simp only
  rw [hull_loop, rect_step3 w h hw hh]
  simp only
  rw [hull_loop, rect_step4 w h hw hh]

end convex_polygon

end search

namespace search

/-- The object the constructor builds from the rectangle `rect w h`. -/
noncomputable def rect_pf (w h : ℝ) : convex_polygon_pf ℝ :=
  { num_vertices_v := 4
    area_v := w * h
    half_area_v := w * h / 2
    sides := [⟨⟨0, 0⟩, ⟨0, h⟩⟩, ⟨⟨0, h⟩, ⟨w, h⟩⟩, ⟨⟨w, h⟩, ⟨w, 0⟩⟩, ⟨⟨w, 0⟩, ⟨0, 0⟩⟩]
    function := []
    pf_ok := false
    pf_max_ok := false
    sc_ok := false
    maximum_v := 0
    num_segments_v := 0
    shortest_curve := ⟨ppf_form.none, ⟨0, 0⟩, ⟨0, 0⟩, ⟨0, 0⟩⟩ }

namespace convex_polygon_pf

theorem of_polygon_rect (w h : ℝ) (hw : 0 < w) (hh : 0 < h) :
    of_polygon rm (rect w h) = rect_pf w h := by
  have rect_area (w h : ℝ) (hw : 0 < w) (hh : 0 < h) :
      convex_polygon.area (rect w h) = w * h := by
    have e : |-(h * (w / 2))| = h * (w / 2) := by
      rw [abs_neg, abs_of_pos (by positivity)]
    simp [convex_polygon.area, rect, convex_polygon.area_loop, point.area, point.sign_area,
      point.sub, point.cross, point.sdiv, e]
    ring
  have e1 : point.abs rm ((⟨0, 0⟩ : point ℝ).sub ⟨0, h⟩) ≠ 0 := by
    simp only [point.sub, zero_sub, sub_self, point.abs_y, abs_neg]
    exact ne_of_gt (abs_pos.mpr (ne_of_gt hh))
  have e2 : point.abs rm ((⟨0, h⟩ : point ℝ).sub ⟨w, h⟩) ≠ 0 := by
    simp only [point.sub, zero_sub, sub_self, point.abs_x, abs_neg]
    exact ne_of_gt (abs_pos.mpr (ne_of_gt hw))
  have e3 : point.abs rm ((⟨w, h⟩ : point ℝ).sub ⟨w, 0⟩) ≠ 0 := by
    simp only [point.sub, sub_zero, sub_self, point.abs_y]
    exact ne_of_gt (abs_pos.mpr (ne_of_gt hh))
  have e4 : point.abs rm ((⟨w, 0⟩ : point ℝ).sub ⟨0, 0⟩) ≠ 0 := by
    simp only [point.sub, sub_zero, sub_self, point.abs_x]
    exact ne_of_gt (abs_pos.mpr (ne_of_gt hw))
  have hu : usub 4 0 = 4 := by unfold usub; norm_num
  unfold of_polygon
  rw [rect_area w h hw hh]
  simp only [rect, List.length_cons, List.length_nil, Nat.reduceAdd, gt_iff_lt, Nat.reduceLT,
    if_true, fill_sides, if_neg e1, if_neg e2, if_neg e3, List.getLast_cons_cons,
    List.getLast_singleton, ne_eq, e4, not_false_eq_true, List.cons_append, List.nil_append,
    rect_pf, hu]

end convex_polygon_pf

end search

namespace search

namespace point

theorem proj_vert (sx sy px py qy : ℝ) (h : qy ≠ py) :
    proj rm ⟨sx, sy⟩ ⟨px, py⟩ ⟨px, qy⟩ = (sy - py) / (qy - py) := by
  have hd : qy - py ≠ 0 := sub_ne_zero.mpr h
  have ha : |qy - py| ≠ 0 := abs_ne_zero.mpr hd
  unfold proj
  simp only [point.sub, sub_self, abs_y, if_neg ha, point.sdiv, point.dot, zero_div, zero_mul,
    zero_add]
  rw [div_mul_div_comm, abs_mul_abs_self]
  field_simp
  ring

theorem proj_horiz (sx sy px py qx : ℝ) (h : qx ≠ px) :
    proj rm ⟨sx, sy⟩ ⟨px, py⟩ ⟨qx, py⟩ = (sx - px) / (qx - px) := by
  have hd : qx - px ≠ 0 := sub_ne_zero.mpr h
  have ha : |qx - px| ≠ 0 := abs_ne_zero.mpr hd
  unfold proj
  simp only [point.sub, sub_self, abs_x, if_neg ha, point.sdiv, point.dot, zero_div, zero_mul,
    add_zero]
  rw [div_mul_div_comm, abs_mul_abs_self]
  field_simp
  ring

end point

end search

namespace search
namespace convex_polygon_pf

theorem side_at_rect (w h : ℝ) :
    (rect_pf w h).side_at 0 = ⟨⟨0, 0⟩, ⟨0, h⟩⟩ ∧ (rect_pf w h).side_at 1 = ⟨⟨0, h⟩, ⟨w, h⟩⟩ ∧
    (rect_pf w h).side_at 2 = ⟨⟨w, h⟩, ⟨w, 0⟩⟩ ∧ (rect_pf w h).side_at 3 = ⟨⟨w, 0⟩, ⟨0, 0⟩⟩ :=
  ⟨rfl, rfl, rfl, rfl⟩

theorem rect_n (w h : ℝ) : (rect_pf w h).num_vertices_v = 4 := rfl

theorem rect_pair_1_0 (w h : ℝ) (hw : 0 < w) (hh : 0 < h) :
    (partial_pf.of_sides rm (rect_pf w h) 1 0 Option.none).1 =
    (partial_pf.of_sides_arc rm (rect_pf w h) (3 * Real.pi / 2) (Real.pi / 2) 0 (min w h) 0 0
      ⟨0, h⟩ ⟨0, 0⟩ ⟨w, h⟩ h w Option.none).1 := by
  obtain ⟨s0, s1, s2, s3⟩ := side_at_rect w h
  have hθ : point.angle rm ⟨0, 0⟩ ((⟨w, h⟩ : point ℝ).sub ⟨0, h⟩)
      (((⟨0, h⟩ : point ℝ).sub ⟨0, 0⟩).neg) = 3 * Real.pi / 2 :=
    point.angle_right _ _ _ (by simp only [point.sub, point.dot, point.neg]; ring)
      (by simp only [point.sub, point.cross, point.neg]; nlinarith [mul_pos hw hh])
  have hr : partial_pf.center (⟨⟨0, h⟩, ⟨w, h⟩⟩ : side ℝ) ⟨⟨0, 0⟩, ⟨0, h⟩⟩ = ⟨0, h⟩ := by
    simp only [partial_pf.center, point.sub, point.smul, point.sdiv, point.sign_area, point.cross]
    congr 1 <;> field_simp <;> (try ring_nf) <;> (try simp)
  have hc : cyc_range 4 ((1 + 1) % 4) 0 = [2, 3] := by decide
  have hp2 : point.proj rm ⟨0, h⟩ ⟨w, h⟩ ⟨w, 0⟩ = 0 := by
    rw [point.proj_vert _ _ _ _ _ (ne_of_lt hh)]; simp
  have hp3 : point.proj rm ⟨0, h⟩ ⟨w, 0⟩ ⟨0, 0⟩ = 1 := by
    rw [point.proj_horiz _ _ _ _ _ (ne_of_lt hw)]; field_simp
  have hclip : clip_r_max rm (rect_pf w h) ⟨0, h⟩ [2, 3] (w ⊓ h) = w ⊓ h := by
    simp [clip_r_max, s2, s3, hp2, hp3]
  have harea : (rect_pf w h).area_idx 0 1 = 0 := by
    simp [area_idx, rect_n]
  have htri : (⟨0, h⟩ : point ℝ).area ⟨0, h⟩ ⟨0, h⟩ = 0 := by
    simp [point.area, point.sign_area, point.sub, point.cross, point.sdiv]
  have hθ2 : 2 * Real.pi - 3 * Real.pi / 2 = Real.pi / 2 := by ring
  unfold partial_pf.of_sides
  simp only [s0, s1, hθ, rm_pi, hr]
  rw [if_neg (by linarith [Real.pi_gt_three]), if_neg (by linarith [Real.pi_gt_three]),
    if_pos (by linarith [Real.pi_gt_three])]
  simp only [point.sub, sub_self, sub_zero, zero_sub, point.abs_x, point.abs_y, abs_neg, abs_zero,
    abs_of_pos hw, abs_of_pos hh]
  rw [if_neg (by simp only [not_or, not_le, ge_iff_le]; exact ⟨hh, hw⟩)]
  simp only [rect_n, hc, hclip, harea, htri, hθ2, ite_self, max_self]

theorem rect_pair_2_1 (w h : ℝ) (hw : 0 < w) (hh : 0 < h) :
    (partial_pf.of_sides rm (rect_pf w h) 2 1 Option.none).1 =
    (partial_pf.of_sides_arc rm (rect_pf w h) (3 * Real.pi / 2) (Real.pi / 2) 0 (min h w) 0 0
      ⟨w, h⟩ ⟨0, h⟩ ⟨w, 0⟩ w h Option.none).1 := by
  obtain ⟨s0, s1, s2, s3⟩ := side_at_rect w h
  have hθ : point.angle rm ⟨0, 0⟩ ((⟨w, 0⟩ : point ℝ).sub ⟨w, h⟩)
      (((⟨w, h⟩ : point ℝ).sub ⟨0, h⟩).neg) = 3 * Real.pi / 2 :=
    point.angle_right _ _ _ (by simp only [point.sub, point.dot, point.neg]; ring)
      (by simp only [point.sub, point.cross, point.neg]; nlinarith [mul_pos hw hh])
  have hr : partial_pf.center (⟨⟨w, h⟩, ⟨w, 0⟩⟩ : side ℝ) ⟨⟨0, h⟩, ⟨w, h⟩⟩ = ⟨w, h⟩ := by
    simp only [partial_pf.center, point.sub, point.smul, point.sdiv, point.sign_area, point.cross]
    congr 1 <;> field_simp <;> (try ring_nf) <;> (try simp)
  have hc : cyc_range 4 ((2 + 1) % 4) 1 = [3, 0] := by decide
  have hp3 : point.proj rm ⟨w, h⟩ ⟨w, 0⟩ ⟨0, 0⟩ = 0 := by
    rw [point.proj_horiz _ _ _ _ _ (ne_of_lt hw)]; simp
  have hp0 : point.proj rm ⟨w, h⟩ ⟨0, 0⟩ ⟨0, h⟩ = 1 := by
    rw [point.proj_vert _ _ _ _ _ (ne_of_gt hh)]; field_simp
  have hclip : clip_r_max rm (rect_pf w h) ⟨w, h⟩ [3, 0] (h ⊓ w) = h ⊓ w := by
    simp [clip_r_max, s0, s3, hp0, hp3]
  have harea : (rect_pf w h).area_idx 1 2 = 0 := by
    simp [area_idx, rect_n]
  have htri : (⟨w, h⟩ : point ℝ).area ⟨w, h⟩ ⟨w, h⟩ = 0 := by
    simp [point.area, point.sign_area, point.sub, point.cross, point.sdiv]
  have hθ2 : 2 * Real.pi - 3 * Real.pi / 2 = Real.pi / 2 := by ring
  unfold partial_pf.of_sides
  simp only [s1, s2, hθ, rm_pi, hr]
  rw [if_neg (by linarith [Real.pi_gt_three]), if_neg (by linarith [Real.pi_gt_three]),
    if_pos (by linarith [Real.pi_gt_three])]
  simp only [point.sub, sub_self, sub_zero, zero_sub, point.abs_x, point.abs_y, abs_neg, abs_zero,
    abs_of_pos hw, abs_of_pos hh]
  rw [if_neg (by simp only [not_or, not_le, ge_iff_le]; exact ⟨hw, hh⟩)]
  simp only [rect_n, hc, hclip, harea, htri, hθ2, ite_self, max_self]

theorem rect_pair_3_2 (w h : ℝ) (hw : 0 < w) (hh : 0 < h) :
    (partial_pf.of_sides rm (rect_pf w h) 3 2 Option.none).1 =
    (partial_pf.of_sides_arc rm (rect_pf w h) (3 * Real.pi / 2) (Real.pi / 2) 0 (min w h) 0 0
      ⟨w, 0⟩ ⟨w, h⟩ ⟨0, 0⟩ h w Option.none).1 := by
  obtain ⟨s0, s1, s2, s3⟩ := side_at_rect w h
  have hθ : point.angle rm ⟨0, 0⟩ ((⟨0, 0⟩ : point ℝ).sub ⟨w, 0⟩)
      (((⟨w, 0⟩ : point ℝ).sub ⟨w, h⟩).neg) = 3 * Real.pi / 2 :=
    point.angle_right _ _ _ (by simp only [point.sub, point.dot, point.neg]; ring)
      (by simp only [point.sub, point.cross, point.neg]; nlinarith [mul_pos hw hh])
  have hr : partial_pf.center (⟨⟨w, 0⟩, ⟨0, 0⟩⟩ : side ℝ) ⟨⟨w, h⟩, ⟨w, 0⟩⟩ = ⟨w, 0⟩ := by
    simp only [partial_pf.center, point.sub, point.smul, point.sdiv, point.sign_area, point.cross]
    congr 1 <;> field_simp <;> (try ring_nf) <;> (try simp)
  have hc : cyc_range 4 ((3 + 1) % 4) 2 = [0, 1] := by decide
  have hp0 : point.proj rm ⟨w, 0⟩ ⟨0, 0⟩ ⟨0, h⟩ = 0 := by
    rw [point.proj_vert _ _ _ _ _ (ne_of_gt hh)]; simp
  have hp1 : point.proj rm ⟨w, 0⟩ ⟨0, h⟩ ⟨w, h⟩ = 1 := by
    rw [point.proj_horiz _ _ _ _ _ (ne_of_gt hw)]; field_simp
  have hclip : clip_r_max rm (rect_pf w h) ⟨w, 0⟩ [0, 1] (w ⊓ h) = w ⊓ h := by
    simp [clip_r_max, s0, s1, hp0, hp1]
  have harea : (rect_pf w h).area_idx 2 3 = 0 := by
    simp [area_idx, rect_n]
  have htri : (⟨w, 0⟩ : point ℝ).area ⟨w, 0⟩ ⟨w, 0⟩ = 0 := by
    simp [point.area, point.sign_area, point.sub, point.cross, point.sdiv]
  have hθ2 : 2 * Real.pi - 3 * Real.pi / 2 = Real.pi / 2 := by ring
  unfold partial_pf.of_sides
  simp only [s2, s3, hθ, rm_pi, hr]
  rw [if_neg (by linarith [Real.pi_gt_three]), if_neg (by linarith [Real.pi_gt_three]),
    if_pos (by linarith [Real.pi_gt_three])]
  simp only [point.sub, sub_self, sub_zero, zero_sub, point.abs_x, point.abs_y, abs_neg, abs_zero,
    abs_of_pos hw, abs_of_pos hh]
  rw [if_neg (by simp only [not_or, not_le, ge_iff_le]; exact ⟨hh, hw⟩)]
  simp only [rect_n, hc, hclip, harea, htri, hθ2, ite_self, max_self]

theorem rect_pair_3_0 (w h : ℝ) (hw : 0 < w) (hh : 0 < h) :
    (partial_pf.of_sides rm (rect_pf w h) 3 0 Option.none).1 =
    (partial_pf.of_sides_arc rm (rect_pf w h) (Real.pi / 2) (Real.pi / 2) 0 (min w h) 0 0
      ⟨0, 0⟩ ⟨w, 0⟩ ⟨0, h⟩ w h Option.none).1 := by
  obtain ⟨s0, s1, s2, s3⟩ := side_at_rect w h
  have hθ : point.angle rm ⟨0, 0⟩ ((⟨0, 0⟩ : point ℝ).sub ⟨w, 0⟩)
      (((⟨0, h⟩ : point ℝ).sub ⟨0, 0⟩).neg) = Real.pi / 2 :=
    point.angle_left _ _ _ (by simp only [point.sub, point.dot, point.neg]; ring)
      (by simp only [point.sub, point.cross, point.neg]; nlinarith [mul_pos hw hh])
  have hr : partial_pf.center (⟨⟨w, 0⟩, ⟨0, 0⟩⟩ : side ℝ) ⟨⟨0, 0⟩, ⟨0, h⟩⟩ = ⟨0, 0⟩ := by
    simp only [partial_pf.center, point.sub, point.smul, point.sdiv, point.sign_area, point.cross]
    congr 1 <;> field_simp <;> (try ring_nf) <;> (try simp)
  have hc : cyc_range 4 ((0 + 1) % 4) 3 = [1, 2] := by decide
  have hp1 : point.proj rm ⟨0, 0⟩ ⟨0, h⟩ ⟨w, h⟩ = 0 := by
    rw [point.proj_horiz _ _ _ _ _ (ne_of_gt hw)]; simp
  have hp2 : point.proj rm ⟨0, 0⟩ ⟨w, h⟩ ⟨w, 0⟩ = 1 := by
    rw [point.proj_vert _ _ _ _ _ (ne_of_lt hh)]; field_simp
  have hclip : clip_r_max rm (rect_pf w h) ⟨0, 0⟩ [1, 2] (w ⊓ h) = w ⊓ h := by
    simp [clip_r_max, s1, s2, hp1, hp2]
  have harea : (rect_pf w h).area_idx 3 0 = 0 := by
    simp [area_idx, rect_n]
  have htri : (⟨0, 0⟩ : point ℝ).area ⟨0, 0⟩ ⟨0, 0⟩ = 0 := by
    simp [point.area, point.sign_area, point.sub, point.cross, point.sdiv]
  unfold partial_pf.of_sides
  simp only [s0, s3, hθ, rm_pi, hr]
  rw [if_neg (by linarith [Real.pi_gt_three]), if_pos (by linarith [Real.pi_gt_three])]
  simp only [point.sub, sub_self, sub_zero, zero_sub, point.abs_x, point.abs_y, abs_neg, abs_zero,
    abs_of_pos hw, abs_of_pos hh]
  rw [if_neg (by simp only [not_or, not_le, ge_iff_le]; exact ⟨hw, hh⟩)]
  simp only [rect_n, hc, hclip, harea, htri, ite_self, max_self]

end convex_polygon_pf
end search

namespace search
namespace convex_polygon_pf

set_option maxHeartbeats 4000000 in
theorem rect_pair_2_0 (w h : ℝ) (hw : 0 < w) (hh : 0 < h) :
    (partial_pf.of_sides rm (rect_pf w h) 2 0 Option.none).1 =
      ⟨ppf_form.constant, 0, w * h / 2, 0, w, w, w⟩ := by
  have trim_zero : trim (0 : ℝ) = 0 := by
    apply trim_of_lt; norm_num
  -- The angle when the two directions coincide.
  have angle_same (s p q : point ℝ) (hd : 0 ≤ (p.sub s).dot (q.sub s))
      (hc : (p.sub s).cross (q.sub s) = 0) : point.angle rm s p q = 0 := by
    have harg : Complex.arg ⟨(p.sub s).dot (q.sub s), (p.sub s).cross (q.sub s)⟩ = 0 :=
      Complex.arg_eq_zero_iff.mpr ⟨hd, hc⟩
    unfold point.angle
    simp only [rm_atan2, harg, rm_pi, trim_zero]
    rw [if_neg (by norm_num)]
  have dist_vert (sx sy px py qy : ℝ) (h : qy ≠ py) :
      point.dist rm ⟨sx, sy⟩ ⟨px, py⟩ ⟨px, qy⟩ = |sx - px| := by
    have hd : qy - py ≠ 0 := sub_ne_zero.mpr h
    have ha : |qy - py| ≠ 0 := abs_ne_zero.mpr hd
    unfold point.dist
    simp only [point.sub, sub_self, point.abs_y, if_neg ha, point.sdiv, point.dot, point.ortho,
      zero_div, zero_mul, add_zero]
    rw [abs_mul, abs_div, abs_neg, abs_abs, div_self ha, one_mul]
  obtain ⟨s0, s1, s2, s3⟩ := side_at_rect w h
  have hθ : point.angle rm ⟨0, 0⟩ ((⟨w, 0⟩ : point ℝ).sub ⟨w, h⟩)
      (((⟨0, h⟩ : point ℝ).sub ⟨0, 0⟩).neg) = 0 :=
    angle_same _ _ _ (by simp only [point.sub, point.dot, point.neg]; nlinarith [mul_pos hh hh])
      (by simp only [point.sub, point.cross, point.neg]; ring)
  have hp2 : point.proj rm ⟨0, 0⟩ ⟨w, h⟩ ⟨w, 0⟩ = 1 := by
    rw [point.proj_vert _ _ _ _ _ (ne_of_lt hh)]; field_simp
  have hq2 : point.proj rm ⟨0, h⟩ ⟨w, h⟩ ⟨w, 0⟩ = 0 := by
    rw [point.proj_vert _ _ _ _ _ (ne_of_lt hh)]; simp
  have hc1 : cyc_range 4 ((2 + 1) % 4) 0 = [3] := by decide
  have hc2 : cyc_range 4 ((0 + 1) % 4) 2 = [1] := by decide
  have hd : point.dist rm ⟨w, h⟩ ⟨0, 0⟩ ⟨0, h⟩ = w := by
    rw [dist_vert _ _ _ _ _ (ne_of_gt hh), sub_zero, abs_of_pos hw]
  have hne : ¬ (0 : ℝ) = w * h / 2 := ne_of_lt (by positivity)
  have hmin : min (w * h - 0) (w * h / 2) = w * h / 2 := by
    rw [min_eq_right]; linarith [mul_pos hw hh]
  have har : (rect_pf w h).area_pt 2 0 ⟨0, 0⟩ = 0 := by
    simp [area_pt, rect_n, hc1, s3, point.area, point.sign_area, point.sub, point.cross,
      point.sdiv]
  have has : (rect_pf w h).area_pt 0 2 ⟨w, h⟩ = 0 := by
    simp [area_pt, rect_n, hc2, s1, point.area, point.sign_area, point.sub, point.cross,
      point.sdiv]
  have hav : (rect_pf w h).area_v = w * h := rfl
  have hhv : (rect_pf w h).half_area_v = w * h / 2 := rfl
  unfold partial_pf.of_sides
  simp only [s0, s2, hθ, if_true]
  unfold partial_pf.of_sides_parallel
  simp only [s0, s2, hp2, hq2]
  rw [if_neg (by norm_num)]
  simp only [lt_irrefl, if_false, sub_self, point.smul, mul_zero, point.sub, sub_zero, point.add,
    add_zero]
  simp only [har, has, hd, min_self, hav, hhv, hmin, if_neg hne]

set_option maxHeartbeats 4000000 in
theorem rect_pair_3_1 (w h : ℝ) (hw : 0 < w) (hh : 0 < h) :
    (partial_pf.of_sides rm (rect_pf w h) 3 1 Option.none).1 =
      ⟨ppf_form.constant, 0, w * h / 2, 0, h, h, h⟩ := by
  have trim_zero : trim (0 : ℝ) = 0 := by
    apply trim_of_lt; norm_num
  -- The angle when the two directions coincide.
  have angle_same (s p q : point ℝ) (hd : 0 ≤ (p.sub s).dot (q.sub s))
      (hc : (p.sub s).cross (q.sub s) = 0) : point.angle rm s p q = 0 := by
    have harg : Complex.arg ⟨(p.sub s).dot (q.sub s), (p.sub s).cross (q.sub s)⟩ = 0 :=
      Complex.arg_eq_zero_iff.mpr ⟨hd, hc⟩
    unfold point.angle
    simp only [rm_atan2, harg, rm_pi, trim_zero]
    rw [if_neg (by norm_num)]
  have dist_horiz (sx sy px py qx : ℝ) (h : qx ≠ px) :
      point.dist rm ⟨sx, sy⟩ ⟨px, py⟩ ⟨qx, py⟩ = |sy - py| := by
    have hd : qx - px ≠ 0 := sub_ne_zero.mpr h
    have ha : |qx - px| ≠ 0 := abs_ne_zero.mpr hd
    unfold point.dist
    simp only [point.sub, sub_self, point.abs_x, if_neg ha, point.sdiv, point.dot, point.ortho,
      neg_zero, zero_div, zero_mul, zero_add]
    rw [abs_mul, abs_div, abs_abs, div_self ha, one_mul]
  obtain ⟨s0, s1, s2, s3⟩ := side_at_rect w h
  have hθ : point.angle rm ⟨0, 0⟩ ((⟨0, 0⟩ : point ℝ).sub ⟨w, 0⟩)
      (((⟨w, h⟩ : point ℝ).sub ⟨0, h⟩).neg) = 0 :=
    angle_same _ _ _ (by simp only [point.sub, point.dot, point.neg]; nlinarith [mul_pos hw hw])
      (by simp only [point.sub, point.cross, point.neg]; ring)
  have hp2 : point.proj rm ⟨0, h⟩ ⟨w, 0⟩ ⟨0, 0⟩ = 1 := by
    rw [point.proj_horiz _ _ _ _ _ (ne_of_lt hw)]; field_simp
  have hq2 : point.proj rm ⟨w, h⟩ ⟨w, 0⟩ ⟨0, 0⟩ = 0 := by
    rw [point.proj_horiz _ _ _ _ _ (ne_of_lt hw)]; simp
  have hc1 : cyc_range 4 ((3 + 1) % 4) 1 = [0] := by decide
  have hc2 : cyc_range 4 ((1 + 1) % 4) 3 = [2] := by decide
  have hd : point.dist rm ⟨w, 0⟩ ⟨0, h⟩ ⟨w, h⟩ = h := by
    rw [dist_horiz _ _ _ _ _ (ne_of_gt hw), zero_sub, abs_neg, abs_of_pos hh]
  have hne : ¬ (0 : ℝ) = w * h / 2 := ne_of_lt (by positivity)
  have hmin : min (w * h - 0) (w * h / 2) = w * h / 2 := by
    rw [min_eq_right]; linarith [mul_pos hw hh]
  have har : (rect_pf w h).area_pt 3 1 ⟨0, h⟩ = 0 := by
    simp [area_pt, rect_n, hc1, s0, point.area, point.sign_area, point.sub, point.cross,
      point.sdiv]
  have has : (rect_pf w h).area_pt 1 3 ⟨w, 0⟩ = 0 := by
    simp [area_pt, rect_n, hc2, s2, point.area, point.sign_area, point.sub, point.cross,
      point.sdiv]
  have hav : (rect_pf w h).area_v = w * h := rfl
  have hhv : (rect_pf w h).half_area_v = w * h / 2 := rfl
  unfold partial_pf.of_sides
  simp only [s1, s3, hθ, if_true]
  unfold partial_pf.of_sides_parallel
  simp only [s1, s3, hp2, hq2]
  rw [if_neg (by norm_num)]
  simp only [lt_irrefl, if_false, sub_self, point.smul, mul_zero, point.sub, sub_zero, point.add,
    add_zero, zero_sub]
  simp only [har, has, hd, min_self, hav, hhv, hmin, if_neg hne]

end convex_polygon_pf
end search

namespace search

namespace partial_pf

variable {K : Type} [LinearOrderedField K]

/-- The arc branch when the domain reaches beyond `half_area ()` and is clipped there. -/
theorem of_sides_arc_clipped (m : Libm K) (c : convex_polygon_pf K)
    (theta1 theta2 r_min r_max tri sub : K) (r u v : point K) (du dv : K)
    (h1 : r_min < r_max)
    (h2 : r_min * r_min * theta2 / 2 - (tri - sub) ≤ c.half_area_v)
    (h3 : c.half_area_v < r_max * r_max * theta2 / 2 - (tri - sub))
    (h4 : r_min * r_min * theta2 / 2 - (tri - sub) ≠ c.half_area_v) :
    (of_sides_arc m c theta1 theta2 r_min r_max tri sub r u v du dv Option.none).1 =
      ⟨ppf_form.sqrt, r_min * r_min * theta2 / 2 - (tri - sub), c.half_area_v, theta2, tri - sub,
        r_min * theta2, m.sqrt (2 * theta2 * (c.half_area_v + (tri - sub)))⟩ := by
  unfold of_sides_arc
  simp only [if_neg (not_le.mpr h1), if_neg (not_lt.mpr h2), if_pos h3, if_neg h4, pf]
  simp

/-- The arc branch when the domain ends before `half_area ()`. -/
theorem of_sides_arc_inside (m : Libm K) (c : convex_polygon_pf K)
    (theta1 theta2 r_min r_max tri sub : K) (r u v : point K) (du dv : K)
    (h1 : r_min < r_max)
    (h2 : r_min * r_min * theta2 / 2 - (tri - sub) ≤ c.half_area_v)
    (h3 : r_max * r_max * theta2 / 2 - (tri - sub) ≤ c.half_area_v)
    (h4 : r_min * r_min * theta2 / 2 - (tri - sub) ≠ r_max * r_max * theta2 / 2 - (tri - sub)) :
    (of_sides_arc m c theta1 theta2 r_min r_max tri sub r u v du dv Option.none).1 =
      ⟨ppf_form.sqrt, r_min * r_min * theta2 / 2 - (tri - sub),
        r_max * r_max * theta2 / 2 - (tri - sub), theta2, tri - sub,
        r_min * theta2, r_max * theta2⟩ := by
  unfold of_sides_arc
  simp only [if_neg (not_le.mpr h1), if_neg (not_lt.mpr h2), if_neg (not_lt.mpr h3), if_neg h4]

end partial_pf

namespace convex_polygon_pf

variable {K : Type} [LinearOrderedField K]

theorem insert_ppf_nil (m : Libm K) (ppf : partial_pf K) : insert_ppf m ppf [] = [] := by
  rw [insert_ppf]

theorem insert_ppf_skip (m : Libm K) (ppf n : partial_pf K) (rest : List (partial_pf K))
    (h : n.begin m ppf = Option.none) :
    insert_ppf m ppf (n :: rest) = n :: insert_ppf m ppf rest := by
  rw [insert_ppf, h]

theorem insert_ppf_closed (m : Libm K) (ppf n : partial_pf K) (rest : List (partial_pf K))
    (left right : K) (f_left : Bool) (h : n.begin m ppf = some (left, right, f_left, false)) :
    insert_ppf m ppf (n :: rest) =
      split_left m n left f_left ++
        set_b m (set_a m ppf left) right :: set_a m n right :: insert_ppf m ppf rest := by
  rw [insert_ppf, h]
  simp

theorem insert_ppf_open (m : Libm K) (ppf n : partial_pf K) (rest : List (partial_pf K))
    (left right : K) (f_left : Bool) (h : n.begin m ppf = some (left, right, f_left, true)) :
    insert_ppf m ppf (n :: rest) =
      split_left m n left f_left ++
        set_b m (set_a m ppf left) (find_end m ppf rest right f_left).1 ::
          insert_ppf m ppf
            (shift_begin m (find_end m ppf rest right f_left).1
              (find_end m ppf rest right f_left).2.1 (find_end m ppf rest right f_left).2.2) := by
  rw [insert_ppf, h]
  simp

theorem side_pairs_four : side_pairs 4 = [(1, 0), (2, 0), (2, 1), (3, 0), (3, 1), (3, 2)] := by
  decide

/-- The begin test fails when the two thetas agree within the working precision. -/
theorem begin_same_theta (m : Libm K) (s ppf : partial_pf K)
    (h : equal (s.theta - ppf.theta) 0 = true) : s.begin m ppf = Option.none := by
  unfold partial_pf.begin
  simp only [h, if_true]
  split_ifs <;> rfl

/-- The begin test fails when the domains do not overlap. -/
theorem begin_disjoint (m : Libm K) (s ppf : partial_pf K)
    (h : s.b ≤ ppf.a ∨ s.a ≥ ppf.b) : s.begin m ppf = Option.none := by
  unfold partial_pf.begin
  rw [if_pos h]

/-- The begin test fails when, after `trim`, `*this` is not above `ppf` at the left end of
the common domain and not above it at the right end. -/
theorem begin_not_above (m : Libm K) (s ppf : partial_pf K)
    (ha : trim (s.pf m (max s.a ppf.a) - ppf.pf m (max s.a ppf.a)) ≤ 0)
    (hb : trim (s.pf m (min s.b ppf.b) - ppf.pf m (min s.b ppf.b)) ≤ 0) :
    s.begin m ppf = Option.none := by
  unfold partial_pf.begin
  simp only [if_pos hb]
  split_ifs with h1 h2 h3 h4
  all_goals first
    | rfl
    | exact absurd (le_antisymm ha (not_lt.mp h3)) h4

/-- The begin test when `*this` is above `ppf` on the whole common domain. -/
theorem begin_above (m : Libm K) (s ppf : partial_pf K)
    (hd : ¬ (s.b ≤ ppf.a ∨ s.a ≥ ppf.b)) (ht : equal (s.theta - ppf.theta) 0 = false)
    (ha : 0 < trim (s.pf m (max s.a ppf.a) - ppf.pf m (max s.a ppf.a)))
    (hb : 0 ≤ trim (s.pf m (min s.b ppf.b) - ppf.pf m (min s.b ppf.b))) :
    s.begin m ppf =
      some (max s.a ppf.a, min s.b ppf.b, decide (s.a ≥ ppf.a), decide (s.b ≤ ppf.b)) := by
  unfold partial_pf.begin
  simp only [if_neg hd, ht, Bool.false_eq_true, if_false, if_neg (not_lt.mpr (le_of_lt ha)),
    if_neg (ne_of_gt ha), if_neg (not_lt.mpr hb)]

/-- The begin test when `*this` starts below `ppf` and ends above it: the left insertion
point is the root. -/
theorem begin_crossing (m : Libm K) (s ppf : partial_pf K)
    (hd : ¬ (s.b ≤ ppf.a ∨ s.a ≥ ppf.b)) (ht : equal (s.theta - ppf.theta) 0 = false)
    (ha : trim (s.pf m (max s.a ppf.a) - ppf.pf m (max s.a ppf.a)) < 0)
    (hb : 0 < trim (s.pf m (min s.b ppf.b) - ppf.pf m (min s.b ppf.b)))
    (hr : s.root ppf ≠ min s.b ppf.b) :
    s.begin m ppf = some (s.root ppf, min s.b ppf.b, false, decide (s.b ≤ ppf.b)) := by
  unfold partial_pf.begin
  simp only [if_neg hd, ht, Bool.false_eq_true, if_false, if_pos ha, if_neg (not_le.mpr hb),
    if_neg hr]

end convex_polygon_pf
end search

namespace search
namespace convex_polygon_pf

/-- The corner arc of a rectangle when it is clipped at half the area. -/
theorem rect_corner_clipped (w h d θ1 : ℝ) (r u v : point ℝ) (du dv : ℝ) (hd : 0 < d)
    (hw : 0 < w) (hh : 0 < h) (hclip : w * h / 2 < d * d * (Real.pi / 2) / 2) :
    (partial_pf.of_sides_arc rm (rect_pf w h) θ1 (Real.pi / 2) 0 d 0 0 r u v du dv
      Option.none).1 =
      ⟨ppf_form.sqrt, 0, w * h / 2, Real.pi / 2, 0, 0, Real.sqrt (Real.pi * (w * h) / 2)⟩ := by
  have hhv : (rect_pf w h).half_area_v = w * h / 2 := rfl
  rw [partial_pf.of_sides_arc_clipped rm (rect_pf w h) θ1 (Real.pi / 2) 0 d 0 0 r u v du dv hd
    (by rw [hhv]; simp; positivity) (by rw [hhv]; simpa using hclip)
    (by rw [hhv]; simp; exact ne_of_lt (by positivity))]
  simp only [hhv, rm_sqrt, mul_zero, zero_mul, zero_div, sub_self, add_zero]
  congr 2
  ring

end convex_polygon_pf
end search

namespace search
namespace convex_polygon_pf

theorem pf_sqrt_form (a b θ ζ pa pb z : ℝ) :
    partial_pf.pf rm ⟨ppf_form.sqrt, a, b, θ, ζ, pa, pb⟩ z = Real.sqrt (2 * θ * (z + ζ)) := by
  simp [partial_pf.pf, rm_sqrt]

theorem equal_false_of_le (x : ℝ) (h : (1 : ℝ) / 10000000000 ≤ |x|) : equal x 0 = false := by
  unfold equal working_precision
  simp only [sub_zero, decide_eq_false_iff_not, not_lt]
  exact h

theorem equal_true_of_lt (x : ℝ) (h : |x| < (1 : ℝ) / 10000000000) : equal x 0 = true := by
  unfold equal working_precision
  simp only [sub_zero, decide_eq_true_eq]
  exact h

end convex_polygon_pf
end search

namespace search
namespace convex_polygon_pf

/-- The assembly of a rectangle whose four corner arcs all give the partial function `cn`:
the six side pairs are inserted in the order of the two nested loops. -/
theorem assemble_rect (w h : ℝ) (hw : 0 < w) (hh : 0 < h) (cn : partial_pf ℝ)
    (hcn : cn.form ≠ ppf_form.none)
    (h1 : ∀ (θ1 : ℝ) (r u v : point ℝ) (du dv : ℝ),
      (partial_pf.of_sides_arc rm (rect_pf w h) θ1 (Real.pi / 2) 0 (min w h) 0 0 r u v du dv
        Option.none).1 = cn)
    (h2 : ∀ (θ1 : ℝ) (r u v : point ℝ) (du dv : ℝ),
      (partial_pf.of_sides_arc rm (rect_pf w h) θ1 (Real.pi / 2) 0 (min h w) 0 0 r u v du dv
        Option.none).1 = cn) :
    assemble rm (rect_pf w h) =
      insert_ppf rm cn (insert_ppf rm ⟨ppf_form.constant, 0, w * h / 2, 0, h, h, h⟩
        (insert_ppf rm cn (insert_ppf rm cn
          (insert_ppf rm ⟨ppf_form.constant, 0, w * h / 2, 0, w, w, w⟩
            (insert_ppf rm cn
              [⟨ppf_form.constant, 0, w * h / 2, 0, Real.sqrt (10 * Real.pi * (w * h)),
                Real.sqrt (10 * Real.pi * (w * h)), Real.sqrt (10 * Real.pi * (w * h))⟩]))))) := by
  have hk : ppf_form.constant ≠ ppf_form.none := by decide
  unfold assemble
  rw [if_pos (by rw [rect_n]; norm_num), rect_n, side_pairs_four]
  simp only [List.foldl_cons, List.foldl_nil, rect_pair_1_0 w h hw hh, rect_pair_2_0 w h hw hh,
    rect_pair_2_1 w h hw hh, rect_pair_3_0 w h hw hh, rect_pair_3_1 w h hw hh,
    rect_pair_3_2 w h hw hh, h1, h2, if_neg hcn, if_neg hk]
  rfl

end convex_polygon_pf
end search

namespace search
namespace convex_polygon_pf

set_option maxHeartbeats 4000000 in
theorem ensure_pf_usq :
    ensure_pf rm (of_polygon rm (rect 1 1)) =
      { rect_pf 1 1 with
        pf_ok := true
        pf_max_ok := true
        function := [⟨ppf_form.sqrt, 0, 1 / Real.pi, Real.pi / 2, 0, 0, 1⟩,
          ⟨ppf_form.constant, 1 / Real.pi, 1 / 2, 0, 1, 1, 1⟩]
        maximum_v := 1
        num_segments_v := 3 } := by
  have trim_zero : trim (0 : ℝ) = 0 := by
    apply trim_of_lt; norm_num
  have pf_const_form (a b θ ζ pa pb z : ℝ) :
      partial_pf.pf rm ⟨ppf_form.constant, a, b, θ, ζ, pa, pb⟩ z = pa := by
    simp [partial_pf.pf]
  have sqrt_half_pi_gt : (6 : ℝ) / 5 < Real.sqrt (Real.pi / 2) := by
    rw [Real.lt_sqrt (by norm_num)]
    nlinarith [Real.pi_gt_three]
  -- The state of the unit square's object once `find_pf` has run.
  have find_pf_usq :
      find_pf rm (rect_pf 1 1) =
        { rect_pf 1 1 with
          pf_ok := true
          pf_max_ok := true
          function := [⟨ppf_form.sqrt, 0, 1 / Real.pi, Real.pi / 2, 0, 0, 1⟩,
            ⟨ppf_form.constant, 1 / Real.pi, 1 / 2, 0, 1, 1, 1⟩]
          maximum_v := 1
          num_segments_v := 3 } := by
    -- The list `find_pf` assembles for the unit square: the corner arc up to `1/pi`, then
    -- the constant 1.
    have assemble_usq :
        assemble rm (rect_pf 1 1) =
          [⟨ppf_form.sqrt, 0, 1 / Real.pi, Real.pi / 2, 0, 0, 1⟩,
           ⟨ppf_form.constant, 1 / Real.pi, 1 / 2, 0, 1, 1, 1⟩] := by
      -- The unit square: the corner arc replaces the fictitious node.
      have usq_step1 :
          insert_ppf rm ⟨ppf_form.sqrt, 0, 1 / 2, Real.pi / 2, 0, 0, Real.sqrt (Real.pi / 2)⟩
            [⟨ppf_form.constant, 0, 1 / 2, 0, Real.sqrt (10 * Real.pi), Real.sqrt (10 * Real.pi),
              Real.sqrt (10 * Real.pi)⟩] =
            [⟨ppf_form.sqrt, 0, 1 / 2, Real.pi / 2, 0, 0, Real.sqrt (Real.pi / 2)⟩] := by
        have sqrt_half_pi_lt : Real.sqrt (Real.pi / 2) < 2 := by
          rw [Real.sqrt_lt' (by norm_num)]
          nlinarith [Real.pi_lt_four]
        have sqrt_ten_pi_gt : (5 : ℝ) < Real.sqrt (10 * Real.pi) := by
          rw [Real.lt_sqrt (by norm_num)]
          nlinarith [Real.pi_gt_three]
        have e1 : (2 : ℝ) * (Real.pi / 2) * (1 / 2 + 0) = Real.pi / 2 := by ring
        have e2 : (2 : ℝ) * (Real.pi / 2) * (1 / 2) = Real.pi / 2 := by ring
        rw [insert_ppf_open rm _ _ _ 0 (1 / 2) true
          (by
            rw [begin_above rm _ _ (by norm_num)
              (equal_false_of_le _ (by
                simp only [zero_sub, abs_neg]
                rw [abs_of_pos (by positivity)]
                linarith [Real.pi_gt_three]))]
            · simp
            · simp only [max_self, pf_const_form, pf_sqrt_form, add_zero, mul_zero, Real.sqrt_zero,
                sub_zero]
              rw [trim_of_le _ (by
                rw [abs_of_pos (by positivity)]; linarith [sqrt_ten_pi_gt])]
              positivity
            · simp only [min_self, pf_const_form, pf_sqrt_form, e1]
              rw [trim_of_le _ (by
                rw [abs_of_pos (by linarith [sqrt_ten_pi_gt, sqrt_half_pi_lt])]
                linarith [sqrt_ten_pi_gt, sqrt_half_pi_lt])]
              linarith [sqrt_ten_pi_gt, sqrt_half_pi_lt])]
        simp only [split_left, find_end, shift_begin, insert_ppf_nil, set_a, set_b, pf_sqrt_form,
          List.nil_append, Bool.true_eq_false, if_false, add_zero, mul_zero, Real.sqrt_zero, e2]
      have two_half_pi_inv : (2 : ℝ) * (Real.pi / 2) * (1 / Real.pi) = 1 := by
        field_simp
      have inv_pi_lt_half : (1 : ℝ) / Real.pi < 1 / 2 := by
        rw [div_lt_div_iff Real.pi_pos (by norm_num)]
        linarith [Real.pi_gt_three]
      -- The unit square: the constant of a pair of parallel sides takes over from `1/pi` on.
      have usq_step2 :
          insert_ppf rm ⟨ppf_form.constant, 0, 1 / 2, 0, 1, 1, 1⟩
            [⟨ppf_form.sqrt, 0, 1 / 2, Real.pi / 2, 0, 0, Real.sqrt (Real.pi / 2)⟩] =
            [⟨ppf_form.sqrt, 0, 1 / Real.pi, Real.pi / 2, 0, 0, 1⟩,
             ⟨ppf_form.constant, 1 / Real.pi, 1 / 2, 0, 1, 1, 1⟩] := by
        have e2 : (2 : ℝ) * (Real.pi / 2) * (1 / 2) = Real.pi / 2 := by ring
        have hroot : partial_pf.root (⟨ppf_form.sqrt, 0, 1 / 2, Real.pi / 2, 0, 0,
            Real.sqrt (Real.pi / 2)⟩ : partial_pf ℝ) ⟨ppf_form.constant, 0, 1 / 2, 0, 1, 1, 1⟩
            = 1 / Real.pi := by
          simp [partial_pf.root]
          field_simp
        rw [insert_ppf_open rm _ _ _ (1 / Real.pi) (1 / 2) false
          (by
            rw [begin_crossing rm _ _ (by norm_num)
              (equal_false_of_le _ (by
                simp only [sub_zero]
                rw [abs_of_pos (by positivity)]
                linarith [Real.pi_gt_three]))]
            · rw [hroot]; simp
            · simp only [max_self, pf_const_form, pf_sqrt_form, add_zero, mul_zero, Real.sqrt_zero,
                zero_sub]
              rw [trim_of_le _ (by norm_num)]
              norm_num
            · simp only [min_self, pf_const_form, pf_sqrt_form, add_zero, e2]
              rw [trim_of_le _ (by
                rw [abs_of_pos (by linarith [sqrt_half_pi_gt])]
                linarith [sqrt_half_pi_gt])]
              linarith [sqrt_half_pi_gt]
            · rw [hroot, min_self]
              exact ne_of_lt inv_pi_lt_half)]
        simp only [split_left, find_end, shift_begin, insert_ppf_nil, set_a, set_b, pf_sqrt_form,
          pf_const_form, if_true, add_zero, two_half_pi_inv, Real.sqrt_one, List.singleton_append]
      -- The unit square: a further corner arc changes nothing.
      have usq_step3 :
          insert_ppf rm ⟨ppf_form.sqrt, 0, 1 / 2, Real.pi / 2, 0, 0, Real.sqrt (Real.pi / 2)⟩
            [⟨ppf_form.sqrt, 0, 1 / Real.pi, Real.pi / 2, 0, 0, 1⟩,
             ⟨ppf_form.constant, 1 / Real.pi, 1 / 2, 0, 1, 1, 1⟩] =
            [⟨ppf_form.sqrt, 0, 1 / Real.pi, Real.pi / 2, 0, 0, 1⟩,
             ⟨ppf_form.constant, 1 / Real.pi, 1 / 2, 0, 1, 1, 1⟩] := by
        have e2 : (2 : ℝ) * (Real.pi / 2) * (1 / 2) = Real.pi / 2 := by ring
        have hmax : max (1 / Real.pi) (0 : ℝ) = 1 / Real.pi := max_eq_left (by positivity)
        rw [insert_ppf_skip rm _ _ _ (begin_same_theta rm _ _ (equal_true_of_lt _ (by norm_num))),
          insert_ppf_skip rm _ _ _ (begin_not_above rm _ _
            (by
              simp only [hmax, pf_const_form, pf_sqrt_form, add_zero, two_half_pi_inv, Real.sqrt_one,
                sub_self, trim_zero, le_refl])
            (by
              simp only [min_self, pf_const_form, pf_sqrt_form, add_zero, e2]
              rw [trim_of_le _ (by
                rw [abs_sub_comm, abs_of_pos (by linarith [sqrt_half_pi_gt])]
                linarith [sqrt_half_pi_gt])]
              linarith [sqrt_half_pi_gt])),
          insert_ppf_nil]
      -- The unit square: the second constant changes nothing.
      have usq_step4 :
          insert_ppf rm ⟨ppf_form.constant, 0, 1 / 2, 0, 1, 1, 1⟩
            [⟨ppf_form.sqrt, 0, 1 / Real.pi, Real.pi / 2, 0, 0, 1⟩,
             ⟨ppf_form.constant, 1 / Real.pi, 1 / 2, 0, 1, 1, 1⟩] =
            [⟨ppf_form.sqrt, 0, 1 / Real.pi, Real.pi / 2, 0, 0, 1⟩,
             ⟨ppf_form.constant, 1 / Real.pi, 1 / 2, 0, 1, 1, 1⟩] := by
        have hmin : min (1 / Real.pi) ((1 : ℝ) / 2) = 1 / Real.pi :=
          min_eq_left (le_of_lt inv_pi_lt_half)
        rw [insert_ppf_skip rm _ _ _ (begin_not_above rm _ _
            (by
              simp only [max_self, pf_const_form, pf_sqrt_form, add_zero, mul_zero, Real.sqrt_zero,
                zero_sub]
              rw [trim_of_le _ (by norm_num)]
              norm_num)
            (by
              simp only [hmin, pf_const_form, pf_sqrt_form, add_zero, two_half_pi_inv, Real.sqrt_one,
                sub_self, trim_zero, le_refl])),
          insert_ppf_skip rm _ _ _ (begin_same_theta rm _ _ (equal_true_of_lt _ (by norm_num))),
          insert_ppf_nil]
      have hc : ∀ (d θ1 : ℝ) (r u v : point ℝ) (du dv : ℝ), d = 1 →
          (partial_pf.of_sides_arc rm (rect_pf 1 1) θ1 (Real.pi / 2) 0 d 0 0 r u v du dv
            Option.none).1 =
          ⟨ppf_form.sqrt, 0, 1 / 2, Real.pi / 2, 0, 0, Real.sqrt (Real.pi / 2)⟩ := by
        intro d θ1 r u v du dv hd
        subst hd
        rw [rect_corner_clipped 1 1 1 θ1 r u v du dv (by norm_num) (by norm_num) (by norm_num)
          (by linarith [Real.pi_gt_three])]
        norm_num
      rw [assemble_rect 1 1 (by norm_num) (by norm_num)
        ⟨ppf_form.sqrt, 0, 1 / 2, Real.pi / 2, 0, 0, Real.sqrt (Real.pi / 2)⟩ (by simp)
        (fun θ1 r u v du dv => hc _ θ1 r u v du dv (min_self 1))
        (fun θ1 r u v du dv => hc _ θ1 r u v du dv (min_self 1))]
      simp only [mul_one, one_mul]
      rw [usq_step1, usq_step2, usq_step3, usq_step3, usq_step4, usq_step3]
    have hu : usub (umul 2 2) 1 = 3 := by unfold usub umul; norm_num
    unfold find_pf
    rw [assemble_usq]
    simp [hu]
  rw [of_polygon_rect 1 1 (by norm_num) (by norm_num)]
  unfold ensure_pf
  rw [if_neg (by simp [rect_pf]), find_pf_usq]

set_option maxHeartbeats 4000000 in
/-- C1 (counterexample): on the unit square `pf (2/5)` is 1 (the constant segment), and
`ipf (1)` is `1/pi`, the left end of the first segment that reaches 1, not `2/5`. -/
theorem ipf_pf_unit_square :
    convex_polygon.convex_hull rm (rect 1 1) = some (rect 1 1) ∧
    (of_polygon rm (rect 1 1)).area_v = 1 ∧
    (pf rm (of_polygon rm (rect 1 1)) (2 / 5)).1 = Except.ok 1 ∧
    (ipf rm (pf rm (of_polygon rm (rect 1 1)) (2 / 5)).2 1).1 = Except.ok (1 / Real.pi) ∧
    (1 : ℝ) / Real.pi ≠ min (2 / 5) (1 - 2 / 5) := by
  have inv_pi_lt_two_fifths : (1 : ℝ) / Real.pi < 2 / 5 := by
    rw [div_lt_div_iff Real.pi_pos (by norm_num)]
    linarith [Real.pi_gt_three]
  have harea : (of_polygon rm (rect 1 1)).area_v = 1 := by
    rw [of_polygon_rect 1 1 (by norm_num) (by norm_num)]
    simp [rect_pf]
  have hpf : pf rm (of_polygon rm (rect 1 1)) (2 / 5) =
      (Except.ok 1, ensure_pf rm (of_polygon rm (rect 1 1))) := by
    unfold pf
    rw [if_neg (by rw [harea]; norm_num), ensure_pf_usq]
    simp only [rect_pf]
    rw [if_neg (by norm_num)]
    simp only [pf_loop, List.get?, if_neg (not_le.mpr inv_pi_lt_two_fifths)]
    rw [if_pos (by norm_num)]
    simp [partial_pf.pf]
  refine ⟨convex_polygon.rect_hull 1 1 (by norm_num) (by norm_num), harea, ?_, ?_, ?_⟩
  · rw [hpf]
  · rw [hpf]
    unfold ipf
    rw [ensure_pf_idem, ensure_pf_usq]
    simp only [maximum, rect_pf, if_true]
    rw [if_neg (by norm_num), if_neg (by norm_num)]
    simp only [ipf_loop, List.get?]
    rw [if_pos (by norm_num)]
    simp only [partial_pf.ipf]
    rw [if_neg (by decide)]
    congr 1
    field_simp
  · rw [min_eq_left (by norm_num)]
    exact ne_of_lt inv_pi_lt_two_fifths

/-- C7 (counterexample): on the unit square `num_segments ()` is 3, `theta (1)` is `pi/2`
and `theta (3 - 1)` is 0. -/
theorem theta_unit_square :
    convex_polygon.convex_hull rm (rect 1 1) = some (rect 1 1) ∧
    (num_segments rm (of_polygon rm (rect 1 1))).1 = 3 ∧
    (theta rm (of_polygon rm (rect 1 1)) 1).1 = Except.ok (Real.pi / 2) ∧
    (theta rm (of_polygon rm (rect 1 1)) (3 - 1)).1 = Except.ok 0 ∧
    Real.pi / 2 ≠ -(0 : ℝ) := by
  have hu1 : usub 1 1 = 0 := by unfold usub; norm_num
  have hu2 : usub 2 1 = 1 := by unfold usub; norm_num
  have hu3 : usub 3 1 = 2 := by unfold usub; norm_num
  refine ⟨convex_polygon.rect_hull 1 1 (by norm_num) (by norm_num), ?_, ?_, ?_, ?_⟩
  · unfold num_segments
    rw [ensure_pf_usq]
  · unfold theta
    rw [ensure_pf_usq]
    simp [hu1, hu3, function_at, Except.map]
  · unfold theta
    rw [ensure_pf_usq]
    simp [hu2, hu3, function_at, Except.map]
  · rw [neg_zero]
    exact ne_of_gt (by positivity)

end convex_polygon_pf
end search

namespace search
namespace convex_polygon_pf

variable {K : Type} [LinearOrderedField K]

/-- The segment search of `pf` returns the value of the first segment whose right end is
not below `z`. -/
theorem pf_loop_find (m : Libm K) (fn : List (partial_pf K)) (z : K) (i : Nat)
    (s : partial_pf K) (hs : fn.get? i = some s) (hz : z ≤ s.b)
    (hbefore : ∀ j t, j < i → fn.get? j = some t → ¬ z ≤ t.b) :
    ∀ (k n : Nat), k ≤ i → i < k + n → pf_loop m fn z n k = Except.ok (s.pf m z) := by
  intro k n
  induction n generalizing k with
  | zero => intro h1 h2; omega
  | succ n ih =>
    intro h1 h2
    rw [pf_loop]
    rcases Nat.eq_or_lt_of_le h1 with h | h
    · subst h
      rw [hs]
      simp only
      rw [if_pos hz]
    · have hk : k < fn.length := by
        have := List.get?_eq_some.mp hs
        obtain ⟨hlen, _⟩ := this
        omega
      rw [List.get?_eq_get hk]
      simp only
      rw [if_neg (hbefore k _ h (List.get?_eq_get hk))]
      exact ih (k + 1) h (by omega)

/-- The segment search of `ipf` returns the inverse on the first segment whose value at
the right end is not below `p`. -/
theorem ipf_loop_find (fn : List (partial_pf K)) (p : K) (i : Nat)
    (s : partial_pf K) (hs : fn.get? i = some s) (hp : s.pfb ≥ p)
    (hbefore : ∀ j t, j < i → fn.get? j = some t → ¬ t.pfb ≥ p) :
    ∀ (k n : Nat), k ≤ i → i < k + n → ipf_loop fn p n k = Except.ok (s.ipf p) := by
  intro k n
  induction n generalizing k with
  | zero => intro h1 h2; omega
  | succ n ih =>
    intro h1 h2
    rw [ipf_loop]
    rcases Nat.eq_or_lt_of_le h1 with h | h
    · subst h
      rw [hs]
      simp only
      rw [if_pos hp]
    · have hk : k < fn.length := by
        have := List.get?_eq_some.mp hs
        obtain ⟨hlen, _⟩ := this
        omega
      rw [List.get?_eq_get hk]
      simp only
      rw [if_neg (hbefore k _ h (List.get?_eq_get hk))]
      exact ih (k + 1) h (by omega)

theorem maximum_fields (m : Libm K) (c : convex_polygon_pf K) :
    (maximum m c).2.function = c.function ∧
      (maximum m c).2.num_segments_v = c.num_segments_v := by
  unfold maximum
  simp only
  split
  · exact ⟨rfl, rfl⟩
  · obtain ⟨_, _, _, h4, h5⟩ := find_pf_max_fields m c
    exact ⟨h4, h5⟩

theorem ipf_val (m : Libm K) (c : convex_polygon_pf K) (p : K) (h0 : 0 ≤ p)
    (h1 : p ≤ (maximum m (ensure_pf m c)).1) :
    (ipf m c p).1 = ipf_loop (ensure_pf m c).function p (ensure_pf m c).num_segments_v 0 := by
  obtain ⟨hf, hn⟩ := maximum_fields m (ensure_pf m c)
  unfold ipf
  simp only
  rw [if_neg (by simp [h0]), if_neg (by simp [h1]), hf, hn]

/-- C1 (amended): for every built object and every `z` in `[0, area ()]` whose segment - the
first stored segment with `min (z, area () - z) <= b` - is of the square-root form with
`theta > 0` and `z + zeta >= 0`, reaches `pf (z)` at its right end while every earlier
segment stays below `pf (z)`, and with `pf (z) <= maximum ()`: `ipf (pf (z))` returns
`min (z, area () - z)`. -/
theorem ipf_pf_sqrt_segment (c : convex_polygon_pf ℝ) (hr : reachable rm c) (z : ℝ)
    (h0 : 0 ≤ z) (h1 : z ≤ c.area_v) (i : Nat) (s : partial_pf ℝ)
    (hs : (ensure_pf rm c).function.get? i = some s)
    (hi : i < (ensure_pf rm c).num_segments_v)
    (hz : min z (c.area_v - z) ≤ s.b)
    (hbefore : ∀ j t, j < i → (ensure_pf rm c).function.get? j = some t →
      t.b < min z (c.area_v - z) ∧ t.pfb < s.pf rm (min z (c.area_v - z)))
    (hform : s.form = ppf_form.sqrt) (hθ : 0 < s.theta)
    (hζ : 0 ≤ min z (c.area_v - z) + s.zeta)
    (hpfb : s.pf rm (min z (c.area_v - z)) ≤ s.pfb)
    (hmax : s.pf rm (min z (c.area_v - z)) ≤ (maximum rm (ensure_pf rm c)).1) :
    (pf rm c z).1 = Except.ok (s.pf rm (min z (c.area_v - z))) ∧
    (ipf rm (pf rm c z).2 (s.pf rm (min z (c.area_v - z)))).1 =
      Except.ok (min z (c.area_v - z)) := by
  have hhalf : c.half_area_v = c.area_v / 2 := (reachable_wf rm c hr).1
  have hz1 : (if z > c.half_area_v then c.area_v - z else z) = min z (c.area_v - z) := by
    rw [hhalf]
    by_cases hgt : z > c.area_v / 2
    · rw [if_pos hgt, min_eq_right (by linarith)]
    · rw [if_neg hgt, min_eq_left (by linarith)]
  have hpfv : s.pf rm (min z (c.area_v - z)) =
      Real.sqrt (2 * s.theta * (min z (c.area_v - z) + s.zeta)) := by
    simp [partial_pf.pf, hform, rm_sqrt]
  constructor
  · rw [pf_val rm c z h0 h1, hz1]
    exact pf_loop_find rm _ _ i s hs hz
      (fun j t hj ht => not_le.mpr (hbefore j t hj ht).1) 0 _ (Nat.zero_le _) (by omega)
  · rw [pf_state rm c z h0 h1,
      ipf_val rm _ _ (by rw [hpfv]; exact Real.sqrt_nonneg _) (by rw [ensure_pf_idem]; exact hmax),
      ensure_pf_idem,
      ipf_loop_find _ _ i s hs hpfb
        (fun j t hj ht => not_le.mpr (hbefore j t hj ht).2) 0 _ (Nat.zero_le _) (by omega)]
    congr 1
    rw [hpfv]
    simp only [partial_pf.ipf, hform]
    rw [if_neg (by decide)]
    have hnn : 0 ≤ 2 * s.theta * (min z (c.area_v - z) + s.zeta) := by positivity
    have hsq := Real.mul_self_sqrt hnn
    generalize Real.sqrt (2 * s.theta * (min z (c.area_v - z) + s.zeta)) = q at hsq
    have hq : q / 2 * (q / s.theta) = q * q / (2 * s.theta) := by ring
    rw [hq, hsq]
    field_simp

end convex_polygon_pf
end search

namespace search
namespace convex_polygon_pf

theorem pf_symmetric_witness :
    reachable rm (of_polygon rm (rect 1 1)) ∧ (0 : ℝ) ≤ 1 / 4 ∧
    (1 / 4 : ℝ) ≤ (of_polygon rm (rect 1 1)).area_v ∧
    (pf rm (pf rm (of_polygon rm (rect 1 1)) (1 / 4)).2
      ((of_polygon rm (rect 1 1)).area_v - 1 / 4)).1 =
      (pf rm (of_polygon rm (rect 1 1)) (1 / 4)).1 := by
  have usq_area : (of_polygon rm (rect 1 1)).area_v = 1 := by
    rw [of_polygon_rect 1 1 (by norm_num) (by norm_num)]
    simp [rect_pf]
  exact
    ⟨reachable.ctor _, by norm_num, by rw [usq_area]; norm_num,
      pf_symmetric rm _ (reachable.ctor _) (1 / 4) (by norm_num) (by rw [usq_area]; norm_num)⟩

theorem usq_length : (ensure_pf rm (of_polygon rm (rect 1 1))).function.length < 2147483648 := by
  rw [ensure_pf_usq]
  simp

theorem a_mirror_sum_witness :
    reachable rm (of_polygon rm (rect 1 1)) ∧
    (ensure_pf rm (of_polygon rm (rect 1 1))).function.length < 2147483648 ∧
    1 ≤ (num_segments rm (of_polygon rm (rect 1 1))).1 ∧
    ∃ x y : ℝ, (a rm (of_polygon rm (rect 1 1)) 1).1 = Except.ok x ∧
      (a rm (a rm (of_polygon rm (rect 1 1)) 1).2
        ((num_segments rm (of_polygon rm (rect 1 1))).1 - 1)).1 = Except.ok y ∧
      x + y = (of_polygon rm (rect 1 1)).area_v := by
  have usq_num_segments : (num_segments rm (of_polygon rm (rect 1 1))).1 = 3 := by
    unfold num_segments
    rw [ensure_pf_usq]
  exact
    ⟨reachable.ctor _, usq_length, by rw [usq_num_segments]; norm_num,
      a_mirror_sum rm _ (reachable.ctor _) usq_length 1 (by rw [usq_num_segments]; norm_num)⟩

theorem theta_mirror_witness :
    reachable rm (of_polygon rm (rect 1 1)) ∧
    (ensure_pf rm (of_polygon rm (rect 1 1))).function.length < 2147483648 ∧
    1 ≤ 1 ∧ 1 ≤ (num_segments rm (of_polygon rm (rect 1 1))).1 ∧
    ∃ x y : ℝ, (theta rm (of_polygon rm (rect 1 1)) 1).1 = Except.ok x ∧
      (theta rm (theta rm (of_polygon rm (rect 1 1)) 1).2
        ((num_segments rm (of_polygon rm (rect 1 1))).1 + 1 - 1)).1 = Except.ok y ∧
      x = -y := by
  have usq_num_segments : (num_segments rm (of_polygon rm (rect 1 1))).1 = 3 := by
    unfold num_segments
    rw [ensure_pf_usq]
  exact
    ⟨reachable.ctor _, usq_length, le_refl 1, by rw [usq_num_segments]; norm_num,
      theta_mirror rm _ (reachable.ctor _) usq_length 1 (le_refl 1)
        (by rw [usq_num_segments]; norm_num)⟩

set_option maxHeartbeats 4000000 in
theorem ipf_pf_sqrt_segment_witness :
    (pf rm (of_polygon rm (rect 1 1)) (1 / 10)).1 =
      Except.ok (partial_pf.pf rm ⟨ppf_form.sqrt, 0, 1 / Real.pi, Real.pi / 2, 0, 0, 1⟩
        (min (1 / 10) ((of_polygon rm (rect 1 1)).area_v - 1 / 10))) ∧
    (ipf rm (pf rm (of_polygon rm (rect 1 1)) (1 / 10)).2
      (partial_pf.pf rm ⟨ppf_form.sqrt, 0, 1 / Real.pi, Real.pi / 2, 0, 0, 1⟩
        (min (1 / 10) ((of_polygon rm (rect 1 1)).area_v - 1 / 10)))).1 =
      Except.ok (min (1 / 10) ((of_polygon rm (rect 1 1)).area_v - 1 / 10)) := by
  have usq_area : (of_polygon rm (rect 1 1)).area_v = 1 := by
    rw [of_polygon_rect 1 1 (by norm_num) (by norm_num)]
    simp [rect_pf]
  have inv_pi_gt_tenth : (1 : ℝ) / 10 < 1 / Real.pi := by
    rw [div_lt_div_iff (by norm_num) Real.pi_pos]
    linarith [Real.pi_lt_four]
  have hmin : min ((1 : ℝ) / 10) ((of_polygon rm (rect 1 1)).area_v - 1 / 10) = 1 / 10 := by
    rw [usq_area, min_eq_left (by norm_num)]
  have hpf : partial_pf.pf rm ⟨ppf_form.sqrt, 0, 1 / Real.pi, Real.pi / 2, 0, 0, 1⟩
      (min (1 / 10) ((of_polygon rm (rect 1 1)).area_v - 1 / 10)) ≤ 1 := by
    rw [hmin, pf_sqrt_form, Real.sqrt_le_iff]
    constructor <;> nlinarith [Real.pi_lt_four, Real.pi_gt_three]
  exact ipf_pf_sqrt_segment _ (reachable.ctor _) (1 / 10) (by norm_num)
    (by rw [usq_area]; norm_num) 0 ⟨ppf_form.sqrt, 0, 1 / Real.pi, Real.pi / 2, 0, 0, 1⟩
    (by rw [ensure_pf_usq]; rfl) (by rw [ensure_pf_usq]; simp)
    (by rw [hmin]; exact le_of_lt inv_pi_gt_tenth)
    (by intro j t hj; omega) rfl (by positivity) (by rw [hmin]; norm_num) hpf
    (by rw [ensure_pf_usq]; simpa [maximum] using hpf)

end convex_polygon_pf
end search

namespace search

/-- The side length `1e-11` of the small square. -/
noncomputable def tiny : ℝ := 1 / 100000000000

namespace convex_polygon_pf

theorem insert_ppf_single_skip (m : Libm ℝ) (ppf n : partial_pf ℝ)
    (h : n.begin m ppf = Option.none) : insert_ppf m ppf [n] = [n] := by
  rw [insert_ppf_skip m ppf n [] h, insert_ppf_nil]

set_option maxHeartbeats 4000000 in
/-- The small square: no side pair replaces the fictitious node. -/
theorem assemble_tiny :
    assemble rm (rect_pf tiny tiny) =
      [⟨ppf_form.constant, 0, tiny * tiny / 2, 0, Real.sqrt (10 * Real.pi * (tiny * tiny)),
        Real.sqrt (10 * Real.pi * (tiny * tiny)), Real.sqrt (10 * Real.pi * (tiny * tiny))⟩] := by
  have pf_const_form (a b θ ζ pa pb z : ℝ) :
      partial_pf.pf rm ⟨ppf_form.constant, a, b, θ, ζ, pa, pb⟩ z = pa := by
    simp [partial_pf.pf]
  have tiny_pos : 0 < tiny := by unfold tiny; norm_num
  have trim_small (x y : ℝ) (hx0 : 0 ≤ x) (hx : x < 1 / 10000000000) (hy0 : 0 ≤ y)
      (hy : y < 1 / 10000000000) : trim (x - y) = 0 := by
    apply trim_of_lt
    rw [abs_lt]
    constructor <;> linarith
  have tiny_sq : tiny * tiny = 1 / 10000000000000000000000 := by unfold tiny; norm_num
  -- The value of the fictitious node of the small square is below the working precision.
  have tiny_stub_small : Real.sqrt (10 * Real.pi * (tiny * tiny)) < 1 / 10000000000 := by
    rw [Real.sqrt_lt' (by norm_num), tiny_sq]
    nlinarith [Real.pi_lt_four]
  have tiny_corner_small (z : ℝ) (hz : z ≤ tiny * tiny / 2) :
      Real.sqrt (2 * (Real.pi / 2) * (z + 0)) < 1 / 10000000000 := by
    rw [Real.sqrt_lt' (by norm_num)]
    rw [tiny_sq] at hz
    nlinarith [Real.pi_lt_four, Real.pi_gt_three]
  have ht := tiny_pos
  have hc : ∀ (d θ1 : ℝ) (r u v : point ℝ) (du dv : ℝ), d = tiny →
      (partial_pf.of_sides_arc rm (rect_pf tiny tiny) θ1 (Real.pi / 2) 0 d 0 0 r u v du dv
        Option.none).1 =
      ⟨ppf_form.sqrt, 0, tiny * tiny / 2, Real.pi / 2, 0, 0,
        Real.sqrt (Real.pi * (tiny * tiny) / 2)⟩ := by
    intro d θ1 r u v du dv hd
    subst hd
    exact rect_corner_clipped tiny tiny tiny θ1 r u v du dv ht ht ht
      (by nlinarith [Real.pi_gt_three, mul_pos ht ht])
  have hcorner : partial_pf.begin rm
      (⟨ppf_form.constant, 0, tiny * tiny / 2, 0, Real.sqrt (10 * Real.pi * (tiny * tiny)),
        Real.sqrt (10 * Real.pi * (tiny * tiny)), Real.sqrt (10 * Real.pi * (tiny * tiny))⟩ :
        partial_pf ℝ)
      ⟨ppf_form.sqrt, 0, tiny * tiny / 2, Real.pi / 2, 0, 0,
        Real.sqrt (Real.pi * (tiny * tiny) / 2)⟩ = Option.none := by
    apply begin_not_above
    · simp only [max_self, pf_const_form, pf_sqrt_form]
      rw [trim_small _ _ (Real.sqrt_nonneg _) tiny_stub_small (Real.sqrt_nonneg _)
        (tiny_corner_small 0 (by positivity))]
    · simp only [min_self, pf_const_form, pf_sqrt_form]
      rw [trim_small _ _ (Real.sqrt_nonneg _) tiny_stub_small (Real.sqrt_nonneg _)
        (tiny_corner_small _ (le_refl _))]
  have hconst : partial_pf.begin rm
      (⟨ppf_form.constant, 0, tiny * tiny / 2, 0, Real.sqrt (10 * Real.pi * (tiny * tiny)),
        Real.sqrt (10 * Real.pi * (tiny * tiny)), Real.sqrt (10 * Real.pi * (tiny * tiny))⟩ :
        partial_pf ℝ)
      ⟨ppf_form.constant, 0, tiny * tiny / 2, 0, tiny, tiny, tiny⟩ = Option.none :=
    begin_same_theta rm _ _ (equal_true_of_lt _ (by norm_num))
  rw [assemble_rect tiny tiny ht ht
    ⟨ppf_form.sqrt, 0, tiny * tiny / 2, Real.pi / 2, 0, 0,
      Real.sqrt (Real.pi * (tiny * tiny) / 2)⟩ (by simp)
    (fun θ1 r u v du dv => hc _ θ1 r u v du dv (min_self tiny))
    (fun θ1 r u v du dv => hc _ θ1 r u v du dv (min_self tiny))]
  rw [insert_ppf_single_skip rm _ _ hcorner, insert_ppf_single_skip rm _ _ hconst,
    insert_ppf_single_skip rm _ _ hcorner, insert_ppf_single_skip rm _ _ hcorner,
    insert_ppf_single_skip rm _ _ hconst, insert_ppf_single_skip rm _ _ hcorner]

theorem ensure_pf_tiny :
    ensure_pf rm (of_polygon rm (rect tiny tiny)) =
      { rect_pf tiny tiny with
        pf_ok := true
        pf_max_ok := true
        function := [⟨ppf_form.constant, 0, tiny * tiny / 2, 0,
          Real.sqrt (10 * Real.pi * (tiny * tiny)), Real.sqrt (10 * Real.pi * (tiny * tiny)),
          Real.sqrt (10 * Real.pi * (tiny * tiny))⟩]
        maximum_v := Real.sqrt (10 * Real.pi * (tiny * tiny))
        num_segments_v := 1 } := by
  have tiny_pos : 0 < tiny := by unfold tiny; norm_num
  have hu : usub (umul 1 2) 1 = 1 := by unfold usub umul; norm_num
  rw [of_polygon_rect tiny tiny tiny_pos tiny_pos]
  unfold ensure_pf
  rw [if_neg (by simp [rect_pf])]
  unfold find_pf
  rw [assemble_tiny]
  simp [hu]

end convex_polygon_pf
end search

namespace search
namespace convex_polygon_pf

section bound
variable {K : Type} [LinearOrderedField K]

theorem max_step_le (m : Libm K) (c : convex_polygon_pf K) (acc : K × Nat × Nat)
    (ij : Nat × Nat) : (max_step m c acc ij).1 ≤ acc.1 := by
  unfold max_step
  simp only
  split_ifs with h1 h2 h3
  · exact le_refl _
  · exact le_refl _
  · exact le_of_lt h3
  · exact le_refl _

theorem max_fold_le (m : Libm K) (c : convex_polygon_pf K) (l : List (Nat × Nat)) :
    ∀ acc : K × Nat × Nat, (l.foldl (max_step m c) acc).1 ≤ acc.1 := by
  induction l with
  | nil => intro acc; exact le_refl _
  | cons x xs ih =>
    intro acc
    rw [List.foldl_cons]
    exact le_trans (ih _) (max_step_le m c acc x)

end bound

theorem pf_tiny_zero :
    pf rm (of_polygon rm (rect tiny tiny)) 0 =
      (Except.ok (Real.sqrt (10 * Real.pi * (tiny * tiny))),
        ensure_pf rm (of_polygon rm (rect tiny tiny))) := by
  have tiny_pos : 0 < tiny := by unfold tiny; norm_num
  have tiny_area : (of_polygon rm (rect tiny tiny)).area_v = tiny * tiny := by
    rw [of_polygon_rect tiny tiny tiny_pos tiny_pos]
    rfl
  unfold pf
  rw [if_neg (by rw [tiny_area]; simp; exact le_of_lt (mul_pos tiny_pos tiny_pos)),
    ensure_pf_tiny]
  simp only [rect_pf]
  rw [if_neg (by simp; exact le_of_lt (by linarith [mul_pos tiny_pos tiny_pos]))]
  simp only [pf_loop, List.get?]
  rw [if_pos (by linarith [mul_pos tiny_pos tiny_pos])]
  simp [partial_pf.pf]

/-- C4 (evaluation): on the square of side `1e-11`, a first call of `maximum ()` stays
below `sqrt (pi*area ())`, while `maximum ()` after `pf (0)` returns the value
`sqrt (10*pi*area ())` of the fictitious node, which is larger. -/
theorem maximum_tiny_square :
    convex_polygon.convex_hull rm (rect tiny tiny) = some (rect tiny tiny) ∧
    (maximum rm (of_polygon rm (rect tiny tiny))).1 ≤
      Real.sqrt (Real.pi * (of_polygon rm (rect tiny tiny)).area_v) ∧
    (maximum rm (pf rm (of_polygon rm (rect tiny tiny)) 0).2).1 =
      Real.sqrt (10 * Real.pi * (of_polygon rm (rect tiny tiny)).area_v) ∧
    Real.sqrt (Real.pi * (of_polygon rm (rect tiny tiny)).area_v) <
      Real.sqrt (10 * Real.pi * (of_polygon rm (rect tiny tiny)).area_v) := by
  have tiny_pos : 0 < tiny := by unfold tiny; norm_num
  -- The value that `find_pf_max` stores never exceeds `sqrt (pi*area ())`.
  have find_pf_max_le (c : convex_polygon_pf ℝ) :
      (find_pf_max rm c).maximum_v ≤ Real.sqrt (Real.pi * c.area_v) := by
    unfold find_pf_max
    split_ifs with h
    · exact Real.sqrt_nonneg _
    · exact max_fold_le rm c _ _
  have tiny_area : (of_polygon rm (rect tiny tiny)).area_v = tiny * tiny := by
    rw [of_polygon_rect tiny tiny tiny_pos tiny_pos]
    rfl
  refine ⟨convex_polygon.rect_hull tiny tiny tiny_pos tiny_pos, ?_, ?_, ?_⟩
  · have h : (of_polygon rm (rect tiny tiny)).pf_max_ok = false := by
      rw [of_polygon_rect tiny tiny tiny_pos tiny_pos]
      rfl
    unfold maximum
    simp only [h]
    exact find_pf_max_le _
  · rw [pf_tiny_zero, tiny_area, ensure_pf_tiny]
    simp [maximum]
  · rw [tiny_area]
    apply Real.sqrt_lt_sqrt
    · exact le_of_lt (by have := mul_pos tiny_pos tiny_pos; nlinarith [Real.pi_gt_three])
    · have := mul_pos tiny_pos tiny_pos
      nlinarith [Real.pi_gt_three]

/-- C5 (evaluation): on the square of side `1e-11`, `pf (0)` returns the value
`sqrt (10*pi*area ())` of the fictitious node, although the partial function of the sides
1 and 0 has a form other than `none`, a domain that contains 0, and the value 0 there. -/
theorem envelope_tiny_square :
    convex_polygon.convex_hull rm (rect tiny tiny) = some (rect tiny tiny) ∧
    (pf rm (of_polygon rm (rect tiny tiny)) 0).1 =
      Except.ok (Real.sqrt (10 * Real.pi * (tiny * tiny))) ∧
    (partial_pf.of_sides rm (of_polygon rm (rect tiny tiny)) 1 0 Option.none).1.form ≠
      ppf_form.none ∧
    (partial_pf.of_sides rm (of_polygon rm (rect tiny tiny)) 1 0 Option.none).1.a ≤ 0 ∧
    0 ≤ (partial_pf.of_sides rm (of_polygon rm (rect tiny tiny)) 1 0 Option.none).1.b ∧
    (partial_pf.of_sides rm (of_polygon rm (rect tiny tiny)) 1 0 Option.none).1.pf rm 0 = 0 ∧
    (0 : ℝ) < Real.sqrt (10 * Real.pi * (tiny * tiny)) := by
  have tiny_pos : 0 < tiny := by unfold tiny; norm_num
  have ht := tiny_pos
  have hp : (partial_pf.of_sides rm (of_polygon rm (rect tiny tiny)) 1 0 Option.none).1 =
      ⟨ppf_form.sqrt, 0, tiny * tiny / 2, Real.pi / 2, 0, 0,
        Real.sqrt (Real.pi * (tiny * tiny) / 2)⟩ := by
    rw [of_polygon_rect tiny tiny ht ht, rect_pair_1_0 tiny tiny ht ht, min_self]
    exact rect_corner_clipped tiny tiny tiny _ _ _ _ _ _ ht ht ht
      (by nlinarith [Real.pi_gt_three, mul_pos ht ht])
  refine ⟨convex_polygon.rect_hull tiny tiny ht ht, ?_, ?_, ?_, ?_, ?_, ?_⟩
  · rw [pf_tiny_zero]
  · rw [hp]; simp
  · rw [hp]
  · rw [hp]; exact le_of_lt (by have := mul_pos ht ht; simp only; linarith)
  · rw [hp, pf_sqrt_form]; simp
  · apply Real.sqrt_pos.mpr
    have := mul_pos ht ht
    nlinarith [Real.pi_gt_three]

end convex_polygon_pf
end search

namespace search
namespace convex_polygon_pf

set_option maxHeartbeats 4000000 in
/-- C9 (evaluation): on the rectangle `4e-11` by `2e-11` the object has 3 segments, the
middle segment 2 is constant with `theta (2) = 0` and `zeta (2) = sqrt (10*pi*area ())`, and
at its left end `z = a (1)` the call `pf (z)` returns `pi*1e-11`, which is another value. -/
theorem segments_tiny_rectangle :
    convex_polygon.convex_hull rm (rect (4 * tiny) (2 * tiny)) =
      some (rect (4 * tiny) (2 * tiny)) ∧
    (num_segments rm (of_polygon rm (rect (4 * tiny) (2 * tiny)))).1 = 3 ∧
    (a rm (of_polygon rm (rect (4 * tiny) (2 * tiny))) 1).1 =
      Except.ok (Real.pi * (tiny * tiny)) ∧
    (a rm (of_polygon rm (rect (4 * tiny) (2 * tiny))) 2).1 =
      Except.ok (8 * (tiny * tiny) - Real.pi * (tiny * tiny)) ∧
    Real.pi * (tiny * tiny) ≤ 8 * (tiny * tiny) - Real.pi * (tiny * tiny) ∧
    (theta rm (of_polygon rm (rect (4 * tiny) (2 * tiny))) 2).1 = Except.ok 0 ∧
    (zeta rm (of_polygon rm (rect (4 * tiny) (2 * tiny))) 2).1 =
      Except.ok (Real.sqrt (10 * Real.pi * (8 * (tiny * tiny)))) ∧
    (pf rm (of_polygon rm (rect (4 * tiny) (2 * tiny))) (Real.pi * (tiny * tiny))).1 =
      Except.ok (Real.pi * tiny) ∧
    Real.pi * tiny ≠ Real.sqrt (10 * Real.pi * (8 * (tiny * tiny))) := by
  have pf_const_form (a b θ ζ pa pb z : ℝ) :
      partial_pf.pf rm ⟨ppf_form.constant, a, b, θ, ζ, pa, pb⟩ z = pa := by
    simp [partial_pf.pf]
  have tiny_pos : 0 < tiny := by unfold tiny; norm_num
  have trim_small (x y : ℝ) (hx0 : 0 ≤ x) (hx : x < 1 / 10000000000) (hy0 : 0 ≤ y)
      (hy : y < 1 / 10000000000) : trim (x - y) = 0 := by
    apply trim_of_lt
    rw [abs_lt]
    constructor <;> linarith
  have corner_end (h : ℝ) (hh : 0 < h) :
      Real.sqrt (2 * (Real.pi / 2) * (h * h * (Real.pi / 2) / 2)) = h * (Real.pi / 2) := by
    have e : 2 * (Real.pi / 2) * (h * h * (Real.pi / 2) / 2) =
        (h * (Real.pi / 2)) * (h * (Real.pi / 2)) := by ring
    rw [e, Real.sqrt_mul_self (by positivity)]
  have tiny_rect_stub :
      1 / 10000000000 ≤
        Real.sqrt (10 * Real.pi * (4 * tiny * (2 * tiny))) - 2 * tiny * (Real.pi / 2) := by
    have hpi := Real.pi_gt_three
    have hpi4 := Real.pi_lt_four
    have ht := tiny_pos
    have h1 : (10 + Real.pi) * tiny ≤ Real.sqrt (10 * Real.pi * (4 * tiny * (2 * tiny))) := by
      rw [Real.le_sqrt' (by positivity)]
      have e : ((10 + Real.pi) * tiny) ^ 2 = (10 + Real.pi) ^ 2 * (tiny * tiny) := by ring
      have e2 : 10 * Real.pi * (4 * tiny * (2 * tiny)) = 80 * Real.pi * (tiny * tiny) := by ring
      rw [e, e2]
      exact mul_le_mul_of_nonneg_right (by nlinarith) (le_of_lt (mul_pos ht ht))
    have h2 : (10 + Real.pi) * tiny = 1 / 10000000000 + 2 * tiny * (Real.pi / 2) := by
      unfold tiny
      ring
    linarith
  have ensure_pf_tiny_rect :
      ensure_pf rm (of_polygon rm (rect (4 * tiny) (2 * tiny))) =
        { rect_pf (4 * tiny) (2 * tiny) with
          pf_ok := true
          pf_max_ok := true
          function :=
            [⟨ppf_form.sqrt, 0, 2 * tiny * (2 * tiny) * (Real.pi / 2) / 2, Real.pi / 2, 0, 0,
              2 * tiny * (Real.pi / 2)⟩,
             ⟨ppf_form.constant, 2 * tiny * (2 * tiny) * (Real.pi / 2) / 2,
              4 * tiny * (2 * tiny) / 2, 0,
              Real.sqrt (10 * Real.pi * (4 * tiny * (2 * tiny))),
              Real.sqrt (10 * Real.pi * (4 * tiny * (2 * tiny))),
              Real.sqrt (10 * Real.pi * (4 * tiny * (2 * tiny)))⟩]
          maximum_v := Real.sqrt (10 * Real.pi * (4 * tiny * (2 * tiny)))
          num_segments_v := 3 } := by
    -- A rectangle whose long side is below the working precision while the fictitious node is
    -- above it: the first corner arc is inserted, every later side pair is rejected, and the
    -- fictitious node stays as the last segment.
    have assemble_small_rect (w h : ℝ) (hw : 0 < w) (hh : 0 < h) (hhw : h ≤ w)
        (hin : h * (Real.pi / 2) < w) (hws : w < 1 / 10000000000)
        (hV : 1 / 10000000000 ≤ Real.sqrt (10 * Real.pi * (w * h)) - h * (Real.pi / 2)) :
        assemble rm (rect_pf w h) =
          [⟨ppf_form.sqrt, 0, h * h * (Real.pi / 2) / 2, Real.pi / 2, 0, 0, h * (Real.pi / 2)⟩,
           ⟨ppf_form.constant, h * h * (Real.pi / 2) / 2, w * h / 2, 0,
            Real.sqrt (10 * Real.pi * (w * h)), Real.sqrt (10 * Real.pi * (w * h)),
            Real.sqrt (10 * Real.pi * (w * h))⟩] := by
      -- The corner arc of a rectangle when it ends before half the area.
      have rect_corner_inside (w h d θ1 : ℝ) (r u v : point ℝ) (du dv : ℝ) (hd : 0 < d)
          (hw : 0 < w) (hh : 0 < h) (hclip : d * d * (Real.pi / 2) / 2 ≤ w * h / 2) :
          (partial_pf.of_sides_arc rm (rect_pf w h) θ1 (Real.pi / 2) 0 d 0 0 r u v du dv
            Option.none).1 =
            ⟨ppf_form.sqrt, 0, d * d * (Real.pi / 2) / 2, Real.pi / 2, 0, 0, d * (Real.pi / 2)⟩ := by
        have hhv : (rect_pf w h).half_area_v = w * h / 2 := rfl
        rw [partial_pf.of_sides_arc_inside rm (rect_pf w h) θ1 (Real.pi / 2) 0 d 0 0 r u v du dv hd
          (by rw [hhv]; simp; positivity) (by rw [hhv]; simpa using hclip)
          (by simp; exact ne_of_lt (by positivity))]
        simp only [mul_zero, zero_mul, zero_div, sub_self, sub_zero]
      have hpi := Real.pi_gt_three
      have hA0 : 0 < h * h * (Real.pi / 2) / 2 := by positivity
      have hP0 : 0 < h * (Real.pi / 2) := by positivity
      have hA : h * h * (Real.pi / 2) / 2 < w * h / 2 := by nlinarith
      have hc : ∀ (d θ1 : ℝ) (r u v : point ℝ) (du dv : ℝ), d = h →
          (partial_pf.of_sides_arc rm (rect_pf w h) θ1 (Real.pi / 2) 0 d 0 0 r u v du dv
            Option.none).1 =
          ⟨ppf_form.sqrt, 0, h * h * (Real.pi / 2) / 2, Real.pi / 2, 0, 0, h * (Real.pi / 2)⟩ := by
        intro d θ1 r u v du dv hd
        subst hd
        exact rect_corner_inside w d d θ1 r u v du dv hh hw hh (le_of_lt hA)
      have hmaxA : max (h * h * (Real.pi / 2) / 2) (0 : ℝ) = h * h * (Real.pi / 2) / 2 :=
        max_eq_left (le_of_lt hA0)
      have hminA : min (h * h * (Real.pi / 2) / 2) (w * h / 2) = h * h * (Real.pi / 2) / 2 :=
        min_eq_left (le_of_lt hA)
      have hminA2 : min (w * h / 2) (h * h * (Real.pi / 2) / 2) = h * h * (Real.pi / 2) / 2 :=
        min_eq_right (le_of_lt hA)
      -- the first corner arc against the fictitious node
      have s1 : insert_ppf rm
          ⟨ppf_form.sqrt, 0, h * h * (Real.pi / 2) / 2, Real.pi / 2, 0, 0, h * (Real.pi / 2)⟩
          [⟨ppf_form.constant, 0, w * h / 2, 0, Real.sqrt (10 * Real.pi * (w * h)),
            Real.sqrt (10 * Real.pi * (w * h)), Real.sqrt (10 * Real.pi * (w * h))⟩] =
          [⟨ppf_form.sqrt, 0, h * h * (Real.pi / 2) / 2, Real.pi / 2, 0, 0, h * (Real.pi / 2)⟩,
           ⟨ppf_form.constant, h * h * (Real.pi / 2) / 2, w * h / 2, 0,
            Real.sqrt (10 * Real.pi * (w * h)), Real.sqrt (10 * Real.pi * (w * h)),
            Real.sqrt (10 * Real.pi * (w * h))⟩] := by
        rw [insert_ppf_closed rm _ _ _ 0 (h * h * (Real.pi / 2) / 2) true
          (by
            rw [begin_above rm _ _ (by simp only [not_or, not_le]; exact ⟨by positivity, hA0⟩)
              (equal_false_of_le _ (by
                simp only [zero_sub, abs_neg]
                rw [abs_of_pos (by positivity)]
                linarith))]
            · simp only [max_self, hminA2]
              simp [not_le.mpr hA]
            · simp only [max_self, pf_const_form, pf_sqrt_form, add_zero, mul_zero, Real.sqrt_zero,
                sub_zero]
              rw [trim_of_le _ (by rw [abs_of_pos (by linarith)]; linarith)]
              linarith
            · simp only [hminA2, pf_const_form, pf_sqrt_form, add_zero, corner_end h hh]
              rw [trim_of_le _ (by rw [abs_of_pos (by linarith)]; linarith)]
              linarith)]
        simp only [split_left, insert_ppf_nil, set_a, set_b, pf_sqrt_form, pf_const_form,
          List.nil_append, Bool.true_eq_false, if_false, add_zero, mul_zero, Real.sqrt_zero,
          corner_end h hh]
      -- a constant below the working precision is rejected by both nodes
      have s2 : ∀ v : ℝ, 0 < v → v < 1 / 10000000000 →
          insert_ppf rm ⟨ppf_form.constant, 0, w * h / 2, 0, v, v, v⟩
          [⟨ppf_form.sqrt, 0, h * h * (Real.pi / 2) / 2, Real.pi / 2, 0, 0, h * (Real.pi / 2)⟩,
           ⟨ppf_form.constant, h * h * (Real.pi / 2) / 2, w * h / 2, 0,
            Real.sqrt (10 * Real.pi * (w * h)), Real.sqrt (10 * Real.pi * (w * h)),
            Real.sqrt (10 * Real.pi * (w * h))⟩] =
          [⟨ppf_form.sqrt, 0, h * h * (Real.pi / 2) / 2, Real.pi / 2, 0, 0, h * (Real.pi / 2)⟩,
           ⟨ppf_form.constant, h * h * (Real.pi / 2) / 2, w * h / 2, 0,
            Real.sqrt (10 * Real.pi * (w * h)), Real.sqrt (10 * Real.pi * (w * h)),
            Real.sqrt (10 * Real.pi * (w * h))⟩] := by
        intro v hv0 hv
        rw [insert_ppf_skip rm _ _ _ (begin_not_above rm _ _
            (by
              simp only [max_self, pf_const_form, pf_sqrt_form, add_zero, mul_zero, Real.sqrt_zero]
              rw [trim_small _ _ (le_refl _) (by norm_num) (le_of_lt hv0) hv])
            (by
              simp only [hminA, pf_const_form, pf_sqrt_form, add_zero, corner_end h hh]
              rw [trim_small _ _ (le_of_lt hP0) (by linarith) (le_of_lt hv0) hv])),
          insert_ppf_skip rm _ _ _ (begin_same_theta rm _ _ (equal_true_of_lt _ (by norm_num))),
          insert_ppf_nil]
      -- a further corner arc is rejected by both nodes
      have s3 : insert_ppf rm
          ⟨ppf_form.sqrt, 0, h * h * (Real.pi / 2) / 2, Real.pi / 2, 0, 0, h * (Real.pi / 2)⟩
          [⟨ppf_form.sqrt, 0, h * h * (Real.pi / 2) / 2, Real.pi / 2, 0, 0, h * (Real.pi / 2)⟩,
           ⟨ppf_form.constant, h * h * (Real.pi / 2) / 2, w * h / 2, 0,
            Real.sqrt (10 * Real.pi * (w * h)), Real.sqrt (10 * Real.pi * (w * h)),
            Real.sqrt (10 * Real.pi * (w * h))⟩] =
          [⟨ppf_form.sqrt, 0, h * h * (Real.pi / 2) / 2, Real.pi / 2, 0, 0, h * (Real.pi / 2)⟩,
           ⟨ppf_form.constant, h * h * (Real.pi / 2) / 2, w * h / 2, 0,
            Real.sqrt (10 * Real.pi * (w * h)), Real.sqrt (10 * Real.pi * (w * h)),
            Real.sqrt (10 * Real.pi * (w * h))⟩] := by
        rw [insert_ppf_skip rm _ _ _ (begin_same_theta rm _ _ (equal_true_of_lt _ (by norm_num))),
          insert_ppf_skip rm _ _ _ (begin_disjoint rm _ _ (Or.inr (le_refl _))),
          insert_ppf_nil]
      rw [assemble_rect w h hw hh
        ⟨ppf_form.sqrt, 0, h * h * (Real.pi / 2) / 2, Real.pi / 2, 0, 0, h * (Real.pi / 2)⟩
        (by simp)
        (fun θ1 r u v du dv => hc _ θ1 r u v du dv (min_eq_right hhw))
        (fun θ1 r u v du dv => hc _ θ1 r u v du dv (min_eq_left hhw))]
      rw [s1, s2 w hw hws, s3, s3, s2 h hh (lt_of_le_of_lt hhw hws), s3]
    have hu : usub (umul 2 2) 1 = 3 := by unfold usub umul; norm_num
    have ht := tiny_pos
    rw [of_polygon_rect (4 * tiny) (2 * tiny) (by positivity) (by positivity)]
    unfold ensure_pf
    rw [if_neg (by simp [rect_pf])]
    unfold find_pf
    rw [assemble_small_rect (4 * tiny) (2 * tiny) (by positivity) (by positivity) (by linarith)
      (by nlinarith [Real.pi_lt_four]) (by unfold tiny; norm_num) tiny_rect_stub]
    simp [hu]
  have ht := tiny_pos
  have htt := mul_pos ht ht
  have hpi := Real.pi_gt_three
  have hpi4 := Real.pi_lt_four
  have hu1 : usub 1 1 = 0 := by unfold usub; norm_num
  have hu2 : usub 2 1 = 1 := by unfold usub; norm_num
  have hu3 : usub 3 1 = 2 := by unfold usub; norm_num
  have hu32 : usub 3 2 = 1 := by unfold usub; norm_num
  have eA : 2 * tiny * (2 * tiny) * (Real.pi / 2) / 2 = Real.pi * (tiny * tiny) := by ring
  have eH : 4 * tiny * (2 * tiny) / 2 = 4 * (tiny * tiny) := by ring
  have eV : 4 * tiny * (2 * tiny) = 8 * (tiny * tiny) := by ring
  have eP : 2 * tiny * (Real.pi / 2) = Real.pi * tiny := by ring
  have harea : (of_polygon rm (rect (4 * tiny) (2 * tiny))).area_v = 8 * (tiny * tiny) := by
    rw [of_polygon_rect (4 * tiny) (2 * tiny) (by positivity) (by positivity)]
    simp only [rect_pf]
    ring
  have hstub := tiny_rect_stub
  rw [eV, eP] at hstub
  refine ⟨convex_polygon.rect_hull _ _ (by positivity) (by positivity), ?_, ?_, ?_, ?_, ?_,
    ?_, ?_, ?_⟩
  · unfold num_segments
    rw [ensure_pf_tiny_rect]
  · unfold a
    rw [ensure_pf_tiny_rect]
    simp [hu3, function_at, Except.map, eA]
  · unfold a
    rw [ensure_pf_tiny_rect]
    simp [hu3, hu32, function_at, Except.map, eA, rect_pf]
    ring
  · nlinarith
  · unfold theta
    rw [ensure_pf_tiny_rect]
    simp [hu2, hu3, function_at, Except.map]
  · unfold zeta
    rw [ensure_pf_tiny_rect]
    simp [hu2, hu3, function_at, Except.map, eV]
  · unfold pf
    rw [if_neg (by rw [harea]; simp only [not_not]; exact ⟨by positivity, by nlinarith⟩),
      ensure_pf_tiny_rect]
    simp only [rect_pf, eA, eH]
    rw [if_neg (by simp only [gt_iff_lt, not_lt]; nlinarith)]
    simp only [pf_loop, List.get?]
    rw [if_pos (le_refl _)]
    rw [← eA, pf_sqrt_form, add_zero, corner_end (2 * tiny) (by positivity), eP]
  · apply ne_of_lt
    have : 0 < Real.pi * tiny := by positivity
    linarith

end convex_polygon_pf
end search

namespace search
namespace point

/-- A left turn whose tangent is below the working precision is snapped to the angle 0. -/
theorem angle_snap (s p q : point ℝ) (hd : 0 < (p.sub s).dot (q.sub s))
    (hc : 0 ≤ (p.sub s).cross (q.sub s))
    (hsmall : (p.sub s).cross (q.sub s) * 10000000000 < (p.sub s).dot (q.sub s)) :
    angle rm s p q = 0 := by
  -- An angle below `pi/2` whose tangent is below the working precision is itself below the
  -- working precision.
  have tan_small (t : ℝ) (h1 : t < Real.pi / 2) (ht : Real.tan t < 1 / 10000000000) :
      t < 1 / 10000000000 := by
    by_contra hge
    rw [not_lt] at hge
    have hpi := Real.pi_gt_three
    have hmono : Real.tan (1 / 10000000000) ≤ Real.tan t := by
      rcases eq_or_lt_of_le hge with h | h
      · rw [h]
      · exact le_of_lt (Real.tan_lt_tan_of_nonneg_of_lt_pi_div_two (by norm_num) h1 h)
    have hs := Real.sin_gt_sub_cube (show (0 : ℝ) < 1 / 10000000000 by norm_num)
      (by norm_num)
    have hcp : 0 < Real.cos (1 / 10000000000) :=
      Real.cos_pos_of_mem_Ioo ⟨by linarith, by linarith⟩
    have hsc := Real.sin_sq_add_cos_sq (1 / 10000000000)
    have hlt : 1 / 10000000000 < Real.tan (1 / 10000000000) := by
      rw [Real.tan_eq_sin_div_cos, lt_div_iff₀ hcp]
      have hc2 : Real.cos (1 / 10000000000) ^ 2 ≤
          1 - (1 / 10000000000 - (1 / 10000000000) ^ 3 / 4) ^ 2 := by
        have hs0 : 0 ≤ 1 / 10000000000 - (1 / 10000000000 : ℝ) ^ 3 / 4 := by norm_num
        nlinarith
      have hc3 : Real.cos (1 / 10000000000) < 1 - (1 / 10000000000) ^ 2 / 4 := by
        by_contra hcon
        rw [not_lt] at hcon
        have hq : (1 - (1 / 10000000000 : ℝ) ^ 2 / 4) ^ 2 ≤ Real.cos (1 / 10000000000) ^ 2 :=
          pow_le_pow_left₀ (by norm_num) hcon 2
        have : (1 - (1 / 10000000000 - (1 / 10000000000 : ℝ) ^ 3 / 4) ^ 2) <
            (1 - (1 / 10000000000 : ℝ) ^ 2 / 4) ^ 2 := by norm_num
        linarith
      have e : (1 / 10000000000 : ℝ) * (1 - (1 / 10000000000) ^ 2 / 4) =
          1 / 10000000000 - (1 / 10000000000) ^ 3 / 4 := by ring
      have : (1 / 10000000000 : ℝ) * Real.cos (1 / 10000000000) <
          1 / 10000000000 * (1 - (1 / 10000000000) ^ 2 / 4) :=
        mul_lt_mul_of_pos_left hc3 (by norm_num)
      linarith
    linarith
  have h0 : 0 ≤ Complex.arg ⟨(p.sub s).dot (q.sub s), (p.sub s).cross (q.sub s)⟩ :=
    Complex.arg_nonneg_iff.mpr hc
  have h1 : |Complex.arg ⟨(p.sub s).dot (q.sub s), (p.sub s).cross (q.sub s)⟩| <
      Real.pi / 2 := Complex.abs_arg_lt_pi_div_two_iff.mpr (Or.inl hd)
  rw [abs_of_nonneg h0] at h1
  have h2 : Complex.arg ⟨(p.sub s).dot (q.sub s), (p.sub s).cross (q.sub s)⟩ <
      1 / 10000000000 := by
    rcases eq_or_lt_of_le h0 with h | h
    · rw [← h]; norm_num
    · apply tan_small _ h1
      rw [Complex.tan_arg]
      simp only
      rw [div_lt_div_iff hd (by norm_num)]
      linarith
  unfold angle
  simp only [rm_atan2, rm_pi]
  rw [trim_of_lt _ (by rw [abs_of_nonneg h0]; exact h2)]
  rw [if_neg (by norm_num)]

/-- The angle of a right turn by more than a right angle lies strictly between `pi` and
`3*pi/2`. -/
theorem angle_reflex (s p q : point ℝ) (hd : (p.sub s).dot (q.sub s) < 0)
    (hc : (p.sub s).cross (q.sub s) < 0) :
    Real.pi < angle rm s p q ∧ angle rm s p q < 3 * Real.pi / 2 := by
  have h1 : Complex.arg ⟨(p.sub s).dot (q.sub s), (p.sub s).cross (q.sub s)⟩ <
      -(Real.pi / 2) := by
    rw [← not_le, Complex.neg_pi_div_two_le_arg_iff]
    simp only [not_or, not_le]
    exact ⟨hd, hc⟩
  have h2 := Complex.neg_pi_lt_arg ⟨(p.sub s).dot (q.sub s), (p.sub s).cross (q.sub s)⟩
  unfold angle
  simp only [rm_atan2, rm_pi]
  rw [trim_of_le _ (by
    rw [abs_of_neg (by linarith [Real.pi_gt_three])]; linarith [Real.pi_gt_three])]
  rw [if_pos (by linarith [Real.pi_gt_three])]
  constructor <;> linarith

end point

namespace convex_polygon

/-- The thin triangle, first pass from the lowest vertex: both other vertices are snapped
to the angle 0 and are equally far, so the one listed first is selected. -/
theorem thin_first (c : ℝ) (hc : 100000000000 ≤ c) (A B : vertex ℝ)
    (hA : A.state = vstate.unused) (hB : B.state = vstate.unused)
    (hAB : (A.coord = ⟨1, c⟩ ∧ B.coord = ⟨-1, 3 * c⟩) ∨
      (A.coord = ⟨-1, 3 * c⟩ ∧ B.coord = ⟨1, c⟩))
    (rest : List (vertex ℝ)) (i : Nat) (sel : Nat) :
    scan rm ⟨-(2 * c * c), 0⟩ ⟨-(2 * c * c) - 1, 0⟩ (A :: B :: rest) i (629 / 100) 0 sel =
      scan rm ⟨-(2 * c * c), 0⟩ ⟨-(2 * c * c) - 1, 0⟩ rest (i + 1 + 1) 0
        (point.abs rm ((⟨1, c⟩ : point ℝ).sub ⟨-(2 * c * c), 0⟩)) i := by
  have hP : point.angle rm ⟨-(2 * c * c), 0⟩
      ((point.smul ⟨-(2 * c * c), 0⟩ 2).sub ⟨-(2 * c * c) - 1, 0⟩) ⟨1, c⟩ = 0 :=
    point.angle_snap _ _ _
      (by simp only [point.sub, point.dot, point.smul]; nlinarith)
      (by simp only [point.sub, point.cross, point.smul]; nlinarith)
      (by simp only [point.sub, point.cross, point.dot, point.smul]; nlinarith)
  have hQ : point.angle rm ⟨-(2 * c * c), 0⟩
      ((point.smul ⟨-(2 * c * c), 0⟩ 2).sub ⟨-(2 * c * c) - 1, 0⟩) ⟨-1, 3 * c⟩ = 0 :=
    point.angle_snap _ _ _
      (by simp only [point.sub, point.dot, point.smul]; nlinarith)
      (by simp only [point.sub, point.cross, point.smul]; nlinarith)
      (by simp only [point.sub, point.cross, point.dot, point.smul]; nlinarith)
  have hdist : point.abs rm ((⟨-1, 3 * c⟩ : point ℝ).sub ⟨-(2 * c * c), 0⟩) =
      point.abs rm ((⟨1, c⟩ : point ℝ).sub ⟨-(2 * c * c), 0⟩) := by
    simp only [point.abs, point.sub, rm_sqrt]
    congr 1
    ring
  have hpos : 0 < point.abs rm ((⟨1, c⟩ : point ℝ).sub ⟨-(2 * c * c), 0⟩) := by
    simp only [point.abs, point.sub, rm_sqrt]
    apply Real.sqrt_pos.mpr
    nlinarith
  rcases hAB with ⟨h1, h2⟩ | ⟨h1, h2⟩
  · rw [scan_take _ _ _ _ _ _ _ _ _ (by rw [hA]; decide)
        (by rw [h1]; simp [point.eq]; intro h h0; nlinarith)
        (Or.inl (by rw [h1, hP]; norm_num)),
      scan_keep _ _ _ _ _ _ _ _ _ (by rw [hB]; decide)
        (by rw [h2]; simp [point.eq]; intro h; nlinarith)
        (by
          rw [h1, h2, hP, hQ, hdist]
          simp),
      h1, hP]
  · rw [scan_take _ _ _ _ _ _ _ _ _ (by rw [hA]; decide)
        (by rw [h1]; simp [point.eq]; intro h; nlinarith)
        (Or.inl (by rw [h1, hQ]; norm_num)),
      scan_keep _ _ _ _ _ _ _ _ _ (by rw [hB]; decide)
        (by rw [h2]; simp [point.eq]; intro h h0; nlinarith)
        (by
          rw [h1, h2, hP, hQ, hdist]
          simp),
      h1, hQ, hdist]

end convex_polygon
end search

namespace search
namespace convex_polygon

/-- The hull of the thin triangle, listed as the first call left it: the second call
drops the vertex `(1, c)`. -/
theorem thin_hull_twice (c : ℝ) (hc : 100000000000 ≤ c) :
    convex_hull rm [⟨-1, 3 * c⟩, ⟨1, c⟩, ⟨-(2 * c * c), 0⟩] =
      some [⟨-1, 3 * c⟩, ⟨-(2 * c * c), 0⟩] := by
  have hc0 : 0 < c := by linarith
  have hcc : 0 < c * c := mul_pos hc0 hc0
  have hccc : 0 < c * c * c := mul_pos hcc hc0
  have hlr : lower_right [(⟨1, c⟩ : point ℝ), ⟨-(2 * c * c), 0⟩] 1 ⟨-1, 3 * c⟩ 0 =
      (⟨-(2 * c * c), 0⟩, 2) := by
    simp [lower_right, hc0]
  have st1 : hull_step rm
      { vertices := [⟨⟨-1, 3 * c⟩, vstate.unused⟩, ⟨⟨1, c⟩, vstate.unused⟩,
          ⟨⟨-(2 * c * c), 0⟩, vstate.first⟩]
        hull := [⟨-(2 * c * c), 0⟩]
        last_added := ⟨-(2 * c * c), 0⟩
        previous := ⟨-(2 * c * c) - 1, 0⟩
        select := 2 } =
      some
      { vertices := [⟨⟨-1, 3 * c⟩, vstate.used⟩, ⟨⟨1, c⟩, vstate.unused⟩,
          ⟨⟨-(2 * c * c), 0⟩, vstate.first⟩]
        hull := [⟨-1, 3 * c⟩, ⟨-(2 * c * c), 0⟩]
        last_added := ⟨-1, 3 * c⟩
        previous := ⟨-(2 * c * c), 0⟩
        select := 0 } := by
    have hscan : (scan rm ⟨-(2 * c * c), 0⟩ ⟨-(2 * c * c) - 1, 0⟩
        [⟨⟨-1, 3 * c⟩, vstate.unused⟩, ⟨⟨1, c⟩, vstate.unused⟩,
          ⟨⟨-(2 * c * c), 0⟩, vstate.first⟩] 0 (629 / 100) 0 2).2.2 = 0 := by
      rw [thin_first c hc _ _ rfl rfl (Or.inr ⟨rfl, rfl⟩),
        scan_same _ _ _ _ _ _ _ _ _ (by simp) (by simp [point.eq]), scan_nil]
    unfold hull_step
    simp only [hscan]
    simp [set_state]
  have st2 : hull_step rm
      { vertices := [⟨⟨-1, 3 * c⟩, vstate.used⟩, ⟨⟨1, c⟩, vstate.unused⟩,
          ⟨⟨-(2 * c * c), 0⟩, vstate.first⟩]
        hull := [⟨-1, 3 * c⟩, ⟨-(2 * c * c), 0⟩]
        last_added := ⟨-1, 3 * c⟩
        previous := ⟨-(2 * c * c), 0⟩
        select := 0 } = Option.none := by
    have a1 := point.angle_reflex ⟨-1, 3 * c⟩
        ((point.smul ⟨-1, 3 * c⟩ 2).sub ⟨-(2 * c * c), 0⟩) ⟨1, c⟩
        (by simp only [point.sub, point.dot, point.smul]; nlinarith)
        (by simp only [point.sub, point.cross, point.smul]; nlinarith)
    have a2 : point.angle rm ⟨-1, 3 * c⟩
        ((point.smul ⟨-1, 3 * c⟩ 2).sub ⟨-(2 * c * c), 0⟩) ⟨-(2 * c * c), 0⟩ = Real.pi :=
      point.angle_back _ _ _
        (by simp only [point.sub, point.dot, point.smul]; nlinarith)
        (by simp only [point.sub, point.cross, point.smul]; ring)
    have hscan : (scan rm ⟨-1, 3 * c⟩ ⟨-(2 * c * c), 0⟩
        [⟨⟨-1, 3 * c⟩, vstate.used⟩, ⟨⟨1, c⟩, vstate.unused⟩,
          ⟨⟨-(2 * c * c), 0⟩, vstate.first⟩] 0 (629 / 100) 0 0).2.2 = 2 := by
      rw [scan_used _ _ _ _ _ _ _ _ _ (by simp),
        scan_take _ _ _ _ _ _ _ _ _ (by simp)
          (by simp [point.eq]; intro h; norm_num at h)
          (Or.inl (by linarith [a1.2, Real.pi_lt_four])),
        scan_take _ _ _ _ _ _ _ _ _ (by simp)
          (by simp [point.eq]; intro h; nlinarith)
          (Or.inl (by rw [a2]; exact a1.1)),
        scan_nil]
    unfold hull_step
    simp only [hscan]
    simp
  unfold convex_hull convex_hull_fuel
  simp only [List.length_cons, List.length_nil, Nat.reduceAdd, Nat.reduceLT, if_false]
  simp only [hull_init, hlr, List.map, set_state]
  rw [hull_loop, st1]
  simp only
  rw [hull_loop, st2]

end convex_polygon
end search

namespace search
namespace convex_polygon

set_option maxHeartbeats 4000000 in
/-- C10 (evaluation): for the triangle `(-2^79, 0)`, `(1, 2^39)`, `(-1, 3*2^39)` the first
call of `convex_hull` keeps the three vertices, the second call drops `(1, 2^39)`, which
is not on the line through the other two. -/
theorem convex_hull_twice_thin_triangle :
    convex_hull rm [⟨-604462909807314587353088, 0⟩, ⟨1, 549755813888⟩,
        ⟨-1, 1649267441664⟩] =
      some [⟨-1, 1649267441664⟩, ⟨1, 549755813888⟩, ⟨-604462909807314587353088, 0⟩] ∧
    convex_hull rm [⟨-1, 1649267441664⟩, ⟨1, 549755813888⟩,
        ⟨-604462909807314587353088, 0⟩] =
      some [⟨-1, 1649267441664⟩, ⟨-604462909807314587353088, 0⟩] ∧
    ([⟨-1, 1649267441664⟩, ⟨-604462909807314587353088, 0⟩] : List (point ℝ)) ≠
      [⟨-1, 1649267441664⟩, ⟨1, 549755813888⟩, ⟨-604462909807314587353088, 0⟩] ∧
    (point.sub ⟨1, 549755813888⟩ ⟨-604462909807314587353088, 0⟩).cross
      (point.sub ⟨-1, 1649267441664⟩ (⟨-604462909807314587353088, 0⟩ : point ℝ)) ≠ 0 := by
  -- The thin triangle listed from its lowest vertex: the hull keeps the three vertices.
  have thin_hull_once (c : ℝ) (hc : 100000000000 ≤ c) :
      convex_hull rm [⟨-(2 * c * c), 0⟩, ⟨1, c⟩, ⟨-1, 3 * c⟩] =
        some [⟨-1, 3 * c⟩, ⟨1, c⟩, ⟨-(2 * c * c), 0⟩] := by
    have hc0 : 0 < c := by linarith
    have hcc : 0 < c * c := mul_pos hc0 hc0
    have hccc : 0 < c * c * c := mul_pos hcc hc0
    have hlr : lower_right [(⟨1, c⟩ : point ℝ), ⟨-1, 3 * c⟩] 1 ⟨-(2 * c * c), 0⟩ 0 =
        (⟨-(2 * c * c), 0⟩, 0) := by
      simp [lower_right, ne_of_gt hc0]
      rw [if_neg (by linarith), if_neg (by linarith)]
    -- first pass
    have st1 : hull_step rm
        { vertices := [⟨⟨-(2 * c * c), 0⟩, vstate.first⟩, ⟨⟨1, c⟩, vstate.unused⟩,
            ⟨⟨-1, 3 * c⟩, vstate.unused⟩]
          hull := [⟨-(2 * c * c), 0⟩]
          last_added := ⟨-(2 * c * c), 0⟩
          previous := ⟨-(2 * c * c) - 1, 0⟩
          select := 0 } =
        some
        { vertices := [⟨⟨-(2 * c * c), 0⟩, vstate.first⟩, ⟨⟨1, c⟩, vstate.used⟩,
            ⟨⟨-1, 3 * c⟩, vstate.unused⟩]
          hull := [⟨1, c⟩, ⟨-(2 * c * c), 0⟩]
          last_added := ⟨1, c⟩
          previous := ⟨-(2 * c * c), 0⟩
          select := 1 } := by
      have hscan : (scan rm ⟨-(2 * c * c), 0⟩ ⟨-(2 * c * c) - 1, 0⟩
          [⟨⟨-(2 * c * c), 0⟩, vstate.first⟩, ⟨⟨1, c⟩, vstate.unused⟩,
            ⟨⟨-1, 3 * c⟩, vstate.unused⟩] 0 (629 / 100) 0 0).2.2 = 1 := by
        rw [scan_same _ _ _ _ _ _ _ _ _ (by simp) (by simp [point.eq]),
          thin_first c hc _ _ rfl rfl (Or.inl ⟨rfl, rfl⟩), scan_nil]
      unfold hull_step
      simp only [hscan]
      simp [set_state]
    -- second pass
    have st2 : hull_step rm
        { vertices := [⟨⟨-(2 * c * c), 0⟩, vstate.first⟩, ⟨⟨1, c⟩, vstate.used⟩,
            ⟨⟨-1, 3 * c⟩, vstate.unused⟩]
          hull := [⟨1, c⟩, ⟨-(2 * c * c), 0⟩]
          last_added := ⟨1, c⟩
          previous := ⟨-(2 * c * c), 0⟩
          select := 1 } =
        some
        { vertices := [⟨⟨-(2 * c * c), 0⟩, vstate.first⟩, ⟨⟨1, c⟩, vstate.used⟩,
            ⟨⟨-1, 3 * c⟩, vstate.used⟩]
          hull := [⟨-1, 3 * c⟩, ⟨1, c⟩, ⟨-(2 * c * c), 0⟩]
          last_added := ⟨-1, 3 * c⟩
          previous := ⟨1, c⟩
          select := 2 } := by
      have a0 : point.angle rm ⟨1, c⟩ ((point.smul ⟨1, c⟩ 2).sub ⟨-(2 * c * c), 0⟩)
          ⟨-(2 * c * c), 0⟩ = Real.pi :=
        point.angle_back _ _ _
          (by simp only [point.sub, point.dot, point.smul]; nlinarith)
          (by simp only [point.sub, point.cross, point.smul]; ring)
      have a2 := point.angle_obtuse ⟨1, c⟩ ((point.smul ⟨1, c⟩ 2).sub ⟨-(2 * c * c), 0⟩)
          ⟨-1, 3 * c⟩
          (by simp only [point.sub, point.dot, point.smul]; nlinarith)
          (by simp only [point.sub, point.cross, point.smul]; nlinarith)
      have hscan : (scan rm ⟨1, c⟩ ⟨-(2 * c * c), 0⟩
          [⟨⟨-(2 * c * c), 0⟩, vstate.first⟩, ⟨⟨1, c⟩, vstate.used⟩,
            ⟨⟨-1, 3 * c⟩, vstate.unused⟩] 0 (629 / 100) 0 1).2.2 = 2 := by
        rw [scan_take _ _ _ _ _ _ _ _ _ (by simp)
            (by simp [point.eq]; intro h; nlinarith)
            (Or.inl (by rw [a0]; linarith [Real.pi_lt_four])),
          scan_used _ _ _ _ _ _ _ _ _ (by simp),
          scan_take _ _ _ _ _ _ _ _ _ (by simp)
            (by simp [point.eq]; intro h; norm_num at h)
            (Or.inl (by rw [a0]; exact a2.2)),
          scan_nil]
      unfold hull_step
      simp only [hscan]
      simp [set_state]
    -- third pass: the first vertex is selected
    have st3 : hull_step rm
        { vertices := [⟨⟨-(2 * c * c), 0⟩, vstate.first⟩, ⟨⟨1, c⟩, vstate.used⟩,
            ⟨⟨-1, 3 * c⟩, vstate.used⟩]
          hull := [⟨-1, 3 * c⟩, ⟨1, c⟩, ⟨-(2 * c * c), 0⟩]
          last_added := ⟨-1, 3 * c⟩
          previous := ⟨1, c⟩
          select := 2 } = Option.none := by
      have a0 := point.angle_obtuse ⟨-1, 3 * c⟩ ((point.smul ⟨-1, 3 * c⟩ 2).sub ⟨1, c⟩)
          ⟨-(2 * c * c), 0⟩
          (by simp only [point.sub, point.dot, point.smul]; nlinarith)
          (by simp only [point.sub, point.cross, point.smul]; nlinarith)
      have hscan : (scan rm ⟨-1, 3 * c⟩ ⟨1, c⟩
          [⟨⟨-(2 * c * c), 0⟩, vstate.first⟩, ⟨⟨1, c⟩, vstate.used⟩,
            ⟨⟨-1, 3 * c⟩, vstate.used⟩] 0 (629 / 100) 0 2).2.2 = 0 := by
        rw [scan_take _ _ _ _ _ _ _ _ _ (by simp)
            (by simp [point.eq]; intro h; nlinarith)
            (Or.inl (by linarith [a0.2, Real.pi_lt_four])),
          scan_used _ _ _ _ _ _ _ _ _ (by simp),
          scan_used _ _ _ _ _ _ _ _ _ (by simp),
          scan_nil]
      unfold hull_step
      simp only [hscan]
      simp
    unfold convex_hull convex_hull_fuel
    simp only [List.length_cons, List.length_nil, Nat.reduceAdd, Nat.reduceLT, if_false]
    simp only [hull_init, hlr, List.map, set_state]
    rw [hull_loop, st1]
    simp only
    rw [hull_loop, st2]
    simp only
    rw [hull_loop, st3]
  have e1 : (-(2 * 549755813888 * 549755813888) : ℝ) = -604462909807314587353088 := by
    norm_num
  have e2 : (3 * 549755813888 : ℝ) = 1649267441664 := by norm_num
  have h1 := thin_hull_once 549755813888 (by norm_num)
  have h2 := thin_hull_twice 549755813888 (by norm_num)
  rw [e1, e2] at h1 h2
  refine ⟨h1, h2, ?_, ?_⟩
  · simp
  · simp only [point.sub, point.cross]
    norm_num

end convex_polygon
end search

namespace search
namespace convex_polygon_pf

section steps
variable {K : Type} [LinearOrderedField K]

theorem max_step_take (m : Libm K) (c : convex_polygon_pf K) (acc : K × Nat × Nat)
    (i j : Nat) (ppf : partial_pf K)
    (hp : (partial_pf.of_sides m c i j Option.none).1 = ppf)
    (hf : ppf.form ≠ ppf_form.none) (hb : ¬ ppf.b < c.half_area_v) (hlt : ppf.pfb < acc.1) :
    max_step m c acc (i, j) = (ppf.pfb, i, j) := by
  unfold max_step
  simp only [hp, if_neg hf, if_neg hb, if_pos hlt]

theorem max_step_keep (m : Libm K) (c : convex_polygon_pf K) (acc : K × Nat × Nat)
    (i j : Nat) (ppf : partial_pf K)
    (hp : (partial_pf.of_sides m c i j Option.none).1 = ppf)
    (hge : ¬ ppf.pfb < acc.1) :
    max_step m c acc (i, j) = acc := by
  unfold max_step
  simp only [hp, if_neg hge]
  split_ifs <;> rfl

end steps

/-- The maximum that `find_pf_max` stores for the unit square. -/
theorem find_pf_max_usq : (find_pf_max rm (rect_pf 1 1)).maximum_v = 1 := by
  have sqrt_half_pi_gt : (6 : ℝ) / 5 < Real.sqrt (Real.pi / 2) := by
    rw [Real.lt_sqrt (by norm_num)]
    nlinarith [Real.pi_gt_three]
  have hw : (0 : ℝ) < 1 := by norm_num
  have hc : ∀ (d θ1 : ℝ) (r u v : point ℝ) (du dv : ℝ), d = 1 →
      (partial_pf.of_sides_arc rm (rect_pf 1 1) θ1 (Real.pi / 2) 0 d 0 0 r u v du dv
        Option.none).1 =
      ⟨ppf_form.sqrt, 0, 1 / 2, Real.pi / 2, 0, 0, Real.sqrt (Real.pi / 2)⟩ := by
    intro d θ1 r u v du dv hd
    subst hd
    rw [rect_corner_clipped 1 1 1 θ1 r u v du dv (by norm_num) (by norm_num) (by norm_num)
      (by linarith [Real.pi_gt_three])]
    norm_num
  have hhalf : (rect_pf 1 1).half_area_v = 1 / 2 := by simp [rect_pf]
  have harea : (rect_pf 1 1).area_v = 1 := by simp [rect_pf]
  have h1 : Real.sqrt (Real.pi / 2) < Real.sqrt (Real.pi * 1) := by
    apply Real.sqrt_lt_sqrt
    · positivity
    · linarith [Real.pi_gt_three]
  have h2 : (1 : ℝ) < Real.sqrt (Real.pi / 2) := by linarith [sqrt_half_pi_gt]
  have p10 := (rect_pair_1_0 1 1 hw hw).trans (hc _ _ _ _ _ _ _ (min_self 1))
  have p21 := (rect_pair_2_1 1 1 hw hw).trans (hc _ _ _ _ _ _ _ (min_self 1))
  have p32 := (rect_pair_3_2 1 1 hw hw).trans (hc _ _ _ _ _ _ _ (min_self 1))
  have p30 := (rect_pair_3_0 1 1 hw hw).trans (hc _ _ _ _ _ _ _ (min_self 1))
  have p20 := rect_pair_2_0 1 1 hw hw
  have p31 := rect_pair_3_1 1 1 hw hw
  unfold find_pf_max
  rw [if_neg (by rw [rect_n]; norm_num), rect_n, side_pairs_four]
  simp only [List.foldl_cons, List.foldl_nil, rm_sqrt, rm_pi, harea]
  rw [max_step_take rm _ _ 1 0 _ p10 (by simp) (by rw [hhalf]; norm_num) h1,
    max_step_take rm _ _ 2 0 _ p20 (by simp) (by rw [hhalf]; norm_num) h2,
    max_step_keep rm _ _ 2 1 _ p21 (not_lt.mpr (le_of_lt h2)),
    max_step_keep rm _ _ 3 0 _ p30 (not_lt.mpr (le_of_lt h2)),
    max_step_keep rm _ _ 3 1 _ p31 (lt_irrefl _),
    max_step_keep rm _ _ 3 2 _ p32 (not_lt.mpr (le_of_lt h2))]

set_option maxHeartbeats 4000000 in
/-- C13: for the vertices added in the order (0,0), (1,0), (1,1), (0,1), `convex_hull`
returns the unit square, its `area ()` is 1, and the object built from it has
`maximum ()` equal to 1, both when `maximum ()` is the first query and when it follows a
call of `pf`. -/
theorem unit_square_area_maximum :
    convex_polygon.convex_hull rm [⟨0, 0⟩, ⟨1, 0⟩, ⟨1, 1⟩, ⟨0, 1⟩] = some (rect 1 1) ∧
    convex_polygon.area (rect 1 1) = (1 : ℝ) ∧
    (maximum rm (of_polygon rm (rect 1 1))).1 = 1 ∧
    (maximum rm (pf rm (of_polygon rm (rect 1 1)) 0).2).1 = 1 := by
  have rect_area (w h : ℝ) (hw : 0 < w) (hh : 0 < h) :
      convex_polygon.area (rect w h) = w * h := by
    have e : |-(h * (w / 2))| = h * (w / 2) := by
      rw [abs_neg, abs_of_pos (by positivity)]
    simp [convex_polygon.area, rect, convex_polygon.area_loop, point.area, point.sign_area,
      point.sub, point.cross, point.sdiv, e]
    ring
  have usq_area : (of_polygon rm (rect 1 1)).area_v = 1 := by
    rw [of_polygon_rect 1 1 (by norm_num) (by norm_num)]
    simp [rect_pf]
  -- A rectangle whose vertices were added counterclockwise from the origin: `convex_hull`
  -- returns them clockwise from the origin.
  have added_rect_hull (w h : ℝ) (hw : 0 < w) (hh : 0 < h) :
      convex_polygon.convex_hull rm [⟨0, 0⟩, ⟨w, 0⟩, ⟨w, h⟩, ⟨0, h⟩] = some (rect w h) := by
    have hwh := mul_pos hw hh
    have hww := mul_pos hw hw
    have hhh := mul_pos hh hh
    have hlr : convex_polygon.lower_right [(⟨w, 0⟩ : point ℝ), ⟨w, h⟩, ⟨0, h⟩] 1 ⟨0, 0⟩ 0 = (⟨w, 0⟩, 1) := by
      simp [convex_polygon.lower_right, hw, not_lt.mpr (le_of_lt hh), ne_of_gt hh]
    have st1 : convex_polygon.hull_step rm
        { vertices := [⟨⟨0, 0⟩, vstate.unused⟩, ⟨⟨w, 0⟩, vstate.first⟩,
            ⟨⟨w, h⟩, vstate.unused⟩, ⟨⟨0, h⟩, vstate.unused⟩]
          hull := [⟨w, 0⟩]
          last_added := ⟨w, 0⟩
          previous := ⟨w - 1, 0⟩
          select := 1 } =
        some
        { vertices := [⟨⟨0, 0⟩, vstate.unused⟩, ⟨⟨w, 0⟩, vstate.first⟩,
            ⟨⟨w, h⟩, vstate.used⟩, ⟨⟨0, h⟩, vstate.unused⟩]
          hull := [⟨w, h⟩, ⟨w, 0⟩]
          last_added := ⟨w, h⟩
          previous := ⟨w, 0⟩
          select := 2 } := by
      have a0 : point.angle rm ⟨w, 0⟩ ((point.smul ⟨w, 0⟩ 2).sub ⟨w - 1, 0⟩) ⟨0, 0⟩ = Real.pi :=
        point.angle_back _ _ _ (by simp only [point.sub, point.dot, point.smul]; nlinarith)
          (by simp only [point.sub, point.cross, point.smul]; ring)
      have a2 : point.angle rm ⟨w, 0⟩ ((point.smul ⟨w, 0⟩ 2).sub ⟨w - 1, 0⟩) ⟨w, h⟩
          = Real.pi / 2 :=
        point.angle_left _ _ _ (by simp only [point.sub, point.dot, point.smul]; ring)
          (by simp only [point.sub, point.cross, point.smul]; nlinarith)
      have a3 := point.angle_obtuse ⟨w, 0⟩ ((point.smul ⟨w, 0⟩ 2).sub ⟨w - 1, 0⟩) ⟨0, h⟩
          (by simp only [point.sub, point.dot, point.smul]; nlinarith)
          (by simp only [point.sub, point.cross, point.smul]; nlinarith)
      have hscan : (convex_polygon.scan rm ⟨w, 0⟩ ⟨w - 1, 0⟩ [⟨⟨0, 0⟩, vstate.unused⟩, ⟨⟨w, 0⟩, vstate.first⟩,
          ⟨⟨w, h⟩, vstate.unused⟩, ⟨⟨0, h⟩, vstate.unused⟩] 0 (629 / 100) 0 1).2.2 = 2 := by
        rw [convex_polygon.scan_take _ _ _ _ _ _ _ _ _ (by simp) (by simp [point.eq]; intro h0; linarith)
            (Or.inl (by rw [a0]; linarith [Real.pi_lt_four])),
          convex_polygon.scan_same _ _ _ _ _ _ _ _ _ (by simp) (by simp [point.eq]),
          convex_polygon.scan_take _ _ _ _ _ _ _ _ _ (by simp) (by simp [point.eq]; linarith)
            (Or.inl (by rw [a0, a2]; linarith [Real.pi_gt_three])),
          convex_polygon.scan_keep _ _ _ _ _ _ _ _ _ (by simp) (by simp [point.eq]; intro h0; linarith)
            (by
              rw [a2]; intro hc
              rcases hc with hc | hc
              · exact absurd hc (not_lt.mpr (le_of_lt a3.1))
              · exact absurd hc.1 (ne_of_gt a3.1)),
          convex_polygon.scan_nil]
      unfold convex_polygon.hull_step
      simp only [hscan]
      simp [convex_polygon.set_state]
    have st2 : convex_polygon.hull_step rm
        { vertices := [⟨⟨0, 0⟩, vstate.unused⟩, ⟨⟨w, 0⟩, vstate.first⟩,
            ⟨⟨w, h⟩, vstate.used⟩, ⟨⟨0, h⟩, vstate.unused⟩]
          hull := [⟨w, h⟩, ⟨w, 0⟩]
          last_added := ⟨w, h⟩
          previous := ⟨w, 0⟩
          select := 2 } =
        some
        { vertices := [⟨⟨0, 0⟩, vstate.unused⟩, ⟨⟨w, 0⟩, vstate.first⟩,
            ⟨⟨w, h⟩, vstate.used⟩, ⟨⟨0, h⟩, vstate.used⟩]
          hull := [⟨0, h⟩, ⟨w, h⟩, ⟨w, 0⟩]
          last_added := ⟨0, h⟩
          previous := ⟨w, h⟩
          select := 3 } := by
      have a0 := point.angle_obtuse ⟨w, h⟩ ((point.smul ⟨w, h⟩ 2).sub ⟨w, 0⟩) ⟨0, 0⟩
          (by simp only [point.sub, point.dot, point.smul]; nlinarith)
          (by simp only [point.sub, point.cross, point.smul]; nlinarith)
      have a1 : point.angle rm ⟨w, h⟩ ((point.smul ⟨w, h⟩ 2).sub ⟨w, 0⟩) ⟨w, 0⟩ = Real.pi :=
        point.angle_back _ _ _ (by simp only [point.sub, point.dot, point.smul]; nlinarith)
          (by simp only [point.sub, point.cross, point.smul]; ring)
      have a3 : point.angle rm ⟨w, h⟩ ((point.smul ⟨w, h⟩ 2).sub ⟨w, 0⟩) ⟨0, h⟩
          = Real.pi / 2 :=
        point.angle_left _ _ _ (by simp only [point.sub, point.dot, point.smul]; ring)
          (by simp only [point.sub, point.cross, point.smul]; nlinarith)
      have hscan : (convex_polygon.scan rm ⟨w, h⟩ ⟨w, 0⟩ [⟨⟨0, 0⟩, vstate.unused⟩, ⟨⟨w, 0⟩, vstate.first⟩,
          ⟨⟨w, h⟩, vstate.used⟩, ⟨⟨0, h⟩, vstate.unused⟩] 0 (629 / 100) 0 2).2.2 = 3 := by
        rw [convex_polygon.scan_take _ _ _ _ _ _ _ _ _ (by simp) (by simp [point.eq]; intro h0; linarith)
            (Or.inl (by linarith [a0.2, Real.pi_lt_four])),
          convex_polygon.scan_keep _ _ _ _ _ _ _ _ _ (by simp) (by simp [point.eq]; linarith)
            (by
              rw [a1]; intro hc
              rcases hc with hc | hc
              · linarith [a0.2]
              · linarith [a0.2, hc.1]),
          convex_polygon.scan_used _ _ _ _ _ _ _ _ _ (by simp),
          convex_polygon.scan_take _ _ _ _ _ _ _ _ _ (by simp) (by simp [point.eq]; intro h0; linarith)
            (Or.inl (by rw [a3]; exact a0.1)),
          convex_polygon.scan_nil]
      unfold convex_polygon.hull_step
      simp only [hscan]
      simp [convex_polygon.set_state]
    have st3 : convex_polygon.hull_step rm
        { vertices := [⟨⟨0, 0⟩, vstate.unused⟩, ⟨⟨w, 0⟩, vstate.first⟩,
            ⟨⟨w, h⟩, vstate.used⟩, ⟨⟨0, h⟩, vstate.used⟩]
          hull := [⟨0, h⟩, ⟨w, h⟩, ⟨w, 0⟩]
          last_added := ⟨0, h⟩
          previous := ⟨w, h⟩
          select := 3 } =
        some
        { vertices := [⟨⟨0, 0⟩, vstate.used⟩, ⟨⟨w, 0⟩, vstate.first⟩,
            ⟨⟨w, h⟩, vstate.used⟩, ⟨⟨0, h⟩, vstate.used⟩]
          hull := [⟨0, 0⟩, ⟨0, h⟩, ⟨w, h⟩, ⟨w, 0⟩]
          last_added := ⟨0, 0⟩
          previous := ⟨0, h⟩
          select := 0 } := by
      have a0 : point.angle rm ⟨0, h⟩ ((point.smul ⟨0, h⟩ 2).sub ⟨w, h⟩) ⟨0, 0⟩
          = Real.pi / 2 :=
        point.angle_left _ _ _ (by simp only [point.sub, point.dot, point.smul]; ring)
          (by simp only [point.sub, point.cross, point.smul]; nlinarith)
      have a1 := point.angle_obtuse ⟨0, h⟩ ((point.smul ⟨0, h⟩ 2).sub ⟨w, h⟩) ⟨w, 0⟩
          (by simp only [point.sub, point.dot, point.smul]; nlinarith)
          (by simp only [point.sub, point.cross, point.smul]; nlinarith)
      have hscan : (convex_polygon.scan rm ⟨0, h⟩ ⟨w, h⟩ [⟨⟨0, 0⟩, vstate.unused⟩, ⟨⟨w, 0⟩, vstate.first⟩,
          ⟨⟨w, h⟩, vstate.used⟩, ⟨⟨0, h⟩, vstate.used⟩] 0 (629 / 100) 0 3).2.2 = 0 := by
        rw [convex_polygon.scan_take _ _ _ _ _ _ _ _ _ (by simp) (by simp [point.eq]; linarith)
            (Or.inl (by rw [a0]; linarith [Real.pi_lt_four])),
          convex_polygon.scan_keep _ _ _ _ _ _ _ _ _ (by simp) (by simp [point.eq]; intro h0; linarith)
            (by
              rw [a0]; intro hc
              rcases hc with hc | hc
              · exact absurd hc (not_lt.mpr (le_of_lt a1.1))
              · exact absurd hc.1 (ne_of_gt a1.1)),
          convex_polygon.scan_used _ _ _ _ _ _ _ _ _ (by simp),
          convex_polygon.scan_used _ _ _ _ _ _ _ _ _ (by simp),
          convex_polygon.scan_nil]
      unfold convex_polygon.hull_step
      simp only [hscan]
      simp [convex_polygon.set_state]
    have st4 : convex_polygon.hull_step rm
        { vertices := [⟨⟨0, 0⟩, vstate.used⟩, ⟨⟨w, 0⟩, vstate.first⟩,
            ⟨⟨w, h⟩, vstate.used⟩, ⟨⟨0, h⟩, vstate.used⟩]
          hull := [⟨0, 0⟩, ⟨0, h⟩, ⟨w, h⟩, ⟨w, 0⟩]
          last_added := ⟨0, 0⟩
          previous := ⟨0, h⟩
          select := 0 } = Option.none := by
      have a1 : point.angle rm ⟨0, 0⟩ ((point.smul ⟨0, 0⟩ 2).sub ⟨0, h⟩) ⟨w, 0⟩
          = Real.pi / 2 :=
        point.angle_left _ _ _ (by simp only [point.sub, point.dot, point.smul]; ring)
          (by simp only [point.sub, point.cross, point.smul]; nlinarith)
      have hscan : (convex_polygon.scan rm ⟨0, 0⟩ ⟨0, h⟩ [⟨⟨0, 0⟩, vstate.used⟩, ⟨⟨w, 0⟩, vstate.first⟩,
          ⟨⟨w, h⟩, vstate.used⟩, ⟨⟨0, h⟩, vstate.used⟩] 0 (629 / 100) 0 0).2.2 = 1 := by
        rw [convex_polygon.scan_used _ _ _ _ _ _ _ _ _ (by simp),
          convex_polygon.scan_take _ _ _ _ _ _ _ _ _ (by simp) (by simp [point.eq]; intro h0; linarith)
            (Or.inl (by rw [a1]; linarith [Real.pi_lt_four])),
          convex_polygon.scan_used _ _ _ _ _ _ _ _ _ (by simp),
          convex_polygon.scan_used _ _ _ _ _ _ _ _ _ (by simp),
          convex_polygon.scan_nil]
      unfold convex_polygon.hull_step
      simp only [hscan]
      simp
    unfold convex_polygon.convex_hull convex_polygon.convex_hull_fuel rect
    simp only [List.length_cons, List.length_nil, Nat.reduceAdd, Nat.reduceLT, if_false]
    simp only [convex_polygon.hull_init, hlr, List.map, convex_polygon.set_state]
    rw [convex_polygon.hull_loop, st1]
    simp only
    rw [convex_polygon.hull_loop, st2]
    simp only
    rw [convex_polygon.hull_loop, st3]
    simp only
    rw [convex_polygon.hull_loop, st4]
  refine ⟨added_rect_hull 1 1 (by norm_num) (by norm_num), ?_, ?_, ?_⟩
  · rw [rect_area 1 1 (by norm_num) (by norm_num)]
    norm_num
  · rw [of_polygon_rect 1 1 (by norm_num) (by norm_num)]
    unfold maximum
    simp only [rect_pf, Bool.false_eq_true, if_false]
    exact find_pf_max_usq
  · rw [pf_state rm _ 0 (le_refl 0) (by rw [usq_area]; norm_num), ensure_pf_usq]
    simp [maximum]

end convex_polygon_pf
end search

namespace search
namespace convex_polygon_pf

/-- The states an object reaches from the state `c0` through the public queries. -/
inductive reachable_from {K : Type} [LinearOrderedField K] (m : Libm K)
    (c0 : convex_polygon_pf K) : convex_polygon_pf K → Prop where
  | start : reachable_from m c0 c0
  | pf (c : convex_polygon_pf K) : reachable_from m c0 c → c.pf_ok = false →
      reachable_from m c0 (find_pf m c)
  | pf_max (c : convex_polygon_pf K) : reachable_from m c0 c → c.pf_max_ok = false →
      reachable_from m c0 (find_pf_max m c)
  | sc (c : convex_polygon_pf K) : reachable_from m c0 c → c.sc_ok = false →
      reachable_from m c0 (find_pf_max m c)

/-- What holds in every state of an object built from fewer than 3 vertices. -/
def degenerate (c : convex_polygon_pf ℝ) : Prop :=
  c.num_vertices_v < 3 ∧ c.area_v = 0 ∧ (c.pf_max_ok = true → c.maximum_v = 0)

theorem of_polygon_degenerate (cp : List (point ℝ)) (h : cp.length < 3) :
    degenerate (of_polygon rm cp) := by
  have hn : ¬ cp.length > 2 := by omega
  have harea : convex_polygon.area cp = 0 := by
    unfold convex_polygon.area
    split
    · rw [if_pos h]
    · rfl
  unfold of_polygon
  cases cp with
  | nil => exact ⟨by simp, by simpa using harea, by simp⟩
  | cons first rest =>
    simp only [if_neg hn]
    exact ⟨h, harea, by simp⟩

set_option maxHeartbeats 4000000 in
/-- C14: for every polygon with fewer than 3 vertices and every state the object built from
it reaches through its queries, `maximum ()` returns 0 and `shortest` returns 0 and leaves
`is_arc`, `start`, `end` and `center` as they were. -/
theorem degenerate_maximum_shortest (cp : List (point ℝ)) (hcp : cp.length < 3)
    (c : convex_polygon_pf ℝ) (hc : reachable_from rm (of_polygon rm cp) c)
    (is_arc : Bool) (start end_ center : point ℝ) :
    (maximum rm c).1 = 0 ∧
    (shortest rm c is_arc start end_ center).1 = 0 ∧
    (shortest rm c is_arc start end_ center).2.1 = (is_arc, start, end_, center) := by
  have find_pf_max_degenerate (c : convex_polygon_pf ℝ) (h : degenerate c) :
      degenerate (find_pf_max rm c) := by
    obtain ⟨hn, ha, _⟩ := h
    unfold find_pf_max
    rw [if_pos hn]
    exact ⟨hn, ha, fun _ => rfl⟩
  have reachable_from_degenerate (c0 c : convex_polygon_pf ℝ) (h0 : degenerate c0)
      (h : reachable_from rm c0 c) : degenerate c := by
    have find_pf_degenerate (c : convex_polygon_pf ℝ) (h : degenerate c) :
        degenerate (find_pf rm c) := by
      obtain ⟨hn, ha, _⟩ := h
      refine ⟨hn, ha, ?_⟩
      intro _
      have hasm : assemble rm c = [stub rm c] := by
        unfold assemble
        rw [if_neg (by omega)]
      simp only [find_pf, hasm, stub, partial_pf.mk_constant, List.getLastD_cons, List.getLastD_nil,
        rm_sqrt, ha, mul_zero, Real.sqrt_zero]
    induction h with
    | start => exact h0
    | pf c _ _ ih => exact find_pf_degenerate c ih
    | pf_max c _ _ ih => exact find_pf_max_degenerate c ih
    | sc c _ _ ih => exact find_pf_max_degenerate c ih
  have maximum_degenerate (c : convex_polygon_pf ℝ) (h : degenerate c) :
      (maximum rm c).1 = 0 ∧ degenerate (maximum rm c).2 := by
    unfold maximum
    by_cases hok : c.pf_max_ok = true
    · simp only [hok, if_true]
      exact ⟨h.2.2 hok, h⟩
    · simp only [hok, if_false]
      have hd := find_pf_max_degenerate c h
      refine ⟨hd.2.2 ?_, hd⟩
      unfold find_pf_max
      rw [if_pos h.1]
  have hd := reachable_from_degenerate _ c (of_polygon_degenerate cp hcp) hc
  refine ⟨(maximum_degenerate c hd).1, ?_⟩
  have h1 : degenerate (if c.sc_ok = true then c else find_pf_max rm c) := by
    split
    · exact hd
    · exact find_pf_max_degenerate c hd
  have h2 := (maximum_degenerate _ h1).1
  unfold shortest
  simp [h2]

theorem degenerate_maximum_shortest_witness :
    ([⟨0, 0⟩, ⟨1, 0⟩] : List (point ℝ)).length < 3 ∧
    reachable_from rm (of_polygon rm [⟨0, 0⟩, ⟨1, 0⟩])
      (find_pf rm (of_polygon rm [⟨0, 0⟩, ⟨1, 0⟩])) ∧
    (maximum rm (find_pf rm (of_polygon rm [⟨0, 0⟩, ⟨1, 0⟩]))).1 = 0 ∧
    (shortest rm (find_pf rm (of_polygon rm [⟨0, 0⟩, ⟨1, 0⟩])) true ⟨1, 2⟩ ⟨3, 4⟩ ⟨5, 6⟩).1
      = 0 ∧
    (shortest rm (find_pf rm (of_polygon rm [⟨0, 0⟩, ⟨1, 0⟩])) true ⟨1, 2⟩ ⟨3, 4⟩ ⟨5, 6⟩).2.1
      = (true, ⟨1, 2⟩, ⟨3, 4⟩, ⟨5, 6⟩) :=
  ⟨by simp, reachable_from.pf _ reachable_from.start (of_polygon_pf_ok rm _),
    degenerate_maximum_shortest [⟨0, 0⟩, ⟨1, 0⟩] (by simp) _
      (reachable_from.pf _ reachable_from.start (of_polygon_pf_ok rm _)) true ⟨1, 2⟩ ⟨3, 4⟩
      ⟨5, 6⟩⟩

end convex_polygon_pf
end search

namespace search

/-- The trigonometric functions over the reals. -/
noncomputable def rt : Trig ℝ := ⟨Real.sin, Real.cos, Real.arccos⟩

/-- C15: for every `a > 0`, `pf_circle (0, a)` returns 0 (whatever bound is put on the
bisection loops, which this call does not reach). -/
theorem pf_circle_zero (a : ℝ) (ha : 0 < a) (fuel : Nat) :
    pf_circle rm rt fuel 0 a = Except.ok (some 0) := by
  unfold pf_circle
  rw [if_neg (by
    simp only [not_not, rm_pi]
    exact ⟨le_refl 0, by positivity⟩),
    if_neg (by simp only [not_not]; exact le_of_lt ha), if_neg (ne_of_gt ha)]
  simp [rm_sqrt]

theorem pf_circle_zero_witness :
    (0 : ℝ) < 1 ∧ pf_circle rm rt 0 0 1 = Except.ok (some 0) :=
  ⟨by norm_num, pf_circle_zero 1 (by norm_num) 0⟩

/-- C16 (amended): for every `a > 0`, `pf_circle (pi*a*a, a)` returns 0: the normalised
area `pi` is mirrored to `pi - pi = 0`, where the function returns 0. -/
theorem pf_circle_full (a : ℝ) (ha : 0 < a) (fuel : Nat) :
    pf_circle rm rt fuel (Real.pi * a * a) a = Except.ok (some 0) := by
  have hpi := Real.pi_pos
  have hn : Real.pi * a * a / a / a = Real.pi := by
    field_simp
  unfold pf_circle
  rw [if_neg (by
    simp only [not_not, rm_pi]
    exact ⟨by positivity, le_refl _⟩),
    if_neg (by simp only [not_not]; exact le_of_lt ha), if_neg (ne_of_gt ha)]
  have hz : (if Real.pi > Real.pi / 2 then Real.pi - Real.pi else Real.pi) = 0 := by
    rw [if_pos (by linarith), sub_self]
  simp only [hn, rm_pi, hz]
  rw [if_pos trivial, if_neg (ne_of_gt hpi)]

theorem pf_circle_full_witness :
    (0 : ℝ) < 1 ∧ pf_circle rm rt 0 (Real.pi * 1 * 1) 1 = Except.ok (some 0) :=
  ⟨by norm_num, pf_circle_full 1 (by norm_num) 0⟩

/-- C16 (counterexample): `pf_circle (pi*1*1, 1)` returns 0, which is not `2*1`. -/
theorem pf_circle_full_unit :
    pf_circle rm rt 64 (Real.pi * 1 * 1) 1 = Except.ok (some 0) ∧ (0 : ℝ) ≠ 2 * 1 := by
  have hpi := Real.pi_pos
  have hn : Real.pi * 1 * 1 / 1 / 1 = Real.pi := by ring
  refine ⟨?_, by norm_num⟩
  unfold pf_circle
  rw [if_neg (by
    simp only [not_not, rm_pi]
    exact ⟨by positivity, le_refl _⟩),
    if_neg (by norm_num), if_neg (by norm_num)]
  have hz : (if Real.pi > Real.pi / 2 then Real.pi - Real.pi else Real.pi) = 0 := by
    rw [if_pos (by linarith), sub_self]
  simp only [hn, rm_pi, hz]
  rw [if_pos trivial, if_neg (ne_of_gt hpi)]

/-- C17 (amended): for all `a >= 0` and `b >= 0`, `pf_rectangle (a*b, a, b)` returns 0, and
`pf_rectangle (a*b/2, a, b)` returns `min (a, b)`. -/
theorem pf_rectangle_full_half (a b : ℝ) (ha : 0 ≤ a) (hb : 0 ≤ b) :
    pf_rectangle rm (a * b) a b = Except.ok 0 ∧
    pf_rectangle rm (a * b / 2) a b = Except.ok (min a b) := by
  have hpi := Real.pi_gt_three
  have hpi4 := Real.pi_lt_four
  have hab : 0 ≤ a * b := mul_nonneg ha hb
  have hmin : (if a > b then b else a) = min a b := by
    by_cases h : a > b
    · rw [if_pos h, min_eq_right (le_of_lt h)]
    · rw [if_neg h, min_eq_left (not_lt.mp h)]
  have hmax : (if a > b then a else b) = max a b := by
    by_cases h : a > b
    · rw [if_pos h, max_eq_left (le_of_lt h)]
    · rw [if_neg h, max_eq_right (not_lt.mp h)]
  have hprod : min a b / 2 * max a b = a * b / 2 := by
    rw [div_mul_eq_mul_div, min_mul_max]
  have hmin0 : 0 ≤ min a b := le_min ha hb
  have hminmax : min a b ≤ max a b := le_trans (min_le_left a b) (le_max_left a b)
  have hsq : min a b * min a b ≤ a * b := by
    rw [← min_mul_max a b]
    exact mul_le_mul_of_nonneg_left hminmax hmin0
  constructor
  · unfold pf_rectangle
    rw [if_neg (not_not.mpr ha), if_neg (not_not.mpr hb),
      if_neg (by simp only [not_not]; exact ⟨hab, le_refl _⟩)]
    simp only [hmin, hmax, hprod, rm_pi, rm_sqrt]
    rcases eq_or_lt_of_le hab with h0 | hpos
    · have hm : min a b = 0 := by
        rcases mul_eq_zero.mp h0.symm with h | h
        · rw [h]; exact min_eq_left hb
        · rw [h]; exact min_eq_right ha
      rw [← h0, hm]
      simp
    · have hm : 0 < min a b := by
        rcases lt_or_eq_of_le hmin0 with h | h
        · exact h
        · exfalso
          rw [← min_mul_max a b, ← h, zero_mul] at hpos
          exact lt_irrefl _ hpos
      have e : (if a * b > a * b / 2 then a * b / 2 - (a * b - a * b / 2) else a * b) = 0 := by
        rw [if_pos (by linarith)]
        ring
      rw [e, if_pos (by positivity), Real.sqrt_zero, mul_zero]
  · unfold pf_rectangle
    rw [if_neg (not_not.mpr ha), if_neg (not_not.mpr hb),
      if_neg (by simp only [not_not]; exact ⟨by linarith, by linarith⟩)]
    simp only [hmin, hmax, hprod, rm_pi, rm_sqrt]
    have e : (if a * b / 2 > a * b / 2 then a * b / 2 - (a * b / 2 - a * b / 2)
        else a * b / 2) = a * b / 2 := by
      rw [if_neg (lt_irrefl _)]
    rw [e, if_neg (by
      rw [not_lt, div_mul_eq_mul_div, div_le_div_iff Real.pi_pos (by norm_num)]
      nlinarith)]

theorem pf_rectangle_full_half_witness :
    (0 : ℝ) ≤ 2 ∧ (0 : ℝ) ≤ 3 ∧
    (pf_rectangle rm (2 * 3) 2 3 = Except.ok 0 ∧
      pf_rectangle rm (2 * 3 / 2) 2 3 = Except.ok (min 2 3)) :=
  ⟨by norm_num, by norm_num, pf_rectangle_full_half 2 3 (by norm_num) (by norm_num)⟩

/-- C17 (counterexample): `pf_rectangle (1*1, 1, 1)` returns 0, which is not
`min (1, 1)`. -/
theorem pf_rectangle_full_unit :
    pf_rectangle rm (1 * 1) 1 1 = Except.ok 0 ∧ (0 : ℝ) ≠ min 1 1 := by
  have hpi := Real.pi_pos
  refine ⟨?_, by norm_num⟩
  unfold pf_rectangle
  rw [if_neg (by norm_num), if_neg (by norm_num), if_neg (by norm_num)]
  simp only [gt_iff_lt, lt_irrefl, if_false, rm_pi, rm_sqrt]
  have e : (if (1 : ℝ) / 2 * 1 < 1 * 1 then (1 : ℝ) / 2 * 1 - (1 * 1 - 1 / 2 * 1) else 1 * 1)
      = 0 := by
    rw [if_pos (by norm_num)]
    norm_num
  rw [e, if_pos (by positivity), Real.sqrt_zero, mul_zero]

/-- C18 (amended): for every `r >= 0`, `f (0, r)` returns `2*r`. -/
theorem f_zero (r : ℝ) (hr : 0 ≤ r) : f rm rt 0 r = Except.ok (2 * r) := by
  unfold f
  rw [if_neg (by norm_num), if_neg (not_not.mpr hr)]
  simp [rm_sqrt]

theorem f_zero_witness : (0 : ℝ) ≤ 1 ∧ f rm rt 0 1 = Except.ok (2 * 1) :=
  ⟨by norm_num, f_zero 1 (by norm_num)⟩

/-- C18 (counterexample): `f (0, 1)` returns 2, which is not `2*1*pi`. -/
theorem f_zero_unit :
    f rm rt 0 1 = Except.ok 2 ∧ (2 : ℝ) ≠ 2 * 1 * Real.pi := by
  constructor
  · unfold f
    rw [if_neg (by norm_num), if_neg (by norm_num)]
    simp [rm_sqrt]
  · intro h
    linarith [Real.pi_gt_three]

end search

namespace search

/-- The documented domain `[lo, hi]` of a `double` argument: a finite value between the two
bounds. -/
def xdouble.within {K : Type} [LinearOrderedField K] (z : xdouble K) (lo hi : K) : Prop :=
  match z with
  | xdouble.fin x => lo ≤ x ∧ x ≤ hi
  | _ => False

namespace convex_polygon_pf

section checks
variable {K : Type} [LinearOrderedField K]

theorem pf_loop_kind (m : Libm K) (fn : List (partial_pf K)) (z : K) (n : Nat) :
    ∀ i, pf_loop m fn z n i ≠ Except.error error.out_of_range ∧
      pf_loop m fn z n i ≠ Except.error error.invalid_argument := by
  induction n with
  | zero => intro i; simp [pf_loop]
  | succ n ih =>
    intro i
    rw [pf_loop]
    split
    · simp
    · split
      · simp
      · exact ih _

theorem ipf_loop_kind (fn : List (partial_pf K)) (p : K) (n : Nat) :
    ∀ i, ipf_loop fn p n i ≠ Except.error error.out_of_range ∧
      ipf_loop fn p n i ≠ Except.error error.invalid_argument := by
  induction n with
  | zero => intro i; simp [ipf_loop]
  | succ n ih =>
    intro i
    rw [ipf_loop]
    split
    · simp
    · split
      · simp
      · exact ih _

theorem pf_kinds (m : Libm K) (c : convex_polygon_pf K) (z : K) :
    ((pf m c z).1 = Except.error error.out_of_range ↔ ¬ (0 ≤ z ∧ z ≤ c.area_v)) ∧
    (pf m c z).1 ≠ Except.error error.invalid_argument := by
  unfold pf
  by_cases h : 0 ≤ z ∧ z ≤ c.area_v
  · rw [if_neg (not_not.mpr h)]
    have k := pf_loop_kind m (ensure_pf m c).function
      (if z > (ensure_pf m c).half_area_v then (ensure_pf m c).area_v - z else z)
      (ensure_pf m c).num_segments_v 0
    exact ⟨⟨fun he => absurd he k.1, fun hn => absurd h hn⟩, k.2⟩
  · rw [if_pos h]
    simp [h]

theorem ipf_kinds (m : Libm K) (c : convex_polygon_pf K) (p : K) :
    ((ipf m c p).1 = Except.error error.out_of_range ↔
      ¬ (0 ≤ p ∧ p ≤ (maximum m (ensure_pf m c)).1)) ∧
    (ipf m c p).1 ≠ Except.error error.invalid_argument := by
  unfold ipf
  by_cases h0 : 0 ≤ p
  · rw [if_neg (not_not.mpr h0)]
    by_cases h1 : p ≤ (maximum m (ensure_pf m c)).1
    · simp only
      rw [if_neg (not_not.mpr h1)]
      have k := ipf_loop_kind (maximum m (ensure_pf m c)).2.function p
        (maximum m (ensure_pf m c)).2.num_segments_v 0
      exact ⟨⟨fun he => absurd he k.1, fun hn => absurd ⟨h0, h1⟩ hn⟩, k.2⟩
    · simp only
      rw [if_pos h1]
      simp [h0, h1]
  · rw [if_pos h0]
    simp [h0]

theorem zeta_ensure (m : Libm K) (c : convex_polygon_pf K) (i : Nat) :
    zeta m c i = zeta m (ensure_pf m c) i := by
  unfold zeta
  rw [ensure_pf_idem]

/-- The call `zeta (i)` returns a value for every valid index of a built state. -/
theorem zeta_ok (m : Libm K) (c : convex_polygon_pf K) (hok : c.pf_ok = true)
    (h1 : 1 ≤ c.function.length) (h2 : c.function.length < 2147483648)
    (hn : c.num_segments_v = 2 * c.function.length - 1 ∨
      c.num_segments_v = 2 * c.function.length)
    (i : Nat) (hi1 : 1 ≤ i) (hi : i ≤ c.num_segments_v) :
    ∃ v : K, (zeta m c i).1 = Except.ok v := by
  have he : ensure_pf m c = c := by simp [ensure_pf, hok]
  unfold zeta
  simp only [he]
  rw [if_neg (by simp; omega)]
  have hmax : usub c.num_segments_v 1 / 2 = c.function.length - 1 := by
    unfold usub; omega
  have hidx : usub i 1 = i - 1 := by unfold usub; omega
  rw [hmax, hidx]
  by_cases hle : i ≤ c.function.length
  · rw [if_pos (by omega), function_at_lt c _ (by omega)]
    exact ⟨_, rfl⟩
  · have hsub : usub (usub c.num_segments_v (i - 1)) 1 = c.num_segments_v - i := by
      unfold usub; omega
    rw [if_neg (by omega), hsub, function_at_lt c _ (by omega)]
    exact ⟨_, rfl⟩

theorem a_out (m : Libm K) (c : convex_polygon_pf K) (i : Nat)
    (hi : (ensure_pf m c).num_segments_v < i) :
    (a m c i).1 = Except.error error.out_of_range := by
  unfold a
  simp only
  rw [if_pos (by omega)]

theorem theta_out (m : Libm K) (c : convex_polygon_pf K) (i : Nat)
    (hi : i = 0 ∨ (ensure_pf m c).num_segments_v < i) :
    (theta m c i).1 = Except.error error.out_of_range := by
  unfold theta
  simp only
  rw [if_pos (by omega)]

theorem zeta_out (m : Libm K) (c : convex_polygon_pf K) (i : Nat)
    (hi : i = 0 ∨ (ensure_pf m c).num_segments_v < i) :
    (zeta m c i).1 = Except.error error.out_of_range := by
  unfold zeta
  simp only
  rw [if_pos (by omega)]

end checks

/-- C20: on every built object, `pf` and `ipf` fail with `invalid_argument` exactly on NaN
and with `out_of_range` exactly on an argument that is not NaN and lies outside
`[0, area ()]`, respectively `[0, maximum ()]`; `a (i)` fails (with `out_of_range`) exactly
for `i > num_segments ()`, `theta (i)` and `zeta (i)` exactly for `i = 0` or
`i > num_segments ()`, and return a value otherwise. -/
theorem range_checks {K : Type} [LinearOrderedField K] (m : Libm K) (c : convex_polygon_pf K)
    (hr : reachable m c) (hlen : (ensure_pf m c).function.length < 2147483648) :
    (∀ z : xdouble K,
      ((pf_double m c z).1 = Except.error error.invalid_argument ↔ z = xdouble.nan) ∧
      ((pf_double m c z).1 = Except.error error.out_of_range ↔
        z ≠ xdouble.nan ∧ ¬ z.within 0 c.area_v)) ∧
    (∀ p : xdouble K,
      ((ipf_double m c p).1 = Except.error error.invalid_argument ↔ p = xdouble.nan) ∧
      ((ipf_double m c p).1 = Except.error error.out_of_range ↔
        p ≠ xdouble.nan ∧ ¬ p.within 0 (maximum m (ensure_pf m c)).1)) ∧
    (∀ i : Nat,
      ((a m c i).1 = Except.error error.out_of_range ↔ (num_segments m c).1 < i) ∧
      (i ≤ (num_segments m c).1 → ∃ v : K, (a m c i).1 = Except.ok v)) ∧
    (∀ i : Nat,
      ((theta m c i).1 = Except.error error.out_of_range ↔
        i = 0 ∨ (num_segments m c).1 < i) ∧
      (1 ≤ i → i ≤ (num_segments m c).1 → ∃ v : K, (theta m c i).1 = Except.ok v)) ∧
    (∀ i : Nat,
      ((zeta m c i).1 = Except.error error.out_of_range ↔
        i = 0 ∨ (num_segments m c).1 < i) ∧
      (1 ≤ i → i ≤ (num_segments m c).1 → ∃ v : K, (zeta m c i).1 = Except.ok v)) := by
  obtain ⟨h1, hn, _, _⟩ := built_shape m c hr hlen
  have hok := ensure_pf_ok m c
  have hn2 : (ensure_pf m c).num_segments_v = 2 * (ensure_pf m c).function.length - 1 ∨
      (ensure_pf m c).num_segments_v = 2 * (ensure_pf m c).function.length := by
    rcases hn with h | h
    · exact Or.inl h.1
    · exact Or.inr h.1
  have hns : (num_segments m c).1 = (ensure_pf m c).num_segments_v := rfl
  refine ⟨?_, ?_, ?_, ?_, ?_⟩
  · intro z
    cases z with
    | nan => simp [pf_double]
    | neg_inf => simp [pf_double, xdouble.within]
    | pos_inf => simp [pf_double, xdouble.within]
    | fin x =>
      obtain ⟨k1, k2⟩ := pf_kinds m c x
      simp only [pf_double, xdouble.within, ne_eq, not_false_eq_true, true_and, reduceCtorEq,
        iff_false]
      exact ⟨k2, k1⟩
  · intro p
    cases p with
    | nan => simp [ipf_double]
    | neg_inf => simp [ipf_double, xdouble.within]
    | pos_inf => simp [ipf_double, xdouble.within]
    | fin x =>
      obtain ⟨k1, k2⟩ := ipf_kinds m c x
      simp only [ipf_double, xdouble.within, ne_eq, not_false_eq_true, true_and, reduceCtorEq,
        iff_false]
      exact ⟨k2, k1⟩
  · intro i
    rw [hns]
    have hok_i : i ≤ (ensure_pf m c).num_segments_v → ∃ v : K, (a m c i).1 = Except.ok v := by
      intro hi
      rw [(a_ensure m c i).1, a_closed m _ hok h1 hlen hn2 i hi]
      exact ⟨_, rfl⟩
    refine ⟨⟨?_, a_out m c i⟩, hok_i⟩
    intro he
    by_contra hlt
    obtain ⟨v, hv⟩ := hok_i (not_lt.mp hlt)
    rw [hv] at he
    exact absurd he (by simp)
  · intro i
    rw [hns]
    have hok_i : 1 ≤ i → i ≤ (ensure_pf m c).num_segments_v →
        ∃ v : K, (theta m c i).1 = Except.ok v := by
      intro hi1 hi
      rw [(theta_ensure m c i).1, theta_closed m _ hok h1 hlen hn2 i hi1 hi]
      exact ⟨_, rfl⟩
    refine ⟨⟨?_, theta_out m c i⟩, hok_i⟩
    intro he
    by_contra hlt
    obtain ⟨v, hv⟩ := hok_i (by omega) (by omega)
    rw [hv] at he
    exact absurd he (by simp)
  · intro i
    rw [hns]
    have hok_i : 1 ≤ i → i ≤ (ensure_pf m c).num_segments_v →
        ∃ v : K, (zeta m c i).1 = Except.ok v := by
      intro hi1 hi
      rw [zeta_ensure m c i]
      exact zeta_ok m _ hok h1 hlen hn2 i hi1 hi
    refine ⟨⟨?_, zeta_out m c i⟩, hok_i⟩
    intro he
    by_contra hlt
    obtain ⟨v, hv⟩ := hok_i (by omega) (by omega)
    rw [hv] at he
    exact absurd he (by simp)

theorem range_checks_witness :
    reachable rm (of_polygon rm (rect 1 1)) ∧
    (ensure_pf rm (of_polygon rm (rect 1 1))).function.length < 2147483648 ∧
    ((∀ z : xdouble ℝ,
      ((pf_double rm (of_polygon rm (rect 1 1)) z).1 = Except.error error.invalid_argument ↔ z = xdouble.nan) ∧
      ((pf_double rm (of_polygon rm (rect 1 1)) z).1 = Except.error error.out_of_range ↔
        z ≠ xdouble.nan ∧ ¬ z.within 0 (of_polygon rm (rect 1 1)).area_v)) ∧
    (∀ p : xdouble ℝ,
      ((ipf_double rm (of_polygon rm (rect 1 1)) p).1 = Except.error error.invalid_argument ↔ p = xdouble.nan) ∧
      ((ipf_double rm (of_polygon rm (rect 1 1)) p).1 = Except.error error.out_of_range ↔
        p ≠ xdouble.nan ∧ ¬ p.within 0 (maximum rm (ensure_pf rm (of_polygon rm (rect 1 1)))).1)) ∧
    (∀ i : Nat,
      ((a rm (of_polygon rm (rect 1 1)) i).1 = Except.error error.out_of_range ↔ (num_segments rm (of_polygon rm (rect 1 1))).1 < i) ∧
      (i ≤ (num_segments rm (of_polygon rm (rect 1 1))).1 → ∃ v : ℝ, (a rm (of_polygon rm (rect 1 1)) i).1 = Except.ok v)) ∧
    (∀ i : Nat,
      ((theta rm (of_polygon rm (rect 1 1)) i).1 = Except.error error.out_of_range ↔
        i = 0 ∨ (num_segments rm (of_polygon rm (rect 1 1))).1 < i) ∧
      (1 ≤ i → i ≤ (num_segments rm (of_polygon rm (rect 1 1))).1 → ∃ v : ℝ, (theta rm (of_polygon rm (rect 1 1)) i).1 = Except.ok v)) ∧
    (∀ i : Nat,
      ((zeta rm (of_polygon rm (rect 1 1)) i).1 = Except.error error.out_of_range ↔
        i = 0 ∨ (num_segments rm (of_polygon rm (rect 1 1))).1 < i) ∧
      (1 ≤ i → i ≤ (num_segments rm (of_polygon rm (rect 1 1))).1 → ∃ v : ℝ, (zeta rm (of_polygon rm (rect 1 1)) i).1 = Except.ok v))) :=
  ⟨reachable.ctor _, usq_length, range_checks rm _ (reachable.ctor _) usq_length⟩

end convex_polygon_pf
end search

namespace search
namespace point

/-- Two left turns by more than a right angle compare like their tangents. -/
theorem angle_obtuse_lt (s p q1 q2 : point ℝ)
    (hd1 : (p.sub s).dot (q1.sub s) < 0) (hc1 : 0 < (p.sub s).cross (q1.sub s))
    (hd2 : (p.sub s).dot (q2.sub s) < 0) (hc2 : 0 < (p.sub s).cross (q2.sub s))
    (h : (p.sub s).cross (q1.sub s) * (p.sub s).dot (q2.sub s) <
      (p.sub s).cross (q2.sub s) * (p.sub s).dot (q1.sub s)) :
    angle rm s p q1 < angle rm s p q2 := by
  have key : ∀ q : point ℝ, (p.sub s).dot (q.sub s) < 0 → 0 < (p.sub s).cross (q.sub s) →
      angle rm s p q = Complex.arg ⟨(p.sub s).dot (q.sub s), (p.sub s).cross (q.sub s)⟩ ∧
      Real.pi / 2 < Complex.arg ⟨(p.sub s).dot (q.sub s), (p.sub s).cross (q.sub s)⟩ ∧
      Complex.arg ⟨(p.sub s).dot (q.sub s), (p.sub s).cross (q.sub s)⟩ < Real.pi := by
    intro q hd hc
    have h1 : Real.pi / 2 <
        Complex.arg ⟨(p.sub s).dot (q.sub s), (p.sub s).cross (q.sub s)⟩ := by
      rw [← not_le, Complex.arg_le_pi_div_two_iff]
      simp only [not_or, not_le, not_lt]
      exact ⟨hd, le_of_lt hc⟩
    have h2 : Complex.arg ⟨(p.sub s).dot (q.sub s), (p.sub s).cross (q.sub s)⟩ < Real.pi := by
      rw [Complex.arg_lt_pi_iff]
      right
      exact ne_of_gt hc
    refine ⟨?_, h1, h2⟩
    unfold angle
    simp only [rm_atan2, rm_pi]
    rw [trim_of_le _ (by rw [abs_of_pos (by linarith [Real.pi_gt_three])]; linarith [Real.pi_gt_three])]
    rw [if_neg (by linarith [Real.pi_gt_three])]
  obtain ⟨e1, l1, u1⟩ := key q1 hd1 hc1
  obtain ⟨e2, l2, u2⟩ := key q2 hd2 hc2
  rw [e1, e2]
  by_contra hge
  have hge : Complex.arg ⟨(p.sub s).dot (q2.sub s), (p.sub s).cross (q2.sub s)⟩ - Real.pi ≤
      Complex.arg ⟨(p.sub s).dot (q1.sub s), (p.sub s).cross (q1.sub s)⟩ - Real.pi := by
    linarith [not_lt.mp hge]
  have hm := Real.strictMonoOn_tan.monotoneOn
    (show Complex.arg ⟨(p.sub s).dot (q2.sub s), (p.sub s).cross (q2.sub s)⟩ - Real.pi ∈
      Set.Ioo (-(Real.pi / 2)) (Real.pi / 2) from ⟨by linarith, by linarith [Real.pi_gt_three]⟩)
    (show Complex.arg ⟨(p.sub s).dot (q1.sub s), (p.sub s).cross (q1.sub s)⟩ - Real.pi ∈
      Set.Ioo (-(Real.pi / 2)) (Real.pi / 2) from ⟨by linarith, by linarith [Real.pi_gt_three]⟩)
    hge
  rw [Real.tan_sub_pi, Real.tan_sub_pi, Complex.tan_arg, Complex.tan_arg] at hm
  simp only at hm
  have hpos := mul_pos_of_neg_of_neg hd2 hd1
  have hmul := mul_le_mul_of_nonneg_right hm (le_of_lt hpos)
  have x1 : (p.sub s).cross (q2.sub s) / (p.sub s).dot (q2.sub s) *
      ((p.sub s).dot (q2.sub s) * (p.sub s).dot (q1.sub s)) =
      (p.sub s).cross (q2.sub s) * (p.sub s).dot (q1.sub s) := by
    field_simp [ne_of_lt hd2]
    ring
  have x2 : (p.sub s).cross (q1.sub s) / (p.sub s).dot (q1.sub s) *
      ((p.sub s).dot (q2.sub s) * (p.sub s).dot (q1.sub s)) =
      (p.sub s).cross (q1.sub s) * (p.sub s).dot (q2.sub s) := by
    field_simp [ne_of_lt hd1]
    ring
  rw [x1, x2] at hmul
  linarith

end point
end search

namespace search
namespace convex_polygon

theorem not_better {x y d e : ℝ} (h : x < y) : ¬ (y < x ∨ (y = x ∧ d > e)) := by
  intro hc
  rcases hc with hc | hc
  · exact absurd hc (not_lt.mpr (le_of_lt h))
  · exact absurd hc.1 (ne_of_gt h)

end convex_polygon
end search

namespace search
namespace convex_polygon

/-- A vertex sequence is convex and in clockwise order: every three cyclically consecutive
vertices `u`, `v`, `w` satisfy `cross (v - u, w - v) < 0`. -/
def strictly_clockwise {K : Type} [LinearOrderedField K] (vs : List (point K)) : Prop :=
  ∀ i, i < vs.length →
    (((vs.getD ((i + 1) % vs.length) ⟨0, 0⟩).sub (vs.getD i ⟨0, 0⟩)).cross
      ((vs.getD ((i + 2) % vs.length) ⟨0, 0⟩).sub (vs.getD ((i + 1) % vs.length) ⟨0, 0⟩))) < 0

/-- The points inside or on the boundary of the polygon of a vertex sequence; for the
sequences used here (a segment, a triangle) this is the convex hull of the vertices. -/
def region (vs : List (point ℝ)) : Set (ℝ × ℝ) :=
  convexHull ℝ {q | ∃ v ∈ vs, q = (v.x, v.y)}

set_option maxHeartbeats 4000000 in
/-- C11 (evaluation): for the five vertices (0,0), (2e11,1), (1e11,1), (-2e11,2), (-1e11,0)
`convex_hull` returns five vertices of which the last, the first and the second -
(0,0), (1e11,1), (-1e11,0) - turn counterclockwise: the sequence is not convex in clockwise
order. -/
theorem convex_hull_sliver_not_clockwise :
    convex_hull rm [⟨0, 0⟩, ⟨200000000000, 1⟩, ⟨100000000000, 1⟩, ⟨-200000000000, 2⟩,
        ⟨-100000000000, 0⟩] =
      some [⟨100000000000, 1⟩, ⟨-100000000000, 0⟩, ⟨-200000000000, 2⟩, ⟨200000000000, 1⟩,
        ⟨0, 0⟩] ∧
    3 ≤ ([⟨100000000000, 1⟩, ⟨-100000000000, 0⟩, ⟨-200000000000, 2⟩, ⟨200000000000, 1⟩,
        ⟨0, 0⟩] : List (point ℝ)).length ∧
    ¬ strictly_clockwise ([⟨100000000000, 1⟩, ⟨-100000000000, 0⟩, ⟨-200000000000, 2⟩,
        ⟨200000000000, 1⟩, ⟨0, 0⟩] : List (point ℝ)) := by
  have pi_lt_bound : Real.pi < 629 / 100 := by linarith [Real.pi_lt_four]
  -- The sliver: `convex_hull` returns all five vertices, with `(c, 1)` between `(-c, 0)`
  -- and `(0, 0)`.
  have sliver_hull (c : ℝ) (hc : 100000000000 ≤ c) :
      convex_hull rm [⟨0, 0⟩, ⟨2 * c, 1⟩, ⟨c, 1⟩, ⟨-(2 * c), 2⟩, ⟨-c, 0⟩] =
        some [⟨c, 1⟩, ⟨-c, 0⟩, ⟨-(2 * c), 2⟩, ⟨2 * c, 1⟩, ⟨0, 0⟩] := by
    -- The five points of the sliver, first pass: `(2c, 1)` and `(c, 1)` are both snapped to
    -- the angle 0 and the farther one, `(2c, 1)`, is selected.
    have sliver_step1 (c : ℝ) (hc : 100000000000 ≤ c) :
        hull_step rm
          { vertices := [⟨⟨0, 0⟩, vstate.first⟩, ⟨⟨2 * c, 1⟩, vstate.unused⟩,
              ⟨⟨c, 1⟩, vstate.unused⟩, ⟨⟨-(2 * c), 2⟩, vstate.unused⟩, ⟨⟨-c, 0⟩, vstate.unused⟩]
            hull := [⟨0, 0⟩]
            last_added := ⟨0, 0⟩
            previous := ⟨0 - 1, 0⟩
            select := 0 } =
        some
          { vertices := [⟨⟨0, 0⟩, vstate.first⟩, ⟨⟨2 * c, 1⟩, vstate.used⟩,
              ⟨⟨c, 1⟩, vstate.unused⟩, ⟨⟨-(2 * c), 2⟩, vstate.unused⟩, ⟨⟨-c, 0⟩, vstate.unused⟩]
            hull := [⟨2 * c, 1⟩, ⟨0, 0⟩]
            last_added := ⟨2 * c, 1⟩
            previous := ⟨0, 0⟩
            select := 1 } := by
      have hc0 : 0 < c := by linarith
      have hcc : 0 < c * c := mul_pos hc0 hc0
      have aP : point.angle rm ⟨0, 0⟩ ((point.smul ⟨0, 0⟩ 2).sub ⟨0 - 1, 0⟩) ⟨2 * c, 1⟩ = 0 :=
        point.angle_snap _ _ _
          (by simp only [point.sub, point.dot, point.smul]; nlinarith)
          (by simp only [point.sub, point.cross, point.smul]; nlinarith)
          (by simp only [point.sub, point.cross, point.dot, point.smul]; nlinarith)
      have aQ : point.angle rm ⟨0, 0⟩ ((point.smul ⟨0, 0⟩ 2).sub ⟨0 - 1, 0⟩) ⟨c, 1⟩ = 0 :=
        point.angle_snap _ _ _
          (by simp only [point.sub, point.dot, point.smul]; nlinarith)
          (by simp only [point.sub, point.cross, point.smul]; nlinarith)
          (by simp only [point.sub, point.cross, point.dot, point.smul]; nlinarith)
      have aR := point.angle_obtuse ⟨0, 0⟩ ((point.smul ⟨0, 0⟩ 2).sub ⟨0 - 1, 0⟩) ⟨-(2 * c), 2⟩
          (by simp only [point.sub, point.dot, point.smul]; nlinarith)
          (by simp only [point.sub, point.cross, point.smul]; nlinarith)
      have aU : point.angle rm ⟨0, 0⟩ ((point.smul ⟨0, 0⟩ 2).sub ⟨0 - 1, 0⟩) ⟨-c, 0⟩ = Real.pi :=
        point.angle_back _ _ _
          (by simp only [point.sub, point.dot, point.smul]; nlinarith)
          (by simp only [point.sub, point.cross, point.smul]; ring)
      have hdist : ¬ point.abs rm ((⟨c, 1⟩ : point ℝ).sub ⟨0, 0⟩) >
          point.abs rm ((⟨2 * c, 1⟩ : point ℝ).sub ⟨0, 0⟩) := by
        simp only [point.abs, point.sub, rm_sqrt, gt_iff_lt, not_lt]
        apply Real.sqrt_le_sqrt
        nlinarith
      have hscan : (scan rm ⟨0, 0⟩ ⟨0 - 1, 0⟩
          [⟨⟨0, 0⟩, vstate.first⟩, ⟨⟨2 * c, 1⟩, vstate.unused⟩,
            ⟨⟨c, 1⟩, vstate.unused⟩, ⟨⟨-(2 * c), 2⟩, vstate.unused⟩, ⟨⟨-c, 0⟩, vstate.unused⟩]
          0 (629 / 100) 0 0).2.2 = 1 := by
        rw [scan_same _ _ _ _ _ _ _ _ _ (by simp) (by simp [point.eq]),
          scan_take _ _ _ _ _ _ _ _ _ (by simp) (by simp [point.eq])
            (Or.inl (by rw [aP]; norm_num)),
          scan_keep _ _ _ _ _ _ _ _ _ (by simp) (by simp [point.eq])
            (by
              rw [aP, aQ]; intro h
              rcases h with h | h
              · exact lt_irrefl _ h
              · exact hdist h.2),
          scan_keep _ _ _ _ _ _ _ _ _ (by simp) (by simp [point.eq])
            (by
              rw [aP]; intro h
              simp only at h
              rcases h with h | h
              · exact absurd h (not_lt.mpr (le_of_lt (lt_trans (half_pos Real.pi_pos) aR.1)))
              · exact absurd h.1 (ne_of_gt (lt_trans (half_pos Real.pi_pos) aR.1))),
          scan_keep _ _ _ _ _ _ _ _ _ (by simp) (by simp [point.eq]; intro h; linarith)
            (by
              rw [aP, aU]; intro h
              simp only at h
              rcases h with h | h
              · linarith [Real.pi_gt_three]
              · linarith [Real.pi_gt_three, h.1]),
          scan_nil]
      unfold hull_step
      simp only [hscan]
      simp [set_state]
    -- The sliver, second pass: from `(2c, 1)` the vertex `(-2c, 2)` makes the smallest
    -- turn.
    have sliver_step2 (c : ℝ) (hc : 100000000000 ≤ c) :
        hull_step rm
          { vertices := [⟨⟨0, 0⟩, vstate.first⟩, ⟨⟨2 * c, 1⟩, vstate.used⟩,
              ⟨⟨c, 1⟩, vstate.unused⟩, ⟨⟨-(2 * c), 2⟩, vstate.unused⟩, ⟨⟨-c, 0⟩, vstate.unused⟩]
            hull := [⟨2 * c, 1⟩, ⟨0, 0⟩]
            last_added := ⟨2 * c, 1⟩
            previous := ⟨0, 0⟩
            select := 1 } =
        some
          { vertices := [⟨⟨0, 0⟩, vstate.first⟩, ⟨⟨2 * c, 1⟩, vstate.used⟩,
              ⟨⟨c, 1⟩, vstate.unused⟩, ⟨⟨-(2 * c), 2⟩, vstate.used⟩, ⟨⟨-c, 0⟩, vstate.unused⟩]
            hull := [⟨-(2 * c), 2⟩, ⟨2 * c, 1⟩, ⟨0, 0⟩]
            last_added := ⟨-(2 * c), 2⟩
            previous := ⟨2 * c, 1⟩
            select := 3 } := by
      have hc0 : 0 < c := by linarith
      have hcc : 0 < c * c := mul_pos hc0 hc0
      have hccc : 0 < c * c * c := mul_pos hcc hc0
      have aL : point.angle rm ⟨2 * c, 1⟩ ((point.smul ⟨2 * c, 1⟩ 2).sub ⟨0, 0⟩) ⟨0, 0⟩
          = Real.pi :=
        point.angle_back _ _ _
          (by simp only [point.sub, point.dot, point.smul]; nlinarith)
          (by simp only [point.sub, point.cross, point.smul]; ring)
      have oQ := point.angle_obtuse ⟨2 * c, 1⟩ ((point.smul ⟨2 * c, 1⟩ 2).sub ⟨0, 0⟩) ⟨c, 1⟩
          (by simp only [point.sub, point.dot, point.smul]; nlinarith)
          (by simp only [point.sub, point.cross, point.smul]; nlinarith)
      have ltRQ := point.angle_obtuse_lt ⟨2 * c, 1⟩ ((point.smul ⟨2 * c, 1⟩ 2).sub ⟨0, 0⟩)
          ⟨-(2 * c), 2⟩ ⟨c, 1⟩
          (by simp only [point.sub, point.dot, point.smul]; nlinarith)
          (by simp only [point.sub, point.cross, point.smul]; nlinarith)
          (by simp only [point.sub, point.dot, point.smul]; nlinarith)
          (by simp only [point.sub, point.cross, point.smul]; nlinarith)
          (by simp only [point.sub, point.cross, point.dot, point.smul]; nlinarith)
      have ltRU := point.angle_obtuse_lt ⟨2 * c, 1⟩ ((point.smul ⟨2 * c, 1⟩ 2).sub ⟨0, 0⟩)
          ⟨-(2 * c), 2⟩ ⟨-c, 0⟩
          (by simp only [point.sub, point.dot, point.smul]; nlinarith)
          (by simp only [point.sub, point.cross, point.smul]; nlinarith)
          (by simp only [point.sub, point.dot, point.smul]; nlinarith)
          (by simp only [point.sub, point.cross, point.smul]; nlinarith)
          (by simp only [point.sub, point.cross, point.dot, point.smul]; nlinarith)
      have hscan : (scan rm ⟨2 * c, 1⟩ ⟨0, 0⟩
          [⟨⟨0, 0⟩, vstate.first⟩, ⟨⟨2 * c, 1⟩, vstate.used⟩,
            ⟨⟨c, 1⟩, vstate.unused⟩, ⟨⟨-(2 * c), 2⟩, vstate.unused⟩, ⟨⟨-c, 0⟩, vstate.unused⟩]
          0 (629 / 100) 0 1).2.2 = 3 := by
        rw [scan_take _ _ _ _ _ _ _ _ _ (by simp) (by simp [point.eq])
            (Or.inl (by rw [aL]; exact pi_lt_bound)),
          scan_used _ _ _ _ _ _ _ _ _ (by simp),
          scan_take _ _ _ _ _ _ _ _ _ (by simp) (by simp [point.eq] <;> intros <;> linarith)
            (Or.inl (by rw [aL]; exact oQ.2)),
          scan_take _ _ _ _ _ _ _ _ _ (by simp) (by simp [point.eq] <;> intros <;> linarith)
            (Or.inl (by exact ltRQ)),
          scan_keep _ _ _ _ _ _ _ _ _ (by simp) (by simp [point.eq] <;> intros <;> linarith)
            (by exact not_better ltRU),
          scan_nil]
      unfold hull_step
      simp only [hscan]
      simp [set_state]
    -- The sliver, third pass: from `(-2c, 2)` the vertex `(-c, 0)` makes the smallest turn.
    have sliver_step3 (c : ℝ) (hc : 100000000000 ≤ c) :
        hull_step rm
          { vertices := [⟨⟨0, 0⟩, vstate.first⟩, ⟨⟨2 * c, 1⟩, vstate.used⟩,
              ⟨⟨c, 1⟩, vstate.unused⟩, ⟨⟨-(2 * c), 2⟩, vstate.used⟩, ⟨⟨-c, 0⟩, vstate.unused⟩]
            hull := [⟨-(2 * c), 2⟩, ⟨2 * c, 1⟩, ⟨0, 0⟩]
            last_added := ⟨-(2 * c), 2⟩
            previous := ⟨2 * c, 1⟩
            select := 3 } =
        some
          { vertices := [⟨⟨0, 0⟩, vstate.first⟩, ⟨⟨2 * c, 1⟩, vstate.used⟩,
              ⟨⟨c, 1⟩, vstate.unused⟩, ⟨⟨-(2 * c), 2⟩, vstate.used⟩, ⟨⟨-c, 0⟩, vstate.used⟩]
            hull := [⟨-c, 0⟩, ⟨-(2 * c), 2⟩, ⟨2 * c, 1⟩, ⟨0, 0⟩]
            last_added := ⟨-c, 0⟩
            previous := ⟨-(2 * c), 2⟩
            select := 4 } := by
      have hc0 : 0 < c := by linarith
      have hcc : 0 < c * c := mul_pos hc0 hc0
      have hccc : 0 < c * c * c := mul_pos hcc hc0
      have oL := point.angle_obtuse ⟨-(2 * c), 2⟩
          ((point.smul ⟨-(2 * c), 2⟩ 2).sub ⟨2 * c, 1⟩) ⟨0, 0⟩
          (by simp only [point.sub, point.dot, point.smul]; nlinarith)
          (by simp only [point.sub, point.cross, point.smul]; nlinarith)
      have ltLQ := point.angle_obtuse_lt ⟨-(2 * c), 2⟩
          ((point.smul ⟨-(2 * c), 2⟩ 2).sub ⟨2 * c, 1⟩) ⟨0, 0⟩ ⟨c, 1⟩
          (by simp only [point.sub, point.dot, point.smul]; nlinarith)
          (by simp only [point.sub, point.cross, point.smul]; nlinarith)
          (by simp only [point.sub, point.dot, point.smul]; nlinarith)
          (by simp only [point.sub, point.cross, point.smul]; nlinarith)
          (by simp only [point.sub, point.cross, point.dot, point.smul]; nlinarith)
      have ltUL := point.angle_obtuse_lt ⟨-(2 * c), 2⟩
          ((point.smul ⟨-(2 * c), 2⟩ 2).sub ⟨2 * c, 1⟩) ⟨-c, 0⟩ ⟨0, 0⟩
          (by simp only [point.sub, point.dot, point.smul]; nlinarith)
          (by simp only [point.sub, point.cross, point.smul]; nlinarith)
          (by simp only [point.sub, point.dot, point.smul]; nlinarith)
          (by simp only [point.sub, point.cross, point.smul]; nlinarith)
          (by simp only [point.sub, point.cross, point.dot, point.smul]; nlinarith)
      have hscan : (scan rm ⟨-(2 * c), 2⟩ ⟨2 * c, 1⟩
          [⟨⟨0, 0⟩, vstate.first⟩, ⟨⟨2 * c, 1⟩, vstate.used⟩,
            ⟨⟨c, 1⟩, vstate.unused⟩, ⟨⟨-(2 * c), 2⟩, vstate.used⟩, ⟨⟨-c, 0⟩, vstate.unused⟩]
          0 (629 / 100) 0 3).2.2 = 4 := by
        rw [scan_take _ _ _ _ _ _ _ _ _ (by simp) (by simp [point.eq])
            (Or.inl (by exact lt_trans oL.2 pi_lt_bound)),
          scan_used _ _ _ _ _ _ _ _ _ (by simp),
          scan_keep _ _ _ _ _ _ _ _ _ (by simp) (by simp [point.eq] <;> intros <;> linarith)
            (by exact not_better ltLQ),
          scan_used _ _ _ _ _ _ _ _ _ (by simp),
          scan_take _ _ _ _ _ _ _ _ _ (by simp) (by simp [point.eq] <;> intros <;> linarith)
            (Or.inl (by exact ltUL)),
          scan_nil]
      unfold hull_step
      simp only [hscan]
      simp [set_state]
    -- The sliver, fourth pass: from `(-c, 0)` the first vertex `(0, 0)` and the vertex
    -- `(c, 1)` are both snapped to the angle 0, and the farther one, `(c, 1)`, is selected.
    have sliver_step4 (c : ℝ) (hc : 100000000000 ≤ c) :
        hull_step rm
          { vertices := [⟨⟨0, 0⟩, vstate.first⟩, ⟨⟨2 * c, 1⟩, vstate.used⟩,
              ⟨⟨c, 1⟩, vstate.unused⟩, ⟨⟨-(2 * c), 2⟩, vstate.used⟩, ⟨⟨-c, 0⟩, vstate.used⟩]
            hull := [⟨-c, 0⟩, ⟨-(2 * c), 2⟩, ⟨2 * c, 1⟩, ⟨0, 0⟩]
            last_added := ⟨-c, 0⟩
            previous := ⟨-(2 * c), 2⟩
            select := 4 } =
        some
          { vertices := [⟨⟨0, 0⟩, vstate.first⟩, ⟨⟨2 * c, 1⟩, vstate.used⟩,
              ⟨⟨c, 1⟩, vstate.used⟩, ⟨⟨-(2 * c), 2⟩, vstate.used⟩, ⟨⟨-c, 0⟩, vstate.used⟩]
            hull := [⟨c, 1⟩, ⟨-c, 0⟩, ⟨-(2 * c), 2⟩, ⟨2 * c, 1⟩, ⟨0, 0⟩]
            last_added := ⟨c, 1⟩
            previous := ⟨-c, 0⟩
            select := 2 } := by
      have hc0 : 0 < c := by linarith
      have hcc : 0 < c * c := mul_pos hc0 hc0
      have sL : point.angle rm ⟨-c, 0⟩ ((point.smul ⟨-c, 0⟩ 2).sub ⟨-(2 * c), 2⟩) ⟨0, 0⟩ = 0 :=
        point.angle_snap _ _ _
          (by simp only [point.sub, point.dot, point.smul]; nlinarith)
          (by simp only [point.sub, point.cross, point.smul]; nlinarith)
          (by simp only [point.sub, point.cross, point.dot, point.smul]; nlinarith)
      have sQ : point.angle rm ⟨-c, 0⟩ ((point.smul ⟨-c, 0⟩ 2).sub ⟨-(2 * c), 2⟩) ⟨c, 1⟩ = 0 :=
        point.angle_snap _ _ _
          (by simp only [point.sub, point.dot, point.smul]; nlinarith)
          (by simp only [point.sub, point.cross, point.smul]; nlinarith)
          (by simp only [point.sub, point.cross, point.dot, point.smul]; nlinarith)
      have hdist : point.abs rm ((⟨c, 1⟩ : point ℝ).sub ⟨-c, 0⟩) >
          point.abs rm ((⟨0, 0⟩ : point ℝ).sub ⟨-c, 0⟩) := by
        simp only [point.abs, point.sub, rm_sqrt, gt_iff_lt]
        apply Real.sqrt_lt_sqrt
        · nlinarith
        · nlinarith
      have hscan : (scan rm ⟨-c, 0⟩ ⟨-(2 * c), 2⟩
          [⟨⟨0, 0⟩, vstate.first⟩, ⟨⟨2 * c, 1⟩, vstate.used⟩,
            ⟨⟨c, 1⟩, vstate.unused⟩, ⟨⟨-(2 * c), 2⟩, vstate.used⟩, ⟨⟨-c, 0⟩, vstate.used⟩]
          0 (629 / 100) 0 4).2.2 = 2 := by
        rw [scan_take _ _ _ _ _ _ _ _ _ (by simp) (by simp [point.eq] <;> intros <;> linarith)
            (Or.inl (by rw [sL]; norm_num)),
          scan_used _ _ _ _ _ _ _ _ _ (by simp),
          scan_take _ _ _ _ _ _ _ _ _ (by simp) (by simp [point.eq] <;> intros <;> linarith)
            (Or.inr (by rw [sL, sQ]; exact ⟨rfl, hdist⟩)),
          scan_used _ _ _ _ _ _ _ _ _ (by simp),
          scan_used _ _ _ _ _ _ _ _ _ (by simp),
          scan_nil]
      unfold hull_step
      simp only [hscan]
      simp [set_state]
    -- The sliver, last pass: from `(c, 1)` only the first vertex is left, with a right
    -- turn.
    have sliver_step5 (c : ℝ) (hc : 100000000000 ≤ c) :
        hull_step rm
          { vertices := [⟨⟨0, 0⟩, vstate.first⟩, ⟨⟨2 * c, 1⟩, vstate.used⟩,
              ⟨⟨c, 1⟩, vstate.used⟩, ⟨⟨-(2 * c), 2⟩, vstate.used⟩, ⟨⟨-c, 0⟩, vstate.used⟩]
            hull := [⟨c, 1⟩, ⟨-c, 0⟩, ⟨-(2 * c), 2⟩, ⟨2 * c, 1⟩, ⟨0, 0⟩]
            last_added := ⟨c, 1⟩
            previous := ⟨-c, 0⟩
            select := 2 } = Option.none := by
      have hc0 : 0 < c := by linarith
      have hcc : 0 < c * c := mul_pos hc0 hc0
      have rL := point.angle_reflex ⟨c, 1⟩ ((point.smul ⟨c, 1⟩ 2).sub ⟨-c, 0⟩) ⟨0, 0⟩
          (by simp only [point.sub, point.dot, point.smul]; nlinarith)
          (by simp only [point.sub, point.cross, point.smul]; nlinarith)
      have hb : 3 * Real.pi / 2 < 629 / 100 := by linarith [Real.pi_lt_four]
      have hscan : (scan rm ⟨c, 1⟩ ⟨-c, 0⟩
          [⟨⟨0, 0⟩, vstate.first⟩, ⟨⟨2 * c, 1⟩, vstate.used⟩,
            ⟨⟨c, 1⟩, vstate.used⟩, ⟨⟨-(2 * c), 2⟩, vstate.used⟩, ⟨⟨-c, 0⟩, vstate.used⟩]
          0 (629 / 100) 0 2).2.2 = 0 := by
        rw [scan_take _ _ _ _ _ _ _ _ _ (by simp) (by simp [point.eq] <;> intros <;> linarith)
            (Or.inl (by exact lt_trans rL.2 hb)),
          scan_used _ _ _ _ _ _ _ _ _ (by simp),
          scan_used _ _ _ _ _ _ _ _ _ (by simp),
          scan_used _ _ _ _ _ _ _ _ _ (by simp),
          scan_used _ _ _ _ _ _ _ _ _ (by simp),
          scan_nil]
      unfold hull_step
      simp only [hscan]
      simp
    have hc0 : 0 < c := by linarith
    have hlr : lower_right [(⟨2 * c, 1⟩ : point ℝ), ⟨c, 1⟩, ⟨-(2 * c), 2⟩, ⟨-c, 0⟩] 1
        ⟨0, 0⟩ 0 = (⟨0, 0⟩, 0) := by
      have h1 : ¬ ((1 : ℝ) < 0) := by norm_num
      have h2 : ¬ ((2 : ℝ) < 0) := by norm_num
      have h3 : ¬ (c < 0) := not_lt.mpr (le_of_lt hc0)
      simp [lower_right, h1, h2, h3]
    unfold convex_hull convex_hull_fuel
    simp only [List.length_cons, List.length_nil, Nat.reduceAdd, Nat.reduceLT, if_false]
    simp only [hull_init, hlr, List.map, set_state]
    rw [hull_loop, sliver_step1 c hc]
    simp only
    rw [hull_loop, sliver_step2 c hc]
    simp only
    rw [hull_loop, sliver_step3 c hc]
    simp only
    rw [hull_loop, sliver_step4 c hc]
    simp only
    rw [hull_loop, sliver_step5 c hc]
  have e1 : (2 * 100000000000 : ℝ) = 200000000000 := by norm_num
  have h := sliver_hull 100000000000 (le_refl _)
  rw [e1] at h
  refine ⟨h, by simp, ?_⟩
  intro hcw
  have h4 := hcw 4 (by simp)
  simp [point.sub, point.cross] at h4
  norm_num at h4

set_option maxHeartbeats 4000000 in
/-- C12 (evaluation): for the input (-1, 3*2^39), (1, 2^39), (-2^79, 0) `convex_hull`
returns (-1, 3*2^39), (-2^79, 0), and the input vertex (1, 2^39) is not in the region of
that result. -/
theorem convex_hull_drops_outer_vertex :
    convex_hull rm [⟨-1, 1649267441664⟩, ⟨1, 549755813888⟩,
        ⟨-604462909807314587353088, 0⟩] =
      some [⟨-1, 1649267441664⟩, ⟨-604462909807314587353088, 0⟩] ∧
    ((1 : ℝ), (549755813888 : ℝ)) ∉
      region [⟨-1, 1649267441664⟩, ⟨-604462909807314587353088, 0⟩] := by
  -- A point that a line separates strictly from all the vertices is outside the region.
  have not_mem_region (vs : List (point ℝ)) (A B r x y : ℝ)
      (h : ∀ v ∈ vs, r ≤ A * v.y - B * v.x) (hp : A * y - B * x < r) :
      (x, y) ∉ region vs := by
    have hlin : IsLinearMap ℝ (fun q : ℝ × ℝ => A * q.2 - B * q.1) := by
      constructor
      · intro u v
        simp only [Prod.snd_add, Prod.fst_add]
        ring
      · intro t u
        simp only [Prod.smul_snd, Prod.smul_fst, smul_eq_mul]
        ring
    have hsub : region vs ⊆ {q : ℝ × ℝ | r ≤ A * q.2 - B * q.1} := by
      apply convexHull_min
      · rintro q ⟨v, hv, rfl⟩
        exact h v hv
      · exact convex_halfSpace_ge hlin r
    intro hmem
    have := hsub hmem
    simp only [Set.mem_setOf_eq] at this
    linarith
  have e1 : (-(2 * 549755813888 * 549755813888) : ℝ) = -604462909807314587353088 := by
    norm_num
  have e2 : (3 * 549755813888 : ℝ) = 1649267441664 := by norm_num
  have h2 := thin_hull_twice 549755813888 (by norm_num)
  rw [e1, e2] at h2
  refine ⟨h2, ?_⟩
  apply not_mem_region _ 604462909807314587353087 1649267441664
    (1649267441664 * 604462909807314587353088)
  · intro v hv
    simp only [List.mem_cons, List.mem_singleton, List.not_mem_nil, or_false] at hv
    rcases hv with rfl | rfl
    · norm_num
    · norm_num
  · norm_num

end convex_polygon
end search

namespace search

/-- The C library function `pow` over the reals. -/
noncomputable def rp : Pow ℝ := ⟨Real.rpow⟩

theorem std_min_eq (a b : ℝ) : std_min a b = min a b := by
  unfold std_min
  by_cases h : b < a
  · rw [if_pos h, min_eq_right (le_of_lt h)]
  · rw [if_neg h, min_eq_left (not_lt.mp h)]

set_option maxHeartbeats 4000000 in
/-- C24: for `0 < theta < 2 pi`, `z ≥ 0` and `p ≥ 0`, `pf_angle` and `ipf_angle` (with the
same `theta`) are inverse to each other, and so are `pf_plane` and `ipf_plane`: each
call returns a value, and the other function takes that value back to the argument. -/
theorem angle_plane_inverse (theta z p : ℝ) (h0 : 0 < theta) (h1 : theta < 2 * Real.pi)
    (hz : 0 ≤ z) (hp : 0 ≤ p) :
    (∃ q, pf_angle rm z theta = Except.ok q ∧ ipf_angle rm q theta = Except.ok z) ∧
      (∃ y, ipf_angle rm p theta = Except.ok y ∧ pf_angle rm y theta = Except.ok p) ∧
      (∃ q, pf_plane rm z = Except.ok q ∧ ipf_plane rm q = Except.ok z) ∧
      (∃ y, ipf_plane rm p = Except.ok y ∧ pf_plane rm y = Except.ok p) := by
  have std_min_pi_pos (theta : ℝ) (h : 0 < theta) : 0 < std_min theta rm.pi := by
    rw [std_min_eq, rm_pi]
    exact lt_min h Real.pi_pos
  have sqrt_scale_sq (k z : ℝ) (hk : 0 < k) (hz : 0 ≤ z) :
      Real.sqrt k * Real.sqrt z / k * (Real.sqrt k * Real.sqrt z) = z := by
    have h1 : Real.sqrt k * Real.sqrt k = k := Real.mul_self_sqrt (le_of_lt hk)
    have h2 : Real.sqrt z * Real.sqrt z = z := Real.mul_self_sqrt hz
    have e : Real.sqrt k * Real.sqrt z / k * (Real.sqrt k * Real.sqrt z)
        = (Real.sqrt k * Real.sqrt k) * (Real.sqrt z * Real.sqrt z) / k := by ring
    rw [e, h1, h2]
    field_simp
  have sqrt_scale_inv (k p : ℝ) (hk : 0 < k) (hp : 0 ≤ p) :
      Real.sqrt k * Real.sqrt (p / k * p) = p := by
    have e : p / k * p = p * p / k := by ring
    rw [e, ← Real.sqrt_mul (le_of_lt hk), mul_div_cancel₀ _ (ne_of_gt hk), Real.sqrt_mul_self hp]
  have hk : 0 < 2 * std_min theta rm.pi := by
    have := std_min_pi_pos theta h0
    linarith
  have hth : 0 < theta ∧ theta < 2 * rm.pi := ⟨h0, h1⟩
  have h4 : (0 : ℝ) < 4 * Real.pi := by linarith [Real.pi_pos]
  have hs4 : Real.sqrt (4 * Real.pi) = 2 * Real.sqrt Real.pi := by
    have e : (4 : ℝ) * Real.pi = 2 * 2 * Real.pi := by ring
    rw [e, Real.sqrt_mul (by norm_num), Real.sqrt_mul_self (by norm_num)]
  refine ⟨⟨rm.sqrt (2 * std_min theta rm.pi) * rm.sqrt z, ?_, ?_⟩,
    ⟨p / (2 * std_min theta rm.pi) * p, ?_, ?_⟩,
    ⟨2 * rm.sqrt rm.pi * rm.sqrt z, ?_, ?_⟩, ⟨p / (4 * rm.pi) * p, ?_, ?_⟩⟩
  · unfold pf_angle
    rw [if_neg (not_not.mpr hz), if_neg (not_not.mpr hth)]
  · unfold ipf_angle
    simp only [rm_sqrt]
    rw [if_neg (not_not.mpr (mul_nonneg (Real.sqrt_nonneg _) (Real.sqrt_nonneg _))),
      if_neg (not_not.mpr hth)]
    rw [sqrt_scale_sq _ _ hk hz]
  · unfold ipf_angle
    rw [if_neg (not_not.mpr hp), if_neg (not_not.mpr hth)]
  · unfold pf_angle
    have hy : 0 ≤ p / (2 * std_min theta rm.pi) * p :=
      mul_nonneg (div_nonneg hp (le_of_lt hk)) hp
    rw [if_neg (not_not.mpr hy), if_neg (not_not.mpr hth)]
    simp only [rm_sqrt]
    rw [sqrt_scale_inv _ _ hk hp]
  · unfold pf_plane
    rw [if_neg (not_not.mpr hz)]
  · unfold ipf_plane
    simp only [rm_sqrt, rm_pi]
    rw [← hs4, if_neg (not_not.mpr (mul_nonneg (Real.sqrt_nonneg _) (Real.sqrt_nonneg _)))]
    rw [sqrt_scale_sq _ _ h4 hz]
  · unfold ipf_plane
    rw [if_neg (not_not.mpr hp)]
  · unfold pf_plane
    have hy : 0 ≤ p / (4 * rm.pi) * p := mul_nonneg (div_nonneg hp (le_of_lt h4)) hp
    rw [if_neg (not_not.mpr hy)]
    simp only [rm_sqrt, rm_pi]
    rw [← hs4, sqrt_scale_inv _ _ h4 hp]

theorem angle_plane_inverse_witness :
    (∃ q, pf_angle rm 1 1 = Except.ok q ∧ ipf_angle rm q 1 = Except.ok 1) ∧
      (∃ y, ipf_angle rm 1 1 = Except.ok y ∧ pf_angle rm y 1 = Except.ok 1) ∧
      (∃ q, pf_plane rm 1 = Except.ok q ∧ ipf_plane rm q = Except.ok 1) ∧
      (∃ y, ipf_plane rm 1 = Except.ok y ∧ pf_plane rm y = Except.ok 1) :=
  angle_plane_inverse 1 1 1 (by norm_num) (by linarith [Real.pi_gt_three]) (by norm_num)
    (by norm_num)

end search

namespace search

set_option maxHeartbeats 4000000 in
/-- C27: on the non-negative reals `pf_3d` and `ipf_3d` are inverse to each other: each
call returns a value, and the other function takes that value back to the argument. -/
theorem pf_3d_inverse (z p : ℝ) (hz : 0 ≤ z) (hp : 0 ≤ p) :
    (∃ q, pf_3d rm rp z = Except.ok q ∧ ipf_3d rm q = Except.ok z) ∧
      (∃ y, ipf_3d rm p = Except.ok y ∧ pf_3d rm rp y = Except.ok p) := by
  have rp_pow (x y : ℝ) : rp.pow x y = x ^ y := rfl
  have rpow_two_thirds_cube (x : ℝ) (hx : 0 ≤ x) :
      (x ^ (2 / 3 : ℝ)) * (x ^ (2 / 3 : ℝ)) * (x ^ (2 / 3 : ℝ)) = x * x := by
    have h : (x ^ (2 / 3 : ℝ)) ^ (3 : ℕ) = x ^ (2 : ℕ) := by
      rw [← Real.rpow_natCast, ← Real.rpow_mul hx, ← Real.rpow_natCast]
      norm_num
    have e : (x ^ (2 / 3 : ℝ)) * (x ^ (2 / 3 : ℝ)) * (x ^ (2 / 3 : ℝ))
        = (x ^ (2 / 3 : ℝ)) ^ (3 : ℕ) := by ring
    rw [e, h]
    ring
  have sqrt_cube_rpow (p : ℝ) (hp : 0 ≤ p) :
      (Real.sqrt (p * p * p)) ^ (2 / 3 : ℝ) = p := by
    have ht : 0 ≤ Real.sqrt (p * p * p) := Real.sqrt_nonneg _
    have h3 : 0 ≤ p * p * p := mul_nonneg (mul_nonneg hp hp) hp
    have e : (Real.sqrt (p * p * p)) ^ (2 / 3 : ℝ)
        = ((Real.sqrt (p * p * p)) ^ (2 : ℕ)) ^ ((3 : ℕ) : ℝ)⁻¹ := by
      rw [← Real.rpow_natCast, ← Real.rpow_mul ht]
      norm_num
    rw [e, Real.sq_sqrt h3]
    have e3 : p * p * p = p ^ (3 : ℕ) := by ring
    rw [e3, Real.pow_rpow_inv_natCast hp (by norm_num)]
  have sqrt_36_pi : Real.sqrt (36 * Real.pi) = 6 * Real.sqrt Real.pi := by
    have e : (36 : ℝ) * Real.pi = 6 * 6 * Real.pi := by ring
    rw [e, Real.sqrt_mul (by norm_num), Real.sqrt_mul_self (by norm_num)]
  have hpi : (0 : ℝ) < 36 * Real.pi := by linarith [Real.pi_pos]
  have hx : 0 ≤ 6 * Real.sqrt Real.pi * z :=
    mul_nonneg (mul_nonneg (by norm_num) (Real.sqrt_nonneg _)) hz
  refine ⟨⟨rp.pow (6 * rm.sqrt rm.pi * z) (2 / 3), ?_, ?_⟩,
    ⟨rm.sqrt ((p / (36 * rm.pi)) * p * p), ?_, ?_⟩⟩
  · unfold pf_3d
    rw [if_neg (not_not.mpr hz)]
  · unfold ipf_3d
    simp only [rm_sqrt, rm_pi, rp_pow]
    rw [if_neg (not_not.mpr (Real.rpow_nonneg hx _))]
    have e : (6 * Real.sqrt Real.pi * z) ^ (2 / 3 : ℝ) / (36 * Real.pi)
          * (6 * Real.sqrt Real.pi * z) ^ (2 / 3 : ℝ) * (6 * Real.sqrt Real.pi * z) ^ (2 / 3 : ℝ)
        = z * z := by
      have c := rpow_two_thirds_cube _ hx
      have s : Real.sqrt Real.pi * Real.sqrt Real.pi = Real.pi :=
        Real.mul_self_sqrt (le_of_lt Real.pi_pos)
      have e1 : (6 * Real.sqrt Real.pi * z) ^ (2 / 3 : ℝ) / (36 * Real.pi)
          * (6 * Real.sqrt Real.pi * z) ^ (2 / 3 : ℝ) * (6 * Real.sqrt Real.pi * z) ^ (2 / 3 : ℝ)
          = ((6 * Real.sqrt Real.pi * z) ^ (2 / 3 : ℝ) * (6 * Real.sqrt Real.pi * z) ^ (2 / 3 : ℝ)
            * (6 * Real.sqrt Real.pi * z) ^ (2 / 3 : ℝ)) / (36 * Real.pi) := by ring
      rw [e1, c]
      have e2 : 6 * Real.sqrt Real.pi * z * (6 * Real.sqrt Real.pi * z)
          = 36 * (Real.sqrt Real.pi * Real.sqrt Real.pi) * (z * z) := by ring
      rw [e2, s]
      field_simp
    rw [e, Real.sqrt_mul_self hz]
  · unfold ipf_3d
    rw [if_neg (not_not.mpr hp)]
  · unfold pf_3d
    simp only [rm_sqrt, rm_pi, rp_pow]
    rw [if_neg (not_not.mpr (Real.sqrt_nonneg _))]
    have e : 6 * Real.sqrt Real.pi * Real.sqrt (p / (36 * Real.pi) * p * p)
        = Real.sqrt (p * p * p) := by
      rw [← sqrt_36_pi, ← Real.sqrt_mul (le_of_lt hpi)]
      congr 1
      field_simp
    rw [e, sqrt_cube_rpow p hp]

theorem pf_3d_inverse_witness :
    (∃ q, pf_3d rm rp 1 = Except.ok q ∧ ipf_3d rm q = Except.ok 1) ∧
      (∃ y, ipf_3d rm 2 = Except.ok y ∧ pf_3d rm rp y = Except.ok 2) :=
  pf_3d_inverse 1 2 (by norm_num) (by norm_num)

/-- C25: for `a > 0` and `0 ≤ z ≤ 4 pi a²`, `pf_sphere (z, a)` returns a value between 0
and `2 pi a`, and `ipf_sphere` takes that value to `min (z, 4 pi a² - z)`. -/
theorem pf_sphere_range_inverse (z a : ℝ) (ha : 0 < a) (hz : 0 ≤ z)
    (hz1 : z ≤ 4 * Real.pi * a * a) :
    ∃ p, pf_sphere rm z a = Except.ok p ∧ 0 ≤ p ∧ p ≤ 2 * Real.pi * a ∧
      ipf_sphere rm p a = Except.ok (min z (4 * Real.pi * a * a - z)) := by
  have hpi := Real.pi_pos
  have ha2 : 0 < 4 * a * a := by positivity
  have hu : 0 ≤ Real.pi - z / (4 * a * a) := by
    rw [sub_nonneg, div_le_iff₀ ha2]
    linarith
  have hw : 0 ≤ z * (Real.pi - z / (4 * a * a)) := mul_nonneg hz hu
  have hp : 2 * Real.sqrt z * Real.sqrt (Real.pi - z / (4 * a * a))
      = 2 * Real.sqrt (z * (Real.pi - z / (4 * a * a))) := by
    rw [Real.sqrt_mul hz]
    ring
  have hsq : z * (Real.pi - z / (4 * a * a))
      = (Real.pi * a) ^ 2 - ((z - 2 * Real.pi * a * a) / (2 * a)) ^ 2 := by
    field_simp
    ring
  have hle : Real.sqrt (z * (Real.pi - z / (4 * a * a))) ≤ Real.pi * a := by
    rw [Real.sqrt_le_left (by positivity)]
    rw [hsq]
    nlinarith [sq_nonneg ((z - 2 * Real.pi * a * a) / (2 * a))]
  have hp0 : 0 ≤ 2 * Real.sqrt (z * (Real.pi - z / (4 * a * a))) := by positivity
  have hp1 : 2 * Real.sqrt (z * (Real.pi - z / (4 * a * a))) ≤ 2 * Real.pi * a := by
    linarith
  refine ⟨2 * Real.sqrt (z * (Real.pi - z / (4 * a * a))), ?_, hp0, hp1, ?_⟩
  · unfold pf_sphere
    simp only [rm_sqrt, rm_pi]
    rw [if_neg (not_not.mpr ⟨hz, hz1⟩), if_neg (not_not.mpr ha), hp]
  · unfold ipf_sphere
    simp only [rm_sqrt, rm_pi]
    rw [if_neg (not_not.mpr ⟨hp0, hp1⟩), if_neg (not_not.mpr ha)]
    have e : 1 - 2 * Real.sqrt (z * (Real.pi - z / (4 * a * a))) / (2 * Real.pi * a)
          * (2 * Real.sqrt (z * (Real.pi - z / (4 * a * a))) / (2 * Real.pi * a))
        = ((z - 2 * Real.pi * a * a) / (2 * Real.pi * a * a)) ^ 2 := by
      have s := Real.mul_self_sqrt hw
      have e1 : 2 * Real.sqrt (z * (Real.pi - z / (4 * a * a))) / (2 * Real.pi * a)
          * (2 * Real.sqrt (z * (Real.pi - z / (4 * a * a))) / (2 * Real.pi * a))
          = (Real.sqrt (z * (Real.pi - z / (4 * a * a)))
              * Real.sqrt (z * (Real.pi - z / (4 * a * a)))) / (Real.pi * a) ^ 2 := by
        field_simp
        ring
      rw [e1, s]
      field_simp
      ring
    rw [e, Real.sqrt_sq_eq_abs, abs_div,
      abs_of_pos (show (0 : ℝ) < 2 * Real.pi * a * a by positivity)]
    congr 1
    by_cases c : z ≤ 2 * Real.pi * a * a
    · rw [abs_of_nonpos (by linarith), min_eq_left (by linarith)]
      field_simp
      ring
    · rw [abs_of_nonneg (by linarith), min_eq_right (by linarith)]
      field_simp
      ring

theorem pf_sphere_range_inverse_witness :
    ∃ p, pf_sphere rm 1 1 = Except.ok p ∧ 0 ≤ p ∧ p ≤ 2 * Real.pi * 1 ∧
      ipf_sphere rm p 1 = Except.ok (min 1 (4 * Real.pi * 1 * 1 - 1)) :=
  pf_sphere_range_inverse 1 1 (by norm_num) (by norm_num) (by linarith [Real.pi_gt_three])

end search

namespace search

theorem swap_min {K : Type} [LinearOrderedField K] (a b : K) :
    (if a > b then b else a) = min a b := by
  by_cases h : a > b
  · rw [if_pos h, min_eq_right (le_of_lt h)]
  · rw [if_neg h, min_eq_left (not_lt.mp h)]

theorem swap_max {K : Type} [LinearOrderedField K] (a b : K) :
    (if a > b then a else b) = max a b := by
  by_cases h : a > b
  · rw [if_pos h, max_eq_left (le_of_lt h)]
  · rw [if_neg h, max_eq_right (not_lt.mp h)]

set_option maxHeartbeats 4000000 in
/-- C26: for `a ≥ 0`, `b ≥ 0` and `0 ≤ z ≤ a b`, `pf_rectangle (z, a, b)` returns a value
between 0 and `min (a, b)`, `pf_rectangle (a b - z, a, b)` returns the same value, and
when `min (z, a b - z) < min (a, b)² / pi`, `ipf_rectangle` takes that value to
`min (z, a b - z)`. -/
theorem pf_rectangle_range_mirror_inverse (z a b : ℝ) (ha : 0 ≤ a) (hb : 0 ≤ b)
    (hz : 0 ≤ z) (hz1 : z ≤ a * b) :
    ∃ p, pf_rectangle rm z a b = Except.ok p ∧ 0 ≤ p ∧ p ≤ min a b ∧
      pf_rectangle rm (a * b - z) a b = Except.ok p ∧
      (min z (a * b - z) < (min a b) ^ 2 / Real.pi →
        ipf_rectangle rm p a b = Except.ok (min z (a * b - z))) := by
  have pf_rectangle_val (z a b : ℝ) (ha : 0 ≤ a) (hb : 0 ≤ b) (hz : 0 ≤ z)
      (hz1 : z ≤ a * b) :
      pf_rectangle rm z a b =
        Except.ok
          (if min z (a * b - z) < (min a b / Real.pi) * min a b then
            Real.sqrt Real.pi * Real.sqrt (min z (a * b - z))
          else min a b) := by
    have mirror_min (z s : ℝ) :
        (if z > s / 2 then s / 2 - (z - s / 2) else z) = min z (s - z) := by
      by_cases h : z > s / 2
      · rw [if_pos h, min_eq_right (by linarith)]
        ring
      · rw [if_neg h, min_eq_left (by linarith)]
    unfold pf_rectangle
    rw [if_neg (not_not.mpr ha), if_neg (not_not.mpr hb), if_neg (not_not.mpr ⟨hz, hz1⟩)]
    simp only [swap_min, swap_max, rm_sqrt, rm_pi]
    have e : min a b / 2 * max a b = a * b / 2 := by
      rw [div_mul_eq_mul_div, min_mul_max]
    rw [e, mirror_min]
    split_ifs <;> rfl
  have hpi := Real.pi_pos
  have hm : 0 ≤ min a b := le_min ha hb
  have hz2 : 0 ≤ min z (a * b - z) := le_min hz (by linarith)
  have hval := pf_rectangle_val z a b ha hb hz hz1
  have hval2 := pf_rectangle_val (a * b - z) a b ha hb (by linarith) (by linarith)
  rw [sub_sub_cancel, min_comm] at hval2
  have hq : min a b / Real.pi * min a b = (min a b) ^ 2 / Real.pi := by ring
  rw [hq] at hval hval2
  by_cases c : min z (a * b - z) < (min a b) ^ 2 / Real.pi
  · rw [if_pos c] at hval hval2
    have h0 : 0 ≤ Real.sqrt Real.pi * Real.sqrt (min z (a * b - z)) :=
      mul_nonneg (Real.sqrt_nonneg _) (Real.sqrt_nonneg _)
    have h1 : Real.sqrt Real.pi * Real.sqrt (min z (a * b - z)) ≤ min a b := by
      rw [← Real.sqrt_mul (le_of_lt hpi), Real.sqrt_le_left hm]
      rw [lt_div_iff₀ hpi] at c
      linarith
    refine ⟨_, hval, h0, h1, hval2, fun _ => ?_⟩
    unfold ipf_rectangle
    rw [if_neg (not_not.mpr ha), if_neg (not_not.mpr hb)]
    simp only [swap_min, rm_pi]
    rw [if_neg (not_not.mpr ⟨h0, h1⟩)]
    have s1 : Real.sqrt Real.pi * Real.sqrt Real.pi = Real.pi :=
      Real.mul_self_sqrt (le_of_lt hpi)
    have s2 := Real.mul_self_sqrt hz2
    have e : Real.sqrt Real.pi * Real.sqrt (min z (a * b - z)) / Real.pi
          * (Real.sqrt Real.pi * Real.sqrt (min z (a * b - z)))
        = (Real.sqrt Real.pi * Real.sqrt Real.pi)
          * (Real.sqrt (min z (a * b - z)) * Real.sqrt (min z (a * b - z))) / Real.pi := by
      ring
    rw [e, s1, s2]
    field_simp
  · rw [if_neg c] at hval hval2
    exact ⟨_, hval, hm, le_refl _, hval2, fun h => absurd h c⟩

theorem pf_rectangle_range_mirror_inverse_witness :
    ∃ p, pf_rectangle rm 1 2 3 = Except.ok p ∧ 0 ≤ p ∧ p ≤ min 2 3 ∧
      pf_rectangle rm (2 * 3 - 1) 2 3 = Except.ok p ∧
      (min 1 (2 * 3 - 1) < (min 2 3) ^ 2 / Real.pi →
        ipf_rectangle rm p 2 3 = Except.ok (min 1 (2 * 3 - 1))) :=
  pf_rectangle_range_mirror_inverse 1 2 3 (by norm_num) (by norm_num) (by norm_num)
    (by norm_num)

theorem swap_min_comm {K : Type} [LinearOrderedField K] (a b : K) :
    (if a > b then b else a) = (if b > a then a else b) := by
  rw [swap_min, swap_min, min_comm]

theorem swap_max_comm {K : Type} [LinearOrderedField K] (a b : K) :
    (if a > b then a else b) = (if b > a then b else a) := by
  rw [swap_max, swap_max, max_comm]

/-- C28: the four rectangle functions are symmetric in the sides: with `a` and `b`
exchanged, `pf_rectangle`, `ipf_rectangle`, `opf_rectangle` and `iopf_rectangle` give the
same outcome, a rejection of the arguments included. -/
theorem rectangle_symmetric {K : Type} [LinearOrderedField K] (m : Libm K) (t : Trig K)
    (fuel : Nat) (x a b : K) :
    pf_rectangle m x a b = pf_rectangle m x b a ∧
      ipf_rectangle m x a b = ipf_rectangle m x b a ∧
      opf_rectangle m t fuel x a b = opf_rectangle m t fuel x b a ∧
      iopf_rectangle m t fuel x a b = iopf_rectangle m t fuel x b a := by
  refine ⟨?_, ?_, ?_, ?_⟩
  · unfold pf_rectangle
    rw [swap_min_comm a b, swap_max_comm a b, mul_comm a b]
    by_cases ha : 0 ≤ a <;> by_cases hb : 0 ≤ b <;> simp [ha, hb]
  · unfold ipf_rectangle
    rw [swap_min_comm a b]
    by_cases ha : 0 ≤ a <;> by_cases hb : 0 ≤ b <;> simp [ha, hb]
  · unfold opf_rectangle
    rw [swap_min_comm a b, swap_max_comm a b]
    by_cases ha : 0 ≤ a <;> by_cases hb : 0 ≤ b <;> simp [ha, hb]
  · unfold iopf_rectangle
    rw [swap_min_comm a b, swap_max_comm a b]
    by_cases ha : 0 ≤ a <;> by_cases hb : 0 ≤ b <;> simp [ha, hb]

end search

namespace search
namespace convex_polygon_pf

variable {K : Type} [LinearOrderedField K]

theorem find_pf_max_ok (m : Libm K) (c : convex_polygon_pf K) :
    (find_pf_max m c).pf_max_ok = true := by
  unfold find_pf_max
  split <;> rfl

theorem maximum_ok (m : Libm K) (c : convex_polygon_pf K) :
    (maximum m c).2.pf_max_ok = true := by
  unfold maximum
  by_cases h : c.pf_max_ok = true
  · simp only [if_pos h]
    exact h
  · simp only [if_neg h]
    exact find_pf_max_ok m c

theorem maximum_of_ok (m : Libm K) (c : convex_polygon_pf K) (h : c.pf_max_ok = true) :
    maximum m c = (c.maximum_v, c) := by
  unfold maximum
  simp only [if_pos h]

theorem maximum_idem (m : Libm K) (c : convex_polygon_pf K) :
    maximum m (maximum m c).2 = maximum m c := by
  rw [maximum_of_ok m _ (maximum_ok m c)]
  rfl

theorem shortest_value (m : Libm K) (c : convex_polygon_pf K) (is_arc : Bool)
    (start end_ center : point K) :
    (shortest m c is_arc start end_ center).1
      = (maximum m (if c.sc_ok = true then c else find_pf_max m c)).1 := by
  unfold shortest
  simp only []
  by_cases h : (maximum m (if c.sc_ok = true then c else find_pf_max m c)).1 = 0
  · rw [if_pos h, h]
  · rw [if_neg h, maximum_idem]

/-- C22: when `shortest` returns a non-zero length, `center` is left as it was if
`is_arc` comes back false, and is the centre of the stored shortest curve if `is_arc`
comes back true. -/
theorem shortest_center (m : Libm K) (c : convex_polygon_pf K) (is_arc : Bool)
    (start end_ center : point K)
    (h : (shortest m c is_arc start end_ center).1 ≠ 0) :
    ((shortest m c is_arc start end_ center).2.1.1 = false →
        (shortest m c is_arc start end_ center).2.1.2.2.2 = center) ∧
      ((shortest m c is_arc start end_ center).2.1.1 = true →
        (shortest m c is_arc start end_ center).2.1.2.2.2
          = (shortest m c is_arc start end_ center).2.2.shortest_curve.center) := by
  have hv := shortest_value m c is_arc start end_ center
  rw [hv] at h
  unfold shortest
  simp only [if_neg h, maximum_idem]
  constructor
  · intro ha
    rw [if_neg (by rw [ha]; decide)]
  · intro ha
    rw [if_pos ha]

/-- A clockwise unit square whose first vertex is listed twice. -/
def doubled_square : List (point ℝ) := [⟨0, 0⟩, ⟨0, 0⟩, ⟨0, 1⟩, ⟨1, 1⟩, ⟨1, 0⟩]

/-- C29 (fails): built from the unit square with its first vertex listed twice, the object
has `num_vertices () = 4`, the slot at index 0 holds the default side with `p = q`, and
the side from (1,0) to (0,0) sits at index 4, outside the first `num_vertices ()` slots:
the constructor steps over the slot of a zero-length pair instead of closing the gap. -/
theorem constructor_leaves_gap :
    (of_polygon rm doubled_square).num_vertices_v = 4 ∧
      (of_polygon rm doubled_square).sides =
        [⟨⟨0, 0⟩, ⟨0, 0⟩⟩, ⟨⟨0, 0⟩, ⟨0, 1⟩⟩, ⟨⟨0, 1⟩, ⟨1, 1⟩⟩, ⟨⟨1, 1⟩, ⟨1, 0⟩⟩,
          ⟨⟨1, 0⟩, ⟨0, 0⟩⟩] ∧
      ((of_polygon rm doubled_square).side_at 0).p
        = ((of_polygon rm doubled_square).side_at 0).q ∧
      (of_polygon rm doubled_square).side_at 4 = ⟨⟨1, 0⟩, ⟨0, 0⟩⟩ := by
  have e0 : point.abs rm ((⟨0, 0⟩ : point ℝ).sub ⟨0, 0⟩) = 0 := by
    simp [point.sub, point.abs, rm_sqrt]
  have e1 : point.abs rm ((⟨0, 0⟩ : point ℝ).sub ⟨0, 1⟩) ≠ 0 := by
    simp [point.sub, point.abs, rm_sqrt]
  have e2 : point.abs rm ((⟨0, 1⟩ : point ℝ).sub ⟨1, 1⟩) ≠ 0 := by
    simp [point.sub, point.abs, rm_sqrt]
  have e3 : point.abs rm ((⟨1, 1⟩ : point ℝ).sub ⟨1, 0⟩) ≠ 0 := by
    simp [point.sub, point.abs, rm_sqrt]
  have e4 : point.abs rm ((⟨1, 0⟩ : point ℝ).sub ⟨0, 0⟩) ≠ 0 := by
    simp [point.sub, point.abs, rm_sqrt]
  have hu : usub 5 1 = 4 := by unfold usub; norm_num
  have hs : (of_polygon rm doubled_square).sides =
        [⟨⟨0, 0⟩, ⟨0, 0⟩⟩, ⟨⟨0, 0⟩, ⟨0, 1⟩⟩, ⟨⟨0, 1⟩, ⟨1, 1⟩⟩, ⟨⟨1, 1⟩, ⟨1, 0⟩⟩,
          ⟨⟨1, 0⟩, ⟨0, 0⟩⟩] := by
    unfold of_polygon
    simp only [doubled_square, List.length_cons, List.length_nil, Nat.reduceAdd, gt_iff_lt,
      Nat.reduceLT, if_true, fill_sides, if_pos e0, if_neg e1, if_neg e2, if_neg e3,
      List.getLast_cons_cons, List.getLast_singleton, ne_eq, e4, not_false_eq_true,
      List.cons_append, List.nil_append, side_zero]
  have hn : (of_polygon rm doubled_square).num_vertices_v = 4 := by
    unfold of_polygon
    simp only [doubled_square, List.length_cons, List.length_nil, Nat.reduceAdd, gt_iff_lt,
      Nat.reduceLT, if_true, fill_sides, if_pos e0, if_neg e1, if_neg e2, if_neg e3,
      List.getLast_cons_cons, List.getLast_singleton, ne_eq, e4, not_false_eq_true,
      zero_add, hu]
  refine ⟨hn, hs, ?_, ?_⟩
  · unfold side_at
    rw [hs]
    rfl
  · unfold side_at
    rw [hs]
    rfl

end convex_polygon_pf

namespace point

/-- C30 (fails): when `p == q`, `proj` returns the distance from the point to `p`, which
is 1 for the point (1,0) and `p = q = (0,0)`, whereas the header comment and the claim
give 0. -/
theorem proj_coincident :
    (∀ s p : point ℝ, proj rm s p p = (s.sub p).abs rm) ∧
      proj rm ⟨1, 0⟩ ⟨0, 0⟩ ⟨0, 0⟩ = 1 := by
  have h : ∀ s p : point ℝ, proj rm s p p = (s.sub p).abs rm := by
    intro s p
    unfold proj
    simp [point.sub, point.abs, rm_sqrt]
  refine ⟨h, ?_⟩
  rw [h]
  simp [point.sub, point.abs, rm_sqrt]

end point
end search

namespace search

theorem trim_cases (x : ℝ) : trim x = 0 ∨ trim x = x := by
  unfold trim
  split
  · exact Or.inl rfl
  · exact Or.inr rfl

namespace point

theorem angle_lt_two_pi (s p q : point ℝ) : s.angle rm p q < 2 * Real.pi := by
  unfold angle
  simp only [rm_atan2, rm_pi]
  generalize (⟨(p.sub s).dot (q.sub s), (p.sub s).cross (q.sub s)⟩ : ℂ) = z
  have hup := Complex.arg_le_pi z
  have hpi := Real.pi_pos
  rcases trim_cases z.arg with ht | ht
  · rw [ht]
    simp
    linarith
  · rw [ht]
    split
    · linarith
    · linarith

theorem add_sub_cancel_pt (r x : point ℝ) : (r.add x).sub r = x := by
  cases r
  cases x
  simp [add, sub]

end point
end search

namespace search
namespace convex_polygon_pf

/-- The curve `e`, when it is an arc, goes counterclockwise from `start` to `end` around
`center`: both end points are at the same distance from the centre and
`(start - center) ^ (end - center)` is positive. -/
def arc_counterclockwise (e : eff_perimeter ℝ) : Prop :=
  e.form = ppf_form.sqrt →
    (e.start.sub e.center).abs rm = (e.end_.sub e.center).abs rm ∧
      0 < (e.start.sub e.center).cross (e.end_.sub e.center)

end convex_polygon_pf

end search

namespace search

theorem pos_of_abs_lt (t L : ℝ) (hL : 0 ≤ L) (h : |1 - t| * L < |t| * L) : 0 < t := by
  have h1 : |1 - t| < |t| := lt_of_mul_lt_mul_right h hL
  by_contra hn
  rw [abs_of_nonpos (not_lt.mp hn), abs_of_pos (by linarith)] at h1
  linarith

theorem pos_of_lt_abs (s L : ℝ) (hL : 0 ≤ L) (h : |s| * L < |1 - s| * L) : 0 < 1 - s := by
  have h1 : |s| < |1 - s| := lt_of_mul_lt_mul_right h hL
  by_contra hn
  rw [abs_of_nonpos (not_lt.mp hn), abs_of_pos (by linarith)] at h1
  linarith

namespace partial_pf

open convex_polygon_pf

theorem point_eq_iff (a b : point ℝ) : a.eq b = true ↔ a = b := by
  cases a
  cases b
  simp [point.eq]

end partial_pf
end search

namespace search
namespace partial_pf

open convex_polygon_pf

theorem cross_smul_smul (a b : point ℝ) (k l : ℝ) :
    (a.smul k).cross (b.smul l) = k * l * a.cross b := by
  unfold point.cross point.smul
  simp only
  ring

end partial_pf
end search

namespace search
namespace convex_polygon_pf

set_option maxHeartbeats 4000000 in
/-- C23: in every state that an object built by the constructor reaches through its
queries, when `shortest` returns a non-zero length with `is_arc` true, the arc goes
counterclockwise from `start` to `end` around `center`: the two points are at the same
distance from `center` and `(start - center) ^ (end - center)` is positive. -/
theorem shortest_arc_counterclockwise (cp : List (point ℝ)) (c : convex_polygon_pf ℝ)
    (hc : reachable_from rm (of_polygon rm cp) c) (is_arc : Bool)
    (start end_ center : point ℝ)
    (h0 : (shortest rm c is_arc start end_ center).1 ≠ 0)
    (h1 : (shortest rm c is_arc start end_ center).2.1.1 = true) :
    (((shortest rm c is_arc start end_ center).2.1.2.1.sub
          (shortest rm c is_arc start end_ center).2.1.2.2.2).abs rm
        = ((shortest rm c is_arc start end_ center).2.1.2.2.1.sub
          (shortest rm c is_arc start end_ center).2.1.2.2.2).abs rm) ∧
      0 < ((shortest rm c is_arc start end_ center).2.1.2.1.sub
          (shortest rm c is_arc start end_ center).2.1.2.2.2).cross
        ((shortest rm c is_arc start end_ center).2.1.2.2.1.sub
          (shortest rm c is_arc start end_ center).2.1.2.2.2) := by
  have angle_nonneg (s p q : point ℝ) : 0 ≤ s.angle rm p q := by
    unfold point.angle
    simp only [rm_atan2, rm_pi]
    generalize (⟨(p.sub s).dot (q.sub s), (p.sub s).cross (q.sub s)⟩ : ℂ) = z
    have hlo := Complex.neg_pi_lt_arg z
    rcases trim_cases z.arg with ht | ht
    · rw [ht]
      simp
    · rw [ht]
      split
      · linarith
      · linarith
  have abs_nonneg_rm (v : point ℝ) : 0 ≤ v.abs rm := by
    unfold point.abs
    exact Real.sqrt_nonneg _
  have zeroed_nonneg (b : Bool) (v : point ℝ) :
      0 ≤ (if b = true then (0 : ℝ) else v.abs rm) := by
    split
    · exact le_refl 0
    · exact abs_nonneg_rm v
  have of_polygon_curve (cp : List (point ℝ)) :
      (of_polygon rm cp).shortest_curve.form = ppf_form.none := by
    unfold of_polygon
    cases cp with
    | nil => rfl
    | cons first rest =>
      simp only
      split
      · split <;> rfl
      · rfl
  have find_pf_max_ccw (c : convex_polygon_pf ℝ) (h : arc_counterclockwise c.shortest_curve) :
      arc_counterclockwise (find_pf_max rm c).shortest_curve := by
    have of_sides_ccw (c : convex_polygon_pf ℝ) (i j : Nat) (e : eff_perimeter ℝ)
        (he : arc_counterclockwise e) (e2 : eff_perimeter ℝ)
        (h : (partial_pf.of_sides rm c i j (some e)).2 = some e2) : arc_counterclockwise e2 := by
      have angle_cross_pos (s p q : point ℝ) (h0 : s.angle rm p q ≠ 0)
          (h1 : s.angle rm p q < Real.pi) : 0 < (p.sub s).cross (q.sub s) := by
        unfold point.angle at h0 h1
        simp only [rm_atan2, rm_pi] at h0 h1
        generalize hz : (⟨(p.sub s).dot (q.sub s), (p.sub s).cross (q.sub s)⟩ : ℂ) = z at h0 h1
        have him : z.im = (p.sub s).cross (q.sub s) := by rw [← hz]
        rw [← him]
        have hlo := Complex.neg_pi_lt_arg z
        rcases trim_cases z.arg with ht | ht
        · rw [ht] at h0
          simp at h0
        · rw [ht] at h0 h1
          by_cases hn : z.arg < 0
          · rw [if_pos hn] at h1
            linarith
          · rw [if_neg hn] at h0 h1
            have h2 : 0 ≤ z.im := Complex.arg_nonneg_iff.mp (not_lt.mp hn)
            rcases Complex.arg_lt_pi_iff.mp h1 with h3 | h3
            · rcases lt_or_eq_of_le h2 with h4 | h4
              · exact h4
              · exact absurd (Complex.arg_eq_zero_iff.mpr ⟨h3, h4.symm⟩) h0
            · exact lt_of_le_of_ne h2 (Ne.symm h3)
      have angle_cross_neg (s p q : point ℝ) (h1 : Real.pi < s.angle rm p q) :
          (p.sub s).cross (q.sub s) < 0 := by
        unfold point.angle at h1
        simp only [rm_atan2, rm_pi] at h1
        generalize hz : (⟨(p.sub s).dot (q.sub s), (p.sub s).cross (q.sub s)⟩ : ℂ) = z at h1
        have him : z.im = (p.sub s).cross (q.sub s) := by rw [← hz]
        rw [← him]
        have hup := Complex.arg_le_pi z
        rcases trim_cases z.arg with ht | ht
        · rw [ht] at h1
          simp at h1
          linarith [Real.pi_pos]
        · rw [ht] at h1
          by_cases hn : z.arg < 0
          · exact Complex.arg_neg_iff.mp hn
          · rw [if_neg hn] at h1
            linarith
      have abs_smul_rm (v : point ℝ) (k : ℝ) : (v.smul k).abs rm = |k| * v.abs rm := by
        unfold point.abs point.smul
        simp only [rm_sqrt]
        have e : v.x * k * (v.x * k) + v.y * k * (v.y * k) = k ^ 2 * (v.x * v.x + v.y * v.y) := by
          ring
        rw [e, Real.sqrt_mul (sq_nonneg k), Real.sqrt_sq_eq_abs]
      have of_sides_arc_ccw (c : convex_polygon_pf ℝ) (θ1 θ2 r_min r_max tri sub : ℝ)
          (r u v : point ℝ) (du dv : ℝ) (e : eff_perimeter ℝ)
          (hθ : 0 < θ2) (hmin : 0 ≤ r_min) (hdu : du = (u.sub r).abs rm)
          (hdv : dv = (v.sub r).abs rm) (hru : r_max ≤ du) (hrv : r_max ≤ dv)
          (hcross : r_min < r_max → 0 < (u.sub r).cross (v.sub r))
          (he : arc_counterclockwise e) (e2 : eff_perimeter ℝ)
          (h : (partial_pf.of_sides_arc rm c θ1 θ2 r_min r_max tri sub r u v du dv (some e)).2 = some e2) :
          arc_counterclockwise e2 := by
        have abs_scaled (w : point ℝ) (k d : ℝ) (hd : d = w.abs rm) (hpos : 0 < d) :
            ((w.smul k).sdiv d).abs rm = |k| := by
          have hsq : w.x * w.x + w.y * w.y = d * d := by
            rw [hd]
            unfold point.abs
            rw [rm_sqrt, Real.mul_self_sqrt (by nlinarith [mul_self_nonneg w.x, mul_self_nonneg w.y])]
          unfold point.abs point.smul point.sdiv
          simp only [rm_sqrt]
          have e : w.x * k / d * (w.x * k / d) + w.y * k / d * (w.y * k / d)
              = k ^ 2 * ((w.x * w.x + w.y * w.y) / (d * d)) := by
            field_simp
            ring
          rw [e, hsq, div_self (ne_of_gt (mul_pos hpos hpos)), mul_one, Real.sqrt_sq_eq_abs]
        have cross_scaled (a b : point ℝ) (k d e : ℝ) :
            ((a.smul k).sdiv d).cross ((b.smul k).sdiv e) = (k / d) * (k / e) * a.cross b := by
          unfold point.cross point.smul point.sdiv
          simp only
          ring
        unfold partial_pf.of_sides_arc at h
        by_cases h1 : r_min ≥ r_max
        · rw [if_pos h1] at h
          simp only [Option.some.injEq] at h
          rw [← h]
          exact he
        rw [if_neg h1] at h
        have hlt : r_min < r_max := not_le.mp h1
        have hrpos : 0 < r_max := lt_of_le_of_lt hmin hlt
        simp only at h
        by_cases h2 : r_min * r_min * θ2 / 2 - (tri - sub) > c.half_area_v
        · rw [if_pos h2] at h
          simp only [Option.some.injEq] at h
          rw [← h]
          exact he
        rw [if_neg h2] at h
        by_cases h3 : r_max * r_max * θ2 / 2 - (tri - sub) > c.half_area_v
        · -- clipped at half the area
          simp only [if_pos h3] at h
          by_cases h4 : r_min * r_min * θ2 / 2 - (tri - sub) = c.half_area_v
          · rw [if_pos h4] at h
            simp only [Option.some.injEq] at h
            rw [← h]
            exact he
          rw [if_neg h4] at h
          simp only [lt_irrefl, if_false, Option.map_some', Option.some.injEq] at h
          have hpos : 0 < partial_pf.pf rm ⟨ppf_form.sqrt, r_min * r_min * θ2 / 2 - (tri - sub),
              r_max * r_max * θ2 / 2 - (tri - sub), θ2, tri - sub, r_min * θ2, r_max * θ2⟩
              c.half_area_v := by
            unfold partial_pf.pf
            simp only [rm_sqrt]
            rw [if_neg (by decide)]
            apply Real.sqrt_pos.mpr
            have hl : r_min * r_min * θ2 / 2 - (tri - sub) < c.half_area_v :=
              lt_of_le_of_ne (not_lt.mp h2) h4
            have hn : 0 ≤ r_min * r_min * θ2 / 2 := by positivity
            have : 0 < c.half_area_v + (tri - sub) := by linarith
            positivity
          intro _
          rw [← h]
          simp only [point.add_sub_cancel_pt]
          have hdu0 : 0 < du := lt_of_lt_of_le hrpos hru
          have hdv0 : 0 < dv := lt_of_lt_of_le hrpos hrv
          constructor
          · rw [abs_scaled _ _ _ hdu hdu0, abs_scaled _ _ _ hdv hdv0]
          · rw [cross_scaled]
            have hr : 0 < partial_pf.pf rm ⟨ppf_form.sqrt, r_min * r_min * θ2 / 2 - (tri - sub),
              r_max * r_max * θ2 / 2 - (tri - sub), θ2, tri - sub, r_min * θ2, r_max * θ2⟩
              c.half_area_v / θ2 := div_pos hpos hθ
            exact mul_pos (mul_pos (div_pos hr hdu0) (div_pos hr hdv0)) (hcross hlt)
        · simp only [if_neg h3] at h
          by_cases h4 : r_min * r_min * θ2 / 2 - (tri - sub) = r_max * r_max * θ2 / 2 - (tri - sub)
          · rw [if_pos h4] at h
            simp only [Option.some.injEq] at h
            rw [← h]
            exact he
          rw [if_neg h4] at h
          simp only [Option.map_some', Option.some.injEq] at h
          by_cases h5 : r_max * r_max * θ2 / 2 - (tri - sub) < c.half_area_v
          · rw [if_pos h5] at h
            intro hf
            rw [← h] at hf
            simp at hf
          rw [if_neg h5] at h
          intro _
          rw [← h]
          simp only [point.add_sub_cancel_pt]
          have hdu0 : 0 < du := lt_of_lt_of_le hrpos hru
          have hdv0 : 0 < dv := lt_of_lt_of_le hrpos hrv
          have hr : 0 < r_max * θ2 / θ2 := div_pos (mul_pos hrpos hθ) hθ
          constructor
          · rw [abs_scaled _ _ _ hdu hdu0, abs_scaled _ _ _ hdv hdv0]
          · rw [cross_scaled]
            exact mul_pos (mul_pos (div_pos hr hdu0) (div_pos hr hdv0)) (hcross hlt)
      have clip_r_max_le (c : convex_polygon_pf ℝ) (r : point ℝ) (idx : List Nat) (x : ℝ) :
          clip_r_max rm c r idx x ≤ x := by
        unfold clip_r_max
        induction idx generalizing x with
        | nil => exact le_refl x
        | cons i rest ih =>
          rw [List.foldl_cons]
          refine le_trans (ih _) ?_
          simp only
          split
          · exact min_le_left _ _
          · exact le_refl x
      have of_sides_parallel_ccw (c : convex_polygon_pf ℝ) (i j : Nat) (e : eff_perimeter ℝ)
          (he : arc_counterclockwise e) (e2 : eff_perimeter ℝ)
          (h : (partial_pf.of_sides_parallel rm c i j (some e)).2 = some e2) : arc_counterclockwise e2 := by
        unfold partial_pf.of_sides_parallel at h
        simp only [Option.map_some'] at h
        split_ifs at h <;>
          first
          | (simp only [Option.some.injEq] at h
             rw [← h]
             exact he)
          | (simp only [Option.some.injEq] at h
             intro hf
             rw [← h] at hf
             simp at hf)
      -- The lines through two sides meet at `center`: the end points of both sides, seen from
      -- it, are multiples of the side vectors.
      have center_param (s1 s2 : side ℝ)
          (hD : (s1.q.sub s1.p).cross (s2.q.sub s2.p) ≠ 0) :
          ∃ t s : ℝ,
            s1.p.sub (partial_pf.center s1 s2) = (s1.q.sub s1.p).smul (-t) ∧
            s1.q.sub (partial_pf.center s1 s2) = (s1.q.sub s1.p).smul (1 - t) ∧
            s2.p.sub (partial_pf.center s1 s2) = (s2.q.sub s2.p).smul (-s) ∧
            s2.q.sub (partial_pf.center s1 s2) = (s2.q.sub s2.p).smul (1 - s) ∧
            (s1.q = s2.p → t = 1 ∧ s = 0) ∧ (s1.p = s2.q → t = 0 ∧ s = 1) := by
        obtain ⟨⟨ax, ay⟩, ⟨bx, by_⟩⟩ := s1
        obtain ⟨⟨cx, cy⟩, ⟨dx, dy⟩⟩ := s2
        simp only [point.sub, point.cross] at hD
        refine ⟨((cx - ax) * (dy - cy) - (cy - ay) * (dx - cx))
            / ((bx - ax) * (dy - cy) - (by_ - ay) * (dx - cx)),
          ((cx - ax) * (by_ - ay) - (cy - ay) * (bx - ax))
            / ((bx - ax) * (dy - cy) - (by_ - ay) * (dx - cx)), ?_, ?_, ?_, ?_, ?_, ?_⟩
        · simp only [partial_pf.center, point.sub, point.smul, point.sdiv, point.sign_area, point.cross,
            point.mk.injEq]
          constructor <;> field_simp <;> ring
        · simp only [partial_pf.center, point.sub, point.smul, point.sdiv, point.sign_area, point.cross,
            point.mk.injEq]
          constructor <;> field_simp <;> ring
        · simp only [partial_pf.center, point.sub, point.smul, point.sdiv, point.sign_area, point.cross,
            point.mk.injEq]
          constructor <;> field_simp <;> ring
        · simp only [partial_pf.center, point.sub, point.smul, point.sdiv, point.sign_area, point.cross,
            point.mk.injEq]
          constructor <;> field_simp <;> ring
        · intro h
          simp only [point.mk.injEq] at h
          obtain ⟨h1, h2⟩ := h
          subst h1 h2
          constructor
          · exact div_self hD
          · rw [div_eq_zero_iff]
            left
            ring
        · intro h
          simp only [point.mk.injEq] at h
          obtain ⟨h1, h2⟩ := h
          subst h1 h2
          constructor
          · rw [div_eq_zero_iff]
            left
            ring
          · rw [div_eq_one_iff_eq hD]
            ring
      unfold partial_pf.of_sides at h
      simp only [rm_pi] at h
      by_cases h0 : point.angle rm ⟨0, 0⟩ ((c.side_at i).q.sub (c.side_at i).p)
          ((c.side_at j).q.sub (c.side_at j).p).neg = 0
      · rw [if_pos h0] at h
        exact of_sides_parallel_ccw c i j e he e2 h
      rw [if_neg h0] at h
      have hang0 := angle_nonneg ⟨0, 0⟩ ((c.side_at i).q.sub (c.side_at i).p)
          ((c.side_at j).q.sub (c.side_at j).p).neg
      have hang2 := point.angle_lt_two_pi ⟨0, 0⟩ ((c.side_at i).q.sub (c.side_at i).p)
          ((c.side_at j).q.sub (c.side_at j).p).neg
      by_cases h1 : point.angle rm ⟨0, 0⟩ ((c.side_at i).q.sub (c.side_at i).p)
          ((c.side_at j).q.sub (c.side_at j).p).neg < Real.pi
      · rw [if_pos h1] at h
        split at h
        · simp only [Option.some.injEq] at h
          rw [← h]
          exact he
        · rename_i hcond
          have hc := angle_cross_pos _ _ _ h0 h1
          have hD : ((c.side_at i).q.sub (c.side_at i).p).cross
              ((c.side_at j).q.sub (c.side_at j).p) < 0 := by
            simp only [point.sub, point.cross, point.neg, sub_zero] at hc ⊢
            linarith
          obtain ⟨t, s, e1, e2', e3, e4, hadj, _⟩ :=
            center_param (c.side_at i) (c.side_at j) (ne_of_lt hD)
          refine of_sides_arc_ccw c _ _ _ _ _ _ _ _ _ _ _ e
            (lt_of_le_of_ne hang0 (Ne.symm h0))
            (le_max_of_le_left (zeroed_nonneg _ _)) rfl rfl
            (le_trans (clip_r_max_le _ _ _ _) (min_le_left _ _))
            (le_trans (clip_r_max_le _ _ _ _) (min_le_right _ _)) ?_ he e2 h
          intro hlt
          have hlt2 := lt_of_lt_of_le hlt (clip_r_max_le _ _ _ _)
          rw [e1, e4, partial_pf.cross_smul_smul]
          have hts : 0 < t ∧ 0 < 1 - s := by
            by_cases hq : (c.side_at i).q.eq (c.side_at j).p = true
            · obtain ⟨ht, hs⟩ := hadj ((partial_pf.point_eq_iff _ _).mp hq)
              rw [ht, hs]
              norm_num
            · rw [if_neg hq, if_neg hq] at hlt2
              have ha := lt_of_le_of_lt (le_max_left _ _) (lt_of_lt_of_le hlt2 (min_le_left _ _))
              have hb := lt_of_le_of_lt (le_max_right _ _) (lt_of_lt_of_le hlt2 (min_le_right _ _))
              rw [e2', e1, abs_smul_rm, abs_smul_rm, abs_neg] at ha
              rw [e3, e4, abs_smul_rm, abs_smul_rm, abs_neg] at hb
              exact ⟨pos_of_abs_lt t _ (abs_nonneg_rm _) ha,
                pos_of_lt_abs s _ (abs_nonneg_rm _) hb⟩
          nlinarith [mul_pos hts.1 hts.2]
      · rw [if_neg h1] at h
        by_cases h2 : point.angle rm ⟨0, 0⟩ ((c.side_at i).q.sub (c.side_at i).p)
            ((c.side_at j).q.sub (c.side_at j).p).neg > Real.pi
        · rw [if_pos h2] at h
          split at h
          · simp only [Option.some.injEq] at h
            rw [← h]
            exact he
          · have hc := angle_cross_neg _ _ _ h2
            have hD : 0 < ((c.side_at i).q.sub (c.side_at i).p).cross
                ((c.side_at j).q.sub (c.side_at j).p) := by
              simp only [point.sub, point.cross, point.neg, sub_zero] at hc ⊢
              linarith
            obtain ⟨t, s, e1, e2', e3, e4, _, hadj⟩ :=
              center_param (c.side_at i) (c.side_at j) (ne_of_gt hD)
            refine of_sides_arc_ccw c _ _ _ _ _ _ _ _ _ _ _ e
              (by linarith)
              (le_max_of_le_left (zeroed_nonneg _ _)) rfl rfl
              (le_trans (clip_r_max_le _ _ _ _) (min_le_right _ _))
              (le_trans (clip_r_max_le _ _ _ _) (min_le_left _ _)) ?_ he e2 h
            intro hlt
            have hlt2 := lt_of_lt_of_le hlt (clip_r_max_le _ _ _ _)
            rw [e3, e2', partial_pf.cross_smul_smul]
            have hts : 0 < 1 - t ∧ 0 < s := by
              by_cases hq : (c.side_at i).p.eq (c.side_at j).q = true
              · obtain ⟨ht, hs⟩ := hadj ((partial_pf.point_eq_iff _ _).mp hq)
                rw [ht, hs]
                norm_num
              · rw [if_neg hq, if_neg hq] at hlt2
                have ha := lt_of_le_of_lt (le_max_left _ _) (lt_of_lt_of_le hlt2 (min_le_left _ _))
                have hb := lt_of_le_of_lt (le_max_right _ _)
                  (lt_of_lt_of_le hlt2 (min_le_right _ _))
                rw [e1, e2', abs_smul_rm, abs_smul_rm, abs_neg] at ha
                rw [e4, e3, abs_smul_rm, abs_smul_rm, abs_neg] at hb
                exact ⟨pos_of_lt_abs t _ (abs_nonneg_rm _) ha,
                  pos_of_abs_lt s _ (abs_nonneg_rm _) hb⟩
            have hx : ((c.side_at j).q.sub (c.side_at j).p).cross
                ((c.side_at i).q.sub (c.side_at i).p)
                = -(((c.side_at i).q.sub (c.side_at i).p).cross
                  ((c.side_at j).q.sub (c.side_at j).p)) := by
              simp only [point.cross]
              ring
            rw [hx]
            nlinarith [mul_pos hts.1 hts.2]
        · rw [if_neg h2] at h
          simp only [Option.some.injEq] at h
          rw [← h]
          exact he
    unfold find_pf_max
    split
    · exact h
    · simp only
      cases hsc : (partial_pf.of_sides rm c
          ((side_pairs c.num_vertices_v).foldl (max_step rm c)
            (rm.sqrt (rm.pi * c.area_v), 0, 0)).2.1
          ((side_pairs c.num_vertices_v).foldl (max_step rm c)
            (rm.sqrt (rm.pi * c.area_v), 0, 0)).2.2 (some c.shortest_curve)).2 with
      | none => exact h
      | some e2 => exact of_sides_ccw c _ _ _ h e2 hsc
  have reachable_from_ccw (c0 c : convex_polygon_pf ℝ)
      (h0 : arc_counterclockwise c0.shortest_curve) (hc : reachable_from rm c0 c) :
      arc_counterclockwise c.shortest_curve := by
    induction hc with
    | start => exact h0
    | pf c _ _ ih => exact ih
    | pf_max c _ _ ih => exact find_pf_max_ccw c ih
    | sc c _ _ ih => exact find_pf_max_ccw c ih
  have maximum_ccw (c : convex_polygon_pf ℝ) (h : arc_counterclockwise c.shortest_curve) :
      arc_counterclockwise (maximum rm c).2.shortest_curve := by
    unfold maximum
    simp only
    split
    · exact h
    · exact find_pf_max_ccw c h
  have hcc := reachable_from_ccw _ c
    (fun hf => absurd ((of_polygon_curve cp).symm.trans hf) (by decide)) hc
  have hc1 : arc_counterclockwise
      (if c.sc_ok = true then c else find_pf_max rm c).shortest_curve := by
    split
    · exact hcc
    · exact find_pf_max_ccw c hcc
  have hm := maximum_ccw _ hc1
  have hv := shortest_value rm c is_arc start end_ center
  rw [hv] at h0
  unfold shortest at h1 ⊢
  simp only [if_neg h0] at h1 ⊢
  have hform := of_decide_eq_true h1
  rw [if_pos h1]
  exact hm hform

end convex_polygon_pf
end search

namespace search

/-- The right isosceles triangle with legs 1, in clockwise order. -/
def tri : List (point ℝ) := [⟨0, 0⟩, ⟨0, 1⟩, ⟨1, 0⟩]

/-- The object the constructor builds from `tri`. -/
noncomputable def tri_pf : convex_polygon_pf ℝ :=
  { num_vertices_v := 3
    area_v := 1 / 2
    half_area_v := 1 / 2 / 2
    sides := [⟨⟨0, 0⟩, ⟨0, 1⟩⟩, ⟨⟨0, 1⟩, ⟨1, 0⟩⟩, ⟨⟨1, 0⟩, ⟨0, 0⟩⟩]
    function := []
    pf_ok := false
    pf_max_ok := false
    sc_ok := false
    maximum_v := 0
    num_segments_v := 0
    shortest_curve := ⟨ppf_form.none, ⟨0, 0⟩, ⟨0, 0⟩, ⟨0, 0⟩⟩ }

namespace convex_polygon_pf

theorem side_at_tri :
    tri_pf.side_at 0 = ⟨⟨0, 0⟩, ⟨0, 1⟩⟩ ∧ tri_pf.side_at 1 = ⟨⟨0, 1⟩, ⟨1, 0⟩⟩ ∧
    tri_pf.side_at 2 = ⟨⟨1, 0⟩, ⟨0, 0⟩⟩ :=
  ⟨rfl, rfl, rfl⟩

theorem tri_n : tri_pf.num_vertices_v = 3 := rfl

theorem side_pairs_three : side_pairs 3 = [(1, 0), (2, 0), (2, 1)] := by
  decide

end convex_polygon_pf
end search

namespace search
namespace partial_pf

/-- The curve written by the arc branch when the domain is clipped at `half_area ()`. -/
theorem of_sides_arc_clipped_curve {K : Type} [LinearOrderedField K] (m : Libm K)
    (c : convex_polygon_pf K) (theta1 theta2 r_min r_max tri sub : K) (r u v : point K)
    (du dv : K) (e : eff_perimeter K)
    (h1 : r_min < r_max)
    (h2 : r_min * r_min * theta2 / 2 - (tri - sub) ≤ c.half_area_v)
    (h3 : c.half_area_v < r_max * r_max * theta2 / 2 - (tri - sub))
    (h4 : r_min * r_min * theta2 / 2 - (tri - sub) ≠ c.half_area_v) :
    ((of_sides_arc m c theta1 theta2 r_min r_max tri sub r u v du dv (some e)).2.map
      fun x => x.form) = some ppf_form.sqrt := by
  unfold of_sides_arc
  simp only [if_neg (not_le.mpr h1), if_neg (not_lt.mpr h2), if_pos h3, if_neg h4]
  simp

end partial_pf

end search

namespace search
namespace convex_polygon_pf

theorem tri_half : tri_pf.half_area_v = 1 / 2 / 2 := rfl

set_option maxHeartbeats 4000000 in
theorem tri_shortest (is_arc : Bool) (start end_ center : point ℝ) :
    (shortest rm tri_pf is_arc start end_ center).1 ≠ 0 ∧
      (shortest rm tri_pf is_arc start end_ center).2.1.1 = true := by
  have sqrt_two_pos : (0 : ℝ) < Real.sqrt 2 := Real.sqrt_pos.mpr (by norm_num)
  have abs_diag (a b : ℝ) (ha : a * a = 1) (hb : b * b = 1) :
      point.abs rm ⟨a, b⟩ = Real.sqrt 2 := by
    unfold point.abs
    rw [rm_sqrt, ha, hb]
    norm_num
  have abs_origin : point.abs rm (⟨0, 0⟩ : point ℝ) = 0 := by
    simp [point.abs, rm_sqrt]
  have tri_max_state :
      (find_pf_max rm tri_pf).maximum_v = Real.sqrt (2 * (Real.pi / 4) * (1 / 2 / 2)) ∧
        (find_pf_max rm tri_pf).shortest_curve.form = ppf_form.sqrt := by
    -- The angle is `7*pi/4` when the second vector is the first one turned clockwise by an
    -- eighth of a turn.
    have angle_eighth (s p q : point ℝ) (hd : (p.sub s).dot (q.sub s) = 1)
        (hc : (p.sub s).cross (q.sub s) = -1) : s.angle rm p q = 7 * Real.pi / 4 := by
      have arg_one_neg_one : Complex.arg ⟨1, -1⟩ = -(Real.pi / 4) := by
        have hs : (0 : ℝ) < Real.sqrt 2 := Real.sqrt_pos.mpr (by norm_num)
        have h := Complex.arg_mul_cos_add_sin_mul_I hs
          (show -(Real.pi / 4) ∈ Set.Ioc (-Real.pi) Real.pi from
            ⟨by linarith [Real.pi_pos], by linarith [Real.pi_pos]⟩)
        have hm : Real.sqrt 2 * Real.sqrt 2 = 2 := Real.mul_self_sqrt (by norm_num)
        have e : (⟨1, -1⟩ : ℂ) = (Real.sqrt 2 : ℂ) * (Complex.cos ((-(Real.pi / 4) : ℝ) : ℂ)
            + Complex.sin ((-(Real.pi / 4) : ℝ) : ℂ) * Complex.I) := by
          rw [← Complex.ofReal_cos, ← Complex.ofReal_sin, Real.cos_neg, Real.sin_neg,
            Real.cos_pi_div_four, Real.sin_pi_div_four]
          apply Complex.ext
          · simp
            linarith
          · simp
            linarith
        rw [e]
        exact h
      unfold point.angle
      simp only [rm_atan2, rm_pi, hd, hc, arg_one_neg_one]
      have h3 := Real.pi_gt_three
      rw [trim_of_le _ (by rw [abs_neg, abs_of_pos (by positivity)]; linarith),
        if_pos (by linarith)]
      ring
    have min_sqrt_two_one : min (Real.sqrt 2) 1 = 1 := by
      apply min_eq_right
      rw [Real.le_sqrt' (by norm_num)]
      norm_num
    have tri_pair_1_0 (ep : Option (eff_perimeter ℝ)) :
        partial_pf.of_sides rm tri_pf 1 0 ep =
        partial_pf.of_sides_arc rm tri_pf (7 * Real.pi / 4) (Real.pi / 4) 0 1 0 0
          ⟨0, 1⟩ ⟨0, 0⟩ ⟨1, 0⟩ 1 (Real.sqrt 2) ep := by
      obtain ⟨s0, s1, s2⟩ := side_at_tri
      have hθ : point.angle rm ⟨0, 0⟩ ((⟨1, 0⟩ : point ℝ).sub ⟨0, 1⟩)
          (((⟨0, 1⟩ : point ℝ).sub ⟨0, 0⟩).neg) = 7 * Real.pi / 4 :=
        angle_eighth _ _ _ (by simp only [point.sub, point.dot, point.neg]; ring)
          (by simp only [point.sub, point.cross, point.neg]; ring)
      have hr : partial_pf.center (⟨⟨0, 1⟩, ⟨1, 0⟩⟩ : side ℝ) ⟨⟨0, 0⟩, ⟨0, 1⟩⟩ = ⟨0, 1⟩ := by
        simp only [partial_pf.center, point.sub, point.smul, point.sdiv, point.sign_area,
          point.cross]
        norm_num
      have hc : cyc_range 3 ((1 + 1) % 3) 0 = [2] := by decide
      have hp2 : point.proj rm ⟨0, 1⟩ ⟨1, 0⟩ ⟨0, 0⟩ = 1 := by
        rw [point.proj_horiz _ _ _ _ _ (by norm_num)]
        norm_num
      have hclip : clip_r_max rm tri_pf ⟨0, 1⟩ [2] 1 = 1 := by
        simp [clip_r_max, s2, hp2]
      have harea : tri_pf.area_idx 0 1 = 0 := by
        simp [area_idx, tri_n]
      have htri : (⟨0, 1⟩ : point ℝ).area ⟨0, 1⟩ ⟨0, 1⟩ = 0 := by
        simp [point.area, point.sign_area, point.sub, point.cross, point.sdiv]
      have hθ2 : 2 * Real.pi - 7 * Real.pi / 4 = Real.pi / 4 := by ring
      have hq1 : point.abs rm ((⟨1, 0⟩ : point ℝ).sub ⟨0, 1⟩) = Real.sqrt 2 := by
        simp only [point.sub, sub_zero, zero_sub]
        exact abs_diag _ _ (by norm_num) (by norm_num)
      have hp2a : point.abs rm ((⟨0, 0⟩ : point ℝ).sub ⟨0, 1⟩) = 1 := by
        simp only [point.sub, sub_self, zero_sub, point.abs_y, abs_neg, abs_one]
      have hz : point.abs rm ((⟨0, 1⟩ : point ℝ).sub ⟨0, 1⟩) = 0 := by
        simp only [point.sub, sub_self]
        exact abs_origin
      unfold partial_pf.of_sides
      simp only [s0, s1, hθ, rm_pi, hr]
      rw [if_neg (by linarith [Real.pi_gt_three]), if_neg (by linarith [Real.pi_gt_three]),
        if_pos (by linarith [Real.pi_gt_three])]
      simp only [hq1, hp2a, hz]
      rw [if_neg (by
        simp only [not_or, not_le, ge_iff_le]
        exact ⟨by norm_num, sqrt_two_pos⟩)]
      simp only [tri_n, hc, min_sqrt_two_one, hclip, harea, htri, hθ2, ite_self, max_self]
    have tri_fold :
        (side_pairs tri_pf.num_vertices_v).foldl (max_step rm tri_pf)
          (rm.sqrt (rm.pi * tri_pf.area_v), 0, 0)
        = (Real.sqrt (2 * (Real.pi / 4) * (1 / 2 / 2)), 1, 0) := by
      have tri_pair_2_1 (ep : Option (eff_perimeter ℝ)) :
          partial_pf.of_sides rm tri_pf 2 1 ep =
          partial_pf.of_sides_arc rm tri_pf (7 * Real.pi / 4) (Real.pi / 4) 0 1 0 0
            ⟨1, 0⟩ ⟨0, 1⟩ ⟨0, 0⟩ (Real.sqrt 2) 1 ep := by
        have min_one_sqrt_two : min 1 (Real.sqrt 2) = 1 := by
          rw [min_comm]
          exact min_sqrt_two_one
        obtain ⟨s0, s1, s2⟩ := side_at_tri
        have hθ : point.angle rm ⟨0, 0⟩ ((⟨0, 0⟩ : point ℝ).sub ⟨1, 0⟩)
            (((⟨1, 0⟩ : point ℝ).sub ⟨0, 1⟩).neg) = 7 * Real.pi / 4 :=
          angle_eighth _ _ _ (by simp only [point.sub, point.dot, point.neg]; ring)
            (by simp only [point.sub, point.cross, point.neg]; ring)
        have hr : partial_pf.center (⟨⟨1, 0⟩, ⟨0, 0⟩⟩ : side ℝ) ⟨⟨0, 1⟩, ⟨1, 0⟩⟩ = ⟨1, 0⟩ := by
          simp only [partial_pf.center, point.sub, point.smul, point.sdiv, point.sign_area,
            point.cross]
          norm_num
        have hc : cyc_range 3 ((2 + 1) % 3) 1 = [0] := by decide
        have hp0 : point.proj rm ⟨1, 0⟩ ⟨0, 0⟩ ⟨0, 1⟩ = 0 := by
          rw [point.proj_vert _ _ _ _ _ (by norm_num)]
          norm_num
        have hclip : clip_r_max rm tri_pf ⟨1, 0⟩ [0] 1 = 1 := by
          simp [clip_r_max, s0, hp0]
        have harea : tri_pf.area_idx 1 2 = 0 := by
          simp [area_idx, tri_n]
        have htri : (⟨1, 0⟩ : point ℝ).area ⟨1, 0⟩ ⟨1, 0⟩ = 0 := by
          simp [point.area, point.sign_area, point.sub, point.cross, point.sdiv]
        have hθ2 : 2 * Real.pi - 7 * Real.pi / 4 = Real.pi / 4 := by ring
        have hq1 : point.abs rm ((⟨0, 0⟩ : point ℝ).sub ⟨1, 0⟩) = 1 := by
          simp only [point.sub, sub_self, zero_sub, point.abs_x, abs_neg, abs_one]
        have hp2a : point.abs rm ((⟨0, 1⟩ : point ℝ).sub ⟨1, 0⟩) = Real.sqrt 2 := by
          simp only [point.sub, sub_zero, zero_sub]
          exact abs_diag _ _ (by norm_num) (by norm_num)
        have hz : point.abs rm ((⟨1, 0⟩ : point ℝ).sub ⟨1, 0⟩) = 0 := by
          simp only [point.sub, sub_self]
          exact abs_origin
        unfold partial_pf.of_sides
        simp only [s1, s2, hθ, rm_pi, hr]
        rw [if_neg (by linarith [Real.pi_gt_three]), if_neg (by linarith [Real.pi_gt_three]),
          if_pos (by linarith [Real.pi_gt_three])]
        simp only [hq1, hp2a, hz]
        rw [if_neg (by
          simp only [not_or, not_le, ge_iff_le]
          exact ⟨sqrt_two_pos, by norm_num⟩)]
        simp only [tri_n, hc, min_one_sqrt_two, hclip, harea, htri, hθ2, ite_self, max_self]
      have tri_pair_2_0 (ep : Option (eff_perimeter ℝ)) :
          partial_pf.of_sides rm tri_pf 2 0 ep =
          partial_pf.of_sides_arc rm tri_pf (Real.pi / 2) (Real.pi / 2) 0 (Real.sqrt 2 / 2) 0 0
            ⟨0, 0⟩ ⟨1, 0⟩ ⟨0, 1⟩ 1 1 ep := by
        obtain ⟨s0, s1, s2⟩ := side_at_tri
        have hs := sqrt_two_pos
        have hm : Real.sqrt 2 * Real.sqrt 2 = 2 := Real.mul_self_sqrt (by norm_num)
        have hθ : point.angle rm ⟨0, 0⟩ ((⟨0, 0⟩ : point ℝ).sub ⟨1, 0⟩)
            (((⟨0, 1⟩ : point ℝ).sub ⟨0, 0⟩).neg) = Real.pi / 2 :=
          point.angle_left _ _ _ (by simp only [point.sub, point.dot, point.neg]; ring)
            (by simp only [point.sub, point.cross, point.neg]; norm_num)
        have hr : partial_pf.center (⟨⟨1, 0⟩, ⟨0, 0⟩⟩ : side ℝ) ⟨⟨0, 0⟩, ⟨0, 1⟩⟩ = ⟨0, 0⟩ := by
          simp only [partial_pf.center, point.sub, point.smul, point.sdiv, point.sign_area,
            point.cross]
          norm_num
        have hc : cyc_range 3 ((0 + 1) % 3) 2 = [1] := by decide
        have hdiag : point.abs rm ((⟨1, 0⟩ : point ℝ).sub ⟨0, 1⟩) = Real.sqrt 2 := by
          simp only [point.sub, sub_zero, zero_sub]
          exact abs_diag _ _ (by norm_num) (by norm_num)
        have hp1 : point.proj rm ⟨0, 0⟩ ⟨0, 1⟩ ⟨1, 0⟩ = 1 / 2 := by
          unfold point.proj
          simp only [hdiag, if_neg (ne_of_gt hs)]
          simp only [point.sub, point.sdiv, point.dot, sub_zero, zero_sub, sub_self, zero_div,
            mul_zero, zero_add]
          field_simp
        have hd1 : point.dist rm ⟨0, 0⟩ ⟨0, 1⟩ ⟨1, 0⟩ = Real.sqrt 2 / 2 := by
          unfold point.dist
          simp only [hdiag, if_neg (ne_of_gt hs)]
          simp only [point.sub, point.sdiv, point.dot, point.ortho, sub_zero, zero_sub, sub_self,
            mul_zero, add_zero, neg_neg, mul_neg, mul_one, abs_neg]
          rw [abs_of_pos (by positivity)]
          field_simp
        have hlt : Real.sqrt 2 / 2 < 1 := by
          have : Real.sqrt 2 < 2 := by
            rw [Real.sqrt_lt' (by norm_num)]
            norm_num
          linarith
        have hclip : clip_r_max rm tri_pf ⟨0, 0⟩ [1] 1 = Real.sqrt 2 / 2 := by
          simp only [clip_r_max, List.foldl_cons, List.foldl_nil, s1, hp1, hd1]
          rw [if_pos (by norm_num), min_eq_right (le_of_lt hlt)]
        have harea : tri_pf.area_idx 2 0 = 0 := by
          simp [area_idx, tri_n]
        have htri : (⟨0, 0⟩ : point ℝ).area ⟨0, 0⟩ ⟨0, 0⟩ = 0 := by
          simp [point.area, point.sign_area, point.sub, point.cross, point.sdiv]
        have hp1a : point.abs rm ((⟨1, 0⟩ : point ℝ).sub ⟨0, 0⟩) = 1 := by
          simp only [point.sub, sub_zero, point.abs_x, abs_one]
        have hq2a : point.abs rm ((⟨0, 1⟩ : point ℝ).sub ⟨0, 0⟩) = 1 := by
          simp only [point.sub, sub_zero, point.abs_y, abs_one]
        have hz : point.abs rm ((⟨0, 0⟩ : point ℝ).sub ⟨0, 0⟩) = 0 := by
          simp only [point.sub, sub_self]
          exact abs_origin
        unfold partial_pf.of_sides
        simp only [s0, s2, hθ, rm_pi, hr]
        rw [if_neg (by linarith [Real.pi_gt_three]), if_pos (by linarith [Real.pi_gt_three])]
        simp only [hp1a, hq2a, hz]
        rw [if_neg (by
          simp only [not_or, not_le, ge_iff_le]
          exact ⟨by norm_num, by norm_num⟩)]
        simp only [tri_n, hc, min_self, hclip, harea, htri, ite_self, max_self]
      have tri_corner (θ1 d : ℝ) (r u v : point ℝ) (du dv : ℝ) (θ2 : ℝ) (hd : 0 < d)
          (hclip : 1 / 2 / 2 < d * d * θ2 / 2) :
          (partial_pf.of_sides_arc rm tri_pf θ1 θ2 0 d 0 0 r u v du dv Option.none).1 =
            ⟨ppf_form.sqrt, 0, 1 / 2 / 2, θ2, 0, 0, Real.sqrt (2 * θ2 * (1 / 2 / 2))⟩ := by
        rw [partial_pf.of_sides_arc_clipped rm tri_pf θ1 θ2 0 d 0 0 r u v du dv hd
          (by rw [tri_half]; norm_num) (by rw [tri_half]; simpa using hclip)
          (by rw [tri_half]; norm_num)]
        simp only [tri_half, rm_sqrt, mul_zero, zero_mul, zero_div, sub_self, add_zero]
      have h3 := Real.pi_gt_three
      have hm : Real.sqrt 2 * Real.sqrt 2 = 2 := Real.mul_self_sqrt (by norm_num)
      have p10 := (congrArg Prod.fst (tri_pair_1_0 Option.none)).trans
        (tri_corner _ 1 _ _ _ _ _ (Real.pi / 4) (by norm_num) (by linarith))
      have p21 := (congrArg Prod.fst (tri_pair_2_1 Option.none)).trans
        (tri_corner _ 1 _ _ _ _ _ (Real.pi / 4) (by norm_num) (by linarith))
      have p20 := (congrArg Prod.fst (tri_pair_2_0 Option.none)).trans
        (tri_corner _ (Real.sqrt 2 / 2) _ _ _ _ _ (Real.pi / 2) (by positivity)
          (by
            have e : Real.sqrt 2 / 2 * (Real.sqrt 2 / 2) * (Real.pi / 2) / 2 = Real.pi / 8 := by
              have : Real.sqrt 2 / 2 * (Real.sqrt 2 / 2) = (Real.sqrt 2 * Real.sqrt 2) / 4 := by
                ring
              rw [this, hm]
              ring
            rw [e]
            linarith))
      have harea : tri_pf.area_v = 1 / 2 := rfl
      have h1 : Real.sqrt (2 * (Real.pi / 4) * (1 / 2 / 2)) < Real.sqrt (Real.pi * (1 / 2)) := by
        apply Real.sqrt_lt_sqrt
        · positivity
        · linarith
      have h2 : ¬ Real.sqrt (2 * (Real.pi / 2) * (1 / 2 / 2))
          < Real.sqrt (2 * (Real.pi / 4) * (1 / 2 / 2)) := by
        apply not_lt.mpr
        apply Real.sqrt_le_sqrt
        linarith
      rw [tri_n, side_pairs_three]
      simp only [List.foldl_cons, List.foldl_nil, rm_sqrt, rm_pi, harea]
      rw [max_step_take rm _ _ 1 0 _ p10 (by simp) (by rw [tri_half]; norm_num) h1,
        max_step_keep rm _ _ 2 0 _ p20 h2,
        max_step_keep rm _ _ 2 1 _ p21 (lt_irrefl _)]
    have tri_curve (e : eff_perimeter ℝ) :
        ((partial_pf.of_sides rm tri_pf 1 0 (some e)).2.map fun x => x.form)
          = some ppf_form.sqrt := by
      have h3 := Real.pi_gt_three
      rw [tri_pair_1_0]
      exact partial_pf.of_sides_arc_clipped_curve rm tri_pf _ _ 0 1 0 0 _ _ _ _ _ e (by norm_num)
        (by rw [tri_half]; norm_num) (by rw [tri_half]; linarith) (by rw [tri_half]; norm_num)
    unfold find_pf_max
    rw [if_neg (by rw [tri_n]; norm_num)]
    simp only [tri_fold]
    refine ⟨trivial, ?_⟩
    have h := tri_curve tri_pf.shortest_curve
    cases hsc : (partial_pf.of_sides rm tri_pf 1 0 (some tri_pf.shortest_curve)).2 with
    | none =>
      rw [hsc] at h
      simp at h
    | some e2 =>
      rw [hsc] at h
      simpa using h
  have hpos : (0 : ℝ) < Real.sqrt (2 * (Real.pi / 4) * (1 / 2 / 2)) :=
    Real.sqrt_pos.mpr (by positivity)
  have hsc : tri_pf.sc_ok = false := rfl
  have hm : maximum rm (find_pf_max rm tri_pf)
      = ((find_pf_max rm tri_pf).maximum_v, find_pf_max rm tri_pf) :=
    maximum_of_ok rm _ (find_pf_max_ok rm _)
  have hne : (find_pf_max rm tri_pf).maximum_v ≠ 0 := by
    rw [tri_max_state.1]
    exact ne_of_gt hpos
  constructor
  · rw [shortest_value, hsc, if_neg (by decide), hm]
    exact hne
  · unfold shortest
    simp only [hsc, Bool.false_eq_true, if_false, hm, if_neg hne]
    exact decide_eq_true tri_max_state.2

set_option maxHeartbeats 4000000 in
theorem shortest_arc_counterclockwise_witness :
    reachable_from rm (of_polygon rm tri) (of_polygon rm tri) ∧
    (shortest rm (of_polygon rm tri) false ⟨0, 0⟩ ⟨0, 0⟩ ⟨0, 0⟩).1 ≠ 0 ∧
    (shortest rm (of_polygon rm tri) false ⟨0, 0⟩ ⟨0, 0⟩ ⟨0, 0⟩).2.1.1 = true ∧
    (((shortest rm (of_polygon rm tri) false ⟨0, 0⟩ ⟨0, 0⟩ ⟨0, 0⟩).2.1.2.1.sub
          (shortest rm (of_polygon rm tri) false ⟨0, 0⟩ ⟨0, 0⟩ ⟨0, 0⟩).2.1.2.2.2).abs rm
        = ((shortest rm (of_polygon rm tri) false ⟨0, 0⟩ ⟨0, 0⟩ ⟨0, 0⟩).2.1.2.2.1.sub
          (shortest rm (of_polygon rm tri) false ⟨0, 0⟩ ⟨0, 0⟩ ⟨0, 0⟩).2.1.2.2.2).abs rm) ∧
      0 < ((shortest rm (of_polygon rm tri) false ⟨0, 0⟩ ⟨0, 0⟩ ⟨0, 0⟩).2.1.2.1.sub
          (shortest rm (of_polygon rm tri) false ⟨0, 0⟩ ⟨0, 0⟩ ⟨0, 0⟩).2.1.2.2.2).cross
        ((shortest rm (of_polygon rm tri) false ⟨0, 0⟩ ⟨0, 0⟩ ⟨0, 0⟩).2.1.2.2.1.sub
          (shortest rm (of_polygon rm tri) false ⟨0, 0⟩ ⟨0, 0⟩ ⟨0, 0⟩).2.1.2.2.2) := by
  have sqrt_two_pos : (0 : ℝ) < Real.sqrt 2 := Real.sqrt_pos.mpr (by norm_num)
  have abs_diag (a b : ℝ) (ha : a * a = 1) (hb : b * b = 1) :
      point.abs rm ⟨a, b⟩ = Real.sqrt 2 := by
    unfold point.abs
    rw [rm_sqrt, ha, hb]
    norm_num
  have of_polygon_tri : of_polygon rm tri = tri_pf := by
    have tri_area : convex_polygon.area tri = 1 / 2 := by
      have e : |-(1 / 2 : ℝ)| = 1 / 2 := by
        rw [abs_neg, abs_of_pos (by norm_num)]
      simp [convex_polygon.area, tri, convex_polygon.area_loop, point.area, point.sign_area,
        point.sub, point.cross, point.sdiv, e]
    have e1 : point.abs rm ((⟨0, 0⟩ : point ℝ).sub ⟨0, 1⟩) ≠ 0 := by
      simp only [point.sub, zero_sub, sub_self, point.abs_y, abs_neg]
      norm_num
    have e2 : point.abs rm ((⟨0, 1⟩ : point ℝ).sub ⟨1, 0⟩) ≠ 0 := by
      simp only [point.sub, zero_sub, sub_zero]
      rw [abs_diag _ _ (by norm_num) (by norm_num)]
      exact ne_of_gt sqrt_two_pos
    have e3 : point.abs rm ((⟨1, 0⟩ : point ℝ).sub ⟨0, 0⟩) ≠ 0 := by
      simp only [point.sub, sub_zero, sub_self, point.abs_x]
      norm_num
    have hu : usub 3 0 = 3 := by unfold usub; norm_num
    unfold of_polygon
    rw [tri_area]
    simp only [tri, List.length_cons, List.length_nil, Nat.reduceAdd, gt_iff_lt, Nat.reduceLT,
      if_true, fill_sides, if_neg e1, if_neg e2, List.getLast_cons_cons,
      List.getLast_singleton, ne_eq, e3, not_false_eq_true, List.cons_append, List.nil_append,
      tri_pf, hu]
  exact
    have h0 : (shortest rm (of_polygon rm tri) false ⟨0, 0⟩ ⟨0, 0⟩ ⟨0, 0⟩).1 ≠ 0 := by
      rw [of_polygon_tri]
      exact (tri_shortest _ _ _ _).1
    have h1 : (shortest rm (of_polygon rm tri) false ⟨0, 0⟩ ⟨0, 0⟩ ⟨0, 0⟩).2.1.1 = true := by
      rw [of_polygon_tri]
      exact (tri_shortest _ _ _ _).2
    ⟨reachable_from.start, h0, h1,
      shortest_arc_counterclockwise tri (of_polygon rm tri) reachable_from.start false ⟨0, 0⟩
        ⟨0, 0⟩ ⟨0, 0⟩ h0 h1⟩

theorem shortest_center_witness :
    ((shortest rm (rect_pf 1 1) false ⟨5, 6⟩ ⟨7, 8⟩ ⟨9, 10⟩).1 ≠ 0 ∧
      ((shortest rm (rect_pf 1 1) false ⟨5, 6⟩ ⟨7, 8⟩ ⟨9, 10⟩).2.1.1 = false →
        (shortest rm (rect_pf 1 1) false ⟨5, 6⟩ ⟨7, 8⟩ ⟨9, 10⟩).2.1.2.2.2 = ⟨9, 10⟩) ∧
      ((shortest rm (rect_pf 1 1) false ⟨5, 6⟩ ⟨7, 8⟩ ⟨9, 10⟩).2.1.1 = true →
        (shortest rm (rect_pf 1 1) false ⟨5, 6⟩ ⟨7, 8⟩ ⟨9, 10⟩).2.1.2.2.2
          = (shortest rm (rect_pf 1 1) false ⟨5, 6⟩ ⟨7, 8⟩
              ⟨9, 10⟩).2.2.shortest_curve.center)) ∧
    ((shortest rm tri_pf false ⟨5, 6⟩ ⟨7, 8⟩ ⟨9, 10⟩).1 ≠ 0 ∧
      (shortest rm tri_pf false ⟨5, 6⟩ ⟨7, 8⟩ ⟨9, 10⟩).2.1.1 = true ∧
      ((shortest rm tri_pf false ⟨5, 6⟩ ⟨7, 8⟩ ⟨9, 10⟩).2.1.1 = false →
        (shortest rm tri_pf false ⟨5, 6⟩ ⟨7, 8⟩ ⟨9, 10⟩).2.1.2.2.2 = ⟨9, 10⟩) ∧
      ((shortest rm tri_pf false ⟨5, 6⟩ ⟨7, 8⟩ ⟨9, 10⟩).2.1.1 = true →
        (shortest rm tri_pf false ⟨5, 6⟩ ⟨7, 8⟩ ⟨9, 10⟩).2.1.2.2.2
          = (shortest rm tri_pf false ⟨5, 6⟩ ⟨7, 8⟩ ⟨9, 10⟩).2.2.shortest_curve.center)) :=
  have h : (shortest rm (rect_pf 1 1) false ⟨5, 6⟩ ⟨7, 8⟩ ⟨9, 10⟩).1 ≠ 0 := by
    rw [shortest_value]
    have e : (rect_pf 1 1).sc_ok = false := rfl
    rw [e, if_neg (by decide), maximum_of_ok rm _ (find_pf_max_ok rm _), find_pf_max_usq]
    norm_num
  ⟨⟨h, shortest_center rm (rect_pf 1 1) false ⟨5, 6⟩ ⟨7, 8⟩ ⟨9, 10⟩ h⟩,
    (tri_shortest false ⟨5, 6⟩ ⟨7, 8⟩ ⟨9, 10⟩).1, (tri_shortest false ⟨5, 6⟩ ⟨7, 8⟩ ⟨9, 10⟩).2,
    shortest_center rm tri_pf false ⟨5, 6⟩ ⟨7, 8⟩ ⟨9, 10⟩
      (tri_shortest false ⟨5, 6⟩ ⟨7, 8⟩ ⟨9, 10⟩).1⟩

end convex_polygon_pf
end search

namespace search
namespace convex_polygon_pf

/-- The last node of the list ends at `H` and its value there is not below `M`. -/
def last_good (H M : ℝ) (l : List (partial_pf ℝ)) : Prop :=
  ∃ n, l.getLast? = some n ∧ n.b = H ∧ M ≤ n.pfb

/-- What the insertion needs from a side-pair function: its domain ends at or before `H`,
`pfb` is its value at `b`, and when the domain reaches `H` that value is not below `M`. -/
def fits (H M : ℝ) (P : partial_pf ℝ) : Prop :=
  P.b ≤ H ∧ P.pfb = P.pf rm P.b ∧ (H ≤ P.b → M ≤ P.pfb)

theorem last_good_ne_nil (H M : ℝ) (l : List (partial_pf ℝ)) (h : last_good H M l) :
    l ≠ [] := by
  obtain ⟨n, hn, _⟩ := h
  intro he
  rw [he] at hn
  simp at hn

theorem last_good_cons (H M : ℝ) (a : partial_pf ℝ) (l : List (partial_pf ℝ))
    (h : last_good H M l) : last_good H M (a :: l) := by
  obtain ⟨n, hn, hb⟩ := h
  refine ⟨n, ?_, hb⟩
  cases l with
  | nil => simp at hn
  | cons x xs => rw [List.getLast?_cons_cons]; exact hn

theorem last_good_append (H M : ℝ) (l1 l2 : List (partial_pf ℝ))
    (h : last_good H M l2) : last_good H M (l1 ++ l2) := by
  induction l1 with
  | nil => exact h
  | cons a l ih => exact last_good_cons H M a _ ih

theorem last_good_single (H M : ℝ) (n : partial_pf ℝ) (hb : n.b = H) (hm : M ≤ n.pfb) :
    last_good H M [n] :=
  ⟨n, rfl, hb, hm⟩

theorem last_good_head (H M : ℝ) (n : partial_pf ℝ) (h : last_good H M [n]) :
    n.b = H ∧ M ≤ n.pfb := by
  obtain ⟨x, hx, hb⟩ := h
  simp at hx
  subst hx
  exact hb

theorem last_good_tail (H M : ℝ) (a x : partial_pf ℝ) (l : List (partial_pf ℝ))
    (h : last_good H M (a :: x :: l)) : last_good H M (x :: l) := by
  obtain ⟨n, hn, hb⟩ := h
  rw [List.getLast?_cons_cons] at hn
  exact ⟨n, hn, hb⟩

end convex_polygon_pf
end search

namespace search
namespace convex_polygon_pf

section same
variable {K : Type} [LinearOrderedField K]

/-- Two states of an object hold the same polygon. -/
def same_polygon (c d : convex_polygon_pf K) : Prop :=
  c.num_vertices_v = d.num_vertices_v ∧ c.area_v = d.area_v ∧
    c.half_area_v = d.half_area_v ∧ c.sides = d.sides

theorem assemble_same (m : Libm K) (c d : convex_polygon_pf K) (h : same_polygon c d) :
    assemble m c = assemble m d := by
  obtain ⟨n1, a1, h1, s1, f1, b1, b2, b3, m1, k1, e1⟩ := c
  obtain ⟨n2, a2, h2, s2, f2, c1, c2, c3, m2, k2, e2⟩ := d
  obtain ⟨r1, r2, r3, r4⟩ := h
  simp only at r1 r2 r3 r4
  subst r1 r2 r3 r4
  rfl

theorem find_pf_same (m : Libm K) (c : convex_polygon_pf K) : same_polygon (find_pf m c) c :=
  ⟨rfl, rfl, rfl, rfl⟩

theorem find_pf_max_same (m : Libm K) (c : convex_polygon_pf K) :
    same_polygon (find_pf_max m c) c := by
  unfold find_pf_max
  split <;> exact ⟨rfl, rfl, rfl, rfl⟩

theorem of_polygon_pf_max_ok (m : Libm K) (cp : List (point K)) :
    (of_polygon m cp).pf_max_ok = false := by
  unfold of_polygon
  cases cp with
  | nil => rfl
  | cons first rest =>
    simp only
    split
    · split <;> rfl
    · rfl

theorem pf_loop_exists (m : Libm K) (fn : List (partial_pf K)) (z : K) :
    ∀ (n k : Nat), (∃ i s, k ≤ i ∧ i < k + n ∧ fn.get? i = some s ∧ z ≤ s.b) →
      ∃ v, pf_loop m fn z n k = Except.ok v := by
  intro n
  induction n with
  | zero =>
    intro k h
    obtain ⟨i, s, h1, h2, _⟩ := h
    omega
  | succ n ih =>
    intro k h
    obtain ⟨i, s, h1, h2, hs, hz⟩ := h
    have hk : k < fn.length := by
      obtain ⟨hlen, _⟩ := List.get?_eq_some.mp hs
      omega
    rw [pf_loop, List.get?_eq_get hk]
    simp only
    by_cases hc : z ≤ (fn.get ⟨k, hk⟩).b
    · rw [if_pos hc]
      exact ⟨_, rfl⟩
    · rw [if_neg hc]
      apply ih
      refine ⟨i, s, ?_, by omega, hs, hz⟩
      rcases Nat.eq_or_lt_of_le h1 with he | hl
      · subst he
        rw [List.get?_eq_get hk] at hs
        simp only [Option.some.injEq] at hs
        rw [hs] at hc
        exact absurd hz hc
      · exact hl

theorem ipf_loop_exists (fn : List (partial_pf K)) (p : K) :
    ∀ (n k : Nat), (∃ i s, k ≤ i ∧ i < k + n ∧ fn.get? i = some s ∧ s.pfb ≥ p) →
      ∃ v, ipf_loop fn p n k = Except.ok v := by
  intro n
  induction n with
  | zero =>
    intro k h
    obtain ⟨i, s, h1, h2, _⟩ := h
    omega
  | succ n ih =>
    intro k h
    obtain ⟨i, s, h1, h2, hs, hz⟩ := h
    have hk : k < fn.length := by
      obtain ⟨hlen, _⟩ := List.get?_eq_some.mp hs
      omega
    rw [ipf_loop, List.get?_eq_get hk]
    simp only
    by_cases hc : (fn.get ⟨k, hk⟩).pfb ≥ p
    · rw [if_pos hc]
      exact ⟨_, rfl⟩
    · rw [if_neg hc]
      apply ih
      refine ⟨i, s, ?_, by omega, hs, hz⟩
      rcases Nat.eq_or_lt_of_le h1 with he | hl
      · subst he
        rw [List.get?_eq_get hk] at hs
        simp only [Option.some.injEq] at hs
        rw [hs] at hc
        exact absurd hz hc
      · exact hl

end same

/-- What the segment searches rely on: once built, the stored function is the assembled
list of this polygon, and the stored maximum is not above the value at the right end of
its last node. -/
def sound (c : convex_polygon_pf ℝ) : Prop :=
  (c.pf_ok = true → c.function = assemble rm c ∧ c.pf_max_ok = true) ∧
    (c.pf_max_ok = true → ∃ n, (assemble rm c).getLast? = some n ∧ c.maximum_v ≤ n.pfb)

end convex_polygon_pf
end search

namespace search
namespace convex_polygon_pf

theorem getLast_get (l : List (partial_pf ℝ)) (n : partial_pf ℝ) (h : l.getLast? = some n) :
    l.get? (l.length - 1) = some n := by
  rw [List.getLast?_eq_getElem?] at h
  rw [List.get?_eq_getElem?]
  exact h

set_option maxHeartbeats 4000000 in
/-- C21: in every state that an object built by the constructor reaches through its
queries (the assembled list having fewer than 2^31 nodes), `pf (z)` for `z` in
`[0, area ()]` and `ipf (p)` for `p` in `[0, maximum ()]` return a value: the segment search
stops at a stored node, so neither the trailing `return qnan; // unreachable` nor a read
beyond the stored array is reached. -/
theorem segment_search_finds (c : convex_polygon_pf ℝ) (hr : reachable rm c)
    (hlen : (ensure_pf rm c).function.length < 2147483648) :
    (∀ z : ℝ, 0 ≤ z → z ≤ c.area_v → ∃ v : ℝ, (pf rm c z).1 = Except.ok v) ∧
      (∀ p : ℝ, 0 ≤ p → p ≤ (maximum rm (ensure_pf rm c)).1 →
        ∃ v : ℝ, (ipf rm c p).1 = Except.ok v) := by
  have angle_nonneg (s p q : point ℝ) : 0 ≤ s.angle rm p q := by
    unfold point.angle
    simp only [rm_atan2, rm_pi]
    generalize (⟨(p.sub s).dot (q.sub s), (p.sub s).cross (q.sub s)⟩ : ℂ) = z
    have hlo := Complex.neg_pi_lt_arg z
    rcases trim_cases z.arg with ht | ht
    · rw [ht]
      simp
    · rw [ht]
      split
      · linarith
      · linarith
  have abs_nonneg_rm (v : point ℝ) : 0 ≤ v.abs rm := by
    unfold point.abs
    exact Real.sqrt_nonneg _
  have zeroed_nonneg (b : Bool) (v : point ℝ) :
      0 ≤ (if b = true then (0 : ℝ) else v.abs rm) := by
    split
    · exact le_refl 0
    · exact abs_nonneg_rm v
  -- The last node of the assembled list ends at `half_area ()`, and its value there is
  -- not below the value that `find_pf_max` stores.
  have assemble_last (c : convex_polygon_pf ℝ) :
      last_good c.half_area_v (find_pf_max rm c).maximum_v (assemble rm c) := by
    have max_fold_min (c : convex_polygon_pf ℝ) (l : List (Nat × Nat)) (ij : Nat × Nat)
        (hij : ij ∈ l)
        (hf : (partial_pf.of_sides rm c ij.1 ij.2 Option.none).1.form ≠ ppf_form.none)
        (hb : ¬ (partial_pf.of_sides rm c ij.1 ij.2 Option.none).1.b < c.half_area_v) :
        ∀ acc : ℝ × Nat × Nat,
          (l.foldl (max_step rm c) acc).1
            ≤ (partial_pf.of_sides rm c ij.1 ij.2 Option.none).1.pfb := by
      have max_step_min (c : convex_polygon_pf ℝ) (acc : ℝ × Nat × Nat) (ij : Nat × Nat)
          (hf : (partial_pf.of_sides rm c ij.1 ij.2 Option.none).1.form ≠ ppf_form.none)
          (hb : ¬ (partial_pf.of_sides rm c ij.1 ij.2 Option.none).1.b < c.half_area_v) :
          (max_step rm c acc ij).1 ≤ (partial_pf.of_sides rm c ij.1 ij.2 Option.none).1.pfb := by
        unfold max_step
        simp only [if_neg hf, if_neg hb]
        split
        · exact le_refl _
        · rename_i h
          exact not_lt.mp h
      induction l with
      | nil => simp at hij
      | cons x xs ih =>
        intro acc
        rw [List.foldl_cons]
        rcases List.mem_cons.mp hij with h | h
        · subst h
          exact le_trans (max_fold_le rm c xs _) (max_step_min c acc ij hf hb)
        · exact ih h _
    have stub_good (c : convex_polygon_pf ℝ) (M : ℝ)
        (hM : M ≤ Real.sqrt (Real.pi * c.area_v)) :
        last_good c.half_area_v M [stub rm c] := by
      have sqrt_pi_le (A : ℝ) : Real.sqrt (Real.pi * A) ≤ Real.sqrt (10 * Real.pi * A) := by
        by_cases h : 0 ≤ A
        · apply Real.sqrt_le_sqrt
          have := mul_nonneg (le_of_lt Real.pi_pos) h
          nlinarith
        · rw [Real.sqrt_eq_zero_of_nonpos]
          · exact Real.sqrt_nonneg _
          · exact le_of_lt (mul_neg_of_pos_of_neg Real.pi_pos (not_le.mp h))
      exact
        last_good_single _ _ _ rfl (le_trans hM (sqrt_pi_le c.area_v))
    have assemble_fold_last (c : convex_polygon_pf ℝ) (M : ℝ)
        (hM : ∀ ij ∈ side_pairs c.num_vertices_v,
          (partial_pf.of_sides rm c ij.1 ij.2 Option.none).1.form ≠ ppf_form.none →
          ¬ (partial_pf.of_sides rm c ij.1 ij.2 Option.none).1.b < c.half_area_v →
          M ≤ (partial_pf.of_sides rm c ij.1 ij.2 Option.none).1.pfb)
        (l : List (Nat × Nat)) (hl : ∀ ij ∈ l, ij ∈ side_pairs c.num_vertices_v) :
        ∀ lst : List (partial_pf ℝ), last_good c.half_area_v M lst →
          last_good c.half_area_v M
            (l.foldl
              (fun lst ij =>
                let ppf := (partial_pf.of_sides rm c ij.1 ij.2 Option.none).1
                if ppf.form = ppf_form.none then lst else insert_ppf rm ppf lst)
              lst) := by
      have insert_ppf_last (H M : ℝ) (P : partial_pf ℝ) (hP : fits H M P) :
          ∀ (k : Nat) (l : List (partial_pf ℝ)), l.length ≤ k → last_good H M l →
            last_good H M (insert_ppf rm P l) := by
        have piece_good (H M : ℝ) (P : partial_pf ℝ) (hP : fits H M P) (left : ℝ)
            (hH : H ≤ P.b) : last_good H M [set_b rm (set_a rm P left) H] := by
          have set_a_pf (s : partial_pf ℝ) (v z : ℝ) : (set_a rm s v).pf rm z = s.pf rm z := by
            unfold set_a partial_pf.pf
            simp only
            by_cases h : s.form = ppf_form.constant
            · simp only [if_pos h]
            · simp only [if_neg h]
          have set_b_b (s : partial_pf ℝ) (v : ℝ) : (set_b rm s v).b = v ∧
              (set_b rm s v).pfb = s.pf rm v := by
            constructor
            · rfl
            · unfold set_b partial_pf.pf
              simp only
          obtain ⟨h1, h2, h3⟩ := hP
          have hb : P.b = H := le_antisymm h1 hH
          refine last_good_single H M _ (set_b_b _ _).1 ?_
          rw [(set_b_b _ _).2, set_a_pf, ← hb, ← h2]
          exact h3 hH
        have begin_right (s P : partial_pf ℝ) (left right : ℝ) (fl : Bool)
            (h : s.begin rm P = some (left, right, fl, true)) : right = min s.b P.b ∧ s.b ≤ P.b := by
          unfold partial_pf.begin at h
          simp only at h
          split_ifs at h <;> simp only [Option.some.injEq, Prod.mk.injEq, decide_eq_true_eq,
            Bool.false_eq_true, and_false, reduceCtorEq] at h
          all_goals exact ⟨h.2.1.symm, h.2.2.2⟩
        have find_end_last (H M : ℝ) (P : partial_pf ℝ) (hP : P.pfb = P.pf rm P.b)
            (rest : List (partial_pf ℝ)) (hrest : last_good H M rest) (right : ℝ) (fl : Bool) :
            last_good H M (find_end rm P rest right fl).2.2 ∨
              ((find_end rm P rest right fl).2.2 = [] ∧ (find_end rm P rest right fl).1 = H ∧
                H ≤ P.b) := by
          have end_removed (s P : partial_pf ℝ) (hP : P.pfb = P.pf rm P.b) (r : ℝ)
              (h : s.end_ rm P = end_result.removed r) : r = min s.b P.b ∧ s.b ≤ P.b := by
            unfold partial_pf.end_ at h
            by_cases h1 : s.a ≥ P.b
            · rw [if_pos h1] at h
              cases h
            rw [if_neg h1] at h
            by_cases h2 : s.b > P.b ∧ s.pf rm P.b ≥ P.pfb
            · rw [if_pos h2] at h
              cases h
            rw [if_neg h2] at h
            simp only at h
            have key : s.pf rm (min s.b P.b) ≥ P.pf rm (min s.b P.b) → s.b ≤ P.b := by
              intro hge
              by_contra hn
              have hlt : P.b < s.b := not_le.mp hn
              rw [min_eq_right (le_of_lt hlt), ← hP] at hge
              exact h2 ⟨hlt, hge⟩
            split_ifs at h with c1 c2 c3 c4
            · cases h
              exact ⟨rfl, key c2⟩
            · cases h
              exact ⟨rfl, key c4⟩
          induction rest generalizing right fl with
          | nil => exact absurd rfl (last_good_ne_nil H M _ hrest)
          | cons s tl ih =>
            unfold find_end
            cases he : s.end_ rm P with
            | stop r f => exact Or.inl hrest
            | removed r =>
              simp only
              cases tl with
              | nil =>
                obtain ⟨hb, _⟩ := last_good_head H M s hrest
                obtain ⟨hr, hle⟩ := end_removed s P hP r he
                right
                simp only [find_end]
                rw [hb] at hr hle
                exact ⟨trivial, by rw [hr, min_eq_left hle], hle⟩
              | cons x xs => exact ih (last_good_tail H M s x xs hrest) r fl
        have shift_begin_last (H M : ℝ) (right : ℝ) (fl : Bool) (l : List (partial_pf ℝ))
            (h : last_good H M l) : last_good H M (shift_begin rm right fl l) := by
          cases l with
          | nil => exact h
          | cons it tl =>
            simp only [shift_begin]
            split
            · cases tl with
              | nil =>
                obtain ⟨hb, hm⟩ := last_good_head H M it h
                exact last_good_single H M _ hb hm
              | cons x xs => exact last_good_cons H M _ _ (last_good_tail H M it x xs h)
            · exact h
        intro k
        induction k with
        | zero =>
          intro l hl h
          have : l = [] := List.length_eq_zero.mp (Nat.le_zero.mp hl)
          exact absurd this (last_good_ne_nil H M l h)
        | succ k ih =>
          intro l hl h
          cases l with
          | nil => exact absurd rfl (last_good_ne_nil H M _ h)
          | cons n rest =>
            have hlen : rest.length ≤ k := Nat.le_of_succ_le_succ hl
            rw [insert_ppf]
            split
            · -- `begin` returns false
              cases rest with
              | nil =>
                rw [insert_ppf_nil]
                exact h
              | cons x xs =>
                exact last_good_cons H M _ _ (ih _ hlen (last_good_tail H M n x xs h))
            · rename_i left right f_left f_right hb
              split
              · -- the right insertion point is known
                apply last_good_append
                apply last_good_cons
                cases rest with
                | nil =>
                  rw [insert_ppf_nil]
                  obtain ⟨h1, h2⟩ := last_good_head H M n h
                  exact last_good_single H M _ h1 h2
                | cons x xs =>
                  exact last_good_cons H M _ _ (ih _ hlen (last_good_tail H M n x xs h))
              · rename_i hfr
                have hfr2 : f_right = true := by
                  cases f_right
                  · exact absurd rfl hfr
                  · rfl
                subst hfr2
                obtain ⟨hright, hle⟩ := begin_right n P left right f_left hb
                apply last_good_append
                cases rest with
                | nil =>
                  obtain ⟨h1, _⟩ := last_good_head H M n h
                  simp only [find_end, shift_begin, insert_ppf_nil]
                  rw [h1] at hright hle
                  rw [hright, min_eq_left hle]
                  exact piece_good H M P hP left hle
                | cons x xs =>
                  have hrest := last_good_tail H M n x xs h
                  rcases find_end_last H M P hP.2.1 (x :: xs) hrest right f_left with hfe | hfe
                  · apply last_good_cons
                    refine ih _ ?_ (shift_begin_last H M _ _ _ hfe)
                    rw [shift_begin_length]
                    exact le_trans (find_end_length rm P _ _ _) hlen
                  · obtain ⟨he, hr, hle2⟩ := hfe
                    rw [he, hr]
                    simp only [shift_begin, insert_ppf_nil]
                    exact piece_good H M P hP left hle2
      have of_sides_fits (c : convex_polygon_pf ℝ) (i j : Nat)
          (hf : (partial_pf.of_sides rm c i j Option.none).1.form ≠ ppf_form.none) :
          (partial_pf.of_sides rm c i j Option.none).1.b ≤ c.half_area_v ∧
            (partial_pf.of_sides rm c i j Option.none).1.pfb
              = (partial_pf.of_sides rm c i j Option.none).1.pf rm (partial_pf.of_sides rm c i j Option.none).1.b := by
        have of_sides_arc_fits (c : convex_polygon_pf ℝ) (θ1 θ2 r_min r_max tri sub : ℝ)
            (r u v : point ℝ) (du dv : ℝ) (hθ : 0 ≤ θ2) (hmin : 0 ≤ r_min)
            (hf : (partial_pf.of_sides_arc rm c θ1 θ2 r_min r_max tri sub r u v du dv Option.none).1.form
              ≠ ppf_form.none) :
            (partial_pf.of_sides_arc rm c θ1 θ2 r_min r_max tri sub r u v du dv Option.none).1.b
                ≤ c.half_area_v ∧
              (partial_pf.of_sides_arc rm c θ1 θ2 r_min r_max tri sub r u v du dv Option.none).1.pfb
                = (partial_pf.of_sides_arc rm c θ1 θ2 r_min r_max tri sub r u v du dv Option.none).1.pf rm
                  (partial_pf.of_sides_arc rm c θ1 θ2 r_min r_max tri sub r u v du dv Option.none).1.b := by
          unfold partial_pf.of_sides_arc at hf ⊢
          by_cases h1 : r_min ≥ r_max
          · rw [if_pos h1] at hf
            exact absurd rfl hf
          rw [if_neg h1] at hf ⊢
          simp only at hf ⊢
          by_cases h2 : r_min * r_min * θ2 / 2 - (tri - sub) > c.half_area_v
          · rw [if_pos h2] at hf
            exact absurd rfl hf
          rw [if_neg h2] at hf ⊢
          by_cases h3 : r_max * r_max * θ2 / 2 - (tri - sub) > c.half_area_v
          · simp only [if_pos h3] at hf ⊢
            by_cases h4 : r_min * r_min * θ2 / 2 - (tri - sub) = c.half_area_v
            · rw [if_pos h4] at hf
              exact absurd rfl hf
            rw [if_neg h4]
            simp only [partial_pf.pf, le_refl, true_and]
          · simp only [if_neg h3] at hf ⊢
            by_cases h4 : r_min * r_min * θ2 / 2 - (tri - sub) = r_max * r_max * θ2 / 2 - (tri - sub)
            · rw [if_pos h4] at hf
              exact absurd rfl hf
            rw [if_neg h4]
            refine ⟨not_lt.mp h3, ?_⟩
            simp only [partial_pf.pf, rm_sqrt]
            rw [if_neg (by decide)]
            have hr : 0 ≤ r_max := le_trans hmin (le_of_lt (not_le.mp h1))
            have e : 2 * θ2 * (r_max * r_max * θ2 / 2 - (tri - sub) + (tri - sub))
                = (r_max * θ2) * (r_max * θ2) := by ring
            rw [e, Real.sqrt_mul_self (mul_nonneg hr hθ)]
        have of_sides_parallel_fits (c : convex_polygon_pf ℝ) (i j : Nat)
            (hf : (partial_pf.of_sides_parallel rm c i j Option.none).1.form ≠ ppf_form.none) :
            (partial_pf.of_sides_parallel rm c i j Option.none).1.b ≤ c.half_area_v ∧
              (partial_pf.of_sides_parallel rm c i j Option.none).1.pfb
                = (partial_pf.of_sides_parallel rm c i j Option.none).1.pf rm
                  (partial_pf.of_sides_parallel rm c i j Option.none).1.b := by
          unfold partial_pf.of_sides_parallel at hf ⊢
          simp only at hf ⊢
          split_ifs at hf ⊢ <;>
            first
            | exact absurd rfl hf
            | exact ⟨min_le_right _ _, by simp [partial_pf.pf]⟩
        unfold partial_pf.of_sides at hf ⊢
        simp only [rm_pi] at hf ⊢
        have hang0 := angle_nonneg ⟨0, 0⟩ ((c.side_at i).q.sub (c.side_at i).p)
            ((c.side_at j).q.sub (c.side_at j).p).neg
        have hang2 := point.angle_lt_two_pi ⟨0, 0⟩ ((c.side_at i).q.sub (c.side_at i).p)
            ((c.side_at j).q.sub (c.side_at j).p).neg
        by_cases h0 : point.angle rm ⟨0, 0⟩ ((c.side_at i).q.sub (c.side_at i).p)
            ((c.side_at j).q.sub (c.side_at j).p).neg = 0
        · rw [if_pos h0] at hf ⊢
          exact of_sides_parallel_fits c i j hf
        rw [if_neg h0] at hf ⊢
        by_cases h1 : point.angle rm ⟨0, 0⟩ ((c.side_at i).q.sub (c.side_at i).p)
            ((c.side_at j).q.sub (c.side_at j).p).neg < Real.pi
        · rw [if_pos h1] at hf ⊢
          split at hf
          · exact absurd rfl hf
          · rename_i hcond
            rw [if_neg hcond]
            exact of_sides_arc_fits c _ _ _ _ _ _ _ _ _ _ _ hang0
              (le_max_of_le_left (zeroed_nonneg _ _)) hf
        · rw [if_neg h1] at hf ⊢
          by_cases h2 : point.angle rm ⟨0, 0⟩ ((c.side_at i).q.sub (c.side_at i).p)
              ((c.side_at j).q.sub (c.side_at j).p).neg > Real.pi
          · rw [if_pos h2] at hf ⊢
            split at hf
            · exact absurd rfl hf
            · rename_i hcond
              rw [if_neg hcond]
              exact of_sides_arc_fits c _ _ _ _ _ _ _ _ _ _ _ (by linarith)
                (le_max_of_le_left (zeroed_nonneg _ _)) hf
          · rw [if_neg h2] at hf
            exact absurd rfl hf
      induction l with
      | nil => intro lst h; exact h
      | cons x xs ih =>
        intro lst h
        rw [List.foldl_cons]
        apply ih (fun ij hij => hl ij (List.mem_cons_of_mem _ hij))
        simp only
        split
        · exact h
        · rename_i hf
          obtain ⟨f1, f2⟩ := of_sides_fits c x.1 x.2 hf
          refine insert_ppf_last _ _ _ ⟨f1, f2, fun hH => ?_⟩ lst.length lst (le_refl _) h
          exact hM x (hl x (List.mem_cons_self _ _)) hf (not_lt.mpr hH)
    unfold assemble find_pf_max
    by_cases h : c.num_vertices_v > 2
    · rw [if_pos h, if_neg (by omega)]
      simp only
      refine assemble_fold_last c _ ?_ _ (fun ij hij => hij) _ ?_
      · intro ij hij hf hb
        exact max_fold_min c _ ij hij hf hb _
      · exact stub_good c _ (max_fold_le rm c _ _)
    · rw [if_neg h, if_pos (by omega)]
      exact last_good_single _ _ _ rfl (Real.sqrt_nonneg _)
  have sound_find_pf (c : convex_polygon_pf ℝ) : sound (find_pf rm c) := by
    have hs := assemble_same rm _ _ (find_pf_same rm c)
    obtain ⟨n, hn, _, _⟩ := assemble_last c
    constructor
    · intro _
      exact ⟨hs.symm, rfl⟩
    · intro _
      rw [hs]
      refine ⟨n, hn, ?_⟩
      have e : (find_pf rm c).maximum_v = ((assemble rm c).getLastD partial_pf.zero).pfb := rfl
      rw [e, List.getLastD_eq_getLast?, hn]
      exact le_refl _
  have reachable_sound (c : convex_polygon_pf ℝ) (h : reachable rm c) : sound c := by
    have sound_find_pf_max (c : convex_polygon_pf ℝ) (h : sound c) :
        sound (find_pf_max rm c) := by
      have hs := assemble_same rm _ _ (find_pf_max_same rm c)
      obtain ⟨_, _, hok, hfn, _⟩ := find_pf_max_fields rm c
      obtain ⟨n, hn, _, hm⟩ := assemble_last c
      constructor
      · intro hp
        rw [hok] at hp
        rw [hs, hfn]
        exact ⟨(h.1 hp).1, find_pf_max_ok rm c⟩
      · intro _
        rw [hs]
        exact ⟨n, hn, hm⟩
    induction h with
    | ctor cp =>
      constructor
      · intro h
        rw [of_polygon_pf_ok] at h
        exact absurd h (by decide)
      · intro h
        rw [of_polygon_pf_max_ok] at h
        exact absurd h (by decide)
    | pf c _ _ _ => exact sound_find_pf c
    | pf_max c _ _ ih => exact sound_find_pf_max c ih
    | sc c _ _ ih => exact sound_find_pf_max c ih
  have ensure_pf_sound (c : convex_polygon_pf ℝ) (h : sound c) : sound (ensure_pf rm c) := by
    unfold ensure_pf
    split
    · exact h
    · exact sound_find_pf c
  obtain ⟨h1, hn, _, _⟩ := built_shape rm c hr hlen
  have hs := ensure_pf_sound c (reachable_sound c hr)
  have hok := ensure_pf_ok rm c
  obtain ⟨hfun, hpm⟩ := hs.1 hok
  obtain ⟨n, hlast, hb, _⟩ := assemble_last (ensure_pf rm c)
  rw [← hfun] at hlast
  have hget := getLast_get _ n hlast
  have hidx : (ensure_pf rm c).function.length - 1 < 0 + (ensure_pf rm c).num_segments_v := by
    rcases hn with h | h
    · rw [h.1]; omega
    · rw [h.1]; omega
  obtain ⟨_, hh⟩ := ensure_pf_area rm c
  have hhalf := (reachable_wf rm c hr).1
  constructor
  · intro z h0 hz
    rw [pf_val rm c z h0 hz]
    refine pf_loop_exists rm _ _ _ 0 ⟨_, n, Nat.zero_le _, hidx, hget, ?_⟩
    rw [hb, hh]
    split
    · rename_i hgt
      linarith
    · rename_i hgt
      exact not_lt.mp hgt
  · intro p h0 hp
    rw [ipf_val rm c p h0 hp]
    obtain ⟨n2, hlast2, hm⟩ := hs.2 hpm
    rw [← hfun, hlast] at hlast2
    simp only [Option.some.injEq] at hlast2
    subst hlast2
    rw [maximum_of_ok rm _ hpm] at hp
    exact ipf_loop_exists _ _ _ 0 ⟨_, n, Nat.zero_le _, hidx, hget, le_trans hp hm⟩

theorem segment_search_finds_witness :
    reachable rm (find_pf_max rm (find_pf rm (of_polygon rm (rect 1 1)))) ∧
    (ensure_pf rm (find_pf_max rm (find_pf rm (of_polygon rm (rect 1 1))))).function.length
      < 2147483648 ∧
    ((∀ z : ℝ, 0 ≤ z → z ≤ (find_pf_max rm (find_pf rm (of_polygon rm (rect 1 1)))).area_v →
        ∃ v : ℝ, (pf rm (find_pf_max rm (find_pf rm (of_polygon rm (rect 1 1)))) z).1
          = Except.ok v) ∧
      (∀ p : ℝ, 0 ≤ p →
        p ≤ (maximum rm
          (ensure_pf rm (find_pf_max rm (find_pf rm (of_polygon rm (rect 1 1)))))).1 →
        ∃ v : ℝ, (ipf rm (find_pf_max rm (find_pf rm (of_polygon rm (rect 1 1)))) p).1
          = Except.ok v)) :=
  have hr : reachable rm (find_pf_max rm (find_pf rm (of_polygon rm (rect 1 1)))) :=
    reachable.sc _ (reachable.pf _ (reachable.ctor _) (of_polygon_pf_ok rm _))
      (by rw [of_polygon_rect 1 1 (by norm_num) (by norm_num)]; rfl)
  have hlen : (ensure_pf rm
      (find_pf_max rm (find_pf rm (of_polygon rm (rect 1 1))))).function.length
      < 2147483648 := by
    have h1 : (find_pf_max rm (find_pf rm (of_polygon rm (rect 1 1)))).pf_ok = true := by
      rw [(find_pf_max_fields rm _).2.2.1]
      rfl
    have h2 : ensure_pf rm (of_polygon rm (rect 1 1)) = find_pf rm (of_polygon rm (rect 1 1)) := by
      unfold ensure_pf
      rw [if_neg (by rw [of_polygon_pf_ok]; decide)]
    unfold ensure_pf
    rw [if_pos h1, (find_pf_max_fields rm _).2.2.2.1, ← h2]
    exact usq_length
  ⟨hr, hlen, segment_search_finds _ hr hlen⟩

end convex_polygon_pf
end search

namespace search
namespace point

/-- C39 (fails): `p != p` is true for every point `p`, and for the points (0,0) and (0,1),
which differ, both `==` and `!=` are false: the operator `!=` tests `y == p.y` where the
negation of `==` needs `y != p.y`. -/
theorem ne_not_negation {K : Type} [LinearOrderedField K] :
    (∀ p : point K, p.ne p = true) ∧
      (⟨0, 0⟩ : point K).eq ⟨0, 1⟩ = false ∧ (⟨0, 0⟩ : point K).ne ⟨0, 1⟩ = false := by
  refine ⟨?_, ?_, ?_⟩
  · intro p
    simp [point.ne]
  · simp [point.eq]
  · simp [point.ne]

end point

namespace convex_polygon_pf

/-- C34 (fails): in the rectangle 2 by 1 the pair of sides 2 and 0 gives the constant
function 2 on `[0, 1]` and the pair of sides 3 and 1 gives the constant function 1 on
`[0, 1]`; `begin` called on the first with the second as `ppf` returns false, although
`ppf.pf (z) < this->pf (z)` at every point of the common domain: the two thetas are both 0
and `begin` returns false on equal thetas before it compares any value. -/
theorem begin_equal_theta :
    convex_polygon.convex_hull rm (rect 2 1) = some (rect 2 1) ∧
    (partial_pf.of_sides rm (of_polygon rm (rect 2 1)) 2 0 Option.none).1 = partial_pf.mk_constant 0 1 2 ∧
    (partial_pf.of_sides rm (of_polygon rm (rect 2 1)) 3 1 Option.none).1 = partial_pf.mk_constant 0 1 1 ∧
    (partial_pf.mk_constant (0 : ℝ) 1 2).begin rm (partial_pf.mk_constant 0 1 1) = Option.none ∧
    (∀ z : ℝ, 0 ≤ z → z ≤ 1 →
      (partial_pf.mk_constant (0 : ℝ) 1 1).pf rm z < (partial_pf.mk_constant (0 : ℝ) 1 2).pf rm z) := by
  refine ⟨convex_polygon.rect_hull 2 1 (by norm_num) (by norm_num), ?_, ?_, ?_, ?_⟩
  · rw [of_polygon_rect 2 1 (by norm_num) (by norm_num),
      rect_pair_2_0 2 1 (by norm_num) (by norm_num)]
    unfold partial_pf.mk_constant
    norm_num
  · rw [of_polygon_rect 2 1 (by norm_num) (by norm_num),
      rect_pair_3_1 2 1 (by norm_num) (by norm_num)]
    unfold partial_pf.mk_constant
    norm_num
  · apply begin_same_theta
    simp [partial_pf.mk_constant, equal, working_precision]
  · intro z _ _
    simp [partial_pf.mk_constant, partial_pf.pf]

end convex_polygon_pf
end search

namespace search
namespace convex_polygon_pf

variable {K : Type} [LinearOrderedField K]

theorem ensure_pf_same (m : Libm K) (c : convex_polygon_pf K) : same_polygon (ensure_pf m c) c := by
  unfold ensure_pf
  split
  · exact ⟨rfl, rfl, rfl, rfl⟩
  · exact find_pf_same m c

theorem ensure_pf_reachable (m : Libm K) (c : convex_polygon_pf K) (h : reachable m c) :
    reachable m (ensure_pf m c) := by
  unfold ensure_pf
  split
  · exact h
  · exact reachable.pf c h (by simpa using ‹¬ c.pf_ok = true›)

/-- Once built, the stored function is the list assembled for this polygon and the stored
count is the count of that list. -/
theorem reachable_built (m : Libm K) (c : convex_polygon_pf K) (h : reachable m c)
    (hok : c.pf_ok = true) :
    c.function = assemble m c ∧ c.num_segments_v = seg_count (assemble m c) := by
  induction h with
  | ctor cp =>
    rw [of_polygon_pf_ok] at hok
    exact absurd hok (by decide)
  | pf c _ _ _ =>
    rw [assemble_same m _ _ (find_pf_same m c)]
    exact ⟨rfl, rfl⟩
  | pf_max c _ _ ih =>
    obtain ⟨_, _, h3, h4, h5⟩ := find_pf_max_fields m c
    rw [h3] at hok
    rw [assemble_same m _ _ (find_pf_max_same m c), h4, h5]
    exact ih hok
  | sc c _ _ ih =>
    obtain ⟨_, _, h3, h4, h5⟩ := find_pf_max_fields m c
    rw [h3] at hok
    rw [assemble_same m _ _ (find_pf_max_same m c), h4, h5]
    exact ih hok

theorem ensure_pf_built (m : Libm K) (c : convex_polygon_pf K) (h : reachable m c) :
    (ensure_pf m c).function = assemble m c ∧
      (ensure_pf m c).num_segments_v = seg_count (assemble m c) := by
  have hb := reachable_built m _ (ensure_pf_reachable m c h) (ensure_pf_ok m c)
  rw [assemble_same m _ _ (ensure_pf_same m c)] at hb
  exact hb

theorem assemble_small (m : Libm K) (c : convex_polygon_pf K) (h : c.num_vertices_v < 3) :
    assemble m c = [stub m c] := by
  unfold assemble
  rw [if_neg (by omega)]

theorem seg_count_stub (m : Libm K) (c : convex_polygon_pf K) : seg_count [stub m c] = 1 := by
  unfold seg_count
  rw [if_pos (by simp [stub, partial_pf.mk_constant])]
  unfold usub umul
  simp

theorem small_length (m : Libm K) (c : convex_polygon_pf K) (hr : reachable m c)
    (h : c.num_vertices_v < 3) : (ensure_pf m c).function.length = 1 := by
  rw [(ensure_pf_built m c hr).1, assemble_small m c h]
  rfl

/-- C31: in every state the queries reach, with `k` the length of the list that `find_pf`
assembled (fewer than `2^31` nodes, the range in which `k*2` does not wrap),
`num_segments ()` leaves the assembled list of this polygon in `function` and returns
`2k - 1` when the last node of the list is constant and `2k` otherwise; the value is at
least 1, and it is 1 for a polygon with fewer than 3 sides. -/
theorem segment_count (m : Libm K) (c : convex_polygon_pf K) (hr : reachable m c)
    (hlen : (ensure_pf m c).function.length < 2147483648) :
    (num_segments m c).2.function = assemble m c ∧
    (num_segments m c).1 =
      (if ((num_segments m c).2.function.getLastD partial_pf.zero).form = ppf_form.constant
        then 2 * (num_segments m c).2.function.length - 1
        else 2 * (num_segments m c).2.function.length) ∧
    1 ≤ (num_segments m c).1 ∧
    (c.num_vertices_v < 3 → (num_segments m c).1 = 1) := by
  obtain ⟨h1, hn, _, _⟩ := built_shape m c hr hlen
  obtain ⟨hf, hc⟩ := ensure_pf_built m c hr
  have e1 : (num_segments m c).1 = (ensure_pf m c).num_segments_v := rfl
  have e2 : (num_segments m c).2 = ensure_pf m c := rfl
  rw [e1, e2]
  refine ⟨hf, ?_, ?_, ?_⟩
  · rcases hn with ⟨ha, hb⟩ | ⟨ha, hb⟩
    · rw [if_pos hb, ha]
    · rw [if_neg hb, ha]
  · rcases hn with ⟨ha, _⟩ | ⟨ha, _⟩ <;> omega
  · intro hsmall
    rw [hc, assemble_small m c hsmall, seg_count_stub]

theorem segment_count_witness :
    (reachable rm (of_polygon rm (rect 1 1)) ∧
      (ensure_pf rm (of_polygon rm (rect 1 1))).function.length < 2147483648 ∧
      (num_segments rm (of_polygon rm (rect 1 1))).1 = 3 ∧
      (num_segments rm (of_polygon rm (rect 1 1))).2.function.length = 2 ∧
      (num_segments rm (of_polygon rm (rect 1 1))).2.function = assemble rm (of_polygon rm (rect 1 1)) ∧
      (num_segments rm (of_polygon rm (rect 1 1))).1 =
        (if ((num_segments rm (of_polygon rm (rect 1 1))).2.function.getLastD
            partial_pf.zero).form = ppf_form.constant
          then 2 * (num_segments rm (of_polygon rm (rect 1 1))).2.function.length - 1
          else 2 * (num_segments rm (of_polygon rm (rect 1 1))).2.function.length) ∧
      1 ≤ (num_segments rm (of_polygon rm (rect 1 1))).1 ∧
      ((of_polygon rm (rect 1 1)).num_vertices_v < 3 →
        (num_segments rm (of_polygon rm (rect 1 1))).1 = 1)) ∧
    (reachable rm (of_polygon rm [⟨0, 0⟩, ⟨1, 0⟩]) ∧
      (of_polygon rm [⟨0, 0⟩, ⟨1, 0⟩]).num_vertices_v < 3 ∧
      (num_segments rm (of_polygon rm [⟨0, 0⟩, ⟨1, 0⟩])).1 = 1) := by
  have usq_num_segments : (num_segments rm (of_polygon rm (rect 1 1))).1 = 3 := by
    unfold num_segments
    rw [ensure_pf_usq]
  exact
    ⟨⟨reachable.ctor _, usq_length, usq_num_segments,
        by unfold num_segments; rw [ensure_pf_usq]; rfl,
        segment_count rm _ (reachable.ctor _) usq_length⟩,
      reachable.ctor _, (of_polygon_degenerate _ (by simp)).1,
      (segment_count rm (of_polygon rm [⟨0, 0⟩, ⟨1, 0⟩]) (reachable.ctor _)
        (by rw [small_length rm _ (reachable.ctor _) (of_polygon_degenerate _ (by simp)).1]
            norm_num)).2.2.2 (of_polygon_degenerate _ (by simp)).1⟩

/-- C38: in every state the queries reach, with `k` the length of the list that `find_pf`
stored (fewer than `2^31` nodes), `a (i)` for `0 <= i <= num_segments ()` and `theta (i)`,
`zeta (i)` for `1 <= i <= num_segments ()` return a value: every array read `function [j]`
they make has `j < k`.  For `a` and `theta` the entry read is `i` (or `i - 1`) in the first
half and `num_segments () - i` in the second. -/
theorem accessors_in_bounds (m : Libm K) (c : convex_polygon_pf K) (hr : reachable m c)
    (hlen : (ensure_pf m c).function.length < 2147483648) :
    (∀ i, i ≤ (num_segments m c).1 →
      (a m c i).1 = Except.ok
        (if i < (ensure_pf m c).function.length then
          ((ensure_pf m c).function.getD i partial_pf.zero).a
         else if i = (ensure_pf m c).function.length ∧ (num_segments m c).1 % 2 = 0 then
          (ensure_pf m c).half_area_v
         else (ensure_pf m c).area_v -
          ((ensure_pf m c).function.getD ((num_segments m c).1 - i) partial_pf.zero).a) ∧
      (i < (ensure_pf m c).function.length ∨
        (i = (ensure_pf m c).function.length ∧ (num_segments m c).1 % 2 = 0) ∨
        (num_segments m c).1 - i < (ensure_pf m c).function.length)) ∧
    (∀ i, 1 ≤ i → i ≤ (num_segments m c).1 →
      (theta m c i).1 = Except.ok
        (if i ≤ (ensure_pf m c).function.length then
          ((ensure_pf m c).function.getD (i - 1) partial_pf.zero).theta
         else -((ensure_pf m c).function.getD ((num_segments m c).1 - i) partial_pf.zero).theta) ∧
      (if i ≤ (ensure_pf m c).function.length then i - 1 else (num_segments m c).1 - i) <
        (ensure_pf m c).function.length) ∧
    (∀ i, 1 ≤ i → i ≤ (num_segments m c).1 → ∃ v : K, (zeta m c i).1 = Except.ok v) := by
  obtain ⟨h1, hn, _, _⟩ := built_shape m c hr hlen
  have hok := ensure_pf_ok m c
  have hn2 : (ensure_pf m c).num_segments_v = 2 * (ensure_pf m c).function.length - 1 ∨
      (ensure_pf m c).num_segments_v = 2 * (ensure_pf m c).function.length := by
    rcases hn with h | h
    · exact Or.inl h.1
    · exact Or.inr h.1
  have e1 : (num_segments m c).1 = (ensure_pf m c).num_segments_v := rfl
  rw [e1]
  refine ⟨?_, ?_, ?_⟩
  · intro i hi
    refine ⟨?_, ?_⟩
    · rw [(a_ensure m c i).1]
      exact a_closed m _ hok h1 hlen hn2 i hi
    · rcases hn2 with h | h <;> omega
  · intro i hi1 hi
    refine ⟨?_, ?_⟩
    · rw [(theta_ensure m c i).1]
      exact theta_closed m _ hok h1 hlen hn2 i hi1 hi
    · split <;> rcases hn2 with h | h <;> omega
  · intro i hi1 hi
    rw [zeta_ensure m c i]
    exact zeta_ok m _ hok h1 hlen hn2 i hi1 hi

theorem accessors_in_bounds_witness :
    reachable rm (of_polygon rm (rect 1 1)) ∧
    (ensure_pf rm (of_polygon rm (rect 1 1))).function.length < 2147483648 ∧
    (num_segments rm (of_polygon rm (rect 1 1))).1 = 3 ∧
    (∃ v : ℝ, (a rm (of_polygon rm (rect 1 1)) 3).1 = Except.ok v) ∧
    (∃ v : ℝ, (theta rm (of_polygon rm (rect 1 1)) 3).1 = Except.ok v) ∧
    (∃ v : ℝ, (zeta rm (of_polygon rm (rect 1 1)) 3).1 = Except.ok v) := by
  have usq_num_segments : (num_segments rm (of_polygon rm (rect 1 1))).1 = 3 := by
    unfold num_segments
    rw [ensure_pf_usq]
  exact
    ⟨reachable.ctor _, usq_length, usq_num_segments,
      ⟨_, ((accessors_in_bounds rm _ (reachable.ctor _) usq_length).1 3
        (by rw [usq_num_segments])).1⟩,
      ⟨_, ((accessors_in_bounds rm _ (reachable.ctor _) usq_length).2.1 3 (by norm_num)
        (by rw [usq_num_segments])).1⟩,
      (accessors_in_bounds rm _ (reachable.ctor _) usq_length).2.2 3 (by norm_num)
        (by rw [usq_num_segments])⟩

end convex_polygon_pf
end search

namespace search
namespace convex_polygon_pf

variable {K : Type} [LinearOrderedField K]

/-- The public queries of `convex_polygon_pf`, with their arguments. -/
inductive query (K : Type) where
  | pf (z : K)
  | ipf (p : K)
  | maximum
  | num_segments
  | a (index : Nat)
  | theta (index : Nat)
  | zeta (index : Nat)
  | shortest (is_arc : Bool) (start end_ center : point K)

/-- An object together with the number of times `find_pf` and `find_pf_max` have run on
it. -/
structure counted (K : Type) where
  state : convex_polygon_pf K
  pf_runs : Nat
  max_runs : Nat

/-- The statement `if (!pf_ok) find_pf ();`. -/
def lazy_pf (m : Libm K) (t : counted K) : counted K :=
  if t.state.pf_ok = true then t
  else { state := find_pf m t.state, pf_runs := t.pf_runs + 1, max_runs := t.max_runs }

/-- The statement `if (!pf_max_ok) find_pf_max ();` of `maximum`. -/
def lazy_max (m : Libm K) (t : counted K) : counted K :=
  if t.state.pf_max_ok = true then t
  else { state := find_pf_max m t.state, pf_runs := t.pf_runs, max_runs := t.max_runs + 1 }

/-- The statement `if (!sc_ok) find_pf_max ();` of `shortest`. -/
def lazy_sc (m : Libm K) (t : counted K) : counted K :=
  if t.state.sc_ok = true then t
  else { state := find_pf_max m t.state, pf_runs := t.pf_runs, max_runs := t.max_runs + 1 }

/-- One public query on a counted object: the lazy builds it runs, in the order of the
source. -/
def run (m : Libm K) (t : counted K) : query K → counted K
  | query.pf z => if ¬ (0 ≤ z ∧ z ≤ t.state.area_v) then t else lazy_pf m t
  | query.ipf p => if ¬ (0 ≤ p) then lazy_pf m t else lazy_max m (lazy_pf m t)
  | query.maximum => lazy_max m t
  | query.num_segments => lazy_pf m t
  | query.a _ => lazy_pf m t
  | query.theta _ => lazy_pf m t
  | query.zeta _ => lazy_pf m t
  | query.shortest _ _ _ _ =>
    if (lazy_max m (lazy_sc m t)).state.maximum_v = 0 then lazy_max m (lazy_sc m t)
    else lazy_max m (lazy_max m (lazy_sc m t))

/-- The state an object is in after a public query, from the members themselves. -/
def after (m : Libm K) (c : convex_polygon_pf K) : query K → convex_polygon_pf K
  | query.pf z => (pf m c z).2
  | query.ipf p => (ipf m c p).2
  | query.maximum => (maximum m c).2
  | query.num_segments => (num_segments m c).2
  | query.a i => (a m c i).2
  | query.theta i => (theta m c i).2
  | query.zeta i => (zeta m c i).2
  | query.shortest is_arc start end_ center => (shortest m c is_arc start end_ center).2.2

/-- A fresh object: nothing has run yet. -/
def fresh (c : convex_polygon_pf K) : counted K := ⟨c, 0, 0⟩

theorem lazy_pf_state (m : Libm K) (t : counted K) :
    (lazy_pf m t).state = ensure_pf m t.state := by
  unfold lazy_pf ensure_pf
  split <;> rfl

theorem lazy_max_state (m : Libm K) (t : counted K) :
    (lazy_max m t).state = (maximum m t.state).2 := by
  unfold lazy_max maximum
  split <;> simp [*]

theorem lazy_max_value (m : Libm K) (t : counted K) :
    (lazy_max m t).state.maximum_v = (maximum m t.state).1 := by
  rw [lazy_max_state]
  rfl

theorem lazy_sc_state (m : Libm K) (t : counted K) :
    (lazy_sc m t).state = if t.state.sc_ok = true then t.state else find_pf_max m t.state := by
  unfold lazy_sc
  split <;> rfl

theorem zeta_state (m : Libm K) (c : convex_polygon_pf K) (i : Nat) :
    (zeta m c i).2 = ensure_pf m c := by
  unfold zeta
  simp only
  split
  · rfl
  · split <;> rfl

/-- The counted run of a query ends in the state the member itself ends in. -/
theorem run_state (m : Libm K) (t : counted K) (q : query K) :
    (run m t q).state = after m t.state q := by
  cases q with
  | pf z =>
    simp only [run, after, pf]
    split
    · rfl
    · exact lazy_pf_state m t
  | ipf p =>
    simp only [run, after, ipf]
    split
    · exact lazy_pf_state m t
    · rw [lazy_max_state, lazy_pf_state]
      split <;> rfl
  | maximum => exact lazy_max_state m t
  | num_segments => exact lazy_pf_state m t
  | a i =>
    simp only [run, after]
    rw [lazy_pf_state, (a_ensure m t.state i).2]
  | theta i =>
    simp only [run, after]
    rw [lazy_pf_state, (theta_ensure m t.state i).2]
  | zeta i =>
    simp only [run, after]
    rw [lazy_pf_state, zeta_state]
  | shortest is_arc start end_ center =>
    simp only [run, after, shortest]
    have e1 : (lazy_sc m t).state =
        (if t.state.sc_ok = true then t.state else find_pf_max m t.state) := lazy_sc_state m t
    generalize (if t.state.sc_ok = true then t.state else find_pf_max m t.state) = c1 at e1 ⊢
    have e2 : (lazy_max m (lazy_sc m t)).state = (maximum m c1).2 := by
      rw [lazy_max_state, e1]
    have e3 : (lazy_max m (lazy_sc m t)).state.maximum_v = (maximum m c1).1 := by
      rw [e2]
      rfl
    rw [e3]
    split
    · exact e2
    · rw [lazy_max_state, e2]

theorem lazy_pf_once (m : Libm K) (t : counted K)
    (h : t.pf_runs = 0 ∨ (t.pf_runs = 1 ∧ t.state.pf_ok = true)) :
    (lazy_pf m t).pf_runs = 0 ∨ ((lazy_pf m t).pf_runs = 1 ∧ (lazy_pf m t).state.pf_ok = true) := by
  unfold lazy_pf
  split
  · exact h
  · rename_i hok
    rcases h with h | h
    · right
      exact ⟨by simp [h], rfl⟩
    · exact absurd h.2 hok

theorem lazy_max_once (m : Libm K) (t : counted K)
    (h : t.pf_runs = 0 ∨ (t.pf_runs = 1 ∧ t.state.pf_ok = true)) :
    (lazy_max m t).pf_runs = 0 ∨
      ((lazy_max m t).pf_runs = 1 ∧ (lazy_max m t).state.pf_ok = true) := by
  unfold lazy_max
  split
  · exact h
  · simp only [(find_pf_max_fields m t.state).2.2.1]
    exact h

theorem lazy_sc_once (m : Libm K) (t : counted K)
    (h : t.pf_runs = 0 ∨ (t.pf_runs = 1 ∧ t.state.pf_ok = true)) :
    (lazy_sc m t).pf_runs = 0 ∨
      ((lazy_sc m t).pf_runs = 1 ∧ (lazy_sc m t).state.pf_ok = true) := by
  unfold lazy_sc
  split
  · exact h
  · simp only [(find_pf_max_fields m t.state).2.2.1]
    exact h

theorem run_once (m : Libm K) (t : counted K) (q : query K)
    (h : t.pf_runs = 0 ∨ (t.pf_runs = 1 ∧ t.state.pf_ok = true)) :
    (run m t q).pf_runs = 0 ∨ ((run m t q).pf_runs = 1 ∧ (run m t q).state.pf_ok = true) := by
  cases q with
  | pf z =>
    simp only [run]
    split
    · exact h
    · exact lazy_pf_once m t h
  | ipf p =>
    simp only [run]
    split
    · exact lazy_pf_once m t h
    · exact lazy_max_once m _ (lazy_pf_once m t h)
  | maximum => exact lazy_max_once m t h
  | num_segments => exact lazy_pf_once m t h
  | a i => exact lazy_pf_once m t h
  | theta i => exact lazy_pf_once m t h
  | zeta i => exact lazy_pf_once m t h
  | shortest is_arc start end_ center =>
    simp only [run]
    split
    · exact lazy_max_once m _ (lazy_sc_once m t h)
    · exact lazy_max_once m _ (lazy_max_once m _ (lazy_sc_once m t h))

theorem run_all_once (m : Libm K) (qs : List (query K)) :
    ∀ t : counted K, (t.pf_runs = 0 ∨ (t.pf_runs = 1 ∧ t.state.pf_ok = true)) →
      (qs.foldl (run m) t).pf_runs ≤ 1 := by
  induction qs with
  | nil =>
    intro t h
    rcases h with h | h
    · simp [h]
    · simp [h.1]
  | cons q qs ih =>
    intro t h
    rw [List.foldl_cons]
    exact ih _ (run_once m t q h)

/-- The state the small square is in once its function has been built, whatever ran
before. -/
theorem tiny_built (c : convex_polygon_pf ℝ) (hs : same_polygon c (rect_pf tiny tiny))
    (hok : c.pf_ok = false) :
    (ensure_pf rm c).function = [⟨ppf_form.constant, 0, tiny * tiny / 2, 0,
        Real.sqrt (10 * Real.pi * (tiny * tiny)), Real.sqrt (10 * Real.pi * (tiny * tiny)),
        Real.sqrt (10 * Real.pi * (tiny * tiny))⟩] ∧
      (ensure_pf rm c).num_segments_v = 1 ∧
      (ensure_pf rm c).maximum_v = Real.sqrt (10 * Real.pi * (tiny * tiny)) ∧
      (ensure_pf rm c).pf_max_ok = true ∧
      (ensure_pf rm c).area_v = tiny * tiny ∧ (ensure_pf rm c).half_area_v = tiny * tiny / 2 := by
  have hu : usub (umul 1 2) 1 = 1 := by unfold usub umul; norm_num
  have ha : assemble rm c = _ := (assemble_same rm c _ hs).trans assemble_tiny
  have he : ensure_pf rm c = find_pf rm c := by
    unfold ensure_pf
    rw [if_neg (by simp [hok])]
  rw [he]
  unfold find_pf
  simp only [ha]
  refine ⟨?_, ?_, ?_, ?_, ?_, ?_⟩
  · simp
  · simp [hu]
  · simp
  · simp
  · exact hs.2.1
  · exact hs.2.2.1

theorem tiny_after_max :
    same_polygon (maximum rm (of_polygon rm (rect tiny tiny))).2 (rect_pf tiny tiny) ∧
      (maximum rm (of_polygon rm (rect tiny tiny))).2.pf_ok = false ∧
      (maximum rm (of_polygon rm (rect tiny tiny))).1 ≤
        Real.sqrt (Real.pi * (tiny * tiny)) := by
  have tiny_pos : 0 < tiny := by unfold tiny; norm_num
  -- The value that `find_pf_max` stores never exceeds `sqrt (pi*area ())`.
  have find_pf_max_le (c : convex_polygon_pf ℝ) :
      (find_pf_max rm c).maximum_v ≤ Real.sqrt (Real.pi * c.area_v) := by
    unfold find_pf_max
    split_ifs with h
    · exact Real.sqrt_nonneg _
    · exact max_fold_le rm c _ _
  have tiny_area : (of_polygon rm (rect tiny tiny)).area_v = tiny * tiny := by
    rw [of_polygon_rect tiny tiny tiny_pos tiny_pos]
    rfl
  have tiny_fresh :
      same_polygon (of_polygon rm (rect tiny tiny)) (rect_pf tiny tiny) ∧
        (of_polygon rm (rect tiny tiny)).pf_ok = false ∧
        (of_polygon rm (rect tiny tiny)).pf_max_ok = false := by
    rw [of_polygon_rect tiny tiny tiny_pos tiny_pos]
    exact ⟨⟨rfl, rfl, rfl, rfl⟩, rfl, rfl⟩
  obtain ⟨hs, hok, hmx⟩ := tiny_fresh
  have e : maximum rm (of_polygon rm (rect tiny tiny)) =
      ((find_pf_max rm (of_polygon rm (rect tiny tiny))).maximum_v,
        find_pf_max rm (of_polygon rm (rect tiny tiny))) := by
    unfold maximum
    simp only [hmx]
    rfl
  rw [e]
  obtain ⟨s1, s2, s3, s4⟩ := find_pf_max_same rm (of_polygon rm (rect tiny tiny))
  refine ⟨⟨s1.trans hs.1, s2.trans hs.2.1, s3.trans hs.2.2.1, s4.trans hs.2.2.2⟩, ?_, ?_⟩
  · rw [(find_pf_max_fields rm _).2.2.1]
    exact hok
  · have h := find_pf_max_le (of_polygon rm (rect tiny tiny))
    rw [tiny_area] at h
    exact h

set_option maxHeartbeats 4000000 in
/-- C36 (fails): on the square of side `1e-11` (a hulled polygon of positive area) the value
`find_pf_max` produces is at most `sqrt (pi*area ())`, the value `find_pf` stores is
`sqrt (10*pi*area ())`, which is larger; `maximum ()` followed by `pf (half_area ())` on
the same object returns two different values. -/
theorem maximum_two_ways_tiny :
    convex_polygon.convex_hull rm (rect tiny tiny) = some (rect tiny tiny) ∧
    0 < (of_polygon rm (rect tiny tiny)).area_v ∧
    (find_pf_max rm (of_polygon rm (rect tiny tiny))).maximum_v ≤
      Real.sqrt (Real.pi * (tiny * tiny)) ∧
    (find_pf rm (of_polygon rm (rect tiny tiny))).maximum_v =
      Real.sqrt (10 * Real.pi * (tiny * tiny)) ∧
    (maximum rm (of_polygon rm (rect tiny tiny))).1 ≤ Real.sqrt (Real.pi * (tiny * tiny)) ∧
    (pf rm (maximum rm (of_polygon rm (rect tiny tiny))).2
      (of_polygon rm (rect tiny tiny)).half_area_v).1 =
      Except.ok (Real.sqrt (10 * Real.pi * (tiny * tiny))) ∧
    Real.sqrt (Real.pi * (tiny * tiny)) < Real.sqrt (10 * Real.pi * (tiny * tiny)) := by
  have tiny_pos : 0 < tiny := by unfold tiny; norm_num
  -- The value that `find_pf_max` stores never exceeds `sqrt (pi*area ())`.
  have find_pf_max_le (c : convex_polygon_pf ℝ) :
      (find_pf_max rm c).maximum_v ≤ Real.sqrt (Real.pi * c.area_v) := by
    unfold find_pf_max
    split_ifs with h
    · exact Real.sqrt_nonneg _
    · exact max_fold_le rm c _ _
  have tiny_area : (of_polygon rm (rect tiny tiny)).area_v = tiny * tiny := by
    rw [of_polygon_rect tiny tiny tiny_pos tiny_pos]
    rfl
  have tiny_gap :
      Real.sqrt (Real.pi * (tiny * tiny)) < Real.sqrt (10 * Real.pi * (tiny * tiny)) := by
    have := mul_pos tiny_pos tiny_pos
    apply Real.sqrt_lt_sqrt
    · exact le_of_lt (by nlinarith [Real.pi_gt_three])
    · nlinarith [Real.pi_gt_three]
  have tiny_fresh :
      same_polygon (of_polygon rm (rect tiny tiny)) (rect_pf tiny tiny) ∧
        (of_polygon rm (rect tiny tiny)).pf_ok = false ∧
        (of_polygon rm (rect tiny tiny)).pf_max_ok = false := by
    rw [of_polygon_rect tiny tiny tiny_pos tiny_pos]
    exact ⟨⟨rfl, rfl, rfl, rfl⟩, rfl, rfl⟩
  -- On the small square every `pf (z)` in the half domain returns the value of the
  -- fictitious node.
  have tiny_pf (c : convex_polygon_pf ℝ) (hs : same_polygon c (rect_pf tiny tiny))
      (hok : c.pf_ok = false) (z : ℝ) (h0 : 0 ≤ z) (h1 : z ≤ tiny * tiny / 2) :
      (pf rm c z).1 = Except.ok (Real.sqrt (10 * Real.pi * (tiny * tiny))) ∧
        (pf rm c z).2 = ensure_pf rm c := by
    obtain ⟨hf, hn, _, _, ha, hh⟩ := tiny_built c hs hok
    have htt := mul_pos tiny_pos tiny_pos
    have hca : c.area_v = tiny * tiny := hs.2.1
    unfold pf
    rw [if_neg (by rw [hca]; simp; exact ⟨h0, by linarith⟩)]
    simp only [hf, hn, hh, ha]
    rw [if_neg (by simp; exact h1)]
    simp only [pf_loop, List.get?]
    rw [if_pos h1]
    simp [partial_pf.pf]
  have htt := mul_pos tiny_pos tiny_pos
  obtain ⟨hs, hok, hmx⟩ := tiny_fresh
  obtain ⟨hs1, hok1, hle⟩ := tiny_after_max
  have hhalf : (of_polygon rm (rect tiny tiny)).half_area_v = tiny * tiny / 2 := hs.2.2.1
  refine ⟨convex_polygon.rect_hull tiny tiny tiny_pos tiny_pos, ?_, ?_, ?_, hle, ?_, tiny_gap⟩
  · rw [tiny_area]
    exact htt
  · have h := find_pf_max_le (of_polygon rm (rect tiny tiny))
    rw [tiny_area] at h
    exact h
  · have h := (tiny_built _ hs hok).2.2.1
    have he : ensure_pf rm (of_polygon rm (rect tiny tiny)) =
        find_pf rm (of_polygon rm (rect tiny tiny)) := by
      unfold ensure_pf
      rw [if_neg (by simp [hok])]
    rw [he] at h
    exact h
  · rw [hhalf]
    exact (tiny_pf _ hs1 hok1 _ (by linarith) (le_refl _)).1

/-- C37 (fails): on the square of side `1e-11` (a hulled polygon of positive area), `p = 0`
lies in `[0, maximum ()]`, `ipf (0)` returns 0, and `pf (0)` then returns
`sqrt (10*pi*area ())`, which is not 0. -/
theorem ipf_right_inverse_tiny :
    convex_polygon.convex_hull rm (rect tiny tiny) = some (rect tiny tiny) ∧
    0 < (of_polygon rm (rect tiny tiny)).area_v ∧
    (0 : ℝ) ≤ (maximum rm (ensure_pf rm (of_polygon rm (rect tiny tiny)))).1 ∧
    (ipf rm (of_polygon rm (rect tiny tiny)) 0).1 = Except.ok 0 ∧
    (pf rm (ipf rm (of_polygon rm (rect tiny tiny)) 0).2 0).1 =
      Except.ok (Real.sqrt (10 * Real.pi * (tiny * tiny))) ∧
    Real.sqrt (10 * Real.pi * (tiny * tiny)) ≠ 0 := by
  have tiny_pos : 0 < tiny := by unfold tiny; norm_num
  have tiny_area : (of_polygon rm (rect tiny tiny)).area_v = tiny * tiny := by
    rw [of_polygon_rect tiny tiny tiny_pos tiny_pos]
    rfl
  have htt := mul_pos tiny_pos tiny_pos
  have hpos : 0 < Real.sqrt (10 * Real.pi * (tiny * tiny)) :=
    Real.sqrt_pos.mpr (by nlinarith [Real.pi_gt_three])
  have hmax : maximum rm (ensure_pf rm (of_polygon rm (rect tiny tiny))) =
      (Real.sqrt (10 * Real.pi * (tiny * tiny)),
        ensure_pf rm (of_polygon rm (rect tiny tiny))) := by
    rw [ensure_pf_tiny]
    simp [maximum]
  have hipf : ipf rm (of_polygon rm (rect tiny tiny)) 0 =
      (Except.ok 0, ensure_pf rm (of_polygon rm (rect tiny tiny))) := by
    unfold ipf
    simp only [hmax]
    rw [if_neg (by simp), if_neg (by simp), ensure_pf_tiny]
    simp only [ipf_loop, List.get?]
    rw [if_pos (le_of_lt hpos)]
    simp [partial_pf.ipf]
  refine ⟨convex_polygon.rect_hull tiny tiny tiny_pos tiny_pos, ?_, ?_, ?_, ?_, ne_of_gt hpos⟩
  · rw [tiny_area]
    exact htt
  · rw [hmax]
    exact le_of_lt hpos
  · rw [hipf]
  · rw [hipf]
    simp only
    have ha := (ensure_pf_area rm (of_polygon rm (rect tiny tiny))).1
    unfold pf
    rw [ensure_pf_idem, if_neg (by rw [ha, tiny_area]; simp; exact le_of_lt htt), ensure_pf_tiny]
    simp only [rect_pf]
    rw [if_neg (by simp; exact le_of_lt (by linarith))]
    simp only [pf_loop, List.get?]
    rw [if_pos (by linarith)]
    simp [partial_pf.pf]

/-- C35 (fails): (1) on an object built from two vertices, two calls of `shortest` run
`find_pf_max` twice (it leaves `sc_ok` false); (2) on the square of side `1e-11` the calls
`maximum ()`, `pf (0)`, `maximum ()` run `find_pf_max` once and `find_pf` once, the first
`maximum ()` returns at most `sqrt (pi*area ())` and the second returns
`sqrt (10*pi*area ())`, which is larger; (3) in every sequence of queries on every
constructed object `find_pf` runs at most once. -/
theorem lazy_builds_repeat :
    ((([query.shortest true ⟨0, 0⟩ ⟨0, 0⟩ ⟨0, 0⟩, query.shortest true ⟨0, 0⟩ ⟨0, 0⟩ ⟨0, 0⟩] :
        List (query ℝ)).foldl (run rm) (fresh (of_polygon rm [⟨0, 0⟩, ⟨1, 0⟩]))).max_runs = 2) ∧
    ((([query.maximum, query.pf 0] : List (query ℝ)).foldl (run rm)
        (fresh (of_polygon rm (rect tiny tiny)))).max_runs = 1 ∧
      (([query.maximum, query.pf 0] : List (query ℝ)).foldl (run rm)
        (fresh (of_polygon rm (rect tiny tiny)))).pf_runs = 1 ∧
      (maximum rm (of_polygon rm (rect tiny tiny))).1 ≤ Real.sqrt (Real.pi * (tiny * tiny)) ∧
      (maximum rm (([query.maximum, query.pf 0] : List (query ℝ)).foldl (run rm)
        (fresh (of_polygon rm (rect tiny tiny)))).state).1 =
        Real.sqrt (10 * Real.pi * (tiny * tiny)) ∧
      Real.sqrt (Real.pi * (tiny * tiny)) < Real.sqrt (10 * Real.pi * (tiny * tiny))) ∧
    (∀ (cp : List (point ℝ)) (qs : List (query ℝ)),
      (qs.foldl (run rm) (fresh (of_polygon rm cp))).pf_runs ≤ 1) := by
  have tiny_pos : 0 < tiny := by unfold tiny; norm_num
  have tiny_gap :
      Real.sqrt (Real.pi * (tiny * tiny)) < Real.sqrt (10 * Real.pi * (tiny * tiny)) := by
    have := mul_pos tiny_pos tiny_pos
    apply Real.sqrt_lt_sqrt
    · exact le_of_lt (by nlinarith [Real.pi_gt_three])
    · nlinarith [Real.pi_gt_three]
  have tiny_fresh :
      same_polygon (of_polygon rm (rect tiny tiny)) (rect_pf tiny tiny) ∧
        (of_polygon rm (rect tiny tiny)).pf_ok = false ∧
        (of_polygon rm (rect tiny tiny)).pf_max_ok = false := by
    rw [of_polygon_rect tiny tiny tiny_pos tiny_pos]
    exact ⟨⟨rfl, rfl, rfl, rfl⟩, rfl, rfl⟩
  refine ⟨?_, ?_, ?_⟩
  · have hd := of_polygon_degenerate [⟨0, 0⟩, ⟨1, 0⟩] (by simp)
    have hsc : (of_polygon rm [(⟨0, 0⟩ : point ℝ), ⟨1, 0⟩]).sc_ok = false := by
      simp [of_polygon]
    have hf : ∀ c : convex_polygon_pf ℝ, c.num_vertices_v < 3 →
        (find_pf_max rm c).sc_ok = c.sc_ok ∧ (find_pf_max rm c).pf_max_ok = true ∧
          (find_pf_max rm c).maximum_v = 0 ∧ (find_pf_max rm c).num_vertices_v < 3 := by
      intro c h
      unfold find_pf_max
      rw [if_pos h]
      exact ⟨rfl, rfl, rfl, h⟩
    have hstep : ∀ t : counted ℝ, t.state.num_vertices_v < 3 → t.state.sc_ok = false →
        (run rm t (query.shortest true ⟨0, 0⟩ ⟨0, 0⟩ ⟨0, 0⟩)) =
          ⟨find_pf_max rm t.state, t.pf_runs, t.max_runs + 1⟩ := by
      intro t hn hs
      obtain ⟨_, h2, h3, _⟩ := hf t.state hn
      have e1 : lazy_sc rm t = ⟨find_pf_max rm t.state, t.pf_runs, t.max_runs + 1⟩ := by
        unfold lazy_sc
        rw [if_neg (by simp [hs])]
      have e2 : lazy_max rm ⟨find_pf_max rm t.state, t.pf_runs, t.max_runs + 1⟩ =
          ⟨find_pf_max rm t.state, t.pf_runs, t.max_runs + 1⟩ := by
        unfold lazy_max
        rw [if_pos h2]
      unfold run
      rw [e1, e2, if_pos h3]
    simp only [List.foldl_cons, List.foldl_nil]
    rw [hstep (fresh (of_polygon rm [⟨0, 0⟩, ⟨1, 0⟩])) hd.1 hsc]
    obtain ⟨h1, _, _, h4⟩ := hf _ hd.1
    rw [hstep _ h4 (h1.trans hsc)]
    rfl
  · obtain ⟨hs, hok, hmx⟩ := tiny_fresh
    obtain ⟨hs1, hok1, hle⟩ := tiny_after_max
    have htt := mul_pos tiny_pos tiny_pos
    have e1 : run rm (fresh (of_polygon rm (rect tiny tiny))) query.maximum =
        ⟨(maximum rm (of_polygon rm (rect tiny tiny))).2, 0, 1⟩ := by
      unfold run lazy_max fresh
      simp only [hmx]
      unfold maximum
      simp [hmx]
    have harea : (maximum rm (of_polygon rm (rect tiny tiny))).2.area_v = tiny * tiny := hs1.2.1
    have e2 : run rm ⟨(maximum rm (of_polygon rm (rect tiny tiny))).2, 0, 1⟩ (query.pf 0) =
        ⟨ensure_pf rm (maximum rm (of_polygon rm (rect tiny tiny))).2, 1, 1⟩ := by
      unfold run
      simp only
      rw [if_neg (by rw [harea]; simp; exact le_of_lt htt)]
      unfold lazy_pf
      simp only [hok1]
      unfold ensure_pf
      simp [hok1]
    simp only [List.foldl_cons, List.foldl_nil]
    rw [e1, e2]
    refine ⟨rfl, rfl, hle, ?_, tiny_gap⟩
    obtain ⟨_, _, h3, h4, _⟩ := tiny_built _ hs1 hok1
    rw [maximum_of_ok rm _ h4]
    exact h3
  · intro cp qs
    exact run_all_once rm qs _ (Or.inl rfl)

end convex_polygon_pf
end search

namespace search
namespace convex_polygon

/-- The order of the selection test of `convex_hull` on pairs (angle, distance): a smaller
angle, or the same angle and a larger distance. -/
def better (x y : ℝ × ℝ) : Prop := x.1 < y.1 ∨ (x.1 = y.1 ∧ x.2 > y.2)

/-- The angle and the distance the inner loop computes for a vertex. -/
noncomputable def scan_key (la pr : point ℝ) (v : vertex ℝ) : ℝ × ℝ :=
  (la.angle rm ((la.smul 2).sub pr) v.coord, (v.coord.sub la).abs rm)

/-- The vertices the inner loop does not skip. -/
def scan_cand (la : point ℝ) (v : vertex ℝ) : Prop :=
  v.state ≠ vstate.used ∧ v.coord.eq la = false

/-- The number of vertices in the state `unused`. -/
def unused_count : List (vertex ℝ) → Nat
  | [] => 0
  | v :: rest => (if v.state = vstate.unused then 1 else 0) + unused_count rest

/-- What holds at the head of every pass of the main loop: the vertex flagged `first` sits
at position `f` with the coordinates `F`, no other vertex is flagged `first`, no vertex
before position `f` has the coordinates `F`, and `last_added` is `F` only while `select`
still points at position `f`. -/
def hull_inv (f : Nat) (F : point ℝ) (s : hull_state ℝ) : Prop :=
  s.vertices.get? f = some ⟨F, vstate.first⟩ ∧
  (∀ k w, s.vertices.get? k = some w → w.state = vstate.first → k = f) ∧
  (∀ k w, s.vertices.get? k = some w → w.coord = F → f ≤ k) ∧
  (s.last_added = F → s.select = f)

theorem better_irrefl (x : ℝ × ℝ) : ¬ better x x := by
  intro h
  rcases h with h | h
  · exact lt_irrefl _ h
  · exact lt_irrefl _ h.2

theorem better_trans {x y z : ℝ × ℝ} (h1 : better x y) (h2 : better y z) : better x z := by
  unfold better at *
  rcases h1 with h1 | ⟨h1, h1b⟩ <;> rcases h2 with h2 | ⟨h2, h2b⟩
  · left; linarith
  · left; rw [← h2]; exact h1
  · left; rw [h1]; exact h2
  · right; exact ⟨h1.trans h2, by linarith⟩

theorem better_of_not {x v a : ℝ × ℝ} (h1 : better x a) (h2 : ¬ better v a) : better x v := by
  unfold better at *
  push_neg at h2
  obtain ⟨h2a, h2b⟩ := h2
  rcases h1 with h1 | ⟨h1, h1b⟩
  · left; linarith
  · rcases lt_or_eq_of_le h2a with h | h
    · left; rw [h1]; exact h
    · right
      have := h2b h.symm
      exact ⟨h1.trans h, by linarith⟩

theorem get_set_state_ne : ∀ (vs : List (vertex ℝ)) (j k : Nat) (st : vstate), k ≠ j →
    (set_state vs j st).get? k = vs.get? k := by
  intro vs
  induction vs with
  | nil => intro j k st _; rfl
  | cons v rest ih =>
    intro j k st h
    cases j with
    | zero =>
      cases k with
      | zero => exact absurd rfl h
      | succ k => rfl
    | succ j =>
      cases k with
      | zero => rfl
      | succ k =>
        simp only [set_state, List.get?]
        exact ih j k st (by omega)

theorem get_set_state_eq : ∀ (vs : List (vertex ℝ)) (j : Nat) (st : vstate) (v : vertex ℝ),
    vs.get? j = some v → (set_state vs j st).get? j = some { v with state := st } := by
  intro vs
  induction vs with
  | nil => intro j st v h; simp at h
  | cons x rest ih =>
    intro j st v h
    cases j with
    | zero =>
      simp only [List.get?, Option.some.injEq] at h
      rw [← h]
      rfl
    | succ j =>
      simp only [set_state, List.get?] at h ⊢
      exact ih j st v h

theorem unused_set_used : ∀ (vs : List (vertex ℝ)) (j : Nat) (v : vertex ℝ),
    vs.get? j = some v → v.state = vstate.unused →
    unused_count (set_state vs j vstate.used) + 1 = unused_count vs := by
  intro vs
  induction vs with
  | nil => intro j v h; simp at h
  | cons x rest ih =>
    intro j v h hu
    cases j with
    | zero =>
      simp only [List.get?, Option.some.injEq] at h
      rw [h]
      simp only [set_state, unused_count, hu]
      simp
      omega
    | succ j =>
      simp only [set_state, List.get?] at h ⊢
      simp only [unused_count]
      have := ih j v h hu
      omega

theorem unused_set_first : ∀ (vs : List (vertex ℝ)) (j : Nat),
    unused_count (set_state vs j vstate.first) ≤ unused_count vs := by
  intro vs
  induction vs with
  | nil => intro j; exact le_refl _
  | cons x rest ih =>
    intro j
    cases j with
    | zero =>
      simp only [set_state, unused_count]
      simp
    | succ j =>
      simp only [set_state, unused_count]
      have := ih j
      omega

theorem unused_set_first_lt : ∀ (vs : List (vertex ℝ)) (j : Nat) (v : vertex ℝ),
    vs.get? j = some v → v.state = vstate.unused →
    unused_count (set_state vs j vstate.first) < unused_count vs := by
  intro vs
  induction vs with
  | nil => intro j v h; simp at h
  | cons x rest ih =>
    intro j v h hu
    cases j with
    | zero =>
      simp only [List.get?, Option.some.injEq] at h
      rw [h]
      simp only [set_state, unused_count, hu]
      simp
    | succ j =>
      simp only [set_state, List.get?] at h ⊢
      simp only [unused_count]
      have := ih j v h hu
      omega

theorem unused_le_length : ∀ (vs : List (vertex ℝ)), unused_count vs ≤ vs.length := by
  intro vs
  induction vs with
  | nil => exact le_refl _
  | cons x rest ih =>
    simp only [unused_count, List.length_cons]
    split <;> omega

/-- The search for the lower right point returns a position of the list read so far, the
point stored there, and no earlier position holds the same point. -/
theorem lower_right_spec : ∀ (l pre : List (point ℝ)) (lr : point ℝ) (sel : Nat),
    pre.get? sel = some lr →
    (∀ w ∈ pre, ¬ better (w.y, w.x) (lr.y, lr.x)) →
    (∀ k w, k < sel → pre.get? k = some w → better (lr.y, lr.x) (w.y, w.x)) →
    (pre ++ l).get? (lower_right l pre.length lr sel).2 = some (lower_right l pre.length lr sel).1 ∧
    (∀ k w, k < (lower_right l pre.length lr sel).2 → (pre ++ l).get? k = some w →
      w ≠ (lower_right l pre.length lr sel).1) := by
  intro l
  induction l with
  | nil =>
    intro pre lr sel h1 _ h3
    simp only [lower_right, List.append_nil]
    refine ⟨h1, ?_⟩
    intro k w hk hw he
    have := h3 k w hk hw
    rw [he] at this
    exact better_irrefl _ this
  | cons cur rest ih =>
    intro pre lr sel h1 h2 h3
    have hlen : (pre ++ [cur]).length = pre.length + 1 := by simp
    have happ : pre ++ cur :: rest = (pre ++ [cur]) ++ rest := by simp
    have hsel : sel < pre.length := by
      by_contra hc
      rw [List.get?_eq_none.mpr (by omega)] at h1
      exact absurd h1 (by simp)
    unfold lower_right
    split
    · rename_i hlow
      have hb : better (cur.y, cur.x) (lr.y, lr.x) := hlow
      rw [happ, ← hlen]
      apply ih (pre ++ [cur]) cur pre.length
      · rw [List.get?_eq_getElem?, List.getElem?_append_right (le_refl _)]
        simp
      · intro w hw
        rcases List.mem_append.mp hw with hw | hw
        · intro hc
          exact h2 w hw (better_trans hc hb)
        · simp only [List.mem_singleton] at hw
          rw [hw]
          exact better_irrefl _
      · intro k w hk hw
        rw [List.get?_eq_getElem?, List.getElem?_append_left hk, ← List.get?_eq_getElem?] at hw
        exact better_of_not hb (h2 w (List.get?_mem hw))
    · rename_i hlow
      have hb : ¬ better (cur.y, cur.x) (lr.y, lr.x) := hlow
      rw [happ, ← hlen]
      apply ih (pre ++ [cur]) lr sel
      · rw [List.get?_eq_getElem?, List.getElem?_append_left hsel, ← List.get?_eq_getElem?]
        exact h1
      · intro w hw
        rcases List.mem_append.mp hw with hw | hw
        · exact h2 w hw
        · simp only [List.mem_singleton] at hw
          rw [hw]
          exact hb
      · intro k w hk hw
        rw [List.get?_eq_getElem?, List.getElem?_append_left (by omega),
          ← List.get?_eq_getElem?] at hw
        exact h3 k w hk hw

theorem unused_map (vs : List (point ℝ)) :
    unused_count (vs.map fun c => ⟨c, vstate.unused⟩) = vs.length := by
  induction vs with
  | nil => rfl
  | cons v rest ih =>
    simp only [List.map_cons, unused_count, List.length_cons, ih]
    simp
    omega

theorem hull_init_inv (first : point ℝ) (rest : List (point ℝ)) :
    hull_inv (lower_right rest 1 first 0).2 (lower_right rest 1 first 0).1
      (hull_init (first :: rest) first rest) ∧
    unused_count (hull_init (first :: rest) first rest).vertices < (first :: rest).length := by
  obtain ⟨h1, h2⟩ := lower_right_spec rest [first] first 0 rfl
    (by intro w hw; simp only [List.mem_singleton] at hw; rw [hw]; exact better_irrefl _)
    (by intro k w hk; omega)
  simp only [List.length_singleton, List.singleton_append] at h1 h2
  have hm : ((first :: rest).map fun c => (⟨c, vstate.unused⟩ : vertex ℝ)).get?
      (lower_right rest 1 first 0).2 = some ⟨(lower_right rest 1 first 0).1, vstate.unused⟩ := by
    rw [List.get?_eq_getElem?, List.getElem?_map, ← List.get?_eq_getElem?, h1]
    rfl
  unfold hull_init
  simp only
  refine ⟨⟨?_, ?_, ?_, ?_⟩, ?_⟩
  · simp only
    rw [get_set_state_eq _ _ _ _ hm]
  · intro k w hw hwf
    simp only at hw
    by_contra hk
    rw [get_set_state_ne _ _ _ _ hk, List.get?_eq_getElem?, List.getElem?_map,
      ← List.get?_eq_getElem?] at hw
    cases hg : (first :: rest).get? k with
    | none => rw [hg] at hw; simp at hw
    | some p =>
      rw [hg] at hw
      simp only [Option.map_some', Option.some.injEq] at hw
      rw [← hw] at hwf
      simp at hwf
  · intro k w hw hwF
    simp only at hw
    by_contra hk
    have hlt : k < (lower_right rest 1 first 0).2 := by omega
    rw [get_set_state_ne _ _ _ _ (by omega), List.get?_eq_getElem?, List.getElem?_map,
      ← List.get?_eq_getElem?] at hw
    cases hg : (first :: rest).get? k with
    | none => rw [hg] at hw; simp at hw
    | some p =>
      rw [hg] at hw
      simp only [Option.map_some', Option.some.injEq] at hw
      rw [← hw] at hwF
      exact h2 k p hlt hg hwF
  · intro _
    rfl
  · have := unused_set_first_lt _ _ _ hm rfl
    rw [unused_map] at this
    exact this

set_option maxHeartbeats 4000000 in
/-- C40: on every finite list of points with real coordinates the main loop of
`convex_hull` reaches its `break` within `num_vertices ()` passes, so `convex_hull`
returns (the same list for every larger bound on the number of passes). -/
theorem convex_hull_terminates (vs : List (point ℝ)) :
    ∃ h : List (point ℝ), convex_hull_fuel rm vs.length vs = some h ∧
      convex_hull rm vs = some h := by
  have hull_loop_stops (f : Nat) (F : point ℝ) : ∀ (fuel : Nat) (s : hull_state ℝ),
      hull_inv f F s → unused_count s.vertices < fuel → ∃ h, hull_loop rm fuel s = some h := by
    -- One pass of the main loop either stops, or turns an unused vertex into a used one and
    -- keeps the invariant.
    have hull_step_spec (f : Nat) (F : point ℝ) (s : hull_state ℝ) (h : hull_inv f F s) :
        hull_step rm s = Option.none ∨
        ∃ s1, hull_step rm s = some s1 ∧ hull_inv f F s1 ∧
          unused_count s1.vertices + 1 = unused_count s.vertices := by
      -- The inner loop either selects nothing, and then no vertex it looks at beats the values
      -- it started with, or it selects a vertex that beats the starting values and every vertex
      -- it looked at before.
      have scan_spec (la pr : point ℝ) : ∀ (vs : List (vertex ℝ)) (i : Nat) (a d : ℝ) (sel : Nat),
          (scan rm la pr vs i a d sel = (a, d, sel) ∧
            ∀ v ∈ vs, scan_cand la v → ¬ better (scan_key la pr v) (a, d)) ∨
          (∃ j v, vs.get? j = some v ∧ scan_cand la v ∧
            scan rm la pr vs i a d sel = ((scan_key la pr v).1, (scan_key la pr v).2, i + j) ∧
            better (scan_key la pr v) (a, d) ∧
            ∀ k w, k < j → vs.get? k = some w → scan_cand la w →
              better (scan_key la pr v) (scan_key la pr w)) := by
        intro vs
        induction vs with
        | nil =>
          intro i a d sel
          left
          exact ⟨scan_nil rm la pr i a d sel, by simp⟩
        | cons v rest ih =>
          intro i a d sel
          have skip : ¬ scan_cand la v →
              scan rm la pr (v :: rest) i a d sel = scan rm la pr rest (i + 1) a d sel := by
            intro hn
            by_cases hu : v.state = vstate.used
            · exact scan_used rm la pr v rest i a d sel hu
            · have he : v.coord.eq la = true := by
                by_contra hc
                exact hn ⟨hu, by simpa using hc⟩
              exact scan_same rm la pr v rest i a d sel hu he
          have lift : ∀ (a1 d1 : ℝ) (s1 : Nat),
              scan rm la pr (v :: rest) i a d sel = scan rm la pr rest (i + 1) a1 d1 s1 →
              (scan_cand la v → ¬ better (scan_key la pr v) (a, d)) →
              (a1, d1, s1) = (a, d, sel) →
              (scan rm la pr (v :: rest) i a d sel = (a, d, sel) ∧
                ∀ x ∈ v :: rest, scan_cand la x → ¬ better (scan_key la pr x) (a, d)) ∨
              (∃ j x, (v :: rest).get? j = some x ∧ scan_cand la x ∧
                scan rm la pr (v :: rest) i a d sel =
                  ((scan_key la pr x).1, (scan_key la pr x).2, i + j) ∧
                better (scan_key la pr x) (a, d) ∧
                ∀ k w, k < j → (v :: rest).get? k = some w → scan_cand la w →
                  better (scan_key la pr x) (scan_key la pr w)) := by
            intro a1 d1 s1 he hv hacc
            simp only [Prod.mk.injEq] at hacc
            obtain ⟨ha, hd, hs⟩ := hacc
            subst ha hd hs
            rcases ih (i + 1) a1 d1 s1 with ⟨h1, h2⟩ | ⟨j, x, hj, hc, hr, hb, hall⟩
            · left
              refine ⟨he.trans h1, ?_⟩
              intro x hx
              rcases List.mem_cons.mp hx with hx | hx
              · rw [hx]; exact hv
              · exact h2 x hx
            · right
              refine ⟨j + 1, x, by simpa using hj, hc, ?_, hb, ?_⟩
              · rw [he, hr]
                simp only [Prod.mk.injEq, true_and]
                omega
              · intro k w hk hw hcw
                cases k with
                | zero =>
                  simp only [List.get?] at hw
                  have e : w = v := (Option.some.inj hw).symm
                  rw [e] at hcw ⊢
                  exact better_of_not hb (hv hcw)
                | succ k =>
                  simp only [List.get?] at hw
                  exact hall k w (by omega) hw hcw
          by_cases hcv : scan_cand la v
          · by_cases hbv : better (scan_key la pr v) (a, d)
            · have he := scan_take rm la pr v rest i a d sel hcv.1 hcv.2 hbv
              right
              rcases ih (i + 1) (scan_key la pr v).1 (scan_key la pr v).2 i with
                ⟨h1, _⟩ | ⟨j, x, hj, hc, hr, hb, hall⟩
              · refine ⟨0, v, rfl, hcv, ?_, hbv, ?_⟩
                · rw [he]
                  exact h1
                · intro k w hk
                  omega
              · refine ⟨j + 1, x, by simpa using hj, hc, ?_, better_trans hb hbv, ?_⟩
                · rw [he]
                  refine hr.trans ?_
                  simp only [Prod.mk.injEq, true_and]
                  omega
                · intro k w hk hw hcw
                  cases k with
                  | zero =>
                    simp only [List.get?] at hw
                    have e : w = v := (Option.some.inj hw).symm
                    rw [e]
                    exact hb
                  | succ k =>
                    simp only [List.get?] at hw
                    exact hall k w (by omega) hw hcw
            · exact lift a d sel (scan_keep rm la pr v rest i a d sel hcv.1 hcv.2 hbv)
                (fun _ => hbv) rfl
          · exact lift a d sel (skip hcv) (fun h => absurd h hcv) rfl
      have angle_lt_bound (s p q : point ℝ) : s.angle rm p q < 629 / 100 := by
        have h1 := point.angle_lt_two_pi s p q
        have h2 := Real.pi_lt_d4
        linarith
      obtain ⟨hf, hfirst, hcoord, hsel⟩ := h
      have hcf : s.last_added ≠ F → scan_cand s.last_added ⟨F, vstate.first⟩ := by
        intro hne
        refine ⟨by simp, ?_⟩
        by_contra hc
        have : F.eq s.last_added = true := by simpa using hc
        exact hne ((partial_pf.point_eq_iff _ _).mp this).symm
      have hbf : better (scan_key s.last_added s.previous ⟨F, vstate.first⟩) (629 / 100, 0) :=
        Or.inl (angle_lt_bound _ _ _)
      rcases scan_spec s.last_added s.previous s.vertices 0 (629 / 100) 0 s.select with
        ⟨h1, h2⟩ | ⟨j, v, hj, hc, hr, hb, hall⟩
      · left
        have hla : s.last_added = F := by
          by_contra hne
          exact h2 _ (List.get?_mem hf) (hcf hne) hbf
        simp only [hull_step]
        rw [h1]
        simp only
        rw [hsel hla, hf]
        rfl
      · by_cases hv : v.state = vstate.first
        · left
          unfold hull_step
          simp only [hr, Nat.zero_add, hj, hv]
          simp
        · right
          have hjf : j ≠ f := by
            intro e
            rw [e, hf] at hj
            apply hv
            rw [← Option.some.inj hj]
          have hvF : v.coord ≠ F := by
            intro e
            have hne : s.last_added ≠ F := by
              intro e2
              have := hc.2
              rw [e, ← e2] at this
              have h3 : s.last_added.eq s.last_added = true := (partial_pf.point_eq_iff _ _).mpr rfl
              rw [h3] at this
              exact absurd this (by simp)
            have hlt : f < j := lt_of_le_of_ne (hcoord j v hj e) (Ne.symm hjf)
            have hbb := hall f _ hlt hf (hcf hne)
            have hk : scan_key s.last_added s.previous v =
                scan_key s.last_added s.previous ⟨F, vstate.first⟩ := by
              unfold scan_key
              rw [e]
            rw [hk] at hbb
            exact better_irrefl _ hbb
          have hvu : v.state = vstate.unused := by
            have := hc.1
            cases hs : v.state with
            | unused => rfl
            | used => exact absurd hs this
            | first => exact absurd hs hv
          refine ⟨{ vertices := set_state s.vertices j vstate.used
                    hull := v.coord :: s.hull
                    last_added := v.coord
                    previous := s.last_added
                    select := j }, ?_, ?_, ?_⟩
          · unfold hull_step
            simp only [hr, Nat.zero_add, hj, hv]
            simp
          · refine ⟨?_, ?_, ?_, ?_⟩
            · simp only
              rw [get_set_state_ne _ _ _ _ (Ne.symm hjf)]
              exact hf
            · intro k w hw hwf
              simp only at hw
              by_cases hkj : k = j
              · rw [hkj, get_set_state_eq _ _ _ _ hj] at hw
                rw [← Option.some.inj hw] at hwf
                simp at hwf
              · rw [get_set_state_ne _ _ _ _ hkj] at hw
                exact hfirst k w hw hwf
            · intro k w hw hwF
              simp only at hw
              by_cases hkj : k = j
              · rw [hkj, get_set_state_eq _ _ _ _ hj] at hw
                rw [← Option.some.inj hw] at hwF
                rw [hkj]
                exact hcoord j v hj hwF
              · rw [get_set_state_ne _ _ _ _ hkj] at hw
                exact hcoord k w hw hwF
            · intro e
              exact absurd e hvF
          · exact unused_set_used _ _ _ hj hvu
    intro fuel
    induction fuel with
    | zero =>
      intro s _ h
      omega
    | succ n ih =>
      intro s hinv hlt
      rcases hull_step_spec f F s hinv with h | ⟨s1, h1, h2, h3⟩
      · exact ⟨s.hull, by simp [hull_loop, h]⟩
      · obtain ⟨r, hr⟩ := ih s1 h2 (by omega)
        exact ⟨r, by simp [hull_loop, h1, hr]⟩
  have hull_loop_more : ∀ (fuel : Nat) (s : hull_state ℝ) (r : List (point ℝ)),
      hull_loop rm fuel s = some r → hull_loop rm (fuel + 1) s = some r := by
    intro fuel
    induction fuel with
    | zero =>
      intro s r h
      simp [hull_loop] at h
    | succ n ih =>
      intro s r h
      rw [hull_loop] at h ⊢
      cases hs : hull_step rm s with
      | none =>
        rw [hs] at h
        exact h
      | some s1 =>
        rw [hs] at h
        simp only at h ⊢
        exact ih s1 r h
  unfold convex_hull convex_hull_fuel
  by_cases hlen : vs.length < 3
  · simp only [if_pos hlen]
    exact ⟨vs, rfl, rfl⟩
  · simp only [if_neg hlen]
    cases vs with
    | nil => exact ⟨[], rfl, rfl⟩
    | cons first rest =>
      simp only
      obtain ⟨hinv, hcount⟩ := hull_init_inv first rest
      obtain ⟨r, hr⟩ := hull_loop_stops _ _ _ _ hinv hcount
      exact ⟨r, hr, hull_loop_more _ _ _ hr⟩

end convex_polygon
end search

namespace search
namespace convex_polygon

set_option maxHeartbeats 4000000 in
/-- C33 (fails): for the five input vertices (0,0), (1e11,1), (-1e11,0), (-2e11,1), (1e11,1)
(the second one given twice) `convex_hull` returns five vertices, every one of them an
input vertex, with the point (1e11,1) at the first and at the fourth place of the
result. -/
theorem convex_hull_keeps_repeated_vertex :
    convex_hull rm [⟨0, 0⟩, ⟨100000000000, 1⟩, ⟨-100000000000, 0⟩, ⟨-200000000000, 1⟩,
        ⟨100000000000, 1⟩] =
      some [⟨100000000000, 1⟩, ⟨-100000000000, 0⟩, ⟨-200000000000, 1⟩, ⟨100000000000, 1⟩,
        ⟨0, 0⟩] ∧
    3 ≤ ([⟨0, 0⟩, ⟨100000000000, 1⟩, ⟨-100000000000, 0⟩, ⟨-200000000000, 1⟩,
        ⟨100000000000, 1⟩] : List (point ℝ)).length ∧
    (∀ v ∈ ([⟨100000000000, 1⟩, ⟨-100000000000, 0⟩, ⟨-200000000000, 1⟩, ⟨100000000000, 1⟩,
        ⟨0, 0⟩] : List (point ℝ)),
      v ∈ ([⟨0, 0⟩, ⟨100000000000, 1⟩, ⟨-100000000000, 0⟩, ⟨-200000000000, 1⟩,
        ⟨100000000000, 1⟩] : List (point ℝ))) ∧
    ¬ ([⟨100000000000, 1⟩, ⟨-100000000000, 0⟩, ⟨-200000000000, 1⟩, ⟨100000000000, 1⟩,
        ⟨0, 0⟩] : List (point ℝ)).Nodup := by
  have pi_lt_bound : Real.pi < 629 / 100 := by linarith [Real.pi_lt_four]
  -- The hull of the input with a repeated vertex holds that vertex twice.
  have twice_hull (c : ℝ) (hc : 100000000000 ≤ c) :
      convex_hull rm [⟨0, 0⟩, ⟨c, 1⟩, ⟨-c, 0⟩, ⟨-(2 * c), 1⟩, ⟨c, 1⟩] =
        some [⟨c, 1⟩, ⟨-c, 0⟩, ⟨-(2 * c), 1⟩, ⟨c, 1⟩, ⟨0, 0⟩] := by
    -- The input with a repeated vertex, first pass: `(c, 1)` is snapped to the angle 0 and
    -- selected; its second copy is not farther and is left.
    have twice_step1 (c : ℝ) (hc : 100000000000 ≤ c) :
        hull_step rm
          { vertices := [⟨⟨0, 0⟩, vstate.first⟩, ⟨⟨c, 1⟩, vstate.unused⟩, ⟨⟨-c, 0⟩, vstate.unused⟩, ⟨⟨-(2 * c), 1⟩, vstate.unused⟩, ⟨⟨c, 1⟩, vstate.unused⟩]
            hull := [⟨0, 0⟩]
            last_added := ⟨0, 0⟩
            previous := ⟨0 - 1, 0⟩
            select := 0 } =
        some
          { vertices := [⟨⟨0, 0⟩, vstate.first⟩, ⟨⟨c, 1⟩, vstate.used⟩, ⟨⟨-c, 0⟩, vstate.unused⟩, ⟨⟨-(2 * c), 1⟩, vstate.unused⟩, ⟨⟨c, 1⟩, vstate.unused⟩]
            hull := [⟨c, 1⟩, ⟨0, 0⟩]
            last_added := ⟨c, 1⟩
            previous := ⟨0, 0⟩
            select := 1 } := by
      have hc0 : 0 < c := by linarith
      have hcc : 0 < c * c := mul_pos hc0 hc0
      have hccc : 0 < c * c * c := mul_pos hcc hc0
      have sA : point.angle rm ⟨0, 0⟩ ((point.smul ⟨0, 0⟩ 2).sub ⟨0 - 1, 0⟩) ⟨c, 1⟩ = 0 :=
        point.angle_snap _ _ _
          (by simp only [point.sub, point.dot, point.smul]; nlinarith)
          (by simp only [point.sub, point.cross, point.smul]; nlinarith)
          (by simp only [point.sub, point.cross, point.dot, point.smul]; nlinarith)
      have aB : point.angle rm ⟨0, 0⟩ ((point.smul ⟨0, 0⟩ 2).sub ⟨0 - 1, 0⟩) ⟨-c, 0⟩ = Real.pi :=
        point.angle_back _ _ _
          (by simp only [point.sub, point.dot, point.smul]; nlinarith)
          (by simp only [point.sub, point.cross, point.smul]; ring)
      have oC := point.angle_obtuse ⟨0, 0⟩ ((point.smul ⟨0, 0⟩ 2).sub ⟨0 - 1, 0⟩) ⟨-(2 * c), 1⟩
          (by simp only [point.sub, point.dot, point.smul]; nlinarith)
          (by simp only [point.sub, point.cross, point.smul]; nlinarith)
      have hscan : (scan rm ⟨0, 0⟩ ⟨0 - 1, 0⟩
          [⟨⟨0, 0⟩, vstate.first⟩, ⟨⟨c, 1⟩, vstate.unused⟩, ⟨⟨-c, 0⟩, vstate.unused⟩, ⟨⟨-(2 * c), 1⟩, vstate.unused⟩, ⟨⟨c, 1⟩, vstate.unused⟩]
          0 (629 / 100) 0 0).2.2 = 1 := by
        rw [scan_same _ _ _ _ _ _ _ _ _ (by simp) (by simp [point.eq]),
          scan_take _ _ _ _ _ _ _ _ _ (by simp) (by simp [point.eq] <;> intros <;> linarith)
            (Or.inl (by rw [sA]; norm_num)),
          scan_keep _ _ _ _ _ _ _ _ _ (by simp) (by simp [point.eq] <;> intros <;> linarith)
            (by
              rw [sA, aB]; intro h
              simp only at h
              rcases h with h | h
              · linarith [Real.pi_gt_three]
              · linarith [Real.pi_gt_three, h.1]),
          scan_keep _ _ _ _ _ _ _ _ _ (by simp) (by simp [point.eq] <;> intros <;> linarith)
            (by
              rw [sA]; intro h
              simp only at h
              rcases h with h | h
              · exact absurd h (not_lt.mpr (le_of_lt (lt_trans (half_pos Real.pi_pos) oC.1)))
              · exact absurd h.1 (ne_of_gt (lt_trans (half_pos Real.pi_pos) oC.1))),
          scan_keep _ _ _ _ _ _ _ _ _ (by simp) (by simp [point.eq] <;> intros <;> linarith)
            (by
              rw [sA]; intro h
              rcases h with h | h
              · exact lt_irrefl _ h
              · exact lt_irrefl _ h.2),
          scan_nil]
      unfold hull_step
      simp only [hscan]
      simp [set_state]
    -- The input with a repeated vertex, second pass: from `(c, 1)` the vertex `(-2c, 1)`
    -- makes the smallest turn; the second copy of `(c, 1)` is skipped.
    have twice_step2 (c : ℝ) (hc : 100000000000 ≤ c) :
        hull_step rm
          { vertices := [⟨⟨0, 0⟩, vstate.first⟩, ⟨⟨c, 1⟩, vstate.used⟩, ⟨⟨-c, 0⟩, vstate.unused⟩, ⟨⟨-(2 * c), 1⟩, vstate.unused⟩, ⟨⟨c, 1⟩, vstate.unused⟩]
            hull := [⟨c, 1⟩, ⟨0, 0⟩]
            last_added := ⟨c, 1⟩
            previous := ⟨0, 0⟩
            select := 1 } =
        some
          { vertices := [⟨⟨0, 0⟩, vstate.first⟩, ⟨⟨c, 1⟩, vstate.used⟩, ⟨⟨-c, 0⟩, vstate.unused⟩, ⟨⟨-(2 * c), 1⟩, vstate.used⟩, ⟨⟨c, 1⟩, vstate.unused⟩]
            hull := [⟨-(2 * c), 1⟩, ⟨c, 1⟩, ⟨0, 0⟩]
            last_added := ⟨-(2 * c), 1⟩
            previous := ⟨c, 1⟩
            select := 3 } := by
      have hc0 : 0 < c := by linarith
      have hcc : 0 < c * c := mul_pos hc0 hc0
      have hccc : 0 < c * c * c := mul_pos hcc hc0
      have aF : point.angle rm ⟨c, 1⟩ ((point.smul ⟨c, 1⟩ 2).sub ⟨0, 0⟩) ⟨0, 0⟩ = Real.pi :=
        point.angle_back _ _ _
          (by simp only [point.sub, point.dot, point.smul]; nlinarith)
          (by simp only [point.sub, point.cross, point.smul]; ring)
      have oB := point.angle_obtuse ⟨c, 1⟩ ((point.smul ⟨c, 1⟩ 2).sub ⟨0, 0⟩) ⟨-c, 0⟩
          (by simp only [point.sub, point.dot, point.smul]; nlinarith)
          (by simp only [point.sub, point.cross, point.smul]; nlinarith)
      have ltCB := point.angle_obtuse_lt ⟨c, 1⟩ ((point.smul ⟨c, 1⟩ 2).sub ⟨0, 0⟩)
          ⟨-(2 * c), 1⟩ ⟨-c, 0⟩
          (by simp only [point.sub, point.dot, point.smul]; nlinarith)
          (by simp only [point.sub, point.cross, point.smul]; nlinarith)
          (by simp only [point.sub, point.dot, point.smul]; nlinarith)
          (by simp only [point.sub, point.cross, point.smul]; nlinarith)
          (by simp only [point.sub, point.cross, point.dot, point.smul]; nlinarith)
      have hscan : (scan rm ⟨c, 1⟩ ⟨0, 0⟩
          [⟨⟨0, 0⟩, vstate.first⟩, ⟨⟨c, 1⟩, vstate.used⟩, ⟨⟨-c, 0⟩, vstate.unused⟩, ⟨⟨-(2 * c), 1⟩, vstate.unused⟩, ⟨⟨c, 1⟩, vstate.unused⟩]
          0 (629 / 100) 0 1).2.2 = 3 := by
        rw [scan_take _ _ _ _ _ _ _ _ _ (by simp) (by simp [point.eq] <;> intros <;> linarith)
            (Or.inl (by rw [aF]; exact pi_lt_bound)),
          scan_used _ _ _ _ _ _ _ _ _ (by simp),
          scan_take _ _ _ _ _ _ _ _ _ (by simp) (by simp [point.eq] <;> intros <;> linarith)
            (Or.inl (by rw [aF]; exact oB.2)),
          scan_take _ _ _ _ _ _ _ _ _ (by simp) (by simp [point.eq] <;> intros <;> linarith)
            (Or.inl (by exact ltCB)),
          scan_same _ _ _ _ _ _ _ _ _ (by simp) (by simp [point.eq]),
          scan_nil]
      unfold hull_step
      simp only [hscan]
      simp [set_state]
    -- The input with a repeated vertex, third pass: from `(-2c, 1)` the vertex `(-c, 0)`
    -- makes the smallest turn.
    have twice_step3 (c : ℝ) (hc : 100000000000 ≤ c) :
        hull_step rm
          { vertices := [⟨⟨0, 0⟩, vstate.first⟩, ⟨⟨c, 1⟩, vstate.used⟩, ⟨⟨-c, 0⟩, vstate.unused⟩, ⟨⟨-(2 * c), 1⟩, vstate.used⟩, ⟨⟨c, 1⟩, vstate.unused⟩]
            hull := [⟨-(2 * c), 1⟩, ⟨c, 1⟩, ⟨0, 0⟩]
            last_added := ⟨-(2 * c), 1⟩
            previous := ⟨c, 1⟩
            select := 3 } =
        some
          { vertices := [⟨⟨0, 0⟩, vstate.first⟩, ⟨⟨c, 1⟩, vstate.used⟩, ⟨⟨-c, 0⟩, vstate.used⟩, ⟨⟨-(2 * c), 1⟩, vstate.used⟩, ⟨⟨c, 1⟩, vstate.unused⟩]
            hull := [⟨-c, 0⟩, ⟨-(2 * c), 1⟩, ⟨c, 1⟩, ⟨0, 0⟩]
            last_added := ⟨-c, 0⟩
            previous := ⟨-(2 * c), 1⟩
            select := 2 } := by
      have hc0 : 0 < c := by linarith
      have hcc : 0 < c * c := mul_pos hc0 hc0
      have hccc : 0 < c * c * c := mul_pos hcc hc0
      have oF := point.angle_obtuse ⟨-(2 * c), 1⟩ ((point.smul ⟨-(2 * c), 1⟩ 2).sub ⟨c, 1⟩) ⟨0, 0⟩
          (by simp only [point.sub, point.dot, point.smul]; nlinarith)
          (by simp only [point.sub, point.cross, point.smul]; nlinarith)
      have ltBF := point.angle_obtuse_lt ⟨-(2 * c), 1⟩ ((point.smul ⟨-(2 * c), 1⟩ 2).sub ⟨c, 1⟩)
          ⟨-c, 0⟩ ⟨0, 0⟩
          (by simp only [point.sub, point.dot, point.smul]; nlinarith)
          (by simp only [point.sub, point.cross, point.smul]; nlinarith)
          (by simp only [point.sub, point.dot, point.smul]; nlinarith)
          (by simp only [point.sub, point.cross, point.smul]; nlinarith)
          (by simp only [point.sub, point.cross, point.dot, point.smul]; nlinarith)
      have oB := point.angle_obtuse ⟨-(2 * c), 1⟩ ((point.smul ⟨-(2 * c), 1⟩ 2).sub ⟨c, 1⟩) ⟨-c, 0⟩
          (by simp only [point.sub, point.dot, point.smul]; nlinarith)
          (by simp only [point.sub, point.cross, point.smul]; nlinarith)
      have aA : point.angle rm ⟨-(2 * c), 1⟩ ((point.smul ⟨-(2 * c), 1⟩ 2).sub ⟨c, 1⟩) ⟨c, 1⟩ = Real.pi :=
        point.angle_back _ _ _
          (by simp only [point.sub, point.dot, point.smul]; nlinarith)
          (by simp only [point.sub, point.cross, point.smul]; ring)
      have hscan : (scan rm ⟨-(2 * c), 1⟩ ⟨c, 1⟩
          [⟨⟨0, 0⟩, vstate.first⟩, ⟨⟨c, 1⟩, vstate.used⟩, ⟨⟨-c, 0⟩, vstate.unused⟩, ⟨⟨-(2 * c), 1⟩, vstate.used⟩, ⟨⟨c, 1⟩, vstate.unused⟩]
          0 (629 / 100) 0 3).2.2 = 2 := by
        rw [scan_take _ _ _ _ _ _ _ _ _ (by simp) (by simp [point.eq] <;> intros <;> linarith)
            (Or.inl (by exact lt_trans oF.2 pi_lt_bound)),
          scan_used _ _ _ _ _ _ _ _ _ (by simp),
          scan_take _ _ _ _ _ _ _ _ _ (by simp) (by simp [point.eq] <;> intros <;> linarith)
            (Or.inl (by exact ltBF)),
          scan_used _ _ _ _ _ _ _ _ _ (by simp),
          scan_keep _ _ _ _ _ _ _ _ _ (by simp) (by simp [point.eq] <;> intros <;> linarith)
            (by rw [aA]; exact not_better oB.2),
          scan_nil]
      unfold hull_step
      simp only [hscan]
      simp [set_state]
    -- The input with a repeated vertex, fourth pass: from `(-c, 0)` the first vertex `(0, 0)`
    -- and the second copy of `(c, 1)` are both snapped to the angle 0, and the copy, which is
    -- farther, is selected.
    have twice_step4 (c : ℝ) (hc : 100000000000 ≤ c) :
        hull_step rm
          { vertices := [⟨⟨0, 0⟩, vstate.first⟩, ⟨⟨c, 1⟩, vstate.used⟩, ⟨⟨-c, 0⟩, vstate.used⟩, ⟨⟨-(2 * c), 1⟩, vstate.used⟩, ⟨⟨c, 1⟩, vstate.unused⟩]
            hull := [⟨-c, 0⟩, ⟨-(2 * c), 1⟩, ⟨c, 1⟩, ⟨0, 0⟩]
            last_added := ⟨-c, 0⟩
            previous := ⟨-(2 * c), 1⟩
            select := 2 } =
        some
          { vertices := [⟨⟨0, 0⟩, vstate.first⟩, ⟨⟨c, 1⟩, vstate.used⟩, ⟨⟨-c, 0⟩, vstate.used⟩, ⟨⟨-(2 * c), 1⟩, vstate.used⟩, ⟨⟨c, 1⟩, vstate.used⟩]
            hull := [⟨c, 1⟩, ⟨-c, 0⟩, ⟨-(2 * c), 1⟩, ⟨c, 1⟩, ⟨0, 0⟩]
            last_added := ⟨c, 1⟩
            previous := ⟨-c, 0⟩
            select := 4 } := by
      have hc0 : 0 < c := by linarith
      have hcc : 0 < c * c := mul_pos hc0 hc0
      have hccc : 0 < c * c * c := mul_pos hcc hc0
      have sF : point.angle rm ⟨-c, 0⟩ ((point.smul ⟨-c, 0⟩ 2).sub ⟨-(2 * c), 1⟩) ⟨0, 0⟩ = 0 :=
        point.angle_snap _ _ _
          (by simp only [point.sub, point.dot, point.smul]; nlinarith)
          (by simp only [point.sub, point.cross, point.smul]; nlinarith)
          (by simp only [point.sub, point.cross, point.dot, point.smul]; nlinarith)
      have sA : point.angle rm ⟨-c, 0⟩ ((point.smul ⟨-c, 0⟩ 2).sub ⟨-(2 * c), 1⟩) ⟨c, 1⟩ = 0 :=
        point.angle_snap _ _ _
          (by simp only [point.sub, point.dot, point.smul]; nlinarith)
          (by simp only [point.sub, point.cross, point.smul]; nlinarith)
          (by simp only [point.sub, point.cross, point.dot, point.smul]; nlinarith)
      have hdist : point.abs rm ((⟨c, 1⟩ : point ℝ).sub ⟨-c, 0⟩) >
          point.abs rm ((⟨0, 0⟩ : point ℝ).sub ⟨-c, 0⟩) := by
        simp only [point.abs, point.sub, rm_sqrt, gt_iff_lt]
        apply Real.sqrt_lt_sqrt
        · nlinarith
        · nlinarith
      have hscan : (scan rm ⟨-c, 0⟩ ⟨-(2 * c), 1⟩
          [⟨⟨0, 0⟩, vstate.first⟩, ⟨⟨c, 1⟩, vstate.used⟩, ⟨⟨-c, 0⟩, vstate.used⟩, ⟨⟨-(2 * c), 1⟩, vstate.used⟩, ⟨⟨c, 1⟩, vstate.unused⟩]
          0 (629 / 100) 0 2).2.2 = 4 := by
        rw [scan_take _ _ _ _ _ _ _ _ _ (by simp) (by simp [point.eq] <;> intros <;> linarith)
            (Or.inl (by rw [sF]; norm_num)),
          scan_used _ _ _ _ _ _ _ _ _ (by simp),
          scan_used _ _ _ _ _ _ _ _ _ (by simp),
          scan_used _ _ _ _ _ _ _ _ _ (by simp),
          scan_take _ _ _ _ _ _ _ _ _ (by simp) (by simp [point.eq] <;> intros <;> linarith)
            (Or.inr (by rw [sF, sA]; exact ⟨rfl, hdist⟩)),
          scan_nil]
      unfold hull_step
      simp only [hscan]
      simp [set_state]
    -- The input with a repeated vertex, last pass: only the first vertex is left.
    have twice_step5 (c : ℝ) (hc : 100000000000 ≤ c) :
        hull_step rm
          { vertices := [⟨⟨0, 0⟩, vstate.first⟩, ⟨⟨c, 1⟩, vstate.used⟩, ⟨⟨-c, 0⟩, vstate.used⟩, ⟨⟨-(2 * c), 1⟩, vstate.used⟩, ⟨⟨c, 1⟩, vstate.used⟩]
            hull := [⟨c, 1⟩, ⟨-c, 0⟩, ⟨-(2 * c), 1⟩, ⟨c, 1⟩, ⟨0, 0⟩]
            last_added := ⟨c, 1⟩
            previous := ⟨-c, 0⟩
            select := 4 } =
        Option.none := by
      have hc0 : 0 < c := by linarith
      have hcc : 0 < c * c := mul_pos hc0 hc0
      have hccc : 0 < c * c * c := mul_pos hcc hc0
      have rF := point.angle_reflex ⟨c, 1⟩ ((point.smul ⟨c, 1⟩ 2).sub ⟨-c, 0⟩) ⟨0, 0⟩
          (by simp only [point.sub, point.dot, point.smul]; nlinarith)
          (by simp only [point.sub, point.cross, point.smul]; nlinarith)
      have hb : 3 * Real.pi / 2 < 629 / 100 := by linarith [Real.pi_lt_four]
      have hscan : (scan rm ⟨c, 1⟩ ⟨-c, 0⟩
          [⟨⟨0, 0⟩, vstate.first⟩, ⟨⟨c, 1⟩, vstate.used⟩, ⟨⟨-c, 0⟩, vstate.used⟩, ⟨⟨-(2 * c), 1⟩, vstate.used⟩, ⟨⟨c, 1⟩, vstate.used⟩]
          0 (629 / 100) 0 4).2.2 = 0 := by
        rw [scan_take _ _ _ _ _ _ _ _ _ (by simp) (by simp [point.eq] <;> intros <;> linarith)
            (Or.inl (by exact lt_trans rF.2 hb)),
          scan_used _ _ _ _ _ _ _ _ _ (by simp),
          scan_used _ _ _ _ _ _ _ _ _ (by simp),
          scan_used _ _ _ _ _ _ _ _ _ (by simp),
          scan_used _ _ _ _ _ _ _ _ _ (by simp),
          scan_nil]
      unfold hull_step
      simp only [hscan]
      simp
    have hc0 : 0 < c := by linarith
    have hlr : lower_right [(⟨c, 1⟩ : point ℝ), ⟨-c, 0⟩, ⟨-(2 * c), 1⟩, ⟨c, 1⟩] 1
        ⟨0, 0⟩ 0 = (⟨0, 0⟩, 0) := by
      have h1 : ¬ ((1 : ℝ) < 0) := by norm_num
      have h3 : ¬ (-c > 0) := by linarith
      simp [lower_right, h1, h3]
    unfold convex_hull convex_hull_fuel
    simp only [List.length_cons, List.length_nil, Nat.reduceAdd, Nat.reduceLT, if_false]
    simp only [hull_init, hlr, List.map, set_state]
    rw [hull_loop, twice_step1 c hc]
    simp only
    rw [hull_loop, twice_step2 c hc]
    simp only
    rw [hull_loop, twice_step3 c hc]
    simp only
    rw [hull_loop, twice_step4 c hc]
    simp only
    rw [hull_loop, twice_step5 c hc]
  have e1 : (2 * 100000000000 : ℝ) = 200000000000 := by norm_num
  have h := twice_hull 100000000000 (le_refl _)
  rw [e1] at h
  refine ⟨h, by simp, ?_, ?_⟩
  · intro v hv
    simp only [List.mem_cons, List.mem_singleton, List.not_mem_nil, or_false] at hv ⊢
    tauto
  · simp

end convex_polygon
end search

namespace search

/-- A quadrilateral with a long flat side and a long side that rises by 1 over `2c + 1`. -/
noncomputable def wedge (c : ℝ) : List (point ℝ) := [⟨-(3 * c), 0⟩, ⟨-1, 2⟩, ⟨2 * c, 3⟩, ⟨0, 0⟩]

/-- The object the constructor builds from `wedge c`. -/
noncomputable def wedge_pf (c : ℝ) : convex_polygon_pf ℝ :=
  { num_vertices_v := 4
    area_v := 5 * c + 3 / 2
    half_area_v := (5 * c + 3 / 2) / 2
    sides := [⟨⟨-(3 * c), 0⟩, ⟨-1, 2⟩⟩, ⟨⟨-1, 2⟩, ⟨2 * c, 3⟩⟩, ⟨⟨2 * c, 3⟩, ⟨0, 0⟩⟩,
      ⟨⟨0, 0⟩, ⟨-(3 * c), 0⟩⟩]
    function := []
    pf_ok := false
    pf_max_ok := false
    sc_ok := false
    maximum_v := 0
    num_segments_v := 0
    shortest_curve := ⟨ppf_form.none, ⟨0, 0⟩, ⟨0, 0⟩, ⟨0, 0⟩⟩ }

end search

namespace search
namespace convex_polygon_pf

theorem side_at_wedge (c : ℝ) :
    (wedge_pf c).side_at 0 = ⟨⟨-(3 * c), 0⟩, ⟨-1, 2⟩⟩ ∧
    (wedge_pf c).side_at 1 = ⟨⟨-1, 2⟩, ⟨2 * c, 3⟩⟩ ∧
    (wedge_pf c).side_at 2 = ⟨⟨2 * c, 3⟩, ⟨0, 0⟩⟩ ∧
    (wedge_pf c).side_at 3 = ⟨⟨0, 0⟩, ⟨-(3 * c), 0⟩⟩ :=
  ⟨rfl, rfl, rfl, rfl⟩

set_option maxHeartbeats 4000000 in
/-- C32 (fails): the quadrilateral (-3e11,0), (-1,2), (2e11,3), (0,0) is its own hull, and
the partial function that the side-pair constructor builds for its sides 3 and 1 has the
form `constant` with `a = 3e11 - 1` and `b = 2e11 + 2.5`, so `b < a`, and `a` is above
`half_area ()`. -/
theorem side_pair_domain_reversed :
    convex_polygon.convex_hull rm
        [⟨-300000000000, 0⟩, ⟨-1, 2⟩, ⟨200000000000, 3⟩, ⟨0, 0⟩] =
      some [⟨-300000000000, 0⟩, ⟨-1, 2⟩, ⟨200000000000, 3⟩, ⟨0, 0⟩] ∧
    (partial_pf.of_sides rm
      (of_polygon rm [⟨-300000000000, 0⟩, ⟨-1, 2⟩, ⟨200000000000, 3⟩, ⟨0, 0⟩])
      3 1 Option.none).1.form = ppf_form.constant ∧
    (partial_pf.of_sides rm
      (of_polygon rm [⟨-300000000000, 0⟩, ⟨-1, 2⟩, ⟨200000000000, 3⟩, ⟨0, 0⟩])
      3 1 Option.none).1.a = 299999999999 ∧
    (partial_pf.of_sides rm
      (of_polygon rm [⟨-300000000000, 0⟩, ⟨-1, 2⟩, ⟨200000000000, 3⟩, ⟨0, 0⟩])
      3 1 Option.none).1.b = 400000000005 / 2 ∧
    (of_polygon rm [⟨-300000000000, 0⟩, ⟨-1, 2⟩, ⟨200000000000, 3⟩, ⟨0, 0⟩]).half_area_v =
      1000000000003 / 4 ∧
    ((partial_pf.of_sides rm
      (of_polygon rm [⟨-300000000000, 0⟩, ⟨-1, 2⟩, ⟨200000000000, 3⟩, ⟨0, 0⟩])
      3 1 Option.none).1.b <
      (partial_pf.of_sides rm
        (of_polygon rm [⟨-300000000000, 0⟩, ⟨-1, 2⟩, ⟨200000000000, 3⟩, ⟨0, 0⟩])
        3 1 Option.none).1.a) := by
  have pi_lt_bound : Real.pi < 629 / 100 := by linarith [Real.pi_lt_four]
  have abs_ne_zero_rm (x y : ℝ) (h : 0 < x * x + y * y) : point.abs rm ⟨x, y⟩ ≠ 0 := by
    unfold point.abs
    rw [rm_sqrt]
    exact ne_of_gt (Real.sqrt_pos.mpr h)
  -- The quadrilateral is its own hull.
  have wedge_hull (c : ℝ) (hc : 100000000000 ≤ c) :
      convex_polygon.convex_hull rm (wedge c) = some (wedge c) := by
    -- The quadrilateral, first pass: `(2c, 3)` is snapped to the angle 0 and selected.
    have wedge_step1 (c : ℝ) (hc : 100000000000 ≤ c) :
        convex_polygon.hull_step rm
          { vertices := [⟨⟨-(3 * c), 0⟩, vstate.unused⟩, ⟨⟨-1, 2⟩, vstate.unused⟩, ⟨⟨2 * c, 3⟩, vstate.unused⟩, ⟨⟨0, 0⟩, vstate.first⟩]
            hull := [⟨0, 0⟩]
            last_added := ⟨0, 0⟩
            previous := ⟨0 - 1, 0⟩
            select := 3 } =
        some
          { vertices := [⟨⟨-(3 * c), 0⟩, vstate.unused⟩, ⟨⟨-1, 2⟩, vstate.unused⟩, ⟨⟨2 * c, 3⟩, vstate.used⟩, ⟨⟨0, 0⟩, vstate.first⟩]
            hull := [⟨2 * c, 3⟩, ⟨0, 0⟩]
            last_added := ⟨2 * c, 3⟩
            previous := ⟨0, 0⟩
            select := 2 } := by
      have hc0 : 0 < c := by linarith
      have hcc : 0 < c * c := mul_pos hc0 hc0
      have hccc : 0 < c * c * c := mul_pos hcc hc0
      have a0 : point.angle rm ⟨0, 0⟩ ((point.smul ⟨0, 0⟩ 2).sub ⟨0 - 1, 0⟩) ⟨-(3 * c), 0⟩ = Real.pi :=
        point.angle_back _ _ _
          (by simp only [point.sub, point.dot, point.smul]; nlinarith)
          (by simp only [point.sub, point.cross, point.smul]; ring)
      have o1 := point.angle_obtuse ⟨0, 0⟩ ((point.smul ⟨0, 0⟩ 2).sub ⟨0 - 1, 0⟩) ⟨-1, 2⟩
          (by simp only [point.sub, point.dot, point.smul]; nlinarith)
          (by simp only [point.sub, point.cross, point.smul]; nlinarith)
      have s2 : point.angle rm ⟨0, 0⟩ ((point.smul ⟨0, 0⟩ 2).sub ⟨0 - 1, 0⟩) ⟨2 * c, 3⟩ = 0 :=
        point.angle_snap _ _ _
          (by simp only [point.sub, point.dot, point.smul]; nlinarith)
          (by simp only [point.sub, point.cross, point.smul]; nlinarith)
          (by simp only [point.sub, point.cross, point.dot, point.smul]; nlinarith)
      have hscan : (convex_polygon.scan rm ⟨0, 0⟩ ⟨0 - 1, 0⟩
          [⟨⟨-(3 * c), 0⟩, vstate.unused⟩, ⟨⟨-1, 2⟩, vstate.unused⟩, ⟨⟨2 * c, 3⟩, vstate.unused⟩, ⟨⟨0, 0⟩, vstate.first⟩]
          0 (629 / 100) 0 3).2.2 = 2 := by
        rw [convex_polygon.scan_take _ _ _ _ _ _ _ _ _ (by simp) (by simp [point.eq] <;> intros <;> linarith)
            (Or.inl (by rw [a0]; exact pi_lt_bound)),
          convex_polygon.scan_take _ _ _ _ _ _ _ _ _ (by simp) (by simp [point.eq] <;> intros <;> linarith)
            (Or.inl (by rw [a0]; exact o1.2)),
          convex_polygon.scan_take _ _ _ _ _ _ _ _ _ (by simp) (by simp [point.eq] <;> intros <;> linarith)
            (Or.inl (by rw [s2]; exact lt_trans (half_pos Real.pi_pos) o1.1)),
          convex_polygon.scan_same _ _ _ _ _ _ _ _ _ (by simp) (by simp [point.eq]),
          convex_polygon.scan_nil]
      unfold convex_polygon.hull_step
      simp only [hscan]
      simp [convex_polygon.set_state]
    -- The quadrilateral, second pass: from `(2c, 3)` the vertex `(-1, 2)` makes the smallest
    -- turn.
    have wedge_step2 (c : ℝ) (hc : 100000000000 ≤ c) :
        convex_polygon.hull_step rm
          { vertices := [⟨⟨-(3 * c), 0⟩, vstate.unused⟩, ⟨⟨-1, 2⟩, vstate.unused⟩, ⟨⟨2 * c, 3⟩, vstate.used⟩, ⟨⟨0, 0⟩, vstate.first⟩]
            hull := [⟨2 * c, 3⟩, ⟨0, 0⟩]
            last_added := ⟨2 * c, 3⟩
            previous := ⟨0, 0⟩
            select := 2 } =
        some
          { vertices := [⟨⟨-(3 * c), 0⟩, vstate.unused⟩, ⟨⟨-1, 2⟩, vstate.used⟩, ⟨⟨2 * c, 3⟩, vstate.used⟩, ⟨⟨0, 0⟩, vstate.first⟩]
            hull := [⟨-1, 2⟩, ⟨2 * c, 3⟩, ⟨0, 0⟩]
            last_added := ⟨-1, 2⟩
            previous := ⟨2 * c, 3⟩
            select := 1 } := by
      have hc0 : 0 < c := by linarith
      have hcc : 0 < c * c := mul_pos hc0 hc0
      have hccc : 0 < c * c * c := mul_pos hcc hc0
      have o0 := point.angle_obtuse ⟨2 * c, 3⟩ ((point.smul ⟨2 * c, 3⟩ 2).sub ⟨0, 0⟩) ⟨-(3 * c), 0⟩
          (by simp only [point.sub, point.dot, point.smul]; nlinarith)
          (by simp only [point.sub, point.cross, point.smul]; nlinarith)
      have o1 := point.angle_obtuse ⟨2 * c, 3⟩ ((point.smul ⟨2 * c, 3⟩ 2).sub ⟨0, 0⟩) ⟨-1, 2⟩
          (by simp only [point.sub, point.dot, point.smul]; nlinarith)
          (by simp only [point.sub, point.cross, point.smul]; nlinarith)
      have lt10 := point.angle_obtuse_lt ⟨2 * c, 3⟩ ((point.smul ⟨2 * c, 3⟩ 2).sub ⟨0, 0⟩)
          ⟨-1, 2⟩ ⟨-(3 * c), 0⟩
          (by simp only [point.sub, point.dot, point.smul]; nlinarith)
          (by simp only [point.sub, point.cross, point.smul]; nlinarith)
          (by simp only [point.sub, point.dot, point.smul]; nlinarith)
          (by simp only [point.sub, point.cross, point.smul]; nlinarith)
          (by simp only [point.sub, point.cross, point.dot, point.smul]; nlinarith)
      have aF : point.angle rm ⟨2 * c, 3⟩ ((point.smul ⟨2 * c, 3⟩ 2).sub ⟨0, 0⟩) ⟨0, 0⟩ = Real.pi :=
        point.angle_back _ _ _
          (by simp only [point.sub, point.dot, point.smul]; nlinarith)
          (by simp only [point.sub, point.cross, point.smul]; ring)
      have hscan : (convex_polygon.scan rm ⟨2 * c, 3⟩ ⟨0, 0⟩
          [⟨⟨-(3 * c), 0⟩, vstate.unused⟩, ⟨⟨-1, 2⟩, vstate.unused⟩, ⟨⟨2 * c, 3⟩, vstate.used⟩, ⟨⟨0, 0⟩, vstate.first⟩]
          0 (629 / 100) 0 2).2.2 = 1 := by
        rw [convex_polygon.scan_take _ _ _ _ _ _ _ _ _ (by simp) (by simp [point.eq] <;> intros <;> linarith)
            (Or.inl (by exact lt_trans o0.2 pi_lt_bound)),
          convex_polygon.scan_take _ _ _ _ _ _ _ _ _ (by simp) (by simp [point.eq] <;> intros <;> linarith)
            (Or.inl (by exact lt10)),
          convex_polygon.scan_used _ _ _ _ _ _ _ _ _ (by simp),
          convex_polygon.scan_keep _ _ _ _ _ _ _ _ _ (by simp) (by simp [point.eq] <;> intros <;> linarith)
            (by rw [aF]; exact convex_polygon.not_better o1.2),
          convex_polygon.scan_nil]
      unfold convex_polygon.hull_step
      simp only [hscan]
      simp [convex_polygon.set_state]
    -- The quadrilateral, third pass: from `(-1, 2)` the vertex `(-3c, 0)` is snapped to the
    -- angle 0 and selected.
    have wedge_step3 (c : ℝ) (hc : 100000000000 ≤ c) :
        convex_polygon.hull_step rm
          { vertices := [⟨⟨-(3 * c), 0⟩, vstate.unused⟩, ⟨⟨-1, 2⟩, vstate.used⟩, ⟨⟨2 * c, 3⟩, vstate.used⟩, ⟨⟨0, 0⟩, vstate.first⟩]
            hull := [⟨-1, 2⟩, ⟨2 * c, 3⟩, ⟨0, 0⟩]
            last_added := ⟨-1, 2⟩
            previous := ⟨2 * c, 3⟩
            select := 1 } =
        some
          { vertices := [⟨⟨-(3 * c), 0⟩, vstate.used⟩, ⟨⟨-1, 2⟩, vstate.used⟩, ⟨⟨2 * c, 3⟩, vstate.used⟩, ⟨⟨0, 0⟩, vstate.first⟩]
            hull := [⟨-(3 * c), 0⟩, ⟨-1, 2⟩, ⟨2 * c, 3⟩, ⟨0, 0⟩]
            last_added := ⟨-(3 * c), 0⟩
            previous := ⟨-1, 2⟩
            select := 0 } := by
      have hc0 : 0 < c := by linarith
      have hcc : 0 < c * c := mul_pos hc0 hc0
      have hccc : 0 < c * c * c := mul_pos hcc hc0
      have s0 : point.angle rm ⟨-1, 2⟩ ((point.smul ⟨-1, 2⟩ 2).sub ⟨2 * c, 3⟩) ⟨-(3 * c), 0⟩ = 0 :=
        point.angle_snap _ _ _
          (by simp only [point.sub, point.dot, point.smul]; nlinarith)
          (by simp only [point.sub, point.cross, point.smul]; nlinarith)
          (by simp only [point.sub, point.cross, point.dot, point.smul]; nlinarith)
      have oF := point.angle_obtuse ⟨-1, 2⟩ ((point.smul ⟨-1, 2⟩ 2).sub ⟨2 * c, 3⟩) ⟨0, 0⟩
          (by simp only [point.sub, point.dot, point.smul]; nlinarith)
          (by simp only [point.sub, point.cross, point.smul]; nlinarith)
      have hscan : (convex_polygon.scan rm ⟨-1, 2⟩ ⟨2 * c, 3⟩
          [⟨⟨-(3 * c), 0⟩, vstate.unused⟩, ⟨⟨-1, 2⟩, vstate.used⟩, ⟨⟨2 * c, 3⟩, vstate.used⟩, ⟨⟨0, 0⟩, vstate.first⟩]
          0 (629 / 100) 0 1).2.2 = 0 := by
        rw [convex_polygon.scan_take _ _ _ _ _ _ _ _ _ (by simp) (by simp [point.eq] <;> intros <;> linarith)
            (Or.inl (by rw [s0]; norm_num)),
          convex_polygon.scan_used _ _ _ _ _ _ _ _ _ (by simp),
          convex_polygon.scan_used _ _ _ _ _ _ _ _ _ (by simp),
          convex_polygon.scan_keep _ _ _ _ _ _ _ _ _ (by simp) (by simp [point.eq] <;> intros <;> linarith)
            (by rw [s0]; exact convex_polygon.not_better (lt_trans (half_pos Real.pi_pos) oF.1)),
          convex_polygon.scan_nil]
      unfold convex_polygon.hull_step
      simp only [hscan]
      simp [convex_polygon.set_state]
    -- The quadrilateral, last pass: only the first vertex is left.
    have wedge_step4 (c : ℝ) (hc : 100000000000 ≤ c) :
        convex_polygon.hull_step rm
          { vertices := [⟨⟨-(3 * c), 0⟩, vstate.used⟩, ⟨⟨-1, 2⟩, vstate.used⟩, ⟨⟨2 * c, 3⟩, vstate.used⟩, ⟨⟨0, 0⟩, vstate.first⟩]
            hull := [⟨-(3 * c), 0⟩, ⟨-1, 2⟩, ⟨2 * c, 3⟩, ⟨0, 0⟩]
            last_added := ⟨-(3 * c), 0⟩
            previous := ⟨-1, 2⟩
            select := 0 } =
        Option.none := by
      have hc0 : 0 < c := by linarith
      have hcc : 0 < c * c := mul_pos hc0 hc0
      have hccc : 0 < c * c * c := mul_pos hcc hc0
      have oF := point.angle_obtuse ⟨-(3 * c), 0⟩ ((point.smul ⟨-(3 * c), 0⟩ 2).sub ⟨-1, 2⟩) ⟨0, 0⟩
          (by simp only [point.sub, point.dot, point.smul]; nlinarith)
          (by simp only [point.sub, point.cross, point.smul]; nlinarith)
      have hscan : (convex_polygon.scan rm ⟨-(3 * c), 0⟩ ⟨-1, 2⟩
          [⟨⟨-(3 * c), 0⟩, vstate.used⟩, ⟨⟨-1, 2⟩, vstate.used⟩, ⟨⟨2 * c, 3⟩, vstate.used⟩, ⟨⟨0, 0⟩, vstate.first⟩]
          0 (629 / 100) 0 0).2.2 = 3 := by
        rw [convex_polygon.scan_used _ _ _ _ _ _ _ _ _ (by simp),
          convex_polygon.scan_used _ _ _ _ _ _ _ _ _ (by simp),
          convex_polygon.scan_used _ _ _ _ _ _ _ _ _ (by simp),
          convex_polygon.scan_take _ _ _ _ _ _ _ _ _ (by simp) (by simp [point.eq] <;> intros <;> linarith)
            (Or.inl (by exact lt_trans oF.2 pi_lt_bound)),
          convex_polygon.scan_nil]
      unfold convex_polygon.hull_step
      simp only [hscan]
      simp
    have hc0 : 0 < c := by linarith
    have hlr : convex_polygon.lower_right [(⟨-1, 2⟩ : point ℝ), ⟨2 * c, 3⟩, ⟨0, 0⟩] 1
        ⟨-(3 * c), 0⟩ 0 = (⟨0, 0⟩, 3) := by
      have h1 : ¬ ((2 : ℝ) < 0) := by norm_num
      have h2 : ¬ ((3 : ℝ) < 0) := by norm_num
      have h3 : (0 : ℝ) > -(3 * c) := by linarith
      simp [convex_polygon.lower_right, h1, h2, h3]
    unfold wedge convex_polygon.convex_hull convex_polygon.convex_hull_fuel
    simp only [List.length_cons, List.length_nil, Nat.reduceAdd, Nat.reduceLT, if_false]
    simp only [convex_polygon.hull_init, hlr, List.map, convex_polygon.set_state]
    rw [convex_polygon.hull_loop, wedge_step1 c hc]
    simp only
    rw [convex_polygon.hull_loop, wedge_step2 c hc]
    simp only
    rw [convex_polygon.hull_loop, wedge_step3 c hc]
    simp only
    rw [convex_polygon.hull_loop, wedge_step4 c hc]
  have of_polygon_wedge (c : ℝ) (hc : 100000000000 ≤ c) :
      of_polygon rm (wedge c) = wedge_pf c := by
    have wedge_area (c : ℝ) (hc : 100000000000 ≤ c) :
        convex_polygon.area (wedge c) = 5 * c + 3 / 2 := by
      have e1 : |(-1 - -(3 * c)) * (3 / 2) - 2 * ((2 * c - -(3 * c)) / 2)| = (c + 3) / 2 := by
        rw [abs_of_neg (by linarith)]
        ring
      have e2 : |(2 * c - -(3 * c)) * (0 / 2) - 3 * ((0 - -(3 * c)) / 2)| = 9 * c / 2 := by
        rw [abs_of_neg (by linarith)]
        ring
      simp only [convex_polygon.area, wedge, convex_polygon.area_loop, point.area, point.sign_area,
        point.sub, point.cross, point.sdiv, List.length_cons, List.length_nil, Nat.reduceAdd,
        Nat.reduceLT, if_false, sub_zero, zero_add, e1, e2]
      ring
    have hc0 : 0 < c := by linarith
    have e1 : point.abs rm ((⟨-(3 * c), 0⟩ : point ℝ).sub ⟨-1, 2⟩) ≠ 0 := by
      simp only [point.sub]
      exact abs_ne_zero_rm _ _ (by nlinarith)
    have e2 : point.abs rm ((⟨-1, 2⟩ : point ℝ).sub ⟨2 * c, 3⟩) ≠ 0 := by
      simp only [point.sub]
      exact abs_ne_zero_rm _ _ (by nlinarith)
    have e3 : point.abs rm ((⟨2 * c, 3⟩ : point ℝ).sub ⟨0, 0⟩) ≠ 0 := by
      simp only [point.sub]
      exact abs_ne_zero_rm _ _ (by nlinarith)
    have e4 : point.abs rm ((⟨0, 0⟩ : point ℝ).sub ⟨-(3 * c), 0⟩) ≠ 0 := by
      simp only [point.sub]
      exact abs_ne_zero_rm _ _ (by nlinarith)
    have hu : usub 4 0 = 4 := by unfold usub; norm_num
    unfold of_polygon
    rw [wedge_area c hc]
    simp only [wedge, List.length_cons, List.length_nil, Nat.reduceAdd, gt_iff_lt, Nat.reduceLT,
      if_true, fill_sides, if_neg e1, if_neg e2, if_neg e3, List.getLast_cons_cons,
      List.getLast_singleton, ne_eq, e4, not_false_eq_true, List.cons_append, List.nil_append,
      wedge_pf, hu]
  -- The pair of the flat side and the rising side of the quadrilateral: the angle between
  -- them is snapped to 0, the pair is treated as parallel, and the domain comes out with its
  -- left end above its right end.
  have wedge_pair_3_1 (c : ℝ) (hc : 100000000000 ≤ c) :
      (partial_pf.of_sides rm (wedge_pf c) 3 1 Option.none).1 =
        ⟨ppf_form.constant, 3 * c - 1, 2 * c + 5 / 2, 0,
          point.dist rm ⟨0, 0⟩ ⟨-1, 2⟩ ⟨2 * c, 3⟩, point.dist rm ⟨0, 0⟩ ⟨-1, 2⟩ ⟨2 * c, 3⟩,
          point.dist rm ⟨0, 0⟩ ⟨-1, 2⟩ ⟨2 * c, 3⟩⟩ := by
    have hc0 : 0 < c := by linarith
    have hcc : 0 < c * c := mul_pos hc0 hc0
    obtain ⟨s0, s1, s2, s3⟩ := side_at_wedge c
    have hθ : point.angle rm ⟨0, 0⟩ ((⟨-(3 * c), 0⟩ : point ℝ).sub ⟨0, 0⟩)
        (((⟨2 * c, 3⟩ : point ℝ).sub ⟨-1, 2⟩).neg) = 0 :=
      point.angle_snap _ _ _
        (by simp only [point.sub, point.dot, point.neg]; nlinarith)
        (by simp only [point.sub, point.cross, point.neg]; nlinarith)
        (by simp only [point.sub, point.cross, point.dot, point.neg]; nlinarith)
    have hne : -(3 * c) ≠ 0 := by linarith
    have hp2 : point.proj rm ⟨-1, 2⟩ ⟨0, 0⟩ ⟨-(3 * c), 0⟩ = 1 / (3 * c) := by
      rw [point.proj_horiz _ _ _ _ _ hne]
      field_simp
    have hq2 : point.proj rm ⟨2 * c, 3⟩ ⟨0, 0⟩ ⟨-(3 * c), 0⟩ = -(2 / 3) := by
      rw [point.proj_horiz _ _ _ _ _ hne]
      field_simp
      ring
    have hp2pos : (0 : ℝ) < 1 / (3 * c) := by positivity
    have hp2lt : (1 : ℝ) / (3 * c) < 1 := by
      rw [div_lt_one (by positivity)]
      linarith
    have hc1 : cyc_range 4 ((3 + 1) % 4) 1 = [0] := by decide
    have hc2 : cyc_range 4 ((1 + 1) % 4) 3 = [2] := by decide
    have hr : (⟨0, 0⟩ : point ℝ).add ((((⟨-(3 * c), 0⟩ : point ℝ).sub ⟨0, 0⟩)).smul (1 / (3 * c)))
        = ⟨-1, 0⟩ := by
      simp only [point.add, point.sub, point.smul, point.mk.injEq]
      constructor
      · field_simp
      · ring
    have hs : (⟨2 * c, 3⟩ : point ℝ).sub ((((⟨-(3 * c), 0⟩ : point ℝ).sub ⟨0, 0⟩)).smul (-(2 / 3)))
        = ⟨0, 3⟩ := by
      simp only [point.sub, point.smul, point.mk.injEq]
      constructor <;> ring
    have har : (wedge_pf c).area_pt 3 1 ⟨-1, 0⟩ = 3 * c - 1 := by
      have e : |(-(3 * c) - -1) * ((2 - 0) / 2) - (0 - 0) * ((-1 - -1) / 2)| = 3 * c - 1 := by
        rw [abs_of_neg (by linarith)]
        ring
      have hn : (wedge_pf c).num_vertices_v = 4 := rfl
      simp only [area_pt, hn, hc1, s0, List.foldl_cons, List.foldl_nil, point.area,
        point.sign_area, point.sub, point.cross, point.sdiv, e, zero_add]
    have has : (wedge_pf c).area_pt 1 3 ⟨0, 3⟩ = 3 * c := by
      have e : |(2 * c - 0) * ((0 - 3) / 2) - (3 - 3) * ((0 - 0) / 2)| = 3 * c := by
        rw [abs_of_neg (by linarith)]
        ring
      have hn : (wedge_pf c).num_vertices_v = 4 := rfl
      simp only [area_pt, hn, hc2, s2, List.foldl_cons, List.foldl_nil, point.area,
        point.sign_area, point.sub, point.cross, point.sdiv, e, zero_add]
    have hav : (wedge_pf c).area_v = 5 * c + 3 / 2 := rfl
    have hhv : (wedge_pf c).half_area_v = (5 * c + 3 / 2) / 2 := rfl
    have hmin1 : min (3 * c - 1) (3 * c) = 3 * c - 1 := min_eq_left (by linarith)
    have hmin2 : min (5 * c + 3 / 2 - (3 * c - 1)) ((5 * c + 3 / 2) / 2) = 2 * c + 5 / 2 := by
      rw [min_eq_left (by linarith)]
      ring
    have hab : ¬ (3 * c - 1 = 2 * c + 5 / 2) := by
      intro h
      linarith
    unfold partial_pf.of_sides
    simp only [s3, s1, hθ, if_true]
    unfold partial_pf.of_sides_parallel
    simp only [s3, s1, hp2, hq2]
    rw [if_neg (by
      intro h
      rcases h with h | h
      · linarith
      · linarith)]
    simp only [if_pos hp2lt, if_pos (show (-(2 / 3) : ℝ) < 0 by norm_num), hr, hs, har, has, hav,
      hhv, hmin1, hmin2, if_neg hab]
  have e1 : (-(3 * 100000000000) : ℝ) = -300000000000 := by norm_num
  have e2 : (2 * 100000000000 : ℝ) = 200000000000 := by norm_num
  have hw : wedge 100000000000 =
      [⟨-300000000000, 0⟩, ⟨-1, 2⟩, ⟨200000000000, 3⟩, ⟨0, 0⟩] := by
    unfold wedge
    rw [e1, e2]
  have hh := wedge_hull 100000000000 (le_refl _)
  have hp := of_polygon_wedge 100000000000 (le_refl _)
  have hf := wedge_pair_3_1 100000000000 (le_refl _)
  rw [hw] at hh hp
  rw [hp, hf]
  refine ⟨hh, rfl, ?_, ?_, ?_, ?_⟩
  · norm_num
  · norm_num
  · simp only [wedge_pf]
    norm_num
  · norm_num

end convex_polygon_pf
end search

namespace search

/-- A right triangle with the legs `24s` and `7s`, listed clockwise, the right angle at the
second vertex. -/
noncomputable def flat_tri (s : ℝ) : List (point ℝ) := [⟨-(24 * s), 7 * s⟩, ⟨0, 7 * s⟩, ⟨0, 0⟩]

/-- The object the constructor builds from `flat_tri s`. -/
noncomputable def flat_tri_pf (s : ℝ) : convex_polygon_pf ℝ :=
  { num_vertices_v := 3
    area_v := 84 * (s * s)
    half_area_v := 84 * (s * s) / 2
    sides := [⟨⟨-(24 * s), 7 * s⟩, ⟨0, 7 * s⟩⟩, ⟨⟨0, 7 * s⟩, ⟨0, 0⟩⟩, ⟨⟨0, 0⟩, ⟨-(24 * s), 7 * s⟩⟩]
    function := []
    pf_ok := false
    pf_max_ok := false
    sc_ok := false
    maximum_v := 0
    num_segments_v := 0
    shortest_curve := ⟨ppf_form.none, ⟨0, 0⟩, ⟨0, 0⟩, ⟨0, 0⟩⟩ }

namespace convex_polygon_pf

theorem side_at_flat_tri (s : ℝ) :
    (flat_tri_pf s).side_at 0 = ⟨⟨-(24 * s), 7 * s⟩, ⟨0, 7 * s⟩⟩ ∧
    (flat_tri_pf s).side_at 1 = ⟨⟨0, 7 * s⟩, ⟨0, 0⟩⟩ ∧
    (flat_tri_pf s).side_at 2 = ⟨⟨0, 0⟩, ⟨-(24 * s), 7 * s⟩⟩ :=
  ⟨rfl, rfl, rfl⟩

end convex_polygon_pf
end search

namespace search
namespace convex_polygon_pf

theorem flat_n (s : ℝ) : (flat_tri_pf s).num_vertices_v = 3 := rfl

end convex_polygon_pf
end search

namespace search

/-- The angle at the sharp corner `(-24s, 7s)` of the flat triangle, as the side-pair
constructor computes it. -/
noncomputable def flat_theta (s : ℝ) : ℝ :=
  point.angle rm ⟨0, 0⟩ ((⟨-(24 * s), 7 * s⟩ : point ℝ).sub ⟨0, 0⟩)
    (((⟨0, 7 * s⟩ : point ℝ).sub ⟨-(24 * s), 7 * s⟩).neg)

/-- The angle the side-pair constructor computes at the corner `(0, 0)` of the flat
triangle, before it is replaced by `2*pi` minus itself. -/
noncomputable def flat_phi (s : ℝ) : ℝ :=
  point.angle rm ⟨0, 0⟩ ((⟨-(24 * s), 7 * s⟩ : point ℝ).sub ⟨0, 0⟩)
    (((⟨0, 0⟩ : point ℝ).sub ⟨0, 7 * s⟩).neg)

end search

namespace search

/-- The scale `5e-12` of the flat triangle used below. -/
noncomputable def mote : ℝ := 1 / 200000000000

namespace convex_polygon_pf

theorem flat_half (s : ℝ) : (flat_tri_pf s).half_area_v = 84 * (s * s) / 2 := rfl

set_option maxHeartbeats 4000000 in
/-- C3 (evaluation): on the right triangle `(-1.2e-10, 3.5e-11), (0, 3.5e-11), (0, 0)`, which
is its own convex hull, `pf` decreases inside `[0, half_area ()]`: with
`z1 = (168/25*mote)^2*pi/4` and `z2 = half_area () = 42*mote^2`, `z1 < z2`, the call
`pf (z1)` returns `168/25*mote*pi/2` and `pf (z2)` returns a smaller value. -/
theorem pf_decreases_flat_triangle :
    convex_polygon.convex_hull rm (flat_tri mote) = some (flat_tri mote) ∧
    (of_polygon rm (flat_tri mote)).half_area_v = 84 * (mote * mote) / 2 ∧
    0 ≤ 168 / 25 * mote * (168 / 25 * mote) * (Real.pi / 2) / 2 ∧
    168 / 25 * mote * (168 / 25 * mote) * (Real.pi / 2) / 2 < 84 * (mote * mote) / 2 ∧
    (pf rm (of_polygon rm (flat_tri mote))
      (168 / 25 * mote * (168 / 25 * mote) * (Real.pi / 2) / 2)).1 =
      Except.ok (168 / 25 * mote * (Real.pi / 2)) ∧
    (pf rm (of_polygon rm (flat_tri mote)) (84 * (mote * mote) / 2)).1 =
      Except.ok (Real.sqrt (2 * flat_theta mote * (84 * (mote * mote) / 2))) ∧
    Real.sqrt (2 * flat_theta mote * (84 * (mote * mote) / 2)) <
      168 / 25 * mote * (Real.pi / 2) := by
  have pf_const_form (a b θ ζ pa pb z : ℝ) :
      partial_pf.pf rm ⟨ppf_form.constant, a, b, θ, ζ, pa, pb⟩ z = pa := by
    simp [partial_pf.pf]
  have trim_small (x y : ℝ) (hx0 : 0 ≤ x) (hx : x < 1 / 10000000000) (hy0 : 0 ≤ y)
      (hy : y < 1 / 10000000000) : trim (x - y) = 0 := by
    apply trim_of_lt
    rw [abs_lt]
    constructor <;> linarith
  have corner_end (h : ℝ) (hh : 0 < h) :
      Real.sqrt (2 * (Real.pi / 2) * (h * h * (Real.pi / 2) / 2)) = h * (Real.pi / 2) := by
    have e : 2 * (Real.pi / 2) * (h * h * (Real.pi / 2) / 2) =
        (h * (Real.pi / 2)) * (h * (Real.pi / 2)) := by ring
    rw [e, Real.sqrt_mul_self (by positivity)]
  have pi_lt_bound : Real.pi < 629 / 100 := by linarith [Real.pi_lt_four]
  have abs_origin : point.abs rm (⟨0, 0⟩ : point ℝ) = 0 := by
    simp [point.abs, rm_sqrt]
  have abs_ne_zero_rm (x y : ℝ) (h : 0 < x * x + y * y) : point.abs rm ⟨x, y⟩ ≠ 0 := by
    unfold point.abs
    rw [rm_sqrt]
    exact ne_of_gt (Real.sqrt_pos.mpr h)
  -- The flat triangle is its own hull.
  have flat_tri_hull (s : ℝ) (hs : 0 < s) :
      convex_polygon.convex_hull rm (flat_tri s) = some (flat_tri s) := by
    -- The flat triangle, first pass: `(0, 7s)` makes the smallest turn.
    have flat_tri_step1 (s : ℝ) (hs : 0 < s) :
        convex_polygon.hull_step rm
          { vertices := [⟨⟨-(24 * s), 7 * s⟩, vstate.unused⟩, ⟨⟨0, 7 * s⟩, vstate.unused⟩, ⟨⟨0, 0⟩, vstate.first⟩]
            hull := [⟨0, 0⟩]
            last_added := ⟨0, 0⟩
            previous := ⟨0 - 1, 0⟩
            select := 2 } =
        some
          { vertices := [⟨⟨-(24 * s), 7 * s⟩, vstate.unused⟩, ⟨⟨0, 7 * s⟩, vstate.used⟩, ⟨⟨0, 0⟩, vstate.first⟩]
            hull := [⟨0, 7 * s⟩, ⟨0, 0⟩]
            last_added := ⟨0, 7 * s⟩
            previous := ⟨0, 0⟩
            select := 1 } := by
      have hss : 0 < s * s := mul_pos hs hs
      have o0 := point.angle_obtuse ⟨0, 0⟩ ((point.smul ⟨0, 0⟩ 2).sub ⟨0 - 1, 0⟩) ⟨-(24 * s), 7 * s⟩
          (by simp only [point.sub, point.dot, point.smul]; nlinarith)
          (by simp only [point.sub, point.cross, point.smul]; nlinarith)
      have a1 : point.angle rm ⟨0, 0⟩ ((point.smul ⟨0, 0⟩ 2).sub ⟨0 - 1, 0⟩) ⟨0, 7 * s⟩ = Real.pi / 2 :=
        point.angle_left _ _ _
          (by simp only [point.sub, point.dot, point.smul]; ring)
          (by simp only [point.sub, point.cross, point.smul]; nlinarith)
      have hscan : (convex_polygon.scan rm ⟨0, 0⟩ ⟨0 - 1, 0⟩
          [⟨⟨-(24 * s), 7 * s⟩, vstate.unused⟩, ⟨⟨0, 7 * s⟩, vstate.unused⟩, ⟨⟨0, 0⟩, vstate.first⟩]
          0 (629 / 100) 0 2).2.2 = 1 := by
        rw [convex_polygon.scan_take _ _ _ _ _ _ _ _ _ (by simp) (by simp [point.eq] <;> intros <;> linarith)
            (Or.inl (by exact lt_trans o0.2 pi_lt_bound)),
          convex_polygon.scan_take _ _ _ _ _ _ _ _ _ (by simp) (by simp [point.eq] <;> intros <;> linarith)
            (Or.inl (by rw [a1]; exact o0.1)),
          convex_polygon.scan_same _ _ _ _ _ _ _ _ _ (by simp) (by simp [point.eq]),
          convex_polygon.scan_nil]
      unfold convex_polygon.hull_step
      simp only [hscan]
      simp [convex_polygon.set_state]
    -- The flat triangle, second pass: from `(0, 7s)` the vertex `(-24s, 7s)` makes the
    -- smallest turn.
    have flat_tri_step2 (s : ℝ) (hs : 0 < s) :
        convex_polygon.hull_step rm
          { vertices := [⟨⟨-(24 * s), 7 * s⟩, vstate.unused⟩, ⟨⟨0, 7 * s⟩, vstate.used⟩, ⟨⟨0, 0⟩, vstate.first⟩]
            hull := [⟨0, 7 * s⟩, ⟨0, 0⟩]
            last_added := ⟨0, 7 * s⟩
            previous := ⟨0, 0⟩
            select := 1 } =
        some
          { vertices := [⟨⟨-(24 * s), 7 * s⟩, vstate.used⟩, ⟨⟨0, 7 * s⟩, vstate.used⟩, ⟨⟨0, 0⟩, vstate.first⟩]
            hull := [⟨-(24 * s), 7 * s⟩, ⟨0, 7 * s⟩, ⟨0, 0⟩]
            last_added := ⟨-(24 * s), 7 * s⟩
            previous := ⟨0, 7 * s⟩
            select := 0 } := by
      have hss : 0 < s * s := mul_pos hs hs
      have a0 : point.angle rm ⟨0, 7 * s⟩ ((point.smul ⟨0, 7 * s⟩ 2).sub ⟨0, 0⟩) ⟨-(24 * s), 7 * s⟩ = Real.pi / 2 :=
        point.angle_left _ _ _
          (by simp only [point.sub, point.dot, point.smul]; ring)
          (by simp only [point.sub, point.cross, point.smul]; nlinarith)
      have aF : point.angle rm ⟨0, 7 * s⟩ ((point.smul ⟨0, 7 * s⟩ 2).sub ⟨0, 0⟩) ⟨0, 0⟩ = Real.pi :=
        point.angle_back _ _ _
          (by simp only [point.sub, point.dot, point.smul]; nlinarith)
          (by simp only [point.sub, point.cross, point.smul]; ring)
      have hscan : (convex_polygon.scan rm ⟨0, 7 * s⟩ ⟨0, 0⟩
          [⟨⟨-(24 * s), 7 * s⟩, vstate.unused⟩, ⟨⟨0, 7 * s⟩, vstate.used⟩, ⟨⟨0, 0⟩, vstate.first⟩]
          0 (629 / 100) 0 1).2.2 = 0 := by
        rw [convex_polygon.scan_take _ _ _ _ _ _ _ _ _ (by simp) (by simp [point.eq] <;> intros <;> linarith)
            (Or.inl (by rw [a0]; linarith [Real.pi_lt_four])),
          convex_polygon.scan_used _ _ _ _ _ _ _ _ _ (by simp),
          convex_polygon.scan_keep _ _ _ _ _ _ _ _ _ (by simp) (by simp [point.eq] <;> intros <;> linarith)
            (by rw [a0, aF]; exact convex_polygon.not_better (by linarith [Real.pi_gt_three])),
          convex_polygon.scan_nil]
      unfold convex_polygon.hull_step
      simp only [hscan]
      simp [convex_polygon.set_state]
    -- The flat triangle, last pass: only the first vertex is left.
    have flat_tri_step3 (s : ℝ) (hs : 0 < s) :
        convex_polygon.hull_step rm
          { vertices := [⟨⟨-(24 * s), 7 * s⟩, vstate.used⟩, ⟨⟨0, 7 * s⟩, vstate.used⟩, ⟨⟨0, 0⟩, vstate.first⟩]
            hull := [⟨-(24 * s), 7 * s⟩, ⟨0, 7 * s⟩, ⟨0, 0⟩]
            last_added := ⟨-(24 * s), 7 * s⟩
            previous := ⟨0, 7 * s⟩
            select := 0 } =
        Option.none := by
      have hss : 0 < s * s := mul_pos hs hs
      have oF := point.angle_obtuse ⟨-(24 * s), 7 * s⟩ ((point.smul ⟨-(24 * s), 7 * s⟩ 2).sub ⟨0, 7 * s⟩) ⟨0, 0⟩
          (by simp only [point.sub, point.dot, point.smul]; nlinarith)
          (by simp only [point.sub, point.cross, point.smul]; nlinarith)
      have hscan : (convex_polygon.scan rm ⟨-(24 * s), 7 * s⟩ ⟨0, 7 * s⟩
          [⟨⟨-(24 * s), 7 * s⟩, vstate.used⟩, ⟨⟨0, 7 * s⟩, vstate.used⟩, ⟨⟨0, 0⟩, vstate.first⟩]
          0 (629 / 100) 0 0).2.2 = 2 := by
        rw [convex_polygon.scan_used _ _ _ _ _ _ _ _ _ (by simp),
          convex_polygon.scan_used _ _ _ _ _ _ _ _ _ (by simp),
          convex_polygon.scan_take _ _ _ _ _ _ _ _ _ (by simp) (by simp [point.eq] <;> intros <;> linarith)
            (Or.inl (by exact lt_trans oF.2 pi_lt_bound)),
          convex_polygon.scan_nil]
      unfold convex_polygon.hull_step
      simp only [hscan]
      simp
    have hlr : convex_polygon.lower_right [(⟨0, 7 * s⟩ : point ℝ), ⟨0, 0⟩] 1
        ⟨-(24 * s), 7 * s⟩ 0 = (⟨0, 0⟩, 2) := by
      have h1 : ¬ (7 * s < 7 * s) := lt_irrefl _
      have h2 : (0 : ℝ) > -(24 * s) := by linarith
      have h3 : (0 : ℝ) < 7 * s := by linarith
      simp [convex_polygon.lower_right, h2, h3]
    unfold flat_tri convex_polygon.convex_hull convex_polygon.convex_hull_fuel
    simp only [List.length_cons, List.length_nil, Nat.reduceAdd, Nat.lt_irrefl, if_false]
    simp only [convex_polygon.hull_init, hlr, List.map, convex_polygon.set_state]
    rw [convex_polygon.hull_loop, flat_tri_step1 s hs]
    simp only
    rw [convex_polygon.hull_loop, flat_tri_step2 s hs]
    simp only
    rw [convex_polygon.hull_loop, flat_tri_step3 s hs]
  have of_polygon_flat_tri (s : ℝ) (hs : 0 < s) :
      of_polygon rm (flat_tri s) = flat_tri_pf s := by
    have flat_tri_area (s : ℝ) : convex_polygon.area (flat_tri s) = 84 * (s * s) := by
      have e : |(0 - -(24 * s)) * ((0 - 7 * s) / 2) - (7 * s - 7 * s) * ((0 - -(24 * s)) / 2)|
          = 84 * (s * s) := by
        have e2 : (0 - -(24 * s)) * ((0 - 7 * s) / 2) - (7 * s - 7 * s) * ((0 - -(24 * s)) / 2)
            = -(84 * (s * s)) := by ring
        rw [e2, abs_neg, abs_of_nonneg (by nlinarith [mul_self_nonneg s])]
      simp only [convex_polygon.area, flat_tri, convex_polygon.area_loop, point.area,
        point.sign_area, point.sub, point.cross, point.sdiv, List.length_cons, List.length_nil,
        Nat.reduceAdd, Nat.lt_irrefl, if_false, e, zero_add]
    have hss : 0 < s * s := mul_pos hs hs
    have e1 : point.abs rm ((⟨-(24 * s), 7 * s⟩ : point ℝ).sub ⟨0, 7 * s⟩) ≠ 0 := by
      simp only [point.sub]
      exact abs_ne_zero_rm _ _ (by nlinarith)
    have e2 : point.abs rm ((⟨0, 7 * s⟩ : point ℝ).sub ⟨0, 0⟩) ≠ 0 := by
      simp only [point.sub]
      exact abs_ne_zero_rm _ _ (by nlinarith)
    have e3 : point.abs rm ((⟨0, 0⟩ : point ℝ).sub ⟨-(24 * s), 7 * s⟩) ≠ 0 := by
      simp only [point.sub]
      exact abs_ne_zero_rm _ _ (by nlinarith)
    have hu : usub 3 0 = 3 := by unfold usub; norm_num
    unfold of_polygon
    rw [flat_tri_area s]
    simp only [flat_tri, List.length_cons, List.length_nil, Nat.reduceAdd, gt_iff_lt, Nat.reduceLT,
      if_true, fill_sides, if_neg e1, if_neg e2, List.getLast_cons_cons,
      List.getLast_singleton, ne_eq, e3, not_false_eq_true, List.cons_append, List.nil_append,
      flat_tri_pf, hu]
  have complex_abs_of_sq (x y R : ℝ) (hR : 0 ≤ R) (h : x * x + y * y = R * R) :
      Complex.abs ⟨x, y⟩ = R := by
    rw [Complex.abs_apply, Complex.normSq_mk, h, Real.sqrt_mul_self hR]
  have flat_theta_bounds (s : ℝ) (hs : 0 < s) :
      7 / 25 ≤ flat_theta s ∧ flat_theta s ≤ Real.pi / 2 * (7 / 25) := by
    -- A left turn by less than a right angle that is not within the working precision of
    -- zero and whose sine is at most `3/4`: the angle lies between its sine and `pi/2` times its
    -- sine.
    have angle_acute (s p q : point ℝ) (R : ℝ) (hR : 0 < R)
        (hd : 0 < (p.sub s).dot (q.sub s)) (hc : 0 < (p.sub s).cross (q.sub s))
        (hRR : (p.sub s).dot (q.sub s) * (p.sub s).dot (q.sub s) +
          (p.sub s).cross (q.sub s) * (p.sub s).cross (q.sub s) = R * R)
        (hbig : 1 / 10000000000 ≤ (p.sub s).cross (q.sub s) / R)
        (hsmall : (p.sub s).cross (q.sub s) / R ≤ 3 / 4) :
        (p.sub s).cross (q.sub s) / R ≤ point.angle rm s p q ∧
          point.angle rm s p q ≤ Real.pi / 2 * ((p.sub s).cross (q.sub s) / R) := by
      have habs := complex_abs_of_sq _ _ R (le_of_lt hR) hRR
      have hsin := Complex.sin_arg (⟨(p.sub s).dot (q.sub s), (p.sub s).cross (q.sub s)⟩ : ℂ)
      rw [habs] at hsin
      simp only at hsin
      have h0 : 0 ≤ Complex.arg ⟨(p.sub s).dot (q.sub s), (p.sub s).cross (q.sub s)⟩ :=
        Complex.arg_nonneg_iff.mpr (le_of_lt hc)
      have h1 : Complex.arg ⟨(p.sub s).dot (q.sub s), (p.sub s).cross (q.sub s)⟩ ≤ Real.pi / 2 :=
        Complex.arg_le_pi_div_two_iff.mpr (Or.inl (le_of_lt hd))
      have hle := Real.sin_le h0
      have hpi := Real.pi_gt_three
      have hone : Complex.arg ⟨(p.sub s).dot (q.sub s), (p.sub s).cross (q.sub s)⟩ ≤ 1 := by
        by_contra hcon
        rw [not_le] at hcon
        have hm := Real.sin_lt_sin_of_lt_of_le_pi_div_two (by linarith) h1 hcon
        have h3 := Real.sin_gt_sub_cube (show (0 : ℝ) < 1 by norm_num) (le_refl _)
        rw [hsin] at hm
        norm_num at h3
        linarith
      have hge : Complex.arg ⟨(p.sub s).dot (q.sub s), (p.sub s).cross (q.sub s)⟩ ≤
          4 / 3 * ((p.sub s).cross (q.sub s) / R) := by
        rcases eq_or_lt_of_le h0 with h | h
        · rw [← h]
          linarith
        · have h3 := Real.sin_gt_sub_cube h hone
          rw [hsin] at h3
          have h5 : Complex.arg ⟨(p.sub s).dot (q.sub s), (p.sub s).cross (q.sub s)⟩ *
              Complex.arg ⟨(p.sub s).dot (q.sub s), (p.sub s).cross (q.sub s)⟩ ≤ 1 := by
            nlinarith
          have h6 := mul_le_mul_of_nonneg_left h5 h0
          have e : Complex.arg ⟨(p.sub s).dot (q.sub s), (p.sub s).cross (q.sub s)⟩ ^ 3 =
              Complex.arg ⟨(p.sub s).dot (q.sub s), (p.sub s).cross (q.sub s)⟩ *
                (Complex.arg ⟨(p.sub s).dot (q.sub s), (p.sub s).cross (q.sub s)⟩ *
                  Complex.arg ⟨(p.sub s).dot (q.sub s), (p.sub s).cross (q.sub s)⟩) := by ring
          linarith
      rw [hsin] at hle
      unfold point.angle
      simp only [rm_atan2, rm_pi]
      rw [trim_of_le _ (by rw [abs_of_nonneg h0]; linarith), if_neg (not_lt.mpr h0)]
      refine ⟨hle, le_trans hge ?_⟩
      exact mul_le_mul_of_nonneg_right (by linarith) (by linarith)
    have hss : 0 < s * s := mul_pos hs hs
    have hcr : ((((⟨-(24 * s), 7 * s⟩ : point ℝ).sub ⟨0, 0⟩).sub ⟨0, 0⟩).cross
        ((((⟨0, 7 * s⟩ : point ℝ).sub ⟨-(24 * s), 7 * s⟩).neg).sub ⟨0, 0⟩)) = 168 * (s * s) := by
      simp only [point.sub, point.cross, point.neg]
      ring
    have hdt : ((((⟨-(24 * s), 7 * s⟩ : point ℝ).sub ⟨0, 0⟩).sub ⟨0, 0⟩).dot
        ((((⟨0, 7 * s⟩ : point ℝ).sub ⟨-(24 * s), 7 * s⟩).neg).sub ⟨0, 0⟩)) = 576 * (s * s) := by
      simp only [point.sub, point.dot, point.neg]
      ring
    have e : 168 * (s * s) / (600 * (s * s)) = 7 / 25 := by
      field_simp
      ring
    have h := angle_acute ⟨0, 0⟩ ((⟨-(24 * s), 7 * s⟩ : point ℝ).sub ⟨0, 0⟩)
      (((⟨0, 7 * s⟩ : point ℝ).sub ⟨-(24 * s), 7 * s⟩).neg) (600 * (s * s)) (by positivity)
      (by rw [hdt]; positivity) (by rw [hcr]; positivity) (by rw [hdt, hcr]; ring)
      (by rw [hcr, e]; norm_num) (by rw [hcr, e]; norm_num)
    rw [hcr, e] at h
    exact h
  have flat_B_lt (s : ℝ) (hs : 0 < s) : 168 / 25 * s * (168 / 25 * s) * (Real.pi / 2) / 2 < 84 * (s * s) / 2 := by
    have hss : 0 < s * s := mul_pos hs hs
    have hpi2 := Real.pi_lt_d2
    nlinarith
  have mote_pos : 0 < mote := by unfold mote; norm_num
  -- The fictitious node of the flat triangle of scale `mote` is above every arc by more than
  -- the working precision.
  have mote_stub :
      1 / 10000000000 + 12 * mote ≤ Real.sqrt (10 * Real.pi * (84 * (mote * mote))) := by
    have hpi := Real.pi_gt_three
    have ht := mote_pos
    have h1 : 32 * mote ≤ Real.sqrt (10 * Real.pi * (84 * (mote * mote))) := by
      rw [Real.le_sqrt' (by positivity)]
      have e : (32 * mote) ^ 2 = 1024 * (mote * mote) := by ring
      have e2 : 10 * Real.pi * (84 * (mote * mote)) = 840 * Real.pi * (mote * mote) := by ring
      rw [e, e2]
      exact mul_le_mul_of_nonneg_right (by linarith) (le_of_lt (mul_pos ht ht))
    have h2 : 32 * mote = 1 / 10000000000 + 12 * mote := by
      unfold mote
      ring
    linarith
  have ensure_pf_flat_tri (s : ℝ) (hs : 0 < s) (hsm : 12 * s < 1 / 10000000000)
      (hV : 1 / 10000000000 + 12 * s ≤ Real.sqrt (10 * Real.pi * (84 * (s * s)))) :
      ensure_pf rm (of_polygon rm (flat_tri s)) =
        { flat_tri_pf s with
          pf_ok := true
          pf_max_ok := true
          function :=
            [⟨ppf_form.sqrt, 0, 168 / 25 * s * (168 / 25 * s) * (Real.pi / 2) / 2, Real.pi / 2, 0, 0,
          168 / 25 * s * (Real.pi / 2)⟩,
             ⟨ppf_form.sqrt, 168 / 25 * s * (168 / 25 * s) * (Real.pi / 2) / 2, 84 * (s * s) / 2,
          flat_theta s, 0,
          Real.sqrt (2 * flat_theta s * (168 / 25 * s * (168 / 25 * s) * (Real.pi / 2) / 2)),
          Real.sqrt (2 * flat_theta s * (84 * (s * s) / 2))⟩]
          maximum_v := Real.sqrt (2 * flat_theta s * (84 * (s * s) / 2))
          num_segments_v := 4 } := by
    -- The list `find_pf` assembles for a flat triangle whose arcs are all below the working
    -- precision while the fictitious node is above it by more than the working precision: the
    -- arc around the right angle up to its clipping radius, then the arc around the sharp
    -- corner, which starts lower than the first one ends.
    have assemble_flat_tri (s : ℝ) (hs : 0 < s) (hsm : 12 * s < 1 / 10000000000)
        (hV : 1 / 10000000000 + 12 * s ≤ Real.sqrt (10 * Real.pi * (84 * (s * s)))) :
        assemble rm (flat_tri_pf s) =
          [⟨ppf_form.sqrt, 0, 168 / 25 * s * (168 / 25 * s) * (Real.pi / 2) / 2, Real.pi / 2, 0, 0,
            168 / 25 * s * (Real.pi / 2)⟩,
           ⟨ppf_form.sqrt, 168 / 25 * s * (168 / 25 * s) * (Real.pi / 2) / 2, 84 * (s * s) / 2,
            flat_theta s, 0,
            Real.sqrt (2 * flat_theta s * (168 / 25 * s * (168 / 25 * s) * (Real.pi / 2) / 2)),
            Real.sqrt (2 * flat_theta s * (84 * (s * s) / 2))⟩] := by
      have flat_hyp (s : ℝ) (hs : 0 < s) (x y : ℝ) (h : x * x + y * y = 625 * (s * s)) :
          point.abs rm ⟨x, y⟩ = 25 * s := by
        have abs_of_sq (x y R : ℝ) (hR : 0 ≤ R) (h : x * x + y * y = R * R) :
            point.abs rm ⟨x, y⟩ = R := by
          unfold point.abs
          rw [rm_sqrt, h, Real.sqrt_mul_self hR]
        exact
          abs_of_sq x y (25 * s) (by linarith) (by rw [h]; ring)
      -- The pair of sides at the right angle of the flat triangle: the arc around `(0, 7s)` is
      -- clipped by the hypotenuse at the radius `168/25 s`.
      have flat_pair_1_0 (s : ℝ) (hs : 0 < s) (ep : Option (eff_perimeter ℝ)) :
          partial_pf.of_sides rm (flat_tri_pf s) 1 0 ep =
          partial_pf.of_sides_arc rm (flat_tri_pf s) (3 * Real.pi / 2) (Real.pi / 2) 0
            (168 / 25 * s) 0 0 ⟨0, 7 * s⟩ ⟨-(24 * s), 7 * s⟩ ⟨0, 0⟩ (24 * s) (7 * s) ep := by
        obtain ⟨s0, s1, s2⟩ := side_at_flat_tri s
        have hss : 0 < s * s := mul_pos hs hs
        have hs0 : s ≠ 0 := ne_of_gt hs
        have hθ : point.angle rm ⟨0, 0⟩ ((⟨0, 0⟩ : point ℝ).sub ⟨0, 7 * s⟩)
            (((⟨0, 7 * s⟩ : point ℝ).sub ⟨-(24 * s), 7 * s⟩).neg) = 3 * Real.pi / 2 :=
          point.angle_right _ _ _ (by simp only [point.sub, point.dot, point.neg]; ring)
            (by simp only [point.sub, point.cross, point.neg]; nlinarith)
        have hr : partial_pf.center (⟨⟨0, 7 * s⟩, ⟨0, 0⟩⟩ : side ℝ)
            ⟨⟨-(24 * s), 7 * s⟩, ⟨0, 7 * s⟩⟩ = ⟨0, 7 * s⟩ := by
          simp only [partial_pf.center, point.sub, point.smul, point.sdiv, point.sign_area,
            point.cross, point.mk.injEq]
          constructor
          · field_simp
          · field_simp
            ring
        have hc : cyc_range 3 ((1 + 1) % 3) 0 = [2] := by decide
        have hv : point.abs rm ((⟨-(24 * s), 7 * s⟩ : point ℝ).sub ⟨0, 0⟩) = 25 * s := by
          simp only [point.sub]
          exact flat_hyp s hs _ _ (by ring)
        have h25 : (25 : ℝ) * s ≠ 0 := by positivity
        have hpr : point.proj rm ⟨0, 7 * s⟩ ⟨0, 0⟩ ⟨-(24 * s), 7 * s⟩ = 49 / 625 := by
          unfold point.proj
          simp only [hv, if_neg h25]
          simp only [point.sub, point.sdiv, point.dot]
          field_simp
          ring
        have hdi : point.dist rm ⟨0, 7 * s⟩ ⟨0, 0⟩ ⟨-(24 * s), 7 * s⟩ = 168 / 25 * s := by
          unfold point.dist
          simp only [hv, if_neg h25]
          simp only [point.sub, point.sdiv, point.dot, point.ortho]
          have e : -(7 * s - 0) / (25 * s) * (0 - -(24 * s)) + (-(24 * s) - 0) / (25 * s) * (7 * s - 7 * s)
              = -(168 / 25 * s) := by
            field_simp
            ring
          rw [e, abs_neg, abs_of_pos (by positivity)]
        have hclip : clip_r_max rm (flat_tri_pf s) ⟨0, 7 * s⟩ [2] (7 * s) = 168 / 25 * s := by
          simp only [clip_r_max, List.foldl_cons, List.foldl_nil, s2, hpr, hdi]
          rw [if_pos (by norm_num), min_eq_right (by linarith)]
        have harea : (flat_tri_pf s).area_idx 0 1 = 0 := by
          simp [area_idx, flat_n]
        have htri : (⟨0, 7 * s⟩ : point ℝ).area ⟨0, 7 * s⟩ ⟨0, 7 * s⟩ = 0 := by
          simp [point.area, point.sign_area, point.sub, point.cross, point.sdiv]
        have hθ2 : 2 * Real.pi - 3 * Real.pi / 2 = Real.pi / 2 := by ring
        have hq1 : point.abs rm ((⟨0, 0⟩ : point ℝ).sub ⟨0, 7 * s⟩) = 7 * s := by
          simp only [point.sub, sub_self, zero_sub, point.abs_y, abs_neg]
          exact abs_of_pos (by positivity)
        have hp2a : point.abs rm ((⟨-(24 * s), 7 * s⟩ : point ℝ).sub ⟨0, 7 * s⟩) = 24 * s := by
          simp only [point.sub, sub_self, sub_zero, point.abs_x, abs_neg]
          exact abs_of_pos (by positivity)
        have hz : point.abs rm ((⟨0, 7 * s⟩ : point ℝ).sub ⟨0, 7 * s⟩) = 0 := by
          simp only [point.sub, sub_self]
          exact abs_origin
        have hmin : min (7 * s) (24 * s) = 7 * s := min_eq_left (by linarith)
        unfold partial_pf.of_sides
        simp only [s0, s1, hθ, rm_pi, hr]
        rw [if_neg (by linarith [Real.pi_gt_three]), if_neg (by linarith [Real.pi_gt_three]),
          if_pos (by linarith [Real.pi_gt_three])]
        simp only [hq1, hp2a, hz]
        rw [if_neg (by
          simp only [not_or, not_le, ge_iff_le]
          exact ⟨by positivity, by positivity⟩)]
        simp only [flat_n, hc, hmin, hclip, harea, htri, hθ2, ite_self, max_self]
      have flat_phi_bounds (s : ℝ) (hs : 0 < s) :
          3 * Real.pi / 2 ≤ flat_phi s ∧ flat_phi s < 2 * Real.pi := by
        -- A right turn by less than a right angle that is not within the working precision of
        -- zero: the angle lies between `3*pi/2` and `2*pi`.
        have angle_fourth (s p q : point ℝ) (R : ℝ) (hR : 0 < R)
            (hd : 0 < (p.sub s).dot (q.sub s)) (hc : (p.sub s).cross (q.sub s) < 0)
            (hRR : (p.sub s).dot (q.sub s) * (p.sub s).dot (q.sub s) +
              (p.sub s).cross (q.sub s) * (p.sub s).cross (q.sub s) = R * R)
            (hbig : 1 / 10000000000 ≤ -((p.sub s).cross (q.sub s)) / R) :
            3 * Real.pi / 2 ≤ point.angle rm s p q ∧ point.angle rm s p q < 2 * Real.pi := by
          have habs := complex_abs_of_sq _ _ R (le_of_lt hR) hRR
          have hsin := Complex.sin_arg (⟨(p.sub s).dot (q.sub s), (p.sub s).cross (q.sub s)⟩ : ℂ)
          rw [habs] at hsin
          simp only at hsin
          have h0 : Complex.arg ⟨(p.sub s).dot (q.sub s), (p.sub s).cross (q.sub s)⟩ < 0 :=
            Complex.arg_neg_iff.mpr hc
          have h1 : -(Real.pi / 2) ≤
              Complex.arg ⟨(p.sub s).dot (q.sub s), (p.sub s).cross (q.sub s)⟩ :=
            Complex.neg_pi_div_two_le_arg_iff.mpr (Or.inl (le_of_lt hd))
          have hle := Real.sin_le (show 0 ≤
            -Complex.arg ⟨(p.sub s).dot (q.sub s), (p.sub s).cross (q.sub s)⟩ by linarith)
          rw [Real.sin_neg, hsin] at hle
          have e : -((p.sub s).cross (q.sub s) / R) = -((p.sub s).cross (q.sub s)) / R := by ring
          rw [e] at hle
          unfold point.angle
          simp only [rm_atan2, rm_pi]
          rw [trim_of_le _ (by rw [abs_of_neg h0]; linarith), if_pos h0]
          constructor <;> linarith
        have hss : 0 < s * s := mul_pos hs hs
        have hcr : ((((⟨-(24 * s), 7 * s⟩ : point ℝ).sub ⟨0, 0⟩).sub ⟨0, 0⟩).cross
            ((((⟨0, 0⟩ : point ℝ).sub ⟨0, 7 * s⟩).neg).sub ⟨0, 0⟩)) = -(168 * (s * s)) := by
          simp only [point.sub, point.cross, point.neg]
          ring
        have hdt : ((((⟨-(24 * s), 7 * s⟩ : point ℝ).sub ⟨0, 0⟩).sub ⟨0, 0⟩).dot
            ((((⟨0, 0⟩ : point ℝ).sub ⟨0, 7 * s⟩).neg).sub ⟨0, 0⟩)) = 49 * (s * s) := by
          simp only [point.sub, point.dot, point.neg]
          ring
        have e : -(-(168 * (s * s))) / (175 * (s * s)) = 24 / 25 := by
          field_simp
          ring
        exact angle_fourth ⟨0, 0⟩ ((⟨-(24 * s), 7 * s⟩ : point ℝ).sub ⟨0, 0⟩)
          (((⟨0, 0⟩ : point ℝ).sub ⟨0, 7 * s⟩).neg) (175 * (s * s)) (by positivity)
          (by rw [hdt]; positivity) (by rw [hcr]; linarith) (by rw [hdt, hcr]; ring)
          (by rw [hcr, e]; norm_num)
      -- The pair of sides at the sharp corner `(-24s, 7s)`: the arc around it reaches the
      -- radius `24s`.
      have flat_pair_2_0 (s : ℝ) (hs : 0 < s) (ep : Option (eff_perimeter ℝ)) :
          partial_pf.of_sides rm (flat_tri_pf s) 2 0 ep =
          partial_pf.of_sides_arc rm (flat_tri_pf s) (flat_theta s) (flat_theta s) 0
            (24 * s) 0 0 ⟨-(24 * s), 7 * s⟩ ⟨0, 0⟩ ⟨0, 7 * s⟩ (25 * s) (24 * s) ep := by
        obtain ⟨s0, s1, s2⟩ := side_at_flat_tri s
        obtain ⟨hlo, hhi⟩ := flat_theta_bounds s hs
        have hss : 0 < s * s := mul_pos hs hs
        have hs0 : s ≠ 0 := ne_of_gt hs
        have hθ : point.angle rm ⟨0, 0⟩ ((⟨-(24 * s), 7 * s⟩ : point ℝ).sub ⟨0, 0⟩)
            (((⟨0, 7 * s⟩ : point ℝ).sub ⟨-(24 * s), 7 * s⟩).neg) = flat_theta s := rfl
        have hr : partial_pf.center (⟨⟨0, 0⟩, ⟨-(24 * s), 7 * s⟩⟩ : side ℝ)
            ⟨⟨-(24 * s), 7 * s⟩, ⟨0, 7 * s⟩⟩ = ⟨-(24 * s), 7 * s⟩ := by
          simp only [partial_pf.center, point.sub, point.smul, point.sdiv, point.sign_area,
            point.cross, point.mk.injEq]
          constructor
          · field_simp
            ring
          · field_simp
            ring
        have hc : cyc_range 3 ((0 + 1) % 3) 2 = [1] := by decide
        have hpr : point.proj rm ⟨-(24 * s), 7 * s⟩ ⟨0, 7 * s⟩ ⟨0, 0⟩ = 0 := by
          rw [point.proj_vert _ _ _ _ _ (by intro h; linarith)]
          simp
        have hclip : clip_r_max rm (flat_tri_pf s) ⟨-(24 * s), 7 * s⟩ [1] (24 * s) = 24 * s := by
          simp [clip_r_max, s1, hpr]
        have harea : (flat_tri_pf s).area_idx 2 0 = 0 := by
          simp [area_idx, flat_n]
        have htri : (⟨-(24 * s), 7 * s⟩ : point ℝ).area ⟨-(24 * s), 7 * s⟩ ⟨-(24 * s), 7 * s⟩ = 0 := by
          simp [point.area, point.sign_area, point.sub, point.cross, point.sdiv]
        have hp1 : point.abs rm ((⟨0, 0⟩ : point ℝ).sub ⟨-(24 * s), 7 * s⟩) = 25 * s := by
          simp only [point.sub]
          exact flat_hyp s hs _ _ (by ring)
        have hq2 : point.abs rm ((⟨0, 7 * s⟩ : point ℝ).sub ⟨-(24 * s), 7 * s⟩) = 24 * s := by
          have e : (⟨0, 7 * s⟩ : point ℝ).sub ⟨-(24 * s), 7 * s⟩ = ⟨24 * s, 0⟩ := by
            simp [point.sub]
          rw [e, point.abs_x, abs_of_pos (by positivity)]
        have hz : point.abs rm ((⟨-(24 * s), 7 * s⟩ : point ℝ).sub ⟨-(24 * s), 7 * s⟩) = 0 := by
          simp only [point.sub, sub_self]
          exact abs_origin
        have hmin : min (25 * s) (24 * s) = 24 * s := min_eq_right (by linarith)
        unfold partial_pf.of_sides
        simp only [s0, s2, hθ, rm_pi, hr]
        rw [if_neg (by linarith), if_pos (by nlinarith [Real.pi_lt_four])]
        simp only [hp1, hq2, hz]
        rw [if_neg (by
          simp only [not_or, not_le, ge_iff_le]
          exact ⟨by positivity, by positivity⟩)]
        simp only [flat_n, hc, hmin, hclip, harea, htri, ite_self, max_self]
      -- The pair of sides at the corner `(0, 0)`: the arc around it reaches the radius `7s`.
      have flat_pair_2_1 (s : ℝ) (hs : 0 < s) (ep : Option (eff_perimeter ℝ)) :
          partial_pf.of_sides rm (flat_tri_pf s) 2 1 ep =
          partial_pf.of_sides_arc rm (flat_tri_pf s) (flat_phi s) (2 * Real.pi - flat_phi s) 0
            (7 * s) 0 0 ⟨0, 0⟩ ⟨0, 7 * s⟩ ⟨-(24 * s), 7 * s⟩ (7 * s) (25 * s) ep := by
        obtain ⟨s0, s1, s2⟩ := side_at_flat_tri s
        obtain ⟨hlo, hhi⟩ := flat_phi_bounds s hs
        have hss : 0 < s * s := mul_pos hs hs
        have hs0 : s ≠ 0 := ne_of_gt hs
        have hθ : point.angle rm ⟨0, 0⟩ ((⟨-(24 * s), 7 * s⟩ : point ℝ).sub ⟨0, 0⟩)
            (((⟨0, 0⟩ : point ℝ).sub ⟨0, 7 * s⟩).neg) = flat_phi s := rfl
        have hr : partial_pf.center (⟨⟨0, 0⟩, ⟨-(24 * s), 7 * s⟩⟩ : side ℝ)
            ⟨⟨0, 7 * s⟩, ⟨0, 0⟩⟩ = ⟨0, 0⟩ := by
          simp only [partial_pf.center, point.sub, point.smul, point.sdiv, point.sign_area,
            point.cross, point.mk.injEq]
          constructor
          · field_simp
          · field_simp
        have hc : cyc_range 3 ((2 + 1) % 3) 1 = [0] := by decide
        have hpr : point.proj rm ⟨0, 0⟩ ⟨-(24 * s), 7 * s⟩ ⟨0, 7 * s⟩ = 1 := by
          rw [point.proj_horiz _ _ _ _ _ (by intro h; linarith)]
          field_simp
        have hclip : clip_r_max rm (flat_tri_pf s) ⟨0, 0⟩ [0] (7 * s) = 7 * s := by
          simp [clip_r_max, s0, hpr]
        have harea : (flat_tri_pf s).area_idx 1 2 = 0 := by
          simp [area_idx, flat_n]
        have htri : (⟨0, 0⟩ : point ℝ).area ⟨0, 0⟩ ⟨0, 0⟩ = 0 := by
          simp [point.area, point.sign_area, point.sub, point.cross, point.sdiv]
        have hq1 : point.abs rm ((⟨-(24 * s), 7 * s⟩ : point ℝ).sub ⟨0, 0⟩) = 25 * s := by
          simp only [point.sub]
          exact flat_hyp s hs _ _ (by ring)
        have hp2 : point.abs rm ((⟨0, 7 * s⟩ : point ℝ).sub ⟨0, 0⟩) = 7 * s := by
          have e : (⟨0, 7 * s⟩ : point ℝ).sub ⟨0, 0⟩ = ⟨0, 7 * s⟩ := by
            simp [point.sub]
          rw [e, point.abs_y, abs_of_pos (by positivity)]
        have hz : point.abs rm ((⟨0, 0⟩ : point ℝ).sub ⟨0, 0⟩) = 0 := by
          simp only [point.sub, sub_self]
          exact abs_origin
        have hmin : min (25 * s) (7 * s) = 7 * s := min_eq_right (by linarith)
        unfold partial_pf.of_sides
        simp only [s1, s2, hθ, rm_pi, hr]
        rw [if_neg (by linarith [Real.pi_gt_three]), if_neg (by linarith [Real.pi_gt_three]),
          if_pos (by linarith [Real.pi_gt_three])]
        simp only [hq1, hp2, hz]
        rw [if_neg (by
          simp only [not_or, not_le, ge_iff_le]
          exact ⟨by positivity, by positivity⟩)]
        simp only [flat_n, hc, hmin, hclip, harea, htri, ite_self, max_self]
      -- An arc around a corner of the flat triangle that ends before `half_area ()`.
      have flat_corner_inside (s d θ θ1 : ℝ) (r u v : point ℝ) (du dv : ℝ) (hd : 0 < d)
          (hθ : 0 < θ) (hclip : d * d * θ / 2 ≤ 84 * (s * s) / 2) :
          (partial_pf.of_sides_arc rm (flat_tri_pf s) θ1 θ 0 d 0 0 r u v du dv Option.none).1 =
            ⟨ppf_form.sqrt, 0, d * d * θ / 2, θ, 0, 0, d * θ⟩ := by
        have hpos : 0 < d * d * θ / 2 := by positivity
        rw [partial_pf.of_sides_arc_inside rm (flat_tri_pf s) θ1 θ 0 d 0 0 r u v du dv hd
          (by rw [flat_half]; simp; linarith) (by rw [flat_half]; simpa using hclip)
          (by simp; exact ne_of_lt hpos)]
        simp only [mul_zero, zero_mul, zero_div, sub_self, sub_zero]
      -- An arc around a corner of the flat triangle that is clipped at `half_area ()`.
      have flat_corner_clipped (s d θ θ1 : ℝ) (r u v : point ℝ) (du dv : ℝ) (hs : 0 < s)
          (hd : 0 < d) (hclip : 84 * (s * s) / 2 < d * d * θ / 2) :
          (partial_pf.of_sides_arc rm (flat_tri_pf s) θ1 θ 0 d 0 0 r u v du dv Option.none).1 =
            ⟨ppf_form.sqrt, 0, 84 * (s * s) / 2, θ, 0, 0, Real.sqrt (2 * θ * (84 * (s * s) / 2))⟩ := by
        have hss : 0 < s * s := mul_pos hs hs
        rw [partial_pf.of_sides_arc_clipped rm (flat_tri_pf s) θ1 θ 0 d 0 0 r u v du dv hd
          (by rw [flat_half]; simp; linarith) (by rw [flat_half]; simpa using hclip)
          (by rw [flat_half]; simp; linarith)]
        simp only [flat_half, rm_sqrt, mul_zero, zero_mul, zero_div, sub_self, add_zero]
      have sqrt_small (s θ z : ℝ) (hs : 0 < s) (hθ : θ ≤ Real.pi / 2) (hz0 : 0 ≤ z)
          (hz : z ≤ 84 * (s * s) / 2) : Real.sqrt (2 * θ * z) < 12 * s := by
        have hss : 0 < s * s := mul_pos hs hs
        have hpi := Real.pi_lt_d2
        rw [Real.sqrt_lt' (by positivity)]
        have h1 : 2 * θ * z ≤ Real.pi * (84 * (s * s) / 2) := by
          have : 2 * θ ≤ Real.pi := by linarith
          exact mul_le_mul this hz hz0 (le_of_lt Real.pi_pos)
        nlinarith
      -- The arc around the right angle against the fictitious node.
      have flat_insert1 (s : ℝ) (hs : 0 < s)
          (hV : 1 / 10000000000 + 12 * s ≤ Real.sqrt (10 * Real.pi * (84 * (s * s)))) :
          insert_ppf rm
            ⟨ppf_form.sqrt, 0, 168 / 25 * s * (168 / 25 * s) * (Real.pi / 2) / 2, Real.pi / 2, 0, 0,
              168 / 25 * s * (Real.pi / 2)⟩
            [⟨ppf_form.constant, 0, 84 * (s * s) / 2, 0, Real.sqrt (10 * Real.pi * (84 * (s * s))),
              Real.sqrt (10 * Real.pi * (84 * (s * s))), Real.sqrt (10 * Real.pi * (84 * (s * s)))⟩] =
            [⟨ppf_form.sqrt, 0, 168 / 25 * s * (168 / 25 * s) * (Real.pi / 2) / 2, Real.pi / 2, 0, 0,
              168 / 25 * s * (Real.pi / 2)⟩,
             ⟨ppf_form.constant, 168 / 25 * s * (168 / 25 * s) * (Real.pi / 2) / 2, 84 * (s * s) / 2, 0,
              Real.sqrt (10 * Real.pi * (84 * (s * s))), Real.sqrt (10 * Real.pi * (84 * (s * s))),
              Real.sqrt (10 * Real.pi * (84 * (s * s)))⟩] := by
        have hss : 0 < s * s := mul_pos hs hs
        have hpi := Real.pi_gt_three
        have hpi2 := Real.pi_lt_d2
        have hB0 : 0 < 168 / 25 * s * (168 / 25 * s) * (Real.pi / 2) / 2 := by positivity
        have hB := flat_B_lt s hs
        have hP0 : 0 < 168 / 25 * s * (Real.pi / 2) := by positivity
        have hP : 168 / 25 * s * (Real.pi / 2) < 12 * s := by nlinarith
        have hend := corner_end (168 / 25 * s) (by positivity)
        have hminB2 : min (84 * (s * s) / 2) (168 / 25 * s * (168 / 25 * s) * (Real.pi / 2) / 2) =
            168 / 25 * s * (168 / 25 * s) * (Real.pi / 2) / 2 := min_eq_right (le_of_lt hB)
        rw [insert_ppf_closed rm _ _ _ 0 (168 / 25 * s * (168 / 25 * s) * (Real.pi / 2) / 2) true
          (by
            rw [begin_above rm _ _ (by simp only [not_or, not_le]; exact ⟨by positivity, hB0⟩)
              (equal_false_of_le _ (by
                simp only [zero_sub, abs_neg]
                rw [abs_of_pos (by positivity)]
                linarith))]
            · simp only [max_self, hminB2]
              simp [not_le.mpr hB]
            · simp only [max_self, pf_const_form, pf_sqrt_form, add_zero, mul_zero, Real.sqrt_zero,
                sub_zero]
              rw [trim_of_le _ (by rw [abs_of_pos (by linarith)]; linarith)]
              linarith
            · simp only [hminB2, pf_const_form, pf_sqrt_form, add_zero, hend]
              rw [trim_of_le _ (by rw [abs_of_pos (by linarith)]; linarith)]
              linarith)]
        simp only [split_left, insert_ppf_nil, set_a, set_b, pf_sqrt_form, pf_const_form,
          List.nil_append, Bool.true_eq_false, if_false, add_zero, mul_zero, Real.sqrt_zero, hend]
      have flat_theta_le (s : ℝ) (hs : 0 < s) : 0 < flat_theta s ∧ flat_theta s ≤ Real.pi / 2 := by
        obtain ⟨hlo, hhi⟩ := flat_theta_bounds s hs
        have hpi := Real.pi_gt_three
        constructor
        · linarith
        · nlinarith
      -- The arc around the sharp corner is rejected by the first node and replaces the
      -- fictitious one.
      have flat_insert2 (s : ℝ) (hs : 0 < s) (hsm : 12 * s < 1 / 10000000000)
          (hV : 1 / 10000000000 + 12 * s ≤ Real.sqrt (10 * Real.pi * (84 * (s * s)))) :
          insert_ppf rm
            ⟨ppf_form.sqrt, 0, 84 * (s * s) / 2, flat_theta s, 0, 0,
              Real.sqrt (2 * flat_theta s * (84 * (s * s) / 2))⟩
            [⟨ppf_form.sqrt, 0, 168 / 25 * s * (168 / 25 * s) * (Real.pi / 2) / 2, Real.pi / 2, 0, 0,
              168 / 25 * s * (Real.pi / 2)⟩,
             ⟨ppf_form.constant, 168 / 25 * s * (168 / 25 * s) * (Real.pi / 2) / 2, 84 * (s * s) / 2, 0,
              Real.sqrt (10 * Real.pi * (84 * (s * s))), Real.sqrt (10 * Real.pi * (84 * (s * s))),
              Real.sqrt (10 * Real.pi * (84 * (s * s)))⟩] =
            [⟨ppf_form.sqrt, 0, 168 / 25 * s * (168 / 25 * s) * (Real.pi / 2) / 2, Real.pi / 2, 0, 0,
              168 / 25 * s * (Real.pi / 2)⟩,
             ⟨ppf_form.sqrt, 168 / 25 * s * (168 / 25 * s) * (Real.pi / 2) / 2, 84 * (s * s) / 2,
              flat_theta s, 0,
              Real.sqrt (2 * flat_theta s * (168 / 25 * s * (168 / 25 * s) * (Real.pi / 2) / 2)),
              Real.sqrt (2 * flat_theta s * (84 * (s * s) / 2))⟩] := by
        have hss : 0 < s * s := mul_pos hs hs
        have hpi := Real.pi_gt_three
        have hpi2 := Real.pi_lt_d2
        obtain ⟨hθ0, hθ1⟩ := flat_theta_le s hs
        have hlo := (flat_theta_bounds s hs).1
        have hB0 : 0 < 168 / 25 * s * (168 / 25 * s) * (Real.pi / 2) / 2 := by positivity
        have hB := flat_B_lt s hs
        have hP0 : 0 < 168 / 25 * s * (Real.pi / 2) := by positivity
        have hP : 168 / 25 * s * (Real.pi / 2) < 12 * s := by nlinarith
        have hend := corner_end (168 / 25 * s) (by positivity)
        have hmaxB : max (168 / 25 * s * (168 / 25 * s) * (Real.pi / 2) / 2) (0 : ℝ) =
            168 / 25 * s * (168 / 25 * s) * (Real.pi / 2) / 2 := max_eq_left (le_of_lt hB0)
        have hmaxB2 : max (0 : ℝ) (168 / 25 * s * (168 / 25 * s) * (Real.pi / 2) / 2) =
            168 / 25 * s * (168 / 25 * s) * (Real.pi / 2) / 2 := max_eq_right (le_of_lt hB0)
        have hminB : min (168 / 25 * s * (168 / 25 * s) * (Real.pi / 2) / 2) (84 * (s * s) / 2) =
            168 / 25 * s * (168 / 25 * s) * (Real.pi / 2) / 2 := min_eq_left (le_of_lt hB)
        have hminB2 : min (84 * (s * s) / 2) (168 / 25 * s * (168 / 25 * s) * (Real.pi / 2) / 2) =
            168 / 25 * s * (168 / 25 * s) * (Real.pi / 2) / 2 := min_eq_right (le_of_lt hB)
        have hx1 := sqrt_small s (flat_theta s) (168 / 25 * s * (168 / 25 * s) * (Real.pi / 2) / 2) hs
          hθ1 (le_of_lt hB0) (le_of_lt hB)
        have hx2 := sqrt_small s (flat_theta s) (84 * (s * s) / 2) hs hθ1
          (by positivity) (le_refl _)
        rw [insert_ppf_skip rm _ _ _ (begin_not_above rm _ _
            (by
              simp only [max_self, pf_sqrt_form, add_zero, mul_zero, Real.sqrt_zero]
              rw [trim_small _ _ (le_refl _) (by norm_num) (le_refl _) (by norm_num)])
            (by
              simp only [hminB, pf_sqrt_form, add_zero, hend]
              rw [trim_small _ _ (le_of_lt hP0) (by linarith) (Real.sqrt_nonneg _) (by linarith)])),
          insert_ppf_open rm _ _ _ (168 / 25 * s * (168 / 25 * s) * (Real.pi / 2) / 2)
            (84 * (s * s) / 2) true
            (by
              rw [begin_above rm _ _
                (by simp only [not_or, not_le, ge_iff_le]; exact ⟨by positivity, hB⟩)
                (equal_false_of_le _ (by
                  simp only [zero_sub, abs_neg]
                  rw [abs_of_pos hθ0]
                  linarith))]
              · simp only [hmaxB, min_self]
                simp [le_of_lt hB0]
              · simp only [hmaxB, pf_const_form, pf_sqrt_form, add_zero]
                rw [trim_of_le _ (by rw [abs_of_pos (by linarith)]; linarith)]
                linarith
              · simp only [min_self, pf_const_form, pf_sqrt_form, add_zero]
                rw [trim_of_le _ (by rw [abs_of_pos (by linarith)]; linarith)]
                linarith)]
        simp only [split_left, find_end, shift_begin, insert_ppf_nil, set_a, set_b, pf_sqrt_form,
          List.nil_append, Bool.true_eq_false, if_false, add_zero]
      -- The arc around the third corner is rejected by both nodes: every value involved is
      -- below the working precision.
      have flat_insert3 (s : ℝ) (hs : 0 < s) (hsm : 12 * s < 1 / 10000000000) :
          insert_ppf rm
            ⟨ppf_form.sqrt, 0, 7 * s * (7 * s) * (2 * Real.pi - flat_phi s) / 2,
              2 * Real.pi - flat_phi s, 0, 0, 7 * s * (2 * Real.pi - flat_phi s)⟩
            [⟨ppf_form.sqrt, 0, 168 / 25 * s * (168 / 25 * s) * (Real.pi / 2) / 2, Real.pi / 2, 0, 0,
              168 / 25 * s * (Real.pi / 2)⟩,
             ⟨ppf_form.sqrt, 168 / 25 * s * (168 / 25 * s) * (Real.pi / 2) / 2, 84 * (s * s) / 2,
              flat_theta s, 0,
              Real.sqrt (2 * flat_theta s * (168 / 25 * s * (168 / 25 * s) * (Real.pi / 2) / 2)),
              Real.sqrt (2 * flat_theta s * (84 * (s * s) / 2))⟩] =
            [⟨ppf_form.sqrt, 0, 168 / 25 * s * (168 / 25 * s) * (Real.pi / 2) / 2, Real.pi / 2, 0, 0,
              168 / 25 * s * (Real.pi / 2)⟩,
             ⟨ppf_form.sqrt, 168 / 25 * s * (168 / 25 * s) * (Real.pi / 2) / 2, 84 * (s * s) / 2,
              flat_theta s, 0,
              Real.sqrt (2 * flat_theta s * (168 / 25 * s * (168 / 25 * s) * (Real.pi / 2) / 2)),
              Real.sqrt (2 * flat_theta s * (84 * (s * s) / 2))⟩] := by
        have hss : 0 < s * s := mul_pos hs hs
        have hpi := Real.pi_gt_three
        obtain ⟨hθ0, hθ1⟩ := flat_theta_le s hs
        obtain ⟨plo, phi⟩ := flat_phi_bounds s hs
        have hφ0 : 0 < 2 * Real.pi - flat_phi s := by linarith
        have hφ1 : 2 * Real.pi - flat_phi s ≤ Real.pi / 2 := by linarith
        have hB0 : 0 < 168 / 25 * s * (168 / 25 * s) * (Real.pi / 2) / 2 := by positivity
        have hB := flat_B_lt s hs
        have hb30 : 0 < 7 * s * (7 * s) * (2 * Real.pi - flat_phi s) / 2 := by positivity
        have hmaxB : max (168 / 25 * s * (168 / 25 * s) * (Real.pi / 2) / 2) (0 : ℝ) =
            168 / 25 * s * (168 / 25 * s) * (Real.pi / 2) / 2 := max_eq_left (le_of_lt hB0)
        have hy : ∀ z : ℝ, 0 ≤ z → z ≤ 84 * (s * s) / 2 →
            Real.sqrt (2 * (2 * Real.pi - flat_phi s) * z) < 1 / 10000000000 := by
          intro z hz0 hz
          have := sqrt_small s (2 * Real.pi - flat_phi s) z hs hφ1 hz0 hz
          linarith
        have hx : ∀ z : ℝ, 0 ≤ z → z ≤ 84 * (s * s) / 2 →
            Real.sqrt (2 * flat_theta s * z) < 1 / 10000000000 := by
          intro z hz0 hz
          have := sqrt_small s (flat_theta s) z hs hθ1 hz0 hz
          linarith
        have hw : ∀ z : ℝ, 0 ≤ z → z ≤ 84 * (s * s) / 2 →
            Real.sqrt (2 * (Real.pi / 2) * z) < 1 / 10000000000 := by
          intro z hz0 hz
          have := sqrt_small s (Real.pi / 2) z hs (le_refl _) hz0 hz
          linarith
        rw [insert_ppf_skip rm _ _ _ (begin_not_above rm _ _
            (by
              simp only [max_self, pf_sqrt_form, add_zero, mul_zero, Real.sqrt_zero]
              rw [trim_small _ _ (le_refl _) (by norm_num) (le_refl _) (by norm_num)])
            (by
              simp only [pf_sqrt_form, add_zero]
              rw [trim_small _ _ (Real.sqrt_nonneg _)
                (hw _ (le_min (le_of_lt hB0) (le_of_lt hb30))
                  (le_trans (min_le_left _ _) (le_of_lt hB)))
                (Real.sqrt_nonneg _)
                (hy _ (le_min (le_of_lt hB0) (le_of_lt hb30))
                  (le_trans (min_le_left _ _) (le_of_lt hB)))])),
          insert_ppf_skip rm _ _ _ (begin_not_above rm _ _
            (by
              simp only [hmaxB, pf_sqrt_form, add_zero]
              rw [trim_small _ _ (Real.sqrt_nonneg _) (hx _ (le_of_lt hB0) (le_of_lt hB))
                (Real.sqrt_nonneg _) (hy _ (le_of_lt hB0) (le_of_lt hB))])
            (by
              simp only [pf_sqrt_form, add_zero]
              rw [trim_small _ _ (Real.sqrt_nonneg _)
                (hx _ (le_min (by positivity) (le_of_lt hb30)) (min_le_left _ _))
                (Real.sqrt_nonneg _)
                (hy _ (le_min (by positivity) (le_of_lt hb30)) (min_le_left _ _))])),
          insert_ppf_nil]
      have hss : 0 < s * s := mul_pos hs hs
      have hpi := Real.pi_gt_three
      obtain ⟨hθ0, hθ1⟩ := flat_theta_le s hs
      have hlo := (flat_theta_bounds s hs).1
      obtain ⟨plo, phi⟩ := flat_phi_bounds s hs
      have hφ0 : 0 < 2 * Real.pi - flat_phi s := by linarith
      have hb3 : 7 * s * (7 * s) * (2 * Real.pi - flat_phi s) / 2 ≤ 84 * (s * s) / 2 := by
        have hpi2 := Real.pi_lt_d2
        have h1 : s * s * (2 * Real.pi - flat_phi s) ≤ s * s * (8 / 5) :=
          mul_le_mul_of_nonneg_left (by linarith) (le_of_lt hss)
        linarith
      have p10 := (congrArg Prod.fst (flat_pair_1_0 s hs Option.none)).trans
        (flat_corner_inside s (168 / 25 * s) (Real.pi / 2) _ _ _ _ _ _ (by positivity)
          (by positivity) (le_of_lt (flat_B_lt s hs)))
      have p20 := (congrArg Prod.fst (flat_pair_2_0 s hs Option.none)).trans
        (flat_corner_clipped s (24 * s) (flat_theta s) _ _ _ _ _ _ hs (by positivity)
          (by nlinarith))
      have p21 := (congrArg Prod.fst (flat_pair_2_1 s hs Option.none)).trans
        (flat_corner_inside s (7 * s) (2 * Real.pi - flat_phi s) _ _ _ _ _ _ (by positivity)
          hφ0 hb3)
      have hk : ppf_form.sqrt ≠ ppf_form.none := by decide
      have hstub : stub rm (flat_tri_pf s) =
          ⟨ppf_form.constant, 0, 84 * (s * s) / 2, 0, Real.sqrt (10 * Real.pi * (84 * (s * s))),
            Real.sqrt (10 * Real.pi * (84 * (s * s))), Real.sqrt (10 * Real.pi * (84 * (s * s)))⟩ := rfl
      unfold assemble
      rw [if_pos (by rw [flat_n]; norm_num), flat_n, side_pairs_three]
      simp only [List.foldl_cons, List.foldl_nil, p10, p20, p21, if_neg hk]
      rw [hstub, flat_insert1 s hs hV, flat_insert2 s hs hsm hV, flat_insert3 s hs hsm]
    have hu : umul 2 2 = 4 := by unfold umul; norm_num
    rw [of_polygon_flat_tri s hs]
    unfold ensure_pf
    rw [if_neg (by simp [flat_tri_pf])]
    unfold find_pf
    rw [assemble_flat_tri s hs hsm hV]
    simp [hu]
  have ht := mote_pos
  have htt := mul_pos ht ht
  have hpi := Real.pi_gt_three
  have hsm : 12 * mote < 1 / 10000000000 := by unfold mote; norm_num
  have hB := flat_B_lt mote ht
  have hB0 : 0 < 168 / 25 * mote * (168 / 25 * mote) * (Real.pi / 2) / 2 := by positivity
  have hhi := (flat_theta_bounds mote ht).2
  have hlo := (flat_theta_bounds mote ht).1
  have harea : (of_polygon rm (flat_tri mote)).area_v = 84 * (mote * mote) := by
    rw [of_polygon_flat_tri mote ht]
    rfl
  refine ⟨flat_tri_hull mote ht, ?_, le_of_lt hB0, hB, ?_, ?_, ?_⟩
  · rw [of_polygon_flat_tri mote ht]
    rfl
  · unfold pf
    rw [if_neg (by rw [harea]; simp only [not_not]; exact ⟨le_of_lt hB0, by linarith⟩),
      ensure_pf_flat_tri mote ht hsm mote_stub]
    simp only [flat_tri_pf]
    rw [if_neg (by simp only [gt_iff_lt, not_lt]; exact le_of_lt hB)]
    simp only [pf_loop, List.get?]
    rw [if_pos (le_refl _)]
    rw [pf_sqrt_form, add_zero, corner_end (168 / 25 * mote) (by positivity)]
  · unfold pf
    rw [if_neg (by rw [harea]; simp only [not_not]; exact ⟨by positivity, by linarith⟩),
      ensure_pf_flat_tri mote ht hsm mote_stub]
    simp only [flat_tri_pf]
    rw [if_neg (by simp only [gt_iff_lt, not_lt]; exact le_refl _)]
    simp only [pf_loop, List.get?]
    rw [if_neg (not_le.mpr hB), if_pos (le_refl _)]
    rw [pf_sqrt_form, add_zero]
  · rw [Real.sqrt_lt' (by positivity)]
    have e : (168 / 25 * mote * (Real.pi / 2)) ^ 2 =
        (7056 / 625) * (Real.pi * Real.pi) * (mote * mote) := by ring
    have e2 : 2 * flat_theta mote * (84 * (mote * mote) / 2) =
        84 * flat_theta mote * (mote * mote) := by ring
    rw [e, e2]
    apply mul_lt_mul_of_pos_right _ htt
    nlinarith

end convex_polygon_pf
end search
